import Mathlib

/-!
# Hash map with separate chaining (`src/HashMap`) and binary search tree (`src/BST`)

A shallow embedding of `hash.c`, `lista.c` and `hash_iterador.c` (namespace `HashMap`), of
`abb.c` (namespace `ABB`) and of the nodes and pointers of `lista.c` (namespace `Lista`).
For the table:

* `size_t` is `Nat`. The entry counter `cantidad`, the only field whose arithmetic wraps in
  a state the code reaches, is reduced modulo `2 ^ 64`, and so are the counter `iterados` of
  `hash_con_cada_clave` and the arithmetic of `obtener_hash`. Capacities are kept unbounded:
  a bucket array of `2 ^ 61` slots cannot be allocated, so neither `capacidad * RATIO` nor
  the sizing of a growth pass wraps, and the table is sized with `es_primo` and
  `siguiente_primo` read in exact arithmetic.
* The sizing functions are also embedded in `size_t` arithmetic, as `hash.c` runs them
  (`es_primo_vueltas`, `siguiente_primo_llamadas`, `siguiente_primo_size_t`,
  `hash_crear_size_t`): they agree with the exact reading while some prime at or above the
  argument lies below `(2 ^ 32 - 6) ^ 2`, and differ from it at `SIZE_MAX`, where `++numero`
  wraps and `hash_crear` builds a table of 2 slots.
* The load test `(double)cantidad / (double)capacidad > 0.75` is the exact comparison
  `4 * cantidad > 3 * capacidad`; the two agree for every counter value and every capacity
  below `2 ^ 52`.
* `void*` values are `Nat` addresses, `NULL` being `0`.
* Keys are the byte sequences of C strings, without the terminator; the table and key
  pointers passed to the interface are not `NULL`.
* A bucket chain is the sequence of its node payloads from `head` to `tail`
  (`largo` is its length).
* The heap is an oracle `memoria : List Bool` answering the allocation requests in order
  (`true`: the request succeeds); an exhausted oracle grants every request. It is carried
  as a ghost field of the table, next to the log `destruidos` of the arguments the value
  destructor was called with.
* `hash_insertar` calls itself through `rehash`; its first argument bounds the depth of
  that recursion, and `hash_insertar_ok` shows that depth three is always enough.
-/

set_option autoImplicit false

namespace HashMap

/-! ## Constants of `hash.c` -/

def BASE_HASHING : Nat := 4079

def PRIMO_UNO : Nat := 439

def PRIMO_DOS : Nat := 829

def RATIO : Nat := 2

def ERROR : Int := -1

def OK : Int := 0

/-- Number of values of the type `size_t` (64-bit target). -/
def TAM_SIZE_T : Nat := 2 ^ 64

/-! ## Sizing: `es_primo`, `siguiente_primo` -/

/-- The loop of `es_primo`: `for (i = 5; i * i <= numero; i += 6)`, entered at `i`, in
exact arithmetic; `es_primo_bucle_vueltas` is the loop in `size_t` arithmetic. -/
def es_primo_bucle (numero i : Nat) : Bool :=
  if i * i ≤ numero then
    if numero % i = 0 ∨ numero % (i + 2) = 0 then false
    else es_primo_bucle numero (i + 6)
  else true
termination_by numero + 1 - i
decreasing_by
  have hi : i ≤ i * i := Nat.le_mul_self i
  omega

/-- Source `es_primo` (hash.c:25), in exact arithmetic. -/
def es_primo (numero : Nat) : Bool :=
  if numero = 1 then false
  else if numero = 2 ∨ numero = 3 then true
  else if numero % 2 = 0 ∨ numero % 3 = 0 then false
  else es_primo_bucle numero 5

/-- The trial-division loop accepts every prime; with `existe_es_primo` this is what makes
the recursion of `siguiente_primo` well founded. -/
theorem es_primo_bucle_of_prime (p : Nat) (hp : p.Prime) :
    ∀ (n i : Nat), n = p + 1 - i → 2 ≤ i → es_primo_bucle p i = true := by
  intro n
  induction n using Nat.strong_induction_on with
  | _ n ih =>
    intro i hn hi
    rw [es_primo_bucle]
    split
    · rename_i hle
      have hii : i ≤ i * i := Nat.le_mul_self i
      have h2i : 2 * i ≤ i * i := Nat.mul_le_mul_right i hi
      have h1 : ¬ p % i = 0 := by
        intro h0
        have hdvd : i ∣ p := Nat.dvd_of_mod_eq_zero h0
        rcases (Nat.dvd_prime hp).1 hdvd with h | h <;> omega
      have h2 : ¬ p % (i + 2) = 0 := by
        intro h0
        have hdvd : i + 2 ∣ p := Nat.dvd_of_mod_eq_zero h0
        rcases (Nat.dvd_prime hp).1 hdvd with h | h
        · omega
        · have h3 : 3 * i ≤ i * i ∨ i = 2 := by
            rcases Nat.lt_or_ge i 3 with h' | h'
            · right; omega
            · left; exact Nat.mul_le_mul_right i h'
          rcases h3 with h3 | h3
          · omega
          · subst h3; omega
      simp only [h1, h2, or_self, if_false]
      exact ih (p + 1 - (i + 6)) (by omega) (i + 6) rfl (by omega)
    · rfl

/-- Every prime passes `es_primo`. -/
theorem es_primo_of_prime (p : Nat) (hp : p.Prime) : es_primo p = true := by
  unfold es_primo
  have h1 : p ≠ 1 := hp.ne_one
  by_cases h23 : p = 2 ∨ p = 3
  · simp [h1, h23]
  · have hm : ¬ (p % 2 = 0 ∨ p % 3 = 0) := by
      rintro (h | h)
      · rcases (Nat.dvd_prime hp).1 (Nat.dvd_of_mod_eq_zero h) with h' | h' <;> omega
      · rcases (Nat.dvd_prime hp).1 (Nat.dvd_of_mod_eq_zero h) with h' | h' <;> omega
    simp only [h1, h23, hm, if_false]
    exact es_primo_bucle_of_prime p hp _ 5 rfl (by omega)

/-- Some number at or above `numero` passes `es_primo`. -/
theorem existe_es_primo (numero : Nat) : ∃ p, numero ≤ p ∧ es_primo p = true := by
  obtain ⟨p, hle, hp⟩ := Nat.exists_infinite_primes numero
  exact ⟨p, hle, es_primo_of_prime p hp⟩

/-- Source `siguiente_primo` (hash.c:41) in exact arithmetic: recursion on `numero + 1`
until `es_primo` holds. `siguiente_primo_size_t` is the function in `size_t` arithmetic,
where `++numero` wraps. -/
def siguiente_primo (numero : Nat) : Nat :=
  if es_primo numero = true then numero
  else siguiente_primo (numero + 1)
termination_by Nat.find (existe_es_primo numero) - numero
decreasing_by
  rename_i hno
  have hs := Nat.find_spec (existe_es_primo numero)
  have hs1 := Nat.find_spec (existe_es_primo (numero + 1))
  have hne : Nat.find (existe_es_primo numero) ≠ numero := by
    intro h
    rw [h] at hs
    exact hno hs.2
  have hle : Nat.find (existe_es_primo (numero + 1)) ≤ Nat.find (existe_es_primo numero) :=
    Nat.find_min' _ ⟨by omega, hs.2⟩
  omega

/-! ## Heap oracle -/

/-- The answers the allocator will give to the coming requests, in order. -/
abbrev Memoria := List Bool

/-- One allocation request (`malloc`, `calloc`): whether it succeeds, and the oracle left. -/
def asignar : Memoria → Bool × Memoria
  | [] => (true, [])
  | b :: resto => (b, resto)

/-! ## Keys -/

/-- The bytes of a C string before its terminator, each as the `size_t` its `char`
converts to. -/
abbrev Clave := List Nat

/-- The C library `strcmp`: zero iff the strings are equal, else the sign of the first
differing byte. -/
def strcmp : Clave → Clave → Int
  | [], [] => 0
  | [], _ :: _ => -1
  | _ :: _, [] => 1
  | a :: s1, b :: s2 => if a = b then strcmp s1 s2 else if a < b then -1 else 1

/-! ## Bucket chains (`lista.c`) -/

/-- Source `lista_t`: the payloads of the nodes from `head` to `tail`. -/
abbrev lista_t (α : Type) := List α

/-- Source `lista_crear` (lista.c:27), called with a comparator. -/
def lista_crear {α : Type} (m : Memoria) : Option (lista_t α) × Memoria :=
  match asignar m with
  | (false, m1) => (none, m1)
  | (true, m1) => (some [], m1)

/-- Source `lista_insertar` (lista.c:55): appends after `tail`. -/
def lista_insertar {α : Type} (m : Memoria) (lista : lista_t α) (elemento : α) :
    Int × lista_t α × Memoria :=
  match asignar m with
  | (false, m1) => (-1, lista, m1)
  | (true, m1) => (0, lista ++ [elemento], m1)

/-- Source `lista_elementos` (lista.c:237). -/
def lista_elementos {α : Type} (lista : lista_t α) : Nat := lista.length

/-- Source `lista_vacia` (lista.c:230). -/
def lista_vacia {α : Type} (lista : lista_t α) : Bool := lista_elementos lista == 0

/-- Source `lista_borrar` (lista.c:124): unlinks the last node. -/
def lista_borrar {α : Type} (lista : lista_t α) : Int × lista_t α :=
  if lista_vacia lista then (-1, lista) else (0, lista.dropLast)

/-- Source `lista_borrar_de_posicion` (lista.c:157). -/
def lista_borrar_de_posicion {α : Type} (lista : lista_t α) (posicion : Nat) :
    Int × lista_t α :=
  if lista_vacia lista then (-1, lista)
  else if posicion ≥ lista_elementos lista - 1 then lista_borrar lista
  else (0, lista.eraseIdx posicion)

/-- Source `lista_elemento_en_posicion` (lista.c:185); `none` is `NULL`. -/
def lista_elemento_en_posicion {α : Type} (lista : lista_t α) (posicion : Nat) : Option α :=
  if posicion ≥ lista_elementos lista then none else lista[posicion]?

/-- Source `lista_buscar` (lista.c:213): the first payload the comparator equates with
`elemento`; `none` is `NULL`. -/
def lista_buscar {α β : Type} (comparador : α → β → Int) :
    lista_t α → β → Option α
  | [], _ => none
  | actual :: siguiente, elemento =>
    if comparador actual elemento = 0 then some actual
    else lista_buscar comparador siguiente elemento

/-- Source `lista_iterador_t`: the nodes from `actual` on. -/
abbrev lista_iterador_t (α : Type) := List α

/-- Source `lista_iterador_crear` (lista.c:317). -/
def lista_iterador_crear {α : Type} (m : Memoria) (lista : lista_t α) :
    Option (lista_iterador_t α) × Memoria :=
  match asignar m with
  | (false, m1) => (none, m1)
  | (true, m1) => (some lista, m1)

/-- Source `lista_iterador_tiene_siguiente` (lista.c:331). -/
def lista_iterador_tiene_siguiente {α : Type} (iterador : lista_iterador_t α) : Bool :=
  !iterador.isEmpty

/-- Source `lista_iterador_siguiente` (lista.c:342): the payload returned and the
iterator advanced. -/
def lista_iterador_siguiente {α : Type} (iterador : lista_iterador_t α) :
    Option α × lista_iterador_t α :=
  match iterador with
  | [] => (none, [])
  | actual :: siguiente => (some actual, siguiente)

/-! ## The table (`estructuras.h`, `hash.c`) -/

/-- Source `dato_t`. -/
structure dato_t where
  elemento : Nat
  clave : Clave
deriving DecidableEq, Repr

/-- Source `struct hash`. `destructor` tells whether a value destructor is registered;
`destruidos` (ghost) lists the arguments of its calls so far, oldest first; `memoria`
(ghost) is the heap oracle. -/
structure hash_t where
  capacidad : Nat
  cantidad : Nat
  vector : List (Option (lista_t dato_t))
  destructor : Bool
  destruidos : List Nat
  memoria : Memoria
deriving DecidableEq, Repr

/-- Source `obtener_hash` (hash.c:51), for a non-null key. -/
def obtener_hash (clave : Clave) : Nat :=
  clave.foldl
    (fun codigo_hash c => ((codigo_hash * PRIMO_UNO) % TAM_SIZE_T) ^^^ ((c * PRIMO_DOS) % TAM_SIZE_T))
    BASE_HASHING

/-- Source `crear_dato` (hash.c:85): one request for the entry, one for the key copy. -/
def crear_dato (m : Memoria) (clave : Clave) (elemento : Nat) : Option dato_t × Memoria :=
  match asignar m with
  | (false, m1) => (none, m1)
  | (true, m1) =>
    match asignar m1 with
    | (false, m2) => (none, m2)
    | (true, m2) => (some { elemento := elemento, clave := clave }, m2)

/-- Source `comparar_dato` (hash.c:107). -/
def comparar_dato (dato : dato_t) (clave : Clave) : Int := strcmp dato.clave clave

/-- Source `hash_crear` (hash.c:135), the capacity computed in exact arithmetic; `none` is
`NULL`. `hash_crear_size_t` computes it in `size_t` arithmetic. -/
def hash_crear (m : Memoria) (destruir_elemento : Bool) (capacidad : Nat) : Option hash_t :=
  match asignar m with
  | (false, _) => none
  | (true, m1) =>
    let capacidad1 := siguiente_primo (if capacidad < 3 then 3 else capacidad)
    match asignar m1 with
    | (false, _) => none
    | (true, m2) =>
      some { capacidad := capacidad1, cantidad := 0, vector := List.replicate capacidad1 none,
             destructor := destruir_elemento, destruidos := [], memoria := m2 }

/-- Source `hash_buscar` (hash.c:157). -/
def hash_buscar (hash : hash_t) (valor_hash : Nat) (clave : Clave) : Option dato_t :=
  match hash.vector.getD valor_hash none with
  | none => none
  | some lista => lista_buscar comparar_dato lista clave

/-- The `while (!lista_vacia(...))` loop of `destruir_vector_hash`: each round passes the
head's value to the destructor, if there is one, and unlinks the head. Returns the
destructor's arguments. -/
def vaciar_lista (destructor : Bool) : lista_t dato_t → List Nat
  | [] => []
  | dato :: resto =>
    (if destructor then [dato.elemento] else []) ++ vaciar_lista destructor resto

/-- The slots `vector[0]`, ..., `vector[capacidad - 1]` in the order the `for` loops
visit them. -/
def ranuras (vector : List (Option (lista_t dato_t))) (capacidad : Nat) :
    List (Option (lista_t dato_t)) :=
  (List.range capacidad).map (fun i => vector.getD i none)

/-- Source `destruir_vector_hash` (hash.c:168): the arguments of the destructor calls
it makes, in order. -/
def destruir_vector_hash (vector : List (Option (lista_t dato_t))) (capacidad : Nat)
    (destructor : Bool) : List Nat :=
  (ranuras vector capacidad).flatMap (fun ranura =>
    match ranura with
    | none => []
    | some lista => vaciar_lista destructor lista)

/-- Source `deshacer_rehash` (hash.c:194). -/
def deshacer_rehash (hash : hash_t) (vector : List (Option (lista_t dato_t)))
    (capacidad cantidad : Nat) : hash_t :=
  { hash with
    destruidos := hash.destruidos ++ destruir_vector_hash hash.vector hash.capacidad hash.destructor
    vector := vector
    capacidad := capacidad
    cantidad := cantidad }

/-- The `while` loop of `rehash_lista` (hash.c:220); `ins` is `hash_insertar`, whose
result `none` means its recursion budget ran out. -/
def rehash_lista_bucle (ins : hash_t → Clave → Nat → Option (Int × hash_t)) :
    hash_t → lista_iterador_t dato_t → Option (Int × hash_t)
  | hash, [] => some (OK, hash)
  | hash, dato :: resto =>
    match ins hash dato.clave dato.elemento with
    | none => none
    | some (r, hash1) =>
      if r = ERROR then some (ERROR, hash1) else rehash_lista_bucle ins hash1 resto

/-- Source `rehash_lista` (hash.c:210). -/
def rehash_lista (ins : hash_t → Clave → Nat → Option (Int × hash_t)) (hash : hash_t)
    (a_rehash : lista_t dato_t) : Option (Int × hash_t) :=
  match lista_iterador_crear hash.memoria a_rehash with
  | (none, m1) => some (ERROR, { hash with memoria := m1 })
  | (some iterador, m1) => rehash_lista_bucle ins { hash with memoria := m1 } iterador

/-- The `for` loop of `rehash` (hash.c:256) over the old slots, up to its first error. -/
def rehash_bucle (ins : hash_t → Clave → Nat → Option (Int × hash_t)) :
    hash_t → List (Option (lista_t dato_t)) → Option (Int × hash_t)
  | hash, [] => some (OK, hash)
  | hash, none :: resto => rehash_bucle ins hash resto
  | hash, some lista :: resto =>
    match rehash_lista ins hash lista with
    | none => none
    | some (r, hash1) =>
      if r = ERROR then some (ERROR, hash1) else rehash_bucle ins hash1 resto

/-- Source `rehash` (hash.c:241), the new capacity computed in exact arithmetic. -/
def rehash (ins : hash_t → Clave → Nat → Option (Int × hash_t)) (hash : hash_t) :
    Option (Int × hash_t) :=
  let capacidad_vieja := hash.capacidad
  let viejo := hash.vector
  let cantidad_vieja := hash.cantidad
  let nueva_capacidad := siguiente_primo (hash.capacidad * RATIO)
  match asignar hash.memoria with
  | (false, m1) => some (ERROR, { hash with memoria := m1 })
  | (true, m1) =>
    let hash1 : hash_t :=
      { hash with
        vector := List.replicate nueva_capacidad none
        capacidad := nueva_capacidad
        cantidad := 0
        memoria := m1 }
    match rehash_bucle ins hash1 (ranuras viejo capacidad_vieja) with
    | none => none
    | some (r, hash2) =>
      if r = ERROR then
        some (ERROR, deshacer_rehash hash2 viejo capacidad_vieja cantidad_vieja)
      else
        some (OK, { hash2 with
          destruidos := hash2.destruidos ++ destruir_vector_hash viejo capacidad_vieja false })

/-- Source `insertar` (hash.c:272). -/
def insertar (hash : hash_t) (a_guardar : dato_t) (posicion : Nat) : Int × hash_t :=
  match hash.vector.getD posicion none with
  | none =>
    match lista_crear hash.memoria with
    | (none, m1) => (ERROR, { hash with memoria := m1 })
    | (some lista, m1) =>
      match lista_insertar m1 lista a_guardar with
      | (r, lista1, m2) =>
        (r, { hash with vector := hash.vector.set posicion (some lista1), memoria := m2 })
  | some lista =>
    match lista_insertar hash.memoria lista a_guardar with
    | (r, lista1, m1) =>
      (r, { hash with vector := hash.vector.set posicion (some lista1), memoria := m1 })

/-- The store `dato->elemento = elemento` through the pointer `lista_buscar` returned:
it lands in the first node of the chain whose key compares equal to `clave`. -/
def escribir_elemento (clave : Clave) (elemento : Nat) : lista_t dato_t → lista_t dato_t
  | [] => []
  | dato :: resto =>
    if comparar_dato dato clave = 0 then { dato with elemento := elemento } :: resto
    else dato :: escribir_elemento clave elemento resto

/-- Source `reemplazar` (hash.c:292). -/
def reemplazar (hash : hash_t) (clave : Clave) (elemento : Nat) (valor_hash : Nat) :
    Int × hash_t :=
  match hash_buscar hash valor_hash clave with
  | none => (ERROR, hash)
  | some dato =>
    (OK, { hash with
      destruidos := hash.destruidos ++ (if hash.destructor then [dato.elemento] else [])
      vector := hash.vector.set valor_hash
        ((hash.vector.getD valor_hash none).map (escribir_elemento clave elemento)) })

/-- Source `hash_insertar` (hash.c:314), for a non-null table and key. The first argument
bounds the depth of the recursion `hash_insertar → rehash → rehash_lista →
hash_insertar`; `none` means the bound was too small. The load test
`(double)cantidad / (double)capacidad > 0.75` is taken in exact arithmetic. -/
def hash_insertar : Nat → hash_t → Clave → Nat → Option (Int × hash_t)
  | 0, _, _, _ => none
  | profundidad + 1, hash, clave, elemento =>
    let valor_hash := obtener_hash clave % hash.capacidad
    match reemplazar hash clave elemento valor_hash with
    | (r, hash1) =>
      if r = OK then some (OK, hash1)
      else
        match crear_dato hash.memoria clave elemento with
        | (none, m1) => some (ERROR, { hash with memoria := m1 })
        | (some a_guardar, m1) =>
          match insertar { hash with memoria := m1 } a_guardar valor_hash with
          | (r2, hash2) =>
            if r2 = ERROR then some (ERROR, hash2)
            else
              let hash3 : hash_t :=
                { hash2 with cantidad := (hash2.cantidad + 1) % TAM_SIZE_T }
              if 4 * hash3.cantidad > 3 * hash3.capacidad then
                rehash (hash_insertar profundidad) hash3
              else some (OK, hash3)

/-- The `for` loop of `hash_quitar` (hash.c:358) over the chain `lista`, the iterator
standing at `iterador` and the index at `i`: the chain left and the destructor's
arguments. -/
def hash_quitar_bucle (destructor : Bool) (clave : Clave) (lista : lista_t dato_t) :
    lista_iterador_t dato_t → Nat → lista_t dato_t × List Nat
  | [], _ => (lista, [])
  | dato :: resto, i =>
    if comparar_dato dato clave = 0 then
      ((lista_borrar_de_posicion lista i).2, if destructor then [dato.elemento] else [])
    else hash_quitar_bucle destructor clave lista resto (i + 1)

/-- Source `hash_quitar` (hash.c:344), for a non-null table and key. -/
def hash_quitar (hash : hash_t) (clave : Clave) : Int × hash_t :=
  let valor_hash := obtener_hash clave % hash.capacidad
  match hash.vector.getD valor_hash none with
  | none => (ERROR, hash)
  | some lista =>
    match lista_iterador_crear hash.memoria lista with
    | (none, m1) => (ERROR, { hash with memoria := m1 })
    | (some iterador, m1) =>
      match hash_quitar_bucle hash.destructor clave lista iterador 0 with
      | (lista1, llamadas) =>
        (OK, { hash with
          vector := hash.vector.set valor_hash (if lista_vacia lista1 then none else some lista1)
          cantidad := (hash.cantidad + TAM_SIZE_T - 1) % TAM_SIZE_T
          destruidos := hash.destruidos ++ llamadas
          memoria := m1 })

/-- Source `hash_obtener` (hash.c:385); `0` is `NULL`. -/
def hash_obtener (hash : hash_t) (clave : Clave) : Nat :=
  let valor_hash := obtener_hash clave % hash.capacidad
  match hash_buscar hash valor_hash clave with
  | none => 0
  | some dato => dato.elemento

/-- Source `hash_contiene` (hash.c:400). -/
def hash_contiene (hash : hash_t) (clave : Clave) : Bool :=
  if hash_obtener hash clave = 0 then false else true

/-- Source `hash_cantidad` (hash.c:411). -/
def hash_cantidad (hash : hash_t) : Nat := hash.cantidad

/-! ## Traversals (`hash.c:445`, `hash_iterador.c`) -/

/-- The `while` loop of `hash_con_cada_clave` over one chain: whether `funcion` asked to
stop, the `size_t` counter `iterados` and (ghost) the keys `funcion` was called on. -/
def con_cada_clave_lista (hash : hash_t) (funcion : hash_t → Clave → Bool) :
    lista_iterador_t dato_t → Nat → List Clave → Bool × Nat × List Clave
  | [], iterados, vistas => (false, iterados, vistas)
  | dato :: resto, iterados, vistas =>
    if funcion hash dato.clave then (true, (iterados + 1) % TAM_SIZE_T, vistas ++ [dato.clave])
    else
      con_cada_clave_lista hash funcion resto ((iterados + 1) % TAM_SIZE_T)
        (vistas ++ [dato.clave])

/-- The `for` loop of `hash_con_cada_clave` over the slots. -/
def con_cada_clave_bucle (hash : hash_t) (funcion : hash_t → Clave → Bool) :
    List (Option (lista_t dato_t)) → Memoria → Nat → List Clave → Nat × List Clave × Memoria
  | [], m, iterados, vistas => (iterados, vistas, m)
  | none :: resto, m, iterados, vistas =>
    con_cada_clave_bucle hash funcion resto m iterados vistas
  | some lista :: resto, m, iterados, vistas =>
    match lista_iterador_crear m lista with
    | (none, m1) => (0, vistas, m1)
    | (some iterador, m1) =>
      match con_cada_clave_lista hash funcion iterador iterados vistas with
      | (true, iterados1, vistas1) => (iterados1, vistas1, m1)
      | (false, iterados1, vistas1) =>
        con_cada_clave_bucle hash funcion resto m1 iterados1 vistas1

/-- Source `hash_con_cada_clave` (hash.c:445), for a non-null table and function; the
auxiliary pointer is part of `funcion`. Returns the count, (ghost) the keys `funcion` was
called on, in order, and the heap oracle left. -/
def hash_con_cada_clave (hash : hash_t) (funcion : hash_t → Clave → Bool) :
    Nat × List Clave × Memoria :=
  con_cada_clave_bucle hash funcion (ranuras hash.vector hash.capacidad) hash.memoria 0 []

/-- Source `struct hash_iter`; the table is borrowed unchanged for the iterator's life. -/
structure hash_iterador_t where
  hash : hash_t
  posic_actual : Nat
  iter_lista : Option (lista_iterador_t dato_t)

/-- The `for` loop of `siguiente_bucket` at index `i`, `n` slots being left. -/
def siguiente_bucket_bucle (iterador : hash_iterador_t) :
    Nat → Nat → Option (lista_iterador_t dato_t) × hash_iterador_t
  | 0, _ => (none, iterador)
  | n + 1, i =>
    match iterador.hash.vector.getD i none with
    | none => siguiente_bucket_bucle iterador n (i + 1)
    | some lista =>
      if lista_vacia lista then siguiente_bucket_bucle iterador n (i + 1)
      else
        match lista_iterador_crear iterador.hash.memoria lista with
        | (it, m1) =>
          (it, { iterador with
                 posic_actual := i + 1
                 hash := { iterador.hash with memoria := m1 } })

/-- Source `siguiente_bucket` (hash_iterador.c:10): the chain iterator returned and the
hash iterator as the call leaves it. -/
def siguiente_bucket (iterador : hash_iterador_t) :
    Option (lista_iterador_t dato_t) × hash_iterador_t :=
  siguiente_bucket_bucle iterador (iterador.hash.capacidad - iterador.posic_actual)
    iterador.posic_actual

/-- Source `siguiente_elemento` (hash_iterador.c:25). -/
def siguiente_elemento (iterador : hash_iterador_t) :
    Option (lista_iterador_t dato_t) × hash_iterador_t :=
  match iterador.iter_lista with
  | none => siguiente_bucket iterador
  | some iter_lista =>
    if lista_iterador_tiene_siguiente iter_lista then (some iter_lista, iterador)
    else siguiente_bucket iterador

/-- Source `hash_iterador_crear` (hash_iterador.c:44). -/
def hash_iterador_crear (hash : hash_t) : Option hash_iterador_t :=
  match asignar hash.memoria with
  | (false, _) => none
  | (true, m1) =>
    match siguiente_elemento
        { hash := { hash with memoria := m1 }, posic_actual := 0, iter_lista := none } with
    | (iter_lista, iterador) => some { iterador with iter_lista := iter_lista }

/-- Source `hash_iterador_siguiente` (hash_iterador.c:60): the key returned (`none` is
`NULL`) and the iterator advanced. -/
def hash_iterador_siguiente (iterador : hash_iterador_t) : Option Clave × hash_iterador_t :=
  match iterador.iter_lista with
  | none => (none, iterador)
  | some iter_lista =>
    match lista_iterador_siguiente iter_lista with
    | (actual, iter_lista1) =>
      match siguiente_elemento { iterador with iter_lista := some iter_lista1 } with
      | (iter_lista2, iterador2) =>
        (actual.map dato_t.clave, { iterador2 with iter_lista := iter_lista2 })

/-- Source `hash_iterador_tiene_siguiente` (hash_iterador.c:72). -/
def hash_iterador_tiene_siguiente (iterador : hash_iterador_t) : Bool :=
  iterador.iter_lista.isSome

/-! ## Abstract view of a table -/

/-- The chain in slot `i`, empty when the slot is absent. -/
def cadena (hash : hash_t) (i : Nat) : lista_t dato_t :=
  (hash.vector.getD i none).getD []

/-- The entry stored under `clave`, as `hash_obtener` and `reemplazar` look it up. -/
def buscar (hash : hash_t) (clave : Clave) : Option dato_t :=
  hash_buscar hash (obtener_hash clave % hash.capacidad) clave

/-- Number of entries a bucket array stores: the sum of its chain lengths. -/
def total_vector (vector : List (Option (lista_t dato_t))) : Nat :=
  (vector.map (fun ranura => (ranura.getD []).length)).sum

/-- Number of entries the table stores. -/
def total (hash : hash_t) : Nat := total_vector hash.vector

/-- Structural invariant of the tables the interface builds while no allocation fails. -/
structure BienFormado (hash : hash_t) : Prop where
  largo : hash.vector.length = hash.capacidad
  capacidad_min : 3 ≤ hash.capacidad
  posicion : ∀ i, ∀ d ∈ cadena hash i, obtener_hash d.clave % hash.capacidad = i
  distintas : ∀ i, ((cadena hash i).map dato_t.clave).Nodup
  sin_vacias : ∀ i, hash.vector.getD i none ≠ some []
  memoria : hash.memoria = []

/-- The counter agrees with the number of stored entries, as `size_t` values. -/
def Contado (hash : hash_t) : Prop := hash.cantidad = total hash % TAM_SIZE_T

/-- Tables reachable from `hash_crear` by `hash_insertar` and `hash_quitar` calls, no
allocation failing. -/
inductive Alcanzable : hash_t → Prop
  | crear (destructor : Bool) (capacidad : Nat) (hash : hash_t) :
      hash_crear [] destructor capacidad = some hash → Alcanzable hash
  | insertar (profundidad : Nat) (hash : hash_t) (clave : Clave) (elemento : Nat)
      (r : Int) (hash1 : hash_t) :
      Alcanzable hash → hash_insertar profundidad hash clave elemento = some (r, hash1) →
      Alcanzable hash1
  | quitar (hash : hash_t) (clave : Clave) :
      Alcanzable hash → Alcanzable (hash_quitar hash clave).2

/-- The table after the new entry `(clave, elemento)` is appended to its chain and counted,
before the load test. -/
def agregar (hash : hash_t) (clave : Clave) (elemento : Nat) : hash_t :=
  { hash with
    vector := hash.vector.set (obtener_hash clave % hash.capacidad)
      (some (cadena hash (obtener_hash clave % hash.capacidad) ++
        [{ elemento := elemento, clave := clave }]))
    cantidad := (hash.cantidad + 1) % TAM_SIZE_T }

/-! ## Replacing the value of a stored key -/

/-- The table `reemplazar` leaves when `clave` is stored with entry `dato`. -/
def reemplazado (hash : hash_t) (clave : Clave) (elemento : Nat) (dato : dato_t) : hash_t :=
  { hash with
    destruidos := hash.destruidos ++ (if hash.destructor then [dato.elemento] else [])
    vector := hash.vector.set (obtener_hash clave % hash.capacidad)
      ((hash.vector.getD (obtener_hash clave % hash.capacidad) none).map
        (escribir_elemento clave elemento)) }

/-! ## Relocation of entries during growth -/

/-- The entries of a bucket array, by ascending slot and then chain order. -/
def entradas_vector (vector : List (Option (lista_t dato_t))) : List dato_t :=
  vector.flatMap (fun ranura => ranura.getD [])

/-- Table `u1` stores what `u` stores plus the entries `ds`, and nothing was destroyed. -/
structure Reubica (u : hash_t) (ds : List dato_t) (u1 : hash_t) : Prop where
  bien : BienFormado u1
  destructor : u1.destructor = u.destructor
  destruidos : u1.destruidos = u.destruidos
  busca : ∀ k, buscar u1 k =
    match lista_buscar comparar_dato ds k with
    | some d => some d
    | none => buscar u k
  suma : total u1 = total u + ds.length

/-- The table right after `rehash` installed the new, empty bucket array. -/
def tabla_nueva (hash : hash_t) : hash_t :=
  { hash with
    vector := List.replicate (siguiente_primo (hash.capacidad * RATIO)) none
    capacidad := siguiente_primo (hash.capacidad * RATIO)
    cantidad := 0
    memoria := [] }

/-- Invariant of the tables an outer growth pass goes through: the capacity never drops
below `c0`, the counter is exact, and the load is below the threshold (or the capacity is
so large that no counter value exceeds it). -/
def InvExterno (c0 : Nat) (u : hash_t) : Prop :=
  c0 ≤ u.capacidad ∧ u.cantidad = total u % TAM_SIZE_T ∧
    ((total u < TAM_SIZE_T ∧ 4 * total u ≤ 3 * u.capacidad) ∨
      4 * (TAM_SIZE_T - 1) ≤ 3 * u.capacidad)

/-! ## What a successful `hash_insertar` guarantees -/

/-- Table `t1` is what `hash_insertar` leaves when asked to store `e` under `k` in `t`. -/
structure Inserta (t : hash_t) (k : Clave) (e : Nat) (t1 : hash_t) : Prop where
  bien : BienFormado t1
  destructor : t1.destructor = t.destructor
  busca : ∀ k1, buscar t1 k1 =
    if k1 = k then some { elemento := e, clave := k } else buscar t k1
  destruidos : t1.destruidos = t.destruidos ++
    (match buscar t k with
     | some d => if t.destructor then [d.elemento] else []
     | none => [])
  suma : total t1 = total t +
    (match buscar t k with
     | some _ => 0
     | none => 1)
  presente : buscar t k ≠ none → t1 = reemplazado t k e ((buscar t k).getD ⟨0, []⟩)
  sin_crecer : buscar t k = none →
    4 * ((t.cantidad + 1) % TAM_SIZE_T) ≤ 3 * t.capacidad → t1 = agregar t k e
  crecer : buscar t k = none →
    3 * t.capacidad < 4 * ((t.cantidad + 1) % TAM_SIZE_T) →
    2 * t.capacidad ≤ t1.capacidad ∧ t1.cantidad = total t1 % TAM_SIZE_T ∧
      4 * t1.cantidad ≤ 3 * t1.capacidad

/-- The part of `hash_insertar` before the load test: either the call's result, or the
table on which the growth pass is to run. -/
def hash_insertar_inicio (hash : hash_t) (clave : Clave) (elemento : Nat) :
    (Int × hash_t) ⊕ hash_t :=
  let valor_hash := obtener_hash clave % hash.capacidad
  match reemplazar hash clave elemento valor_hash with
  | (r, hash1) =>
    if r = OK then Sum.inl (OK, hash1)
    else
      match crear_dato hash.memoria clave elemento with
      | (none, m1) => Sum.inl (ERROR, { hash with memoria := m1 })
      | (some a_guardar, m1) =>
        match insertar { hash with memoria := m1 } a_guardar valor_hash with
        | (r2, hash2) =>
          if r2 = ERROR then Sum.inl (ERROR, hash2)
          else
            let hash3 : hash_t :=
              { hash2 with cantidad := (hash2.cantidad + 1) % TAM_SIZE_T }
            if 4 * hash3.cantidad > 3 * hash3.capacidad then Sum.inr hash3
            else Sum.inl (OK, hash3)

/-! ## Call sequences -/

/-- The calls `hash_insertar(hash, clave, elemento)` for the pairs of the list, in order,
each with recursion bound `p`. -/
def insertar_todos (p : Nat) : hash_t → List (Clave × Nat) → Option hash_t
  | hash, [] => some hash
  | hash, (clave, elemento) :: resto =>
    match hash_insertar p hash clave elemento with
    | none => none
    | some (_, hash1) => insertar_todos p hash1 resto

/-- The calls `hash_quitar(hash, clave)` for the keys of the list, in order. -/
def quitar_todos : hash_t → List Clave → hash_t
  | hash, [] => hash
  | hash, clave :: resto => quitar_todos (hash_quitar hash clave).2 resto

/-! ## Removal -/

/-- The chain without its first entry stored under `k`. -/
def borrar_clave (k : Clave) : lista_t dato_t → lista_t dato_t
  | [] => []
  | d :: r => if d.clave = k then r else d :: borrar_clave k r

/-- The table `hash_quitar` leaves when the slot of `k` holds a chain. -/
def quitado (t : hash_t) (k : Clave) : hash_t :=
  { t with
    vector := t.vector.set (obtener_hash k % t.capacidad)
      (if lista_vacia (borrar_clave k (cadena t (obtener_hash k % t.capacidad))) then none
       else some (borrar_clave k (cadena t (obtener_hash k % t.capacidad))))
    cantidad := (t.cantidad + TAM_SIZE_T - 1) % TAM_SIZE_T
    destruidos := t.destruidos ++
      (match buscar t k with
       | some d => if t.destructor then [d.elemento] else []
       | none => [])
    memoria := [] }

/-- What `hash_quitar` does on a well-formed table. -/
structure Quita (t : hash_t) (k : Clave) (r : Int) (t1 : hash_t) : Prop where
  bien : BienFormado t1
  destructor : t1.destructor = t.destructor
  capacidad : t1.capacidad = t.capacidad
  busca : ∀ k1, buscar t1 k1 = if k1 = k then none else buscar t k1
  destruidos : t1.destruidos = t.destruidos ++
    (match buscar t k with
     | some d => if t.destructor then [d.elemento] else []
     | none => [])
  suma : total t1 +
    (match buscar t k with
     | some _ => 1
     | none => 0) = total t
  ranura_vacia : cadena t (obtener_hash k % t.capacidad) = [] → r = ERROR ∧ t1 = t
  ranura_ocupada : cadena t (obtener_hash k % t.capacidad) ≠ [] →
    r = OK ∧ t1.cantidad = (t.cantidad + TAM_SIZE_T - 1) % TAM_SIZE_T

/-! ## Concrete tables

Keys `"a"`, `"b"`, `"c"`, `"d"`, `"x"` are the byte lists `[97]`, `[98]`, `[99]`, `[100]`,
`[120]`; `obtener_hash` maps them to 1730756, 1732483, 1708622, 1708301 and 1758785, that
is to the slots 2, 1, 2, 2, 2 of a 3-slot array and 6, 4, 6, 0, 0 of a 7-slot array. -/

/-- The growth pass `rehash` once the new capacity is known, no allocation failing. -/
def rehash_con (c : Nat) (ins : hash_t → Clave → Nat → Option (Int × hash_t)) (hash : hash_t) :
    Option (Int × hash_t) :=
  match rehash_bucle ins
      { hash with vector := List.replicate c none, capacidad := c, cantidad := 0, memoria := [] }
      (ranuras hash.vector hash.capacidad) with
  | none => none
  | some (r, hash2) =>
    if r = ERROR then
      some (ERROR, deshacer_rehash hash2 hash.vector hash.capacidad hash.cantidad)
    else
      some (OK, { hash2 with
        destruidos := hash2.destruidos ++ destruir_vector_hash hash.vector hash.capacidad false })

/-- The table `hash_crear(destructor, 3)` returns. -/
def tabla_tres (d : Bool) : hash_t :=
  { capacidad := 3, cantidad := 0, vector := [none, none, none], destructor := d,
    destruidos := [], memoria := [] }

/-- The table `tabla_tres` after `"a" ↦ 1`. -/
def tabla_a (d : Bool) : hash_t :=
  { capacidad := 3, cantidad := 1, vector := [none, none, some [⟨1, [97]⟩]], destructor := d,
    destruidos := [], memoria := [] }

/-- The table `tabla_a` after `"b" ↦ 2`. -/
def tabla_ab (d : Bool) : hash_t :=
  { capacidad := 3, cantidad := 2, vector := [none, some [⟨2, [98]⟩], some [⟨1, [97]⟩]],
    destructor := d, destruidos := [], memoria := [] }

/-- The table `tabla_ab` with `"c" ↦ 3` appended and counted, as the load test of the third insert
finds it. -/
def tabla_abc_llena (d : Bool) : hash_t :=
  { capacidad := 3, cantidad := 3,
    vector := [none, some [⟨2, [98]⟩], some [⟨1, [97]⟩, ⟨3, [99]⟩]],
    destructor := d, destruidos := [], memoria := [] }

/-- The table `tabla_ab` after `"c" ↦ 3`. -/
def tabla_abc (d : Bool) : hash_t :=
  { capacidad := 7, cantidad := 3,
    vector := [none, none, none, none, some [⟨2, [98]⟩], none, some [⟨1, [97]⟩, ⟨3, [99]⟩]],
    destructor := d, destruidos := [], memoria := [] }

/-- The table `tabla_abc` after `"d" ↦ 4`. -/
def tabla_abcd (d : Bool) : hash_t :=
  { capacidad := 7, cantidad := 4,
    vector := [some [⟨4, [100]⟩], none, none, none, some [⟨2, [98]⟩], none,
      some [⟨1, [97]⟩, ⟨3, [99]⟩]],
    destructor := d, destruidos := [], memoria := [] }

/-- The table `tabla_a` after `hash_quitar` of the absent key `"c"`, which shares slot 2 with `"a"`. -/
def tabla_a_descontada (d : Bool) : hash_t :=
  { capacidad := 3, cantidad := 0, vector := [none, none, some [⟨1, [97]⟩]], destructor := d,
    destruidos := [], memoria := [] }

/-- The table `tabla_tres true` after `"x" ↦ 10`. -/
def tabla_x : hash_t :=
  { capacidad := 3, cantidad := 1, vector := [none, none, some [⟨10, [120]⟩]],
    destructor := true, destruidos := [], memoria := [] }

/-- The table `tabla_tres` after `"a" ↦ NULL`. -/
def tabla_a_nulo (d : Bool) : hash_t :=
  { capacidad := 3, cantidad := 1, vector := [none, none, some [⟨0, [97]⟩]], destructor := d,
    destruidos := [], memoria := [] }

/-! ## Traversal order -/

/-- The entries of the slots `i`, `i + 1`, ..., `capacidad - 1`, by ascending slot and then
chain order. -/
def entradas_desde (hash : hash_t) (i : Nat) : List dato_t :=
  entradas_vector ((ranuras hash.vector hash.capacidad).drop i)

/-- The keys of the table by ascending slot index, then chain order. -/
def claves_en_orden (hash : hash_t) : List Clave :=
  (entradas_desde hash 0).map dato_t.clave

/-- The entries an iterator has not returned yet: the rest of its chain, then the slots from
`posic_actual` on. -/
def restantes (it : hash_iterador_t) : List dato_t :=
  it.iter_lista.getD [] ++ entradas_desde it.hash it.posic_actual

/-- Invariant of the iterators `hash_iterador_crear` and `hash_iterador_siguiente` leave
while no allocation fails. -/
structure IterBien (it : hash_iterador_t) : Prop where
  memoria : it.hash.memoria = []
  agotado : it.iter_lista = none → entradas_desde it.hash it.posic_actual = []
  no_vacio : it.iter_lista ≠ some []

/-- The client loop `while (hash_iterador_tiene_siguiente(it)) hash_iterador_siguiente(it);`
run for at most `n` rounds: the values returned, or `none` when `n` rounds were not
enough. -/
def claves_iteradas : Nat → hash_iterador_t → Option (List (Option Clave))
  | 0, it => if hash_iterador_tiene_siguiente it then none else some []
  | n + 1, it =>
    if hash_iterador_tiene_siguiente it then
      match hash_iterador_siguiente it with
      | (clave, it1) => (claves_iteradas n it1).map (fun claves => clave :: claves)
    else some []

/-- The iterator after `j` calls of `hash_iterador_siguiente`. -/
def avanzar : Nat → hash_iterador_t → hash_iterador_t
  | 0, it => it
  | j + 1, it => avanzar j (hash_iterador_siguiente it).2

/-! ## Tables built without removing absent keys -/

/-- Tables reachable from `hash_crear` by `hash_insertar` calls and by `hash_quitar` calls
whose key is stored, no allocation failing. -/
inductive Construida : hash_t → Prop
  | crear (destructor : Bool) (capacidad : Nat) (hash : hash_t) :
      hash_crear [] destructor capacidad = some hash → Construida hash
  | insertar (profundidad : Nat) (hash : hash_t) (clave : Clave) (elemento : Nat)
      (r : Int) (hash1 : hash_t) :
      Construida hash → hash_insertar profundidad hash clave elemento = some (r, hash1) →
      Construida hash1
  | quitar (hash : hash_t) (clave : Clave) :
      Construida hash → hash_buscar hash (obtener_hash clave % hash.capacidad) clave ≠ none →
      Construida (hash_quitar hash clave).2

/-! ## Destruction -/

/-- Source `hash_destruir` (hash.c:423), for a non-null table: the arguments of the
destructor calls it makes, in order. -/
def hash_destruir (hash : hash_t) : List Nat :=
  destruir_vector_hash hash.vector hash.capacidad hash.destructor

/-- The loop `while (!lista_vacia(vector[i]))` of `destruir_vector_hash` statement by
statement, for at most `n` rounds: the arguments of the destructor calls, or `none` when
`n` rounds do not empty the chain. -/
def vaciar_lista_bucle (destructor : Bool) : Nat → lista_t dato_t → Option (List Nat)
  | 0, lista => if lista_vacia lista then some [] else none
  | n + 1, lista =>
    if lista_vacia lista then some []
    else
      match lista_elemento_en_posicion lista 0 with
      | none =>
        vaciar_lista_bucle destructor n (lista_borrar_de_posicion lista 0).2
      | some dato =>
        (vaciar_lista_bucle destructor n (lista_borrar_de_posicion lista 0).2).map
          (fun llamadas => (if destructor then [dato.elemento] else []) ++ llamadas)

/-! ## Insertion order -/

/-- The distinct keys of a sequence of `hash_insertar` calls in the order of their first
insertion, after the keys `vistas` already stored. -/
def claves_insertadas : List Clave → List Clave → List Clave
  | vistas, [] => vistas
  | vistas, clave :: resto =>
    claves_insertadas (if clave ∈ vistas then vistas else vistas ++ [clave]) resto

/-! ## Tables for the order of traversal and for failing allocations

Key `"g"` is the byte list `[103]`; `obtener_hash` maps it to slot 1 of a 3-slot array
and, like `"a"`, to slot 6 of a 7-slot array. -/

/-- The growth pass `rehash` once the new capacity is known. -/
def rehash_hasta (c : Nat) (ins : hash_t → Clave → Nat → Option (Int × hash_t))
    (hash : hash_t) : Option (Int × hash_t) :=
  match asignar hash.memoria with
  | (false, m1) => some (ERROR, { hash with memoria := m1 })
  | (true, m1) =>
    match rehash_bucle ins
        { hash with vector := List.replicate c none, capacidad := c, cantidad := 0, memoria := m1 }
        (ranuras hash.vector hash.capacidad) with
    | none => none
    | some (r, hash2) =>
      if r = ERROR then
        some (ERROR, deshacer_rehash hash2 hash.vector hash.capacidad hash.cantidad)
      else
        some (OK, { hash2 with
          destruidos := hash2.destruidos ++ destruir_vector_hash hash.vector hash.capacidad false })

/-- The table `tabla_a` after `"g" ↦ 2`. -/
def tabla_ag (d : Bool) : hash_t :=
  { capacidad := 3, cantidad := 2, vector := [none, some [⟨2, [103]⟩], some [⟨1, [97]⟩]],
    destructor := d, destruidos := [], memoria := [] }

/-- The table `tabla_ag` with `"b" ↦ 3` appended and counted, as the load test of the third
insert finds it. -/
def tabla_agb_llena (d : Bool) : hash_t :=
  { capacidad := 3, cantidad := 3,
    vector := [none, some [⟨2, [103]⟩, ⟨3, [98]⟩], some [⟨1, [97]⟩]],
    destructor := d, destruidos := [], memoria := [] }

/-- The table `tabla_ag` after `"b" ↦ 3`: the growth pass has put `"g"` before `"a"` in
slot 6. -/
def tabla_agb (d : Bool) : hash_t :=
  { capacidad := 7, cantidad := 3,
    vector := [none, none, none, none, some [⟨3, [98]⟩], none, some [⟨2, [103]⟩, ⟨1, [97]⟩]],
    destructor := d, destruidos := [], memoria := [] }

/-- The table `tabla_ab true` facing a heap that grants ten requests and refuses the
eleventh: the entry, key copy and node of `"c"`, the new bucket array, the iterator of old
slot 1, the entry, key copy, chain and node of `"b"` and the iterator of old slot 2 are
granted, the entry of `"a"` is refused. -/
def tabla_ab_agotada : hash_t :=
  { capacidad := 3, cantidad := 2, vector := [none, some [⟨2, [98]⟩], some [⟨1, [97]⟩]],
    destructor := true, destruidos := [],
    memoria := [true, true, true, true, true, true, true, true, true, true, false] }

/-- The table `tabla_ab_agotada` with `"c" ↦ 3` appended and counted, as the load test of
the third insert finds it. -/
def tabla_abc_agotada : hash_t :=
  { capacidad := 3, cantidad := 3,
    vector := [none, some [⟨2, [98]⟩], some [⟨1, [97]⟩, ⟨3, [99]⟩]],
    destructor := true, destruidos := [],
    memoria := [true, true, true, true, true, true, true, false] }

/-- The table the failed growth pass leaves: the three entries in the old array, and the
destructor called on the value of `"b"`. -/
def tabla_abc_deshecha : hash_t :=
  { capacidad := 3, cantidad := 3,
    vector := [none, some [⟨2, [98]⟩], some [⟨1, [97]⟩, ⟨3, [99]⟩]],
    destructor := true, destruidos := [2], memoria := [] }

/-- The table `tabla_tres` facing a heap that grants the entry, the key copy and the chain
and refuses the chain node. -/
def tabla_tres_sin_nodo (d : Bool) : hash_t :=
  { capacidad := 3, cantidad := 0, vector := [none, none, none], destructor := d,
    destruidos := [], memoria := [true, true, true, false] }

/-- The table `tabla_tres` with an empty chain left in slot 2. -/
def tabla_cadena_vacia (d : Bool) : hash_t :=
  { capacidad := 3, cantidad := 0, vector := [none, none, some []], destructor := d,
    destruidos := [], memoria := [] }

/-! ## A table whose counter lags behind its entries

Keys `"e"`, `"f"`, `"g"` are the byte lists `[101]`, `[102]`, `[103]`; they fall in the
slots 1, 0, 1 of a 3-slot array, 0, 5, 6 of a 7-slot array and 9, 14, 3 of a 17-slot
array. -/

/-- The function `hash_insertar` once the capacities of its growth passes are known, no
allocation failing: the pass at depth `i` runs on a table of capacity `(capacidades[i]).1`
and installs `(capacidades[i]).2` slots; `none` on any other table, and when a pass is
needed beyond the list. -/
def hash_insertar_con : List (Nat × Nat) → hash_t → Clave → Nat → Option (Int × hash_t)
  | [], hash, clave, elemento =>
    match hash_insertar_inicio hash clave elemento with
    | Sum.inl x => some x
    | Sum.inr _ => none
  | (vieja, nueva) :: resto, hash, clave, elemento =>
    match hash_insertar_inicio hash clave elemento with
    | Sum.inl x => some x
    | Sum.inr hash3 =>
      if hash3.capacidad = vieja ∧ hash3.memoria = [] then
        rehash_con nueva (hash_insertar_con resto) hash3
      else none

/-- A 3-slot table with the given counter and bucket array. -/
def tabla_descontada (d : Bool) (cantidad : Nat) (vector : List (Option (lista_t dato_t))) :
    hash_t :=
  { capacidad := 3, cantidad := cantidad, vector := vector, destructor := d,
    destruidos := [], memoria := [] }

/-- The table `hash_crear(destructor, 3)` after `"a" ↦ 1`, `hash_quitar("c")`, `"b" ↦ 2`,
`hash_quitar("c")`, `"d" ↦ 4`, `hash_quitar("c")`, `"e" ↦ 5`, `"f" ↦ 6`: five entries, and
a counter the three removals of the absent key `"c"` left at 2. -/
def tabla_nido (d : Bool) : hash_t :=
  tabla_descontada d 2
    [some [⟨6, [102]⟩], some [⟨2, [98]⟩, ⟨5, [101]⟩], some [⟨1, [97]⟩, ⟨4, [100]⟩]]

/-- The table `tabla_nido` with `"g" ↦ 7` appended and counted, as the load test of that
insert finds it. -/
def tabla_nido_llena (d : Bool) : hash_t :=
  tabla_descontada d 3
    [some [⟨6, [102]⟩], some [⟨2, [98]⟩, ⟨5, [101]⟩, ⟨7, [103]⟩],
      some [⟨1, [97]⟩, ⟨4, [100]⟩]]

/-- The table during the growth pass on `tabla_nido_llena`, the 7-slot array just
installed. -/
def tabla_siete_vacia (d : Bool) : hash_t :=
  { capacidad := 7, cantidad := 0, vector := List.replicate 7 none, destructor := d,
    destruidos := [], memoria := [] }

/-- The table during the growth pass on `tabla_nido_llena`, once `"f"`, `"b"`, `"e"`,
`"g"` and `"a"` are back in. -/
def tabla_siete_cinco (d : Bool) : hash_t :=
  { capacidad := 7, cantidad := 5,
    vector := [some [⟨5, [101]⟩], none, none, none, some [⟨2, [98]⟩], some [⟨6, [102]⟩],
      some [⟨7, [103]⟩, ⟨1, [97]⟩]],
    destructor := d, destruidos := [], memoria := [] }

/-- The table `tabla_siete_cinco` with `"d" ↦ 4` appended and counted, as the load test of
that re-insertion finds it. -/
def tabla_siete_llena (d : Bool) : hash_t :=
  { capacidad := 7, cantidad := 6,
    vector := [some [⟨5, [101]⟩, ⟨4, [100]⟩], none, none, none, some [⟨2, [98]⟩],
      some [⟨6, [102]⟩], some [⟨7, [103]⟩, ⟨1, [97]⟩]],
    destructor := d, destruidos := [], memoria := [] }

/-- The table `tabla_nido` after `"g" ↦ 7`. -/
def tabla_diecisiete (d : Bool) : hash_t :=
  { capacidad := 17, cantidad := 6,
    vector := [none, none, none, some [⟨7, [103]⟩, ⟨1, [97]⟩], none, some [⟨4, [100]⟩],
      none, none, none, some [⟨5, [101]⟩], none, none, none, some [⟨2, [98]⟩],
      some [⟨6, [102]⟩], none, none],
    destructor := d, destruidos := [], memoria := [] }

/-! ## The sizing functions in `size_t` arithmetic

The table above sizes its arrays with `es_primo` and `siguiente_primo` read in exact
arithmetic. Here the two functions are embedded as `hash.c` runs them on a 64-bit target:
`i * i`, `i + 2`, `i += 6` and `++numero` wrap at `2 ^ 64`. The loop and the recursion
carry a bound and count their steps. -/

/-- Below this bound, `(2 ^ 32 - 6) ^ 2`, no `i * i`, `i + 2` or `i += 6` of the loop of
`es_primo` wraps. -/
def COTA_ES_PRIMO : Nat := 4294967290 * 4294967290

/-- A number of rounds within which the loop of `es_primo` has ended: `5 + 6 * (VUELTAS_MAX - 1)`
is `2 ^ 64 + 1`, so the loop variable is 1 in that round at the latest. -/
def VUELTAS_MAX : Nat := 3074457345618258603

/-- The loop `for (size_t i = 5; i * i <= numero; i += 6)` of `es_primo` (hash.c:33) in
`size_t` arithmetic, entered at `i` and allowed at most `n` rounds: the value `es_primo`
returns and the number of rounds run, or `none` when `n` rounds do not end the loop. The
loop variable is odd from 5 on, so neither `i` nor `i + 2` is ever 0. -/
def es_primo_bucle_vueltas (numero : Nat) : Nat → Nat → Option (Bool × Nat)
  | 0, i => if i * i % TAM_SIZE_T ≤ numero then none else some (true, 0)
  | n + 1, i =>
    if i * i % TAM_SIZE_T ≤ numero then
      if numero % i = 0 ∨ numero % ((i + 2) % TAM_SIZE_T) = 0 then some (false, 1)
      else
        (es_primo_bucle_vueltas numero n ((i + 6) % TAM_SIZE_T)).map
          (fun r => (r.1, r.2 + 1))
    else some (true, 0)

/-- Source `es_primo` (hash.c:25) in `size_t` arithmetic, its loop allowed at most `n`
rounds: the value returned and the number of rounds run. -/
def es_primo_vueltas (n numero : Nat) : Option (Bool × Nat) :=
  if numero = 1 then some (false, 0)
  else if numero = 2 ∨ numero = 3 then some (true, 0)
  else if numero % 2 = 0 ∨ numero % 3 = 0 then some (false, 0)
  else es_primo_bucle_vueltas numero n 5

/-- Source `es_primo` (hash.c:25) in `size_t` arithmetic: the value returned. The bound
`VUELTAS_MAX` is never reached (`es_primo_vueltas_termina`). -/
def es_primo_size_t (numero : Nat) : Bool :=
  match es_primo_vueltas VUELTAS_MAX numero with
  | some (primo, _) => primo
  | none => false

/-- Source `siguiente_primo` (hash.c:41) in `size_t` arithmetic (`++numero` wraps at
`2 ^ 64`), allowed at most `n` recursive calls, each `es_primo` at most `vueltas` rounds:
the value returned and the number of recursive calls made, or `none` when a bound is
reached. -/
def siguiente_primo_llamadas (vueltas : Nat) : Nat → Nat → Option (Nat × Nat)
  | 0, numero =>
    match es_primo_vueltas vueltas numero with
    | some (true, _) => some (numero, 0)
    | _ => none
  | n + 1, numero =>
    match es_primo_vueltas vueltas numero with
    | none => none
    | some (true, _) => some (numero, 0)
    | some (false, _) =>
      (siguiente_primo_llamadas vueltas n ((numero + 1) % TAM_SIZE_T)).map
        (fun r => (r.1, r.2 + 1))

/-- Source `siguiente_primo` (hash.c:41) in `size_t` arithmetic: the value returned.
The bounds `VUELTAS_MAX` and `2 ^ 64` are never reached
(`siguiente_primo_llamadas_termina`). -/
def siguiente_primo_size_t (numero : Nat) : Nat :=
  match siguiente_primo_llamadas VUELTAS_MAX TAM_SIZE_T numero with
  | some (primo, _) => primo
  | none => 0

/-- Source `hash_crear` (hash.c:135) with `siguiente_primo` in `size_t` arithmetic; `none`
is `NULL`. It is `hash_crear` whenever some prime at or above the requested capacity lies
below `COTA_ES_PRIMO` (`hash_crear_size_t_en_rango`). -/
def hash_crear_size_t (m : Memoria) (destruir_elemento : Bool) (capacidad : Nat) :
    Option hash_t :=
  match asignar m with
  | (false, _) => none
  | (true, m1) =>
    let capacidad1 := siguiente_primo_size_t (if capacidad < 3 then 3 else capacidad)
    match asignar m1 with
    | (false, _) => none
    | (true, m2) =>
      some { capacidad := capacidad1, cantidad := 0, vector := List.replicate capacidad1 none,
             destructor := destruir_elemento, destruidos := [], memoria := m2 }

/-- The table `hash_crear(destructor, SIZE_MAX)` returns: two slots. -/
def tabla_dos (d : Bool) : hash_t :=
  { capacidad := 2, cantidad := 0, vector := [none, none], destructor := d,
    destruidos := [], memoria := [] }

/-- The table `tabla_dos` after `"a" ↦ 1`. -/
def tabla_dos_a (d : Bool) : hash_t :=
  { capacidad := 2, cantidad := 1, vector := [some [⟨1, [97]⟩], none], destructor := d,
    destruidos := [], memoria := [] }

/-! ## Entries appended in order -/

/-- The entries `ds` appended one after the other, each to the chain of its slot. -/
def agregar_todos (hash : hash_t) (ds : List dato_t) : hash_t :=
  ds.foldl (fun u d => agregar u d.clave d.elemento) hash

/-! ## Reachable tables, the heap answering as it will -/

/-- Tables reachable from `hash_crear` by `hash_insertar` and `hash_quitar` calls, whatever
the heap answers to each allocation request. `hash_crear` computes the capacity in `size_t`
arithmetic, for a request that has a prime at or above it (at or above 3 for a smaller
request) below `COTA_ES_PRIMO`; growth passes size in exact arithmetic. -/
inductive AlcanzableAcotada : hash_t → Prop
  | crear (m : Memoria) (destructor : Bool) (capacidad primo : Nat) (hash : hash_t) :
      primo.Prime → (if capacidad < 3 then 3 else capacidad) ≤ primo →
      primo < COTA_ES_PRIMO → hash_crear_size_t m destructor capacidad = some hash →
      AlcanzableAcotada hash
  | heap (hash : hash_t) (m : Memoria) :
      AlcanzableAcotada hash → AlcanzableAcotada { hash with memoria := m }
  | insertar (profundidad : Nat) (hash : hash_t) (clave : Clave) (elemento : Nat)
      (r : Int) (hash1 : hash_t) :
      AlcanzableAcotada hash → hash_insertar profundidad hash clave elemento = some (r, hash1) →
      AlcanzableAcotada hash1
  | quitar (hash : hash_t) (clave : Clave) :
      AlcanzableAcotada hash → AlcanzableAcotada (hash_quitar hash clave).2

end HashMap

namespace ABB

/-! ## Binary search tree (`src/BST/abb.c`)

Elements are `void*` values, `Nat` addresses with `NULL` being `0`; the comparator is a
function of two addresses. A tree is the node structure reachable from its root pointer,
`nil` being `NULL`; the functions that rewrite child pointers in place return the tree they
leave. As in the table, the heap is an oracle carried as a ghost field, next to the log of
the destructor's arguments. -/

/-- Source `nodo_abb_t*`, with the fields `abb.c` uses; `nil` is `NULL`. -/
inductive nodo_abb_t where
  | nil : nodo_abb_t
  | nodo (izquierda : nodo_abb_t) (elemento : Nat) (derecha : nodo_abb_t) : nodo_abb_t
deriving DecidableEq, Repr

/-- Source `abb_comparador`. -/
abbrev abb_comparador := Nat → Nat → Int

/-- Source `abb_t`, with the fields `abb.c` uses. `comparador` is `none` for `NULL`;
`destructor` tells whether a destructor is registered; `destruidos` (ghost) lists the
arguments of its calls so far, oldest first; `memoria` (ghost) is the heap oracle. -/
structure abb_t where
  nodo_raiz : nodo_abb_t
  comparador : Option abb_comparador
  destructor : Bool
  destruidos : List Nat
  memoria : HashMap.Memoria

/-- Source `arbol_crear` (abb.c:14); `none` is `NULL`. -/
def arbol_crear (m : HashMap.Memoria) (comparador : Option abb_comparador)
    (destructor : Bool) : Option abb_t :=
  match comparador with
  | none => none
  | some c =>
    match HashMap.asignar m with
    | (false, _) => none
    | (true, m1) =>
      some { nodo_raiz := nodo_abb_t.nil, comparador := some c, destructor := destructor,
             destruidos := [], memoria := m1 }

/-- Source `nuevo_nodo` (abb.c:32). -/
def nuevo_nodo (m : HashMap.Memoria) (elemento : Nat) : Option nodo_abb_t × HashMap.Memoria :=
  match HashMap.asignar m with
  | (false, m1) => (none, m1)
  | (true, m1) => (some (nodo_abb_t.nodo nodo_abb_t.nil elemento nodo_abb_t.nil), m1)

/-- Source `insertar` (abb.c:52): the pointer returned (`none` is `NULL`, and then the
tree is as it was) and the oracle left. -/
def insertar (comparador : Option abb_comparador) (elemento : Nat) :
    nodo_abb_t → HashMap.Memoria → Option nodo_abb_t × HashMap.Memoria
  | nodo_abb_t.nil, m =>
    match comparador with
    | none => (none, m)
    | some _ => nuevo_nodo m elemento
  | nodo_abb_t.nodo izquierda e derecha, m =>
    match comparador with
    | none => (none, m)
    | some c =>
      if c elemento e = -1 then
        match insertar comparador elemento izquierda m with
        | (none, m1) => (none, m1)
        | (some aux, m1) => (some (nodo_abb_t.nodo aux e derecha), m1)
      else
        match insertar comparador elemento derecha m with
        | (none, m1) => (none, m1)
        | (some aux, m1) => (some (nodo_abb_t.nodo izquierda e aux), m1)

/-- Source `arbol_insertar` (abb.c:90), for a non-null tree. -/
def arbol_insertar (arbol : abb_t) (elemento : Nat) : Int × abb_t :=
  match insertar arbol.comparador elemento arbol.nodo_raiz arbol.memoria with
  | (none, m1) => (-1, { arbol with memoria := m1 })
  | (some auxiliar, m1) => (0, { arbol with nodo_raiz := auxiliar, memoria := m1 })

/-- Source `destruir_elemento` (abb.c:104): the arguments of the destructor calls. -/
def destruir_elemento (elemento : Nat) (destructor : Bool) : List Nat :=
  if destructor then [elemento] else []

/-- Source `liberar_nodo` (abb.c:113), the node given by its element. -/
def liberar_nodo (elemento : Nat) (destructor : Bool) : List Nat :=
  destruir_elemento elemento destructor

/-- Source `predecesor_inorden` (abb.c:124), the node `nodo`, never `NULL` at the call,
given by its fields: the pointer returned and the element stored through `elemento`. -/
def predecesor_inorden (izquierda : nodo_abb_t) (elemento : Nat) :
    nodo_abb_t → nodo_abb_t × Nat
  | nodo_abb_t.nil => (izquierda, elemento)
  | nodo_abb_t.nodo l x r =>
    match predecesor_inorden l x r with
    | (aux, predecesor) => (nodo_abb_t.nodo izquierda elemento aux, predecesor)

/-- Source `borrar` (abb.c:150), `*no_encontre` being false on entry as in every call the
file makes: the pointer returned, `*no_encontre` on return and the arguments of the
destructor calls. When `*no_encontre` is set the tree is as it was. -/
def borrar (destructor : Bool) (comparador : Option abb_comparador) (elemento : Nat) :
    nodo_abb_t → nodo_abb_t × Bool × List Nat
  | nodo_abb_t.nil =>
    match comparador with
    | none => (nodo_abb_t.nil, false, [])
    | some _ => (nodo_abb_t.nil, true, [])
  | nodo_abb_t.nodo izquierda e derecha =>
    match comparador with
    | none => (nodo_abb_t.nil, false, [])
    | some c =>
      if c elemento e = -1 then
        match borrar destructor comparador elemento izquierda with
        | (aux, no_encontre, llamadas) =>
          if no_encontre then (nodo_abb_t.nil, true, llamadas)
          else (nodo_abb_t.nodo aux e derecha, false, llamadas)
      else if c elemento e = 1 then
        match borrar destructor comparador elemento derecha with
        | (aux, no_encontre, llamadas) =>
          if no_encontre then (nodo_abb_t.nil, true, llamadas)
          else (nodo_abb_t.nodo izquierda e aux, false, llamadas)
      else
        match izquierda with
        | nodo_abb_t.nil => (derecha, false, liberar_nodo e destructor)
        | nodo_abb_t.nodo l x r =>
          match derecha with
          | nodo_abb_t.nil => (izquierda, false, liberar_nodo e destructor)
          | nodo_abb_t.nodo _ _ _ =>
            match predecesor_inorden l x r with
            | (aux, elemento_predecesor) =>
              (nodo_abb_t.nodo aux elemento_predecesor derecha, false,
                destruir_elemento e destructor)

/-- Source `arbol_borrar` (abb.c:209), for a non-null tree. -/
def arbol_borrar (arbol : abb_t) (elemento : Nat) : Int × abb_t :=
  match borrar arbol.destructor arbol.comparador elemento arbol.nodo_raiz with
  | (aux, flag, llamadas) =>
    if aux = nodo_abb_t.nil ∧ flag = true then
      (-1, { arbol with destruidos := arbol.destruidos ++ llamadas })
    else
      (0, { arbol with nodo_raiz := aux, destruidos := arbol.destruidos ++ llamadas })

/-! ## Abstract view of a tree -/

/-- The elements of a tree from left to right. -/
def elementos : nodo_abb_t → List Nat
  | nodo_abb_t.nil => []
  | nodo_abb_t.nodo izquierda e derecha => elementos izquierda ++ e :: elementos derecha

/-- A comparator that orders the elements totally, equal elements allowed, and returns
only -1, 0 or 1. -/
structure OrdenTotal (c : abb_comparador) : Prop where
  valores : ∀ a b, c a b = -1 ∨ c a b = 0 ∨ c a b = 1
  reflexivo : ∀ a, c a a = 0
  opuesto : ∀ a b, c a b = -1 ↔ c b a = 1
  transitivo : ∀ a b d, c a b ≠ 1 → c b d ≠ 1 → c a d ≠ 1

/-- Every element of a left subtree is at most the node's element, which is at most every
element of the right subtree. -/
def Ordenado (c : abb_comparador) : nodo_abb_t → Prop
  | nodo_abb_t.nil => True
  | nodo_abb_t.nodo izquierda e derecha =>
    Ordenado c izquierda ∧ Ordenado c derecha ∧
      (∀ x ∈ elementos izquierda, c x e ≠ 1) ∧ (∀ x ∈ elementos derecha, c e x ≠ 1)

/-- Trees reachable from `arbol_crear` by `arbol_insertar` and `arbol_borrar` calls. -/
inductive Construido : abb_t → Prop
  | crear (m : HashMap.Memoria) (comparador : Option abb_comparador) (destructor : Bool)
      (arbol : abb_t) : arbol_crear m comparador destructor = some arbol → Construido arbol
  | insertar (arbol : abb_t) (elemento : Nat) :
      Construido arbol → Construido (arbol_insertar arbol elemento).2
  | borrar (arbol : abb_t) (elemento : Nat) :
      Construido arbol → Construido (arbol_borrar arbol elemento).2

/-! ## Trees for the examples -/

/-- A comparator for the examples: the elements ordered by their addresses. -/
def comparar_direcciones : abb_comparador :=
  fun a b => if a < b then -1 else if b < a then 1 else 0

/-- The tree `arbol_crear(comparar_direcciones, destructor)` returns. -/
def arbol_vacio : abb_t :=
  { nodo_raiz := nodo_abb_t.nil, comparador := some comparar_direcciones, destructor := true,
    destruidos := [], memoria := [] }

/-- The tree `arbol_vacio` after the elements 5, 3 and 7 are inserted in this order. -/
def arbol_ejemplo : abb_t :=
  { nodo_raiz := nodo_abb_t.nodo (nodo_abb_t.nodo nodo_abb_t.nil 3 nodo_abb_t.nil) 5
      (nodo_abb_t.nodo nodo_abb_t.nil 7 nodo_abb_t.nil),
    comparador := some comparar_direcciones, destructor := true, destruidos := [],
    memoria := [] }

/-! ## Search and traversals (`abb.c:228`, `abb.c:285`) -/

/-- Source `buscar` (abb.c:228); `0` is `NULL`. -/
def buscar (comparador : abb_comparador) (elemento : Nat) : nodo_abb_t → Nat
  | nodo_abb_t.nil => 0
  | nodo_abb_t.nodo izquierda e derecha =>
    if comparador elemento e = 0 then e
    else if comparador elemento e = -1 then buscar comparador elemento izquierda
    else buscar comparador elemento derecha

/-- Source `arbol_buscar` (abb.c:247), for a non-null tree. `arbol_crear` returns no tree
without a comparator; the branch for a `NULL` comparator stands for a call the code
cannot reach. -/
def arbol_buscar (arbol : abb_t) (elemento : Nat) : Nat :=
  if elemento = 0 then 0
  else
    match arbol.comparador with
    | none => 0
    | some comparador => buscar comparador elemento arbol.nodo_raiz

/-- Source `recorrido_inorden` (abb.c:285): the array and `*contador` as the call leaves
them. The counter starts at 0 and only grows while it is below `tamanio_array`, so it is a
natural number that never leaves the range of `int`. -/
def recorrido_inorden (tamanio_array : Int) : nodo_abb_t → List Nat × Nat → List Nat × Nat
  | nodo_abb_t.nil, estado => estado
  | nodo_abb_t.nodo izquierda e derecha, estado =>
    match recorrido_inorden tamanio_array izquierda estado with
    | (array, contador) =>
      if (contador : Int) ≥ tamanio_array then (array, contador)
      else recorrido_inorden tamanio_array derecha (array.set contador e, contador + 1)

/-- Source `arbol_recorrido_inorden` (abb.c:305), for a non-null tree and array: the value
returned and the array. -/
def arbol_recorrido_inorden (arbol : abb_t) (array : List Nat) (tamanio_array : Int) :
    Nat × List Nat :=
  match recorrido_inorden tamanio_array arbol.nodo_raiz (array, 0) with
  | (array1, contador) => (contador, array1)

/-- Source `recorrido_preorden` (abb.c:318). -/
def recorrido_preorden (tamanio_array : Int) : nodo_abb_t → List Nat × Nat → List Nat × Nat
  | nodo_abb_t.nil, estado => estado
  | nodo_abb_t.nodo izquierda e derecha, (array, contador) =>
    if (contador : Int) ≥ tamanio_array then (array, contador)
    else
      recorrido_preorden tamanio_array derecha
        (recorrido_preorden tamanio_array izquierda (array.set contador e, contador + 1))

/-- Source `arbol_recorrido_preorden` (abb.c:335), for a non-null tree and array. -/
def arbol_recorrido_preorden (arbol : abb_t) (array : List Nat) (tamanio_array : Int) :
    Nat × List Nat :=
  match recorrido_preorden tamanio_array arbol.nodo_raiz (array, 0) with
  | (array1, contador) => (contador, array1)

/-- Source `recorrido_postorden` (abb.c:348). -/
def recorrido_postorden (tamanio_array : Int) : nodo_abb_t → List Nat × Nat → List Nat × Nat
  | nodo_abb_t.nil, estado => estado
  | nodo_abb_t.nodo izquierda e derecha, estado =>
    match recorrido_postorden tamanio_array derecha
        (recorrido_postorden tamanio_array izquierda estado) with
    | (array, contador) =>
      if (contador : Int) ≥ tamanio_array then (array, contador)
      else (array.set contador e, contador + 1)

/-- Source `arbol_recorrido_postorden` (abb.c:367), for a non-null tree and array. -/
def arbol_recorrido_postorden (arbol : abb_t) (array : List Nat) (tamanio_array : Int) :
    Nat × List Nat :=
  match recorrido_postorden tamanio_array arbol.nodo_raiz (array, 0) with
  | (array1, contador) => (contador, array1)

/-! ## The three sequences of a tree -/

/-- The preorder sequence of a tree: node, left subtree, right subtree. -/
def preorden : nodo_abb_t → List Nat
  | nodo_abb_t.nil => []
  | nodo_abb_t.nodo izquierda e derecha => e :: (preorden izquierda ++ preorden derecha)

/-- The postorder sequence of a tree: left subtree, right subtree, node. -/
def postorden : nodo_abb_t → List Nat
  | nodo_abb_t.nil => []
  | nodo_abb_t.nodo izquierda e derecha => postorden izquierda ++ postorden derecha ++ [e]

/-- One step of a traversal that has reached an element: the element is stored in the
next free cell unless the array is full. -/
def guardar (tamanio_array : Int) (e : Nat) (estado : List Nat × Nat) : List Nat × Nat :=
  if (estado.2 : Int) ≥ tamanio_array then estado
  else (estado.1.set estado.2 e, estado.2 + 1)

/-- The elements of a sequence stored one after the other. -/
def llenar (tamanio_array : Int) : List Nat → List Nat × Nat → List Nat × Nat
  | [], estado => estado
  | e :: resto, estado => llenar tamanio_array resto (guardar tamanio_array e estado)

/-! ## Strict placement -/

/-- A comparator under which distinct elements are equal, as `comparar_elemento`
(elemento.c:18) is for two elements of equal `valor`: it orders the addresses by their
tens. -/
def comparar_decenas : abb_comparador :=
  fun a b => if a / 10 < b / 10 then -1 else if b / 10 < a / 10 then 1 else 0

/-- Strict placement: every element of a left subtree is smaller than the node's element,
which is at most every element of the right subtree. -/
def Estricto (c : abb_comparador) : nodo_abb_t → Prop
  | nodo_abb_t.nil => True
  | nodo_abb_t.nodo izquierda e derecha =>
    Estricto c izquierda ∧ Estricto c derecha ∧
      (∀ x ∈ elementos izquierda, c x e = -1) ∧ (∀ x ∈ elementos derecha, c e x ≠ 1)

/-- Trees reachable from `arbol_crear` by `arbol_insertar` calls alone. -/
inductive Insertado : abb_t → Prop
  | crear (m : HashMap.Memoria) (comparador : Option abb_comparador) (destructor : Bool)
      (arbol : abb_t) : arbol_crear m comparador destructor = some arbol → Insertado arbol
  | insertar (arbol : abb_t) (elemento : Nat) :
      Insertado arbol → Insertado (arbol_insertar arbol elemento).2

/-- The tree `arbol_crear(comparar_decenas, destructor)` after the elements 50, 30, 31 and
70 are inserted in this order; 30 and 31 compare equal, so 31 went to the right of 30. -/
def arbol_repetido : abb_t :=
  { nodo_raiz := nodo_abb_t.nodo
      (nodo_abb_t.nodo nodo_abb_t.nil 30 (nodo_abb_t.nodo nodo_abb_t.nil 31 nodo_abb_t.nil)) 50
      (nodo_abb_t.nodo nodo_abb_t.nil 70 nodo_abb_t.nil),
    comparador := some comparar_decenas, destructor := true, destruidos := [],
    memoria := [] }

/-- The tree `arbol_repetido` after `arbol_borrar` of 50: the inorder predecessor 31 has
taken the place of 50. -/
def arbol_repetido_borrado : abb_t :=
  { nodo_raiz := nodo_abb_t.nodo (nodo_abb_t.nodo nodo_abb_t.nil 30 nodo_abb_t.nil) 31
      (nodo_abb_t.nodo nodo_abb_t.nil 70 nodo_abb_t.nil),
    comparador := some comparar_decenas, destructor := true, destruidos := [50],
    memoria := [] }

end ABB

namespace Lista

/-! ## The chain list of `src/HashMap/lista.c`, node by node

The table above takes a bucket chain to be the sequence of its payloads. Here the list is
embedded with its nodes and pointers, to relate `head`, `tail` and `largo` to that
sequence.

* A pointer is a `Nat` address, `NULL` being `0`; payloads (`void*`) are `Nat` as well.
* The nodes live in a heap `monticulo`, carried as a ghost field of the list: the node at
  address `a ≥ 1` is entry `a - 1` of the heap, `none` once freed. An allocation takes the
  first address never used.
* A function returns `none` when it dereferences or frees a pointer that is `NULL` or
  freed, or when a loop is not over within the bound it is given.
* `largo` is an unbounded natural: a list of `2 ^ 64` nodes does not fit in memory.
* The comparator, which `lista_crear` requires and only `lista_buscar` uses, is left out.
-/

/-- Source `nodo_t` (lista.c:7); `siguiente = 0` is `NULL`. -/
structure nodo_t where
  dato : Nat
  siguiente : Nat
deriving DecidableEq, Repr

/-- The heap of nodes. -/
abbrev Monticulo := List (Option nodo_t)

/-- The node a pointer refers to, `none` for `NULL` and for a pointer to no live node. -/
def leer (h : Monticulo) : Nat → Option nodo_t
  | 0 => none
  | b + 1 => (h[b]?).join

/-- The heap after a store through a pointer to a node. -/
def escribir (h : Monticulo) (a : Nat) (nodo : nodo_t) : Monticulo :=
  match a with
  | 0 => h
  | b + 1 => h.set b (some nodo)

/-- The heap after `free` of a pointer to a node. -/
def liberar (h : Monticulo) (a : Nat) : Monticulo :=
  match a with
  | 0 => h
  | b + 1 => h.set b none

/-- Source `struct lista` (lista.c:13). `destructor` tells whether a destructor is
registered; `monticulo`, `destruidos` (the arguments of the destructor calls so far) and
`memoria` (the heap oracle) are ghost fields. -/
structure lista_t where
  head : Nat
  tail : Nat
  largo : Nat
  destructor : Bool
  monticulo : Monticulo
  destruidos : List Nat
  memoria : HashMap.Memoria
deriving DecidableEq, Repr

/-- Source `lista_crear` (lista.c:27), called with a comparator; `none` is `NULL`. -/
def lista_crear (m : HashMap.Memoria) (destructor : Bool) : Option lista_t :=
  match HashMap.asignar m with
  | (false, _) => none
  | (true, m1) =>
    some { head := 0, tail := 0, largo := 0, destructor := destructor, monticulo := [],
           destruidos := [], memoria := m1 }

/-- Source `nuevo_nodo` (lista.c:43): the pointer returned (`0` is `NULL`) and the list
with the heap and the oracle as the call leaves them. -/
def nuevo_nodo (lista : lista_t) (elemento : Nat) : Nat × lista_t :=
  match HashMap.asignar lista.memoria with
  | (false, m1) => (0, { lista with memoria := m1 })
  | (true, m1) =>
    (lista.monticulo.length + 1,
      { lista with
        monticulo := lista.monticulo ++ [some { dato := elemento, siguiente := 0 }]
        memoria := m1 })

/-- Source `lista_insertar` (lista.c:55), for a non-null list. -/
def lista_insertar (lista : lista_t) (elemento : Nat) : Option (Int × lista_t) :=
  match nuevo_nodo lista elemento with
  | (nuevo, lista1) =>
    if nuevo = 0 then some (-1, lista1)
    else if lista1.head = 0 then
      some (0, { lista1 with head := nuevo, tail := nuevo, largo := lista1.largo + 1 })
    else
      match leer lista1.monticulo lista1.tail with
      | none => none
      | some nodo_tail =>
        some (0, { lista1 with
          monticulo := escribir lista1.monticulo lista1.tail { nodo_tail with siguiente := nuevo }
          tail := nuevo
          largo := lista1.largo + 1 })

/-- Source `lista_elementos` (lista.c:237), for a non-null list. -/
def lista_elementos (lista : lista_t) : Nat := lista.largo

/-- Source `lista_vacia` (lista.c:230). -/
def lista_vacia (lista : lista_t) : Bool := lista_elementos lista == 0

/-- Source `liberar_nodo` (lista.c:114), for a non-null node: the destructor, if there is
one, is called on the payload, and the node is freed. -/
def liberar_nodo (lista : lista_t) (nodo : Nat) : Option lista_t :=
  match leer lista.monticulo nodo with
  | none => none
  | some n =>
    some { lista with
      destruidos := lista.destruidos ++ (if lista.destructor then [n.dato] else [])
      monticulo := liberar lista.monticulo nodo }

/-- The loop `while (tracker->siguiente)` of `lista_borrar` (lista.c:130), for at most `n`
tests of its condition: `anterior` and `tracker` when it ends. -/
def hasta_el_ultimo (h : Monticulo) : Nat → Nat → Nat → Option (Nat × Nat)
  | 0, _, _ => none
  | n + 1, anterior, tracker =>
    match leer h tracker with
    | none => none
    | some nodo =>
      if nodo.siguiente ≠ 0 then hasta_el_ultimo h n tracker nodo.siguiente
      else some (anterior, tracker)

/-- Source `lista_borrar` (lista.c:124), for a non-null list; `n` bounds the loop. -/
def lista_borrar (n : Nat) (lista : lista_t) : Option (Int × lista_t) :=
  if lista_vacia lista then some (-1, lista)
  else
    match hasta_el_ultimo lista.monticulo n 0 lista.head with
    | none => none
    | some (anterior, tracker) =>
      let desenlazada : Option lista_t :=
        if anterior ≠ 0 then
          match leer lista.monticulo anterior with
          | none => none
          | some nodo_anterior =>
            some { lista with
              monticulo := escribir lista.monticulo anterior { nodo_anterior with siguiente := 0 }
              tail := anterior }
        else some { lista with head := 0, tail := 0 }
      match desenlazada with
      | none => none
      | some lista1 =>
        match liberar_nodo lista1 tracker with
        | none => none
        | some lista2 => some (0, { lista2 with largo := lista2.largo - 1 })

/-- The loop `for (i = 0; i < posicion; i++)` of `lista_borrar_de_posicion` (lista.c:165),
`posicion - i` rounds being left: `anterior` and `tracker` when it ends. -/
def hasta_la_posicion (h : Monticulo) : Nat → Nat → Nat → Option (Nat × Nat)
  | 0, anterior, tracker => some (anterior, tracker)
  | i + 1, _, tracker =>
    match leer h tracker with
    | none => none
    | some nodo => hasta_la_posicion h i tracker nodo.siguiente

/-- Source `lista_borrar_de_posicion` (lista.c:157), for a non-null list; `n` bounds the
loop of `lista_borrar`. -/
def lista_borrar_de_posicion (n : Nat) (lista : lista_t) (posicion : Nat) :
    Option (Int × lista_t) :=
  if lista_vacia lista then some (-1, lista)
  else if posicion ≥ lista.largo - 1 then lista_borrar n lista
  else
    match hasta_la_posicion lista.monticulo posicion 0 lista.head with
    | none => none
    | some (anterior, tracker) =>
      match leer lista.monticulo tracker with
      | none => none
      | some nodo_tracker =>
        let desenlazada : Option lista_t :=
          if anterior ≠ 0 then
            match leer lista.monticulo anterior with
            | none => none
            | some nodo_anterior =>
              some { lista with
                monticulo := escribir lista.monticulo anterior
                  { nodo_anterior with siguiente := nodo_tracker.siguiente } }
          else some { lista with head := nodo_tracker.siguiente }
        match desenlazada with
        | none => none
        | some lista1 =>
          match liberar_nodo lista1 tracker with
          | none => none
          | some lista2 => some (0, { lista2 with largo := lista2.largo - 1 })

/-- Source `lista_ultimo` (lista.c:199), for a non-null list; `some 0` is `NULL`. -/
def lista_ultimo (lista : lista_t) : Option Nat :=
  if lista_vacia lista then some 0
  else (leer lista.monticulo lista.head).map nodo_t.dato

/-! ## The sequence a list stands for -/

/-- The nodes `nodos`, given by address and payload, are linked one to the next from the
pointer `a`, the last one pointing to `z`. -/
def Segmento (h : Monticulo) : Nat → List (Nat × Nat) → Nat → Prop
  | a, [], z => a = z
  | a, (b, d) :: resto, z =>
    a = b ∧ ∃ s, leer h a = some { dato := d, siguiente := s } ∧ Segmento h s resto z

/-- The list is made of the nodes `nodos`: they are linked from `head` to `NULL`, sit at
distinct addresses, `tail` points to the last one and `largo` counts them. -/
structure Representa (lista : lista_t) (nodos : List (Nat × Nat)) : Prop where
  enlace : Segmento lista.monticulo lista.head nodos 0
  distintos : (nodos.map Prod.fst).Nodup
  cola : ∀ a, (nodos.map Prod.fst).getLast? = some a → lista.tail = a
  cuenta : lista.largo = nodos.length

/-- The list holds the payloads `xs`, from first to last. -/
def Contiene (lista : lista_t) (xs : List Nat) : Prop :=
  ∃ nodos, Representa lista nodos ∧ nodos.map Prod.snd = xs

/-! ## A list for the examples -/

/-- The list `lista_crear` returns after `lista_insertar` of 1 and of 2. -/
def lista_uno_dos : lista_t :=
  { head := 1, tail := 2, largo := 2, destructor := false,
    monticulo := [some { dato := 1, siguiente := 2 }, some { dato := 2, siguiente := 0 }],
    destruidos := [], memoria := [] }

end Lista

/-! # Theorems -/

namespace HashMap

/-! ## Sizing lemmas -/

theorem es_primo_cero : es_primo 0 = false := by
  simp [es_primo]

theorem es_primo_uno : es_primo 1 = false := by
  simp [es_primo]

theorem siguiente_primo_ge (numero : Nat) : numero ≤ siguiente_primo numero := by
  obtain ⟨p, hle, hp⟩ := existe_es_primo numero
  obtain ⟨k, rfl⟩ := Nat.exists_eq_add_of_le hle
  clear hle
  induction k generalizing numero with
  | zero =>
    rw [siguiente_primo]
    simp only [Nat.add_zero] at hp
    simp [hp]
  | succ k ih =>
    rw [siguiente_primo]
    split
    · exact Nat.le_refl _
    · have h1 := ih (numero + 1) (by rw [Nat.add_assoc, Nat.add_comm 1 k]; exact hp)
      omega

theorem es_primo_siguiente_primo (numero : Nat) :
    es_primo (siguiente_primo numero) = true := by
  obtain ⟨p, hle, hp⟩ := existe_es_primo numero
  obtain ⟨k, rfl⟩ := Nat.exists_eq_add_of_le hle
  clear hle
  induction k generalizing numero with
  | zero =>
    rw [siguiente_primo]
    simp only [Nat.add_zero] at hp
    simp [hp]
  | succ k ih =>
    rw [siguiente_primo]
    split
    · assumption
    · exact ih (numero + 1) (by rw [Nat.add_assoc, Nat.add_comm 1 k]; exact hp)

theorem siguiente_primo_tres : siguiente_primo 3 = 3 := by
  rw [siguiente_primo]
  simp [es_primo]

theorem siguiente_primo_seis : siguiente_primo 6 = 7 := by
  rw [siguiente_primo, siguiente_primo]
  simp [es_primo, es_primo_bucle]

/-! ## Chain lemmas -/

theorem strcmp_eq_zero (a b : Clave) : strcmp a b = 0 ↔ a = b := by
  induction a generalizing b with
  | nil => cases b <;> simp [strcmp]
  | cons x s ih =>
    cases b with
    | nil => simp [strcmp]
    | cons y s2 =>
      simp only [strcmp]
      by_cases hxy : x = y
      · simp [hxy, ih]
      · by_cases hlt : x < y <;> simp [hxy, hlt]

theorem comparar_dato_eq_zero (d : dato_t) (k : Clave) :
    comparar_dato d k = 0 ↔ d.clave = k := by
  simp [comparar_dato, strcmp_eq_zero]

theorem lista_buscar_eq_none (l : lista_t dato_t) (k : Clave) :
    lista_buscar comparar_dato l k = none ↔ k ∉ l.map dato_t.clave := by
  induction l with
  | nil => simp [lista_buscar]
  | cons d r ih =>
    simp only [lista_buscar, comparar_dato_eq_zero, List.map_cons, List.mem_cons, not_or]
    by_cases h : d.clave = k
    · simp [h]
    · simp only [h, if_false, ih]
      constructor
      · intro h1; exact ⟨fun h2 => h h2.symm, h1⟩
      · intro h1; exact h1.2

theorem lista_buscar_some (l : lista_t dato_t) (k : Clave) (d : dato_t)
    (h : lista_buscar comparar_dato l k = some d) : d ∈ l ∧ d.clave = k := by
  induction l with
  | nil => simp [lista_buscar] at h
  | cons e r ih =>
    simp only [lista_buscar, comparar_dato_eq_zero] at h
    by_cases hk : e.clave = k
    · simp only [hk, if_true, Option.some.injEq] at h
      subst h
      exact ⟨List.mem_cons_self _ _, hk⟩
    · simp only [hk, if_false] at h
      exact ⟨List.mem_cons_of_mem _ (ih h).1, (ih h).2⟩

theorem lista_buscar_of_mem (l : lista_t dato_t) (d : dato_t)
    (hnd : (l.map dato_t.clave).Nodup) (hd : d ∈ l) :
    lista_buscar comparar_dato l d.clave = some d := by
  induction l with
  | nil => simp at hd
  | cons e r ih =>
    simp only [List.map_cons, List.nodup_cons] at hnd
    simp only [lista_buscar, comparar_dato_eq_zero]
    rcases List.mem_cons.1 hd with h | h
    · simp [h]
    · have hne : e.clave ≠ d.clave := by
        intro heq
        exact hnd.1 (heq ▸ List.mem_map_of_mem _ h)
      simp only [hne, if_false]
      exact ih hnd.2 h

theorem lista_buscar_append (l : lista_t dato_t) (e : dato_t) (k : Clave) :
    lista_buscar comparar_dato (l ++ [e]) k =
      match lista_buscar comparar_dato l k with
      | some d => some d
      | none => if e.clave = k then some e else none := by
  induction l with
  | nil => simp [lista_buscar, comparar_dato_eq_zero]
  | cons d r ih =>
    simp only [List.cons_append, lista_buscar, comparar_dato_eq_zero]
    by_cases h : d.clave = k
    · simp [h]
    · simp only [h, if_false]
      exact ih

/-! ## Bucket array lemmas -/

theorem getD_set_vector {α : Type} (v : List (Option α)) (i j : Nat) (x : Option α)
    (hi : i < v.length) :
    (v.set i x).getD j none = if j = i then x else v.getD j none := by
  simp only [List.getD_eq_getElem?_getD, List.getElem?_set]
  by_cases h : i = j
  · subst h; simp [hi]
  · have h2 : ¬ j = i := fun e => h e.symm
    simp [h, h2]

theorem total_vector_set (v : List (Option (lista_t dato_t))) (i : Nat)
    (x : Option (lista_t dato_t)) (hi : i < v.length) :
    total_vector (v.set i x) + ((v.getD i none).getD []).length =
      total_vector v + (x.getD []).length := by
  induction v generalizing i with
  | nil => simp at hi
  | cons a r ih =>
    cases i with
    | zero =>
      simp only [List.set_cons_zero, total_vector, List.map_cons, List.sum_cons,
        List.getD_cons_zero]
      omega
    | succ n =>
      have h1 := ih n (by simpa using hi)
      simp only [List.set_cons_succ, total_vector, List.map_cons, List.sum_cons,
        List.getD_cons_succ] at h1 ⊢
      omega

theorem total_vector_replicate (n : Nat) :
    total_vector (List.replicate n (none : Option (lista_t dato_t))) = 0 := by
  induction n with
  | zero => rfl
  | succ n ih =>
    simp only [total_vector, List.replicate_succ, List.map_cons, List.sum_cons] at ih ⊢
    simp [ih]

theorem getD_replicate_none {α : Type} (n j : Nat) :
    (List.replicate n (none : Option α)).getD j none = none := by
  simp only [List.getD_eq_getElem?_getD, List.getElem?_replicate]
  split <;> rfl

theorem ranuras_eq (v : List (Option (lista_t dato_t))) :
    ranuras v v.length = v := by
  apply List.ext_getElem
  · simp [ranuras]
  · intro n h1 h2
    simp [ranuras, List.getD_eq_getElem?_getD, List.getElem?_eq_getElem h2]

theorem vaciar_lista_false (l : lista_t dato_t) : vaciar_lista false l = [] := by
  induction l with
  | nil => rfl
  | cons d r ih => simp [vaciar_lista, ih]

theorem destruir_vector_hash_false (v : List (Option (lista_t dato_t))) (n : Nat) :
    destruir_vector_hash v n false = [] := by
  simp only [destruir_vector_hash, List.flatMap_eq_nil_iff]
  intro x _
  cases x with
  | none => rfl
  | some l => exact vaciar_lista_false l

/-! ## Lookup -/

theorem buscar_eq (hash : hash_t) (k : Clave) :
    buscar hash k =
      lista_buscar comparar_dato (cadena hash (obtener_hash k % hash.capacidad)) k := by
  simp only [buscar, hash_buscar, cadena]
  cases hash.vector.getD (obtener_hash k % hash.capacidad) none with
  | none => simp [lista_buscar]
  | some l => simp

theorem hash_obtener_eq (hash : hash_t) (k : Clave) :
    hash_obtener hash k = match buscar hash k with
      | none => 0
      | some d => d.elemento := rfl

theorem BienFormado.indice_lt {hash : hash_t} (hb : BienFormado hash) (k : Clave) :
    obtener_hash k % hash.capacidad < hash.vector.length := by
  rw [hb.largo]
  exact Nat.mod_lt _ (by have := hb.capacidad_min; omega)

theorem buscar_some_clave {hash : hash_t} {k : Clave} {d : dato_t}
    (h : buscar hash k = some d) : d.clave = k := by
  rw [buscar_eq] at h
  exact (lista_buscar_some _ _ _ h).2

theorem buscar_some_mem {hash : hash_t} {k : Clave} {d : dato_t}
    (h : buscar hash k = some d) : d ∈ cadena hash (obtener_hash k % hash.capacidad) := by
  rw [buscar_eq] at h
  exact (lista_buscar_some _ _ _ h).1

theorem buscar_of_mem {hash : hash_t} (hb : BienFormado hash) {i : Nat} {d : dato_t}
    (hd : d ∈ cadena hash i) : buscar hash d.clave = some d := by
  rw [buscar_eq, hb.posicion i d hd]
  exact lista_buscar_of_mem _ _ (hb.distintas i) hd

/-! ## Appending a new entry -/

theorem cadena_set (hash : hash_t) (i j : Nat) (x : Option (lista_t dato_t))
    (v : List (Option (lista_t dato_t))) (c n : Nat) (ds : List Nat) (m : Memoria)
    (hi : i < hash.vector.length) (hv : v = hash.vector.set i x) :
    cadena { capacidad := c, cantidad := n, vector := v, destructor := hash.destructor,
             destruidos := ds, memoria := m } j =
      if j = i then x.getD [] else cadena hash j := by
  subst hv
  simp only [cadena, getD_set_vector _ _ _ _ hi]
  split <;> rfl

theorem cadena_agregar {hash : hash_t} (hb : BienFormado hash) (k : Clave) (e : Nat)
    (j : Nat) :
    cadena (agregar hash k e) j =
      if j = obtener_hash k % hash.capacidad then
        cadena hash j ++ [{ elemento := e, clave := k }]
      else cadena hash j := by
  unfold agregar
  rw [cadena_set hash _ j _ _ _ _ _ _ (hb.indice_lt k) rfl]
  split
  · rename_i h; subst h; rfl
  · rfl

theorem buscar_agregar {hash : hash_t} (hb : BienFormado hash) (k : Clave) (e : Nat)
    (hk : buscar hash k = none) (k1 : Clave) :
    buscar (agregar hash k e) k1 =
      if k1 = k then some { elemento := e, clave := k } else buscar hash k1 := by
  rw [buscar_eq, cadena_agregar hb]
  have hcap : (agregar hash k e).capacidad = hash.capacidad := rfl
  rw [hcap]
  by_cases h1 : k1 = k
  · subst h1
    rw [buscar_eq] at hk
    simp [lista_buscar_append, hk]
  · simp only [h1, if_false]
    split
    · rename_i hi
      rw [lista_buscar_append, ← buscar_eq]
      cases hbk : buscar hash k1 with
      | none =>
        have : ¬ k = k1 := fun e => h1 e.symm
        simp [this]
      | some d => rfl
    · rw [← buscar_eq]

theorem total_agregar {hash : hash_t} (hb : BienFormado hash) (k : Clave) (e : Nat) :
    total (agregar hash k e) = total hash + 1 := by
  have h := total_vector_set hash.vector (obtener_hash k % hash.capacidad)
    (some (cadena hash (obtener_hash k % hash.capacidad) ++ [{ elemento := e, clave := k }]))
    (hb.indice_lt k)
  simp only [total, agregar, cadena, Option.getD_some, List.length_append,
    List.length_singleton] at h ⊢
  omega

theorem BienFormado_agregar {hash : hash_t} (hb : BienFormado hash) (k : Clave) (e : Nat)
    (hk : buscar hash k = none) : BienFormado (agregar hash k e) := by
  refine ⟨?_, hb.capacidad_min, ?_, ?_, ?_, hb.memoria⟩
  · simp [agregar, hb.largo]
  · intro i d hd
    rw [cadena_agregar hb] at hd
    have hcap : (agregar hash k e).capacidad = hash.capacidad := rfl
    rw [hcap]
    split at hd
    · rename_i hi
      rcases List.mem_append.1 hd with h | h
      · exact hb.posicion i d h
      · simp only [List.mem_singleton] at h
        subst h
        exact hi.symm
    · exact hb.posicion i d hd
  · intro i
    rw [cadena_agregar hb]
    split
    · rename_i hi
      subst hi
      rw [List.map_append, List.nodup_append]
      refine ⟨hb.distintas _, by simp, ?_⟩
      rw [buscar_eq, lista_buscar_eq_none] at hk
      intro a ha hb2
      simp only [List.map_cons, List.map_nil, List.mem_singleton] at hb2
      subst hb2
      exact hk ha
    · exact hb.distintas i
  · intro i
    simp only [agregar, getD_set_vector _ _ _ _ (hb.indice_lt k)]
    split
    · simp
    · exact hb.sin_vacias i

theorem escribir_elemento_claves (k : Clave) (e : Nat) (l : lista_t dato_t) :
    (escribir_elemento k e l).map dato_t.clave = l.map dato_t.clave := by
  induction l with
  | nil => rfl
  | cons d r ih =>
    simp only [escribir_elemento]
    split
    · rfl
    · simp [ih]

theorem escribir_elemento_length (k : Clave) (e : Nat) (l : lista_t dato_t) :
    (escribir_elemento k e l).length = l.length := by
  have h := congrArg List.length (escribir_elemento_claves k e l)
  simpa using h

theorem lista_buscar_escribir (k : Clave) (e : Nat) (l : lista_t dato_t) (k1 : Clave) :
    lista_buscar comparar_dato (escribir_elemento k e l) k1 =
      if k1 = k then (lista_buscar comparar_dato l k).map (fun _ => { elemento := e, clave := k })
      else lista_buscar comparar_dato l k1 := by
  induction l with
  | nil => simp [escribir_elemento, lista_buscar]
  | cons d r ih =>
    simp only [escribir_elemento, comparar_dato_eq_zero]
    by_cases hd : d.clave = k
    · simp only [hd, if_true, lista_buscar, comparar_dato_eq_zero]
      by_cases h1 : k1 = k
      · simp [h1]
      · have h2 : ¬ k = k1 := fun e => h1 e.symm
        simp [h1, h2, hd]
    · simp only [hd, if_false, lista_buscar, comparar_dato_eq_zero]
      by_cases h1 : k1 = k
      · subst h1
        simp only [hd, if_false, if_true] at ih ⊢
        exact ih
      · simp only [h1, if_false] at ih ⊢
        rw [ih]

theorem cadena_reemplazado {hash : hash_t} (k : Clave)
    (hi : obtener_hash k % hash.capacidad < hash.vector.length) (e : Nat)
    (d : dato_t) (j : Nat) :
    cadena (reemplazado hash k e d) j =
      if j = obtener_hash k % hash.capacidad then escribir_elemento k e (cadena hash j)
      else cadena hash j := by
  unfold reemplazado
  rw [cadena_set hash _ j _ _ _ _ _ _ hi rfl]
  split
  · rename_i h
    subst h
    simp only [cadena]
    cases hash.vector.getD (obtener_hash k % hash.capacidad) none with
    | none => simp [escribir_elemento]
    | some l => simp
  · rfl

theorem buscar_reemplazado {hash : hash_t} (k : Clave)
    (hi : obtener_hash k % hash.capacidad < hash.vector.length) (e : Nat)
    (d : dato_t) (hk : buscar hash k = some d) (k1 : Clave) :
    buscar (reemplazado hash k e d) k1 =
      if k1 = k then some { elemento := e, clave := k } else buscar hash k1 := by
  rw [buscar_eq, cadena_reemplazado k hi]
  have hcap : (reemplazado hash k e d).capacidad = hash.capacidad := rfl
  rw [hcap]
  by_cases h1 : k1 = k
  · subst h1
    rw [buscar_eq] at hk
    simp [lista_buscar_escribir, hk]
  · simp only [h1, if_false]
    split
    · rw [lista_buscar_escribir]
      simp only [h1, if_false]
      rw [← buscar_eq]
    · rw [← buscar_eq]

theorem total_reemplazado {hash : hash_t} (k : Clave)
    (hi : obtener_hash k % hash.capacidad < hash.vector.length) (e : Nat)
    (d : dato_t) : total (reemplazado hash k e d) = total hash := by
  have h := total_vector_set hash.vector (obtener_hash k % hash.capacidad)
    ((hash.vector.getD (obtener_hash k % hash.capacidad) none).map (escribir_elemento k e))
    hi
  simp only [total, reemplazado] at h ⊢
  cases hx : hash.vector.getD (obtener_hash k % hash.capacidad) none with
  | none =>
    rw [hx] at h
    simp only [Option.map_none', Option.getD_none, List.length_nil] at h ⊢
    omega
  | some l =>
    rw [hx] at h
    simp only [Option.map_some', Option.getD_some, escribir_elemento_length] at h ⊢
    omega

theorem BienFormado_reemplazado {hash : hash_t} (hb : BienFormado hash) (k : Clave) (e : Nat)
    (d : dato_t) : BienFormado (reemplazado hash k e d) := by
  refine ⟨?_, hb.capacidad_min, ?_, ?_, ?_, hb.memoria⟩
  · simp [reemplazado, hb.largo]
  · intro i x hx
    rw [cadena_reemplazado k (hb.indice_lt k)] at hx
    have hcap : (reemplazado hash k e d).capacidad = hash.capacidad := rfl
    rw [hcap]
    split at hx
    · have hm : x.clave ∈ (escribir_elemento k e (cadena hash i)).map dato_t.clave :=
        List.mem_map_of_mem _ hx
      rw [escribir_elemento_claves] at hm
      obtain ⟨y, hy, hyk⟩ := List.mem_map.1 hm
      rw [← hyk]
      exact hb.posicion i y hy
    · exact hb.posicion i x hx
  · intro i
    rw [cadena_reemplazado k (hb.indice_lt k)]
    split
    · rw [escribir_elemento_claves]; exact hb.distintas i
    · exact hb.distintas i
  · intro i
    simp only [reemplazado, getD_set_vector _ _ _ _ (hb.indice_lt k)]
    split
    · rename_i hi
      have h0 := hb.sin_vacias (obtener_hash k % hash.capacidad)
      cases hx : hash.vector.getD (obtener_hash k % hash.capacidad) none with
      | none => simp
      | some l =>
        simp only [Option.map_some', ne_eq, Option.some.injEq]
        intro hnil
        have hl := escribir_elemento_length k e l
        rw [hnil] at hl
        rw [hx] at h0
        apply h0
        simp only [List.length_nil] at hl
        rw [List.eq_nil_of_length_eq_zero hl.symm]
    · exact hb.sin_vacias i

/-! ## Unfolding `hash_insertar` -/

theorem hash_insertar_presente {hash : hash_t} (p : Nat) (k : Clave) (e : Nat) (d : dato_t)
    (hk : buscar hash k = some d) :
    hash_insertar (p + 1) hash k e = some (OK, reemplazado hash k e d) := by
  simp only [buscar] at hk
  simp only [hash_insertar, reemplazar, hk, reemplazado]
  simp

theorem hash_insertar_ausente {hash : hash_t} (hb : BienFormado hash) (p : Nat) (k : Clave)
    (e : Nat) (hk : buscar hash k = none) :
    hash_insertar (p + 1) hash k e =
      if 4 * ((hash.cantidad + 1) % TAM_SIZE_T) > 3 * hash.capacidad then
        rehash (hash_insertar p) (agregar hash k e)
      else some (OK, agregar hash k e) := by
  have hk1 := hk
  simp only [buscar] at hk1
  have hm := hb.memoria
  simp only [hash_insertar, reemplazar, hk1, crear_dato, hm, asignar, insertar]
  have hE : (ERROR = OK) = False := by simp [ERROR, OK]
  simp only [hE, if_false]
  cases hx : hash.vector.getD (obtener_hash k % hash.capacidad) none with
  | none =>
    simp only [lista_crear, asignar, lista_insertar]
    have h0 : ((0 : Int) = ERROR) = False := by simp [ERROR]
    simp only [h0, if_false, agregar, cadena, hx, Option.getD_none, List.nil_append, hm]
  | some l =>
    simp only [lista_insertar, asignar]
    have h0 : ((0 : Int) = ERROR) = False := by simp [ERROR]
    simp only [h0, if_false, agregar, cadena, hx, Option.getD_some, hm]

theorem memoria_eta (hash : hash_t) (hm : hash.memoria = []) :
    { hash with memoria := [] } = hash := by
  cases hash
  simp_all

theorem Reubica.refl {u : hash_t} (hb : BienFormado u) : Reubica u [] u :=
  ⟨hb, rfl, rfl, fun k => by simp [lista_buscar], by simp⟩

theorem Reubica.snoc {u0 u u1 : hash_t} {ds : List dato_t} {d : dato_t}
    (h1 : Reubica u0 ds u) (h2 : Reubica u [d] u1) (hd : d.clave ∉ ds.map dato_t.clave) :
    Reubica u0 (ds ++ [d]) u1 := by
  refine ⟨h2.bien, h2.destructor.trans h1.destructor, h2.destruidos.trans h1.destruidos,
    ?_, ?_⟩
  · intro k
    rw [h2.busca k, h1.busca k, lista_buscar_append]
    simp only [lista_buscar, comparar_dato_eq_zero]
    by_cases hk : d.clave = k
    · subst hk
      have hn := (lista_buscar_eq_none ds d.clave).2 hd
      simp [hn]
    · simp only [hk, if_false]
      cases lista_buscar comparar_dato ds k <;> rfl
  · rw [h2.suma, h1.suma]
    simp [Nat.add_assoc]

theorem Reubica_agregar {u : hash_t} (hb : BienFormado u) (d : dato_t)
    (hk : buscar u d.clave = none) : Reubica u [d] (agregar u d.clave d.elemento) := by
  refine ⟨BienFormado_agregar hb _ _ hk, rfl, rfl, ?_, ?_⟩
  · intro k
    rw [buscar_agregar hb _ _ hk]
    simp only [lista_buscar, comparar_dato_eq_zero]
    by_cases h : k = d.clave
    · subst h; simp
    · have h2 : ¬ d.clave = k := fun e => h e.symm
      simp [h, h2]
  · rw [total_agregar hb]
    rfl

theorem Reubica.fresca {u0 u : hash_t} {ds : List dato_t} (h : Reubica u0 ds u) (k : Clave)
    (h0 : buscar u0 k = none) (hk : k ∉ ds.map dato_t.clave) : buscar u k = none := by
  rw [h.busca k, (lista_buscar_eq_none ds k).2 hk]
  exact h0

/-- The chain loop of a growth pass, for an insertion routine `ins` that stores every new
entry and keeps the invariant `Inv`, indexed by the number of entries still to come. -/
theorem rehash_lista_bucle_inv (ins : hash_t → Clave → Nat → Option (Int × hash_t))
    (Inv : Nat → hash_t → Prop)
    (hins : ∀ n u d, Inv (n + 1) u → BienFormado u → buscar u d.clave = none →
      ∃ u1, ins u d.clave d.elemento = some (OK, u1) ∧ Inv n u1 ∧ Reubica u [d] u1)
    (u0 : hash_t) (h0 : ∀ k, buscar u0 k = none) :
    ∀ (l : List dato_t) (n : Nat) (ds : List dato_t) (u : hash_t),
      Reubica u0 ds u → Inv (l.length + n) u → ((ds ++ l).map dato_t.clave).Nodup →
      ∃ u1, rehash_lista_bucle ins u l = some (OK, u1) ∧ Inv n u1 ∧
        Reubica u0 (ds ++ l) u1 := by
  intro l
  induction l with
  | nil =>
    intro n ds u hr hi _
    refine ⟨u, rfl, ?_, ?_⟩
    · simpa using hi
    · simpa using hr
  | cons d r ih =>
    intro n ds u hr hi hnd
    have hnd1 : ((ds ++ [d] ++ r).map dato_t.clave).Nodup := by
      simpa [List.append_assoc] using hnd
    have hdn : d.clave ∉ ds.map dato_t.clave := by
      rw [List.map_append, List.nodup_append] at hnd
      intro hmem
      exact hnd.2.2 hmem (by simp)
    have hfr : buscar u d.clave = none := hr.fresca _ (h0 _) hdn
    have hi1 : Inv ((r.length + n) + 1) u := by
      have : (d :: r).length + n = (r.length + n) + 1 := by
        simp only [List.length_cons]; omega
      rw [this] at hi
      exact hi
    obtain ⟨u1, he, hi2, hr2⟩ := hins (r.length + n) u d hi1 hr.bien hfr
    obtain ⟨u2, he2, hi3, hr3⟩ := ih n (ds ++ [d]) u1 (hr.snoc hr2 hdn) hi2 hnd1
    refine ⟨u2, ?_, hi3, ?_⟩
    · simp only [rehash_lista_bucle, he]
      have hE : (OK = ERROR) = False := by simp [ERROR, OK]
      simp only [hE, if_false]
      exact he2
    · simpa [List.append_assoc] using hr3

theorem rehash_lista_eq (ins : hash_t → Clave → Nat → Option (Int × hash_t)) (u : hash_t)
    (hm : u.memoria = []) (l : lista_t dato_t) :
    rehash_lista ins u l = rehash_lista_bucle ins u l := by
  simp only [rehash_lista, lista_iterador_crear, hm, asignar]
  rw [← hm, show ({ u with memoria := u.memoria } : hash_t) = u from rfl]

/-- The slot loop of a growth pass, under the hypotheses of `rehash_lista_bucle_inv`. -/
theorem rehash_bucle_inv (ins : hash_t → Clave → Nat → Option (Int × hash_t))
    (Inv : Nat → hash_t → Prop)
    (hins : ∀ n u d, Inv (n + 1) u → BienFormado u → buscar u d.clave = none →
      ∃ u1, ins u d.clave d.elemento = some (OK, u1) ∧ Inv n u1 ∧ Reubica u [d] u1)
    (u0 : hash_t) (h0 : ∀ k, buscar u0 k = none) :
    ∀ (v : List (Option (lista_t dato_t))) (n : Nat) (ds : List dato_t) (u : hash_t),
      Reubica u0 ds u → Inv ((entradas_vector v).length + n) u →
      ((ds ++ entradas_vector v).map dato_t.clave).Nodup →
      ∃ u1, rehash_bucle ins u v = some (OK, u1) ∧ Inv n u1 ∧
        Reubica u0 (ds ++ entradas_vector v) u1 := by
  intro v
  induction v with
  | nil =>
    intro n ds u hr hi _
    refine ⟨u, rfl, ?_, ?_⟩
    · simpa [entradas_vector] using hi
    · simpa [entradas_vector] using hr
  | cons a r ih =>
    intro n ds u hr hi hnd
    cases a with
    | none =>
      have he : entradas_vector (none :: r) = entradas_vector r := by
        simp [entradas_vector]
      rw [he] at hi hnd ⊢
      obtain ⟨u1, h1, h2, h3⟩ := ih n ds u hr hi hnd
      exact ⟨u1, by simpa [rehash_bucle] using h1, h2, h3⟩
    | some l =>
      have he : entradas_vector (some l :: r) = l ++ entradas_vector r := by
        simp [entradas_vector]
      rw [he] at hi hnd ⊢
      have hi1 : Inv (l.length + ((entradas_vector r).length + n)) u := by
        have : (l ++ entradas_vector r).length + n
            = l.length + ((entradas_vector r).length + n) := by
          simp only [List.length_append]; omega
        rw [this] at hi
        exact hi
      have hnd1 : ((ds ++ l).map dato_t.clave).Nodup := by
        rw [← List.append_assoc, List.map_append] at hnd
        exact (List.nodup_append.1 hnd).1
      obtain ⟨u1, h1, h2, h3⟩ :=
        rehash_lista_bucle_inv ins Inv hins u0 h0 l _ ds u hr hi1 hnd1
      have hnd2 : ((ds ++ l ++ entradas_vector r).map dato_t.clave).Nodup := by
        simpa [List.append_assoc] using hnd
      obtain ⟨u2, h4, h5, h6⟩ := ih n (ds ++ l) u1 h3 h2 hnd2
      refine ⟨u2, ?_, h5, ?_⟩
      · simp only [rehash_bucle, rehash_lista_eq ins u hr.bien.memoria, h1]
        have hE : (OK = ERROR) = False := by simp [ERROR, OK]
        simp only [hE, if_false]
        exact h4
      · simpa [List.append_assoc] using h6

/-! ## The entries of a well-formed table -/

theorem mem_entradas_vector (v : List (Option (lista_t dato_t))) (d : dato_t) :
    d ∈ entradas_vector v ↔ ∃ i, d ∈ (v.getD i none).getD [] := by
  induction v with
  | nil => simp [entradas_vector]
  | cons a r ih =>
    have he : entradas_vector (a :: r) = a.getD [] ++ entradas_vector r := by
      simp [entradas_vector]
    rw [he, List.mem_append, ih]
    constructor
    · rintro (h | ⟨i, h⟩)
      · exact ⟨0, by simpa using h⟩
      · exact ⟨i + 1, by simpa using h⟩
    · rintro ⟨i, h⟩
      cases i with
      | zero => left; simpa using h
      | succ j => right; exact ⟨j, by simpa using h⟩

theorem length_entradas_vector (v : List (Option (lista_t dato_t))) :
    (entradas_vector v).length = total_vector v := by
  induction v with
  | nil => rfl
  | cons a r ih =>
    have he : entradas_vector (a :: r) = a.getD [] ++ entradas_vector r := by
      simp [entradas_vector]
    rw [he, List.length_append, ih]
    simp [total_vector]

/-- Keys are pairwise distinct along the entries of an array whose chains hold distinct
keys and whose entries sit in the slot `f key`, the array starting at slot `o`. -/
theorem nodup_entradas_vector (f : Clave → Nat) :
    ∀ (v : List (Option (lista_t dato_t))) (o : Nat),
      (∀ i, ∀ d ∈ (v.getD i none).getD [], f d.clave = o + i) →
      (∀ i, (((v.getD i none).getD []).map dato_t.clave).Nodup) →
      ((entradas_vector v).map dato_t.clave).Nodup := by
  intro v
  induction v with
  | nil => intro o _ _; simp [entradas_vector]
  | cons a r ih =>
    intro o hp hn
    have he : entradas_vector (a :: r) = a.getD [] ++ entradas_vector r := by
      simp [entradas_vector]
    rw [he, List.map_append, List.nodup_append]
    refine ⟨by simpa using hn 0, ?_, ?_⟩
    · apply ih (o + 1)
      · intro i d hd
        have := hp (i + 1) d (by simpa using hd)
        omega
      · intro i
        simpa using hn (i + 1)
    · intro k hk1 hk2
      obtain ⟨d1, hd1, rfl⟩ := List.mem_map.1 hk1
      obtain ⟨d2, hd2, hk⟩ := List.mem_map.1 hk2
      obtain ⟨i, hi⟩ := (mem_entradas_vector r d2).1 hd2
      have h1 := hp 0 d1 (by simpa using hd1)
      have h2 := hp (i + 1) d2 (by simpa using hi)
      rw [hk] at h2
      omega

theorem BienFormado.nodup_entradas {hash : hash_t} (hb : BienFormado hash) :
    ((entradas_vector hash.vector).map dato_t.clave).Nodup := by
  apply nodup_entradas_vector (fun k => obtener_hash k % hash.capacidad) hash.vector 0
  · intro i d hd
    simpa using hb.posicion i d hd
  · intro i
    exact hb.distintas i

theorem BienFormado.buscar_entradas {hash : hash_t} (hb : BienFormado hash) (k : Clave) :
    lista_buscar comparar_dato (entradas_vector hash.vector) k = buscar hash k := by
  cases h1 : lista_buscar comparar_dato (entradas_vector hash.vector) k with
  | none =>
    cases h2 : buscar hash k with
    | none => rfl
    | some d =>
      exfalso
      rw [lista_buscar_eq_none] at h1
      apply h1
      have hm := buscar_some_mem h2
      have hc := buscar_some_clave h2
      rw [← hc]
      exact List.mem_map_of_mem _ ((mem_entradas_vector _ _).2 ⟨_, hm⟩)
  | some d =>
    obtain ⟨hm, hc⟩ := lista_buscar_some _ _ _ h1
    obtain ⟨i, hi⟩ := (mem_entradas_vector _ _).1 hm
    rw [← hc]
    exact (buscar_of_mem hb hi).symm

/-! ## The growth pass -/

theorem capacidad_tabla_nueva (hash : hash_t) :
    2 * hash.capacidad ≤ (tabla_nueva hash).capacidad := by
  have h := siguiente_primo_ge (hash.capacidad * RATIO)
  simp only [tabla_nueva, RATIO] at h ⊢
  omega

theorem cadena_tabla_nueva (hash : hash_t) (i : Nat) : cadena (tabla_nueva hash) i = [] := by
  simp [cadena, tabla_nueva, getD_replicate_none]

theorem buscar_tabla_nueva (hash : hash_t) (k : Clave) : buscar (tabla_nueva hash) k = none := by
  rw [buscar_eq, cadena_tabla_nueva]
  rfl

theorem total_tabla_nueva (hash : hash_t) : total (tabla_nueva hash) = 0 := by
  simp [total, tabla_nueva, total_vector_replicate]

theorem BienFormado_tabla_nueva {hash : hash_t} (hb : BienFormado hash) :
    BienFormado (tabla_nueva hash) := by
  refine ⟨by simp [tabla_nueva], ?_, ?_, ?_, ?_, rfl⟩
  · have h1 := capacidad_tabla_nueva hash
    have h2 := hb.capacidad_min
    omega
  · intro i d hd
    rw [cadena_tabla_nueva] at hd
    simp at hd
  · intro i
    rw [cadena_tabla_nueva]
    simp
  · intro i
    simp [tabla_nueva, getD_replicate_none]

/-- A growth pass whose insertion routine keeps `Inv` completes and relocates every
entry. -/
theorem rehash_inv (ins : hash_t → Clave → Nat → Option (Int × hash_t))
    (Inv : Nat → hash_t → Prop)
    (hins : ∀ n u d, Inv (n + 1) u → BienFormado u → buscar u d.clave = none →
      ∃ u1, ins u d.clave d.elemento = some (OK, u1) ∧ Inv n u1 ∧ Reubica u [d] u1)
    (t : hash_t) (hb : BienFormado t) (hinv : Inv (total t) (tabla_nueva t)) :
    ∃ u1, rehash ins t = some (OK, u1) ∧ Inv 0 u1 ∧ BienFormado u1 ∧
      u1.destructor = t.destructor ∧ u1.destruidos = t.destruidos ∧
      (∀ k, buscar u1 k = buscar t k) ∧ total u1 = total t := by
  have hlen : (entradas_vector t.vector).length = total t := length_entradas_vector _
  have hinv1 : Inv ((entradas_vector t.vector).length + 0) (tabla_nueva t) := by
    rw [hlen]; exact hinv
  obtain ⟨u1, h1, h2, h3⟩ :=
    rehash_bucle_inv ins Inv hins (tabla_nueva t) (buscar_tabla_nueva t) t.vector 0 []
      (tabla_nueva t) (Reubica.refl (BienFormado_tabla_nueva hb)) hinv1
      (by simpa using hb.nodup_entradas)
  simp only [List.nil_append] at h3
  refine ⟨u1, ?_, h2, h3.bien, h3.destructor, h3.destruidos, ?_, ?_⟩
  · have hr : ranuras t.vector t.capacidad = t.vector := by
      rw [← hb.largo]; exact ranuras_eq _
    have hE : (OK = ERROR) = False := by simp [ERROR, OK]
    simp only [rehash, hb.memoria, asignar, hr]
    simp only [tabla_nueva, hb.memoria] at h1
    simp only [h1, hE, if_false, destruir_vector_hash_false, List.append_nil]
  · intro k
    rw [h3.busca k, hb.buscar_entradas k, buscar_tabla_nueva]
    cases buscar t k <;> rfl
  · rw [h3.suma, total_tabla_nueva, hlen]
    omega

/-- A growth pass into an array large enough for every entry of the table: no
re-insertion starts another pass, so one level of recursion completes it. -/
theorem rehash_interno (p : Nat) (t : hash_t) (hb : BienFormado t)
    (hc : 4 * total t ≤ 3 * siguiente_primo (t.capacidad * RATIO)) :
    ∃ u1, rehash (hash_insertar (p + 1)) t = some (OK, u1) ∧
      (u1.capacidad = siguiente_primo (t.capacidad * RATIO) ∧
        u1.cantidad = total u1 % TAM_SIZE_T) ∧
      BienFormado u1 ∧ u1.destructor = t.destructor ∧ u1.destruidos = t.destruidos ∧
      (∀ k, buscar u1 k = buscar t k) ∧ total u1 = total t := by
  have h := rehash_inv (hash_insertar (p + 1))
    (fun n u => u.capacidad = siguiente_primo (t.capacidad * RATIO) ∧
      u.cantidad = total u % TAM_SIZE_T ∧
      4 * (total u + n) ≤ 3 * siguiente_primo (t.capacidad * RATIO))
    ?_ t hb ?_
  · obtain ⟨u1, h1, h2, h3⟩ := h
    exact ⟨u1, h1, ⟨h2.1, h2.2.1⟩, h3⟩
  · intro n u d hi hbu hk
    obtain ⟨hcap, hcnt, hle⟩ := hi
    have hmod : (u.cantidad + 1) % TAM_SIZE_T = (total u + 1) % TAM_SIZE_T := by
      rw [hcnt]; simp [Nat.add_mod]
    have hsmall : (total u + 1) % TAM_SIZE_T ≤ total u + 1 := Nat.mod_le _ _
    refine ⟨agregar u d.clave d.elemento, ?_, ⟨hcap, ?_, ?_⟩, Reubica_agregar hbu d hk⟩
    · rw [hash_insertar_ausente hbu p _ _ hk, hmod, hcap]
      have : ¬ 4 * ((total u + 1) % TAM_SIZE_T) > 3 * siguiente_primo (t.capacidad * RATIO) := by
        omega
      simp only [this, if_false]
    · rw [total_agregar hbu]
      exact hmod
    · rw [total_agregar hbu]
      omega
  · refine ⟨rfl, ?_, ?_⟩
    · rw [total_tabla_nueva]
      rfl
    · rw [total_tabla_nueva]
      omega

theorem InvExterno.carga {c0 : Nat} {u : hash_t} (h : InvExterno c0 u) :
    4 * u.cantidad ≤ 3 * u.capacidad := by
  obtain ⟨_, h1, h2⟩ := h
  have hlt : total u % TAM_SIZE_T < TAM_SIZE_T := Nat.mod_lt _ (by simp [TAM_SIZE_T])
  rcases h2 with ⟨h3, h4⟩ | h3
  · rw [h1, Nat.mod_eq_of_lt h3]; exact h4
  · omega

/-- One re-insertion of an outer growth pass: it either appends, or appends and runs an
inner growth pass that `rehash_interno` completes. -/
theorem hash_insertar_externo (p : Nat) (c0 : Nat) (u : hash_t) (d : dato_t)
    (hi : InvExterno c0 u) (hbu : BienFormado u) (hk : buscar u d.clave = none) :
    ∃ u1, hash_insertar (p + 2) u d.clave d.elemento = some (OK, u1) ∧ InvExterno c0 u1 ∧
      Reubica u [d] u1 := by
  obtain ⟨hc0, hcnt, hload⟩ := hi
  have hW : TAM_SIZE_T = 18446744073709551616 := by simp [TAM_SIZE_T]
  have hmod : (u.cantidad + 1) % TAM_SIZE_T = (total u + 1) % TAM_SIZE_T := by
    rw [hcnt]; simp [Nat.add_mod]
  have hta := total_agregar hbu d.clave d.elemento
  have hba := BienFormado_agregar hbu d.clave d.elemento hk
  have hcapa : (agregar u d.clave d.elemento).capacidad = u.capacidad := rfl
  have hcnta : (agregar u d.clave d.elemento).cantidad = (u.cantidad + 1) % TAM_SIZE_T := rfl
  rw [hash_insertar_ausente hbu (p + 1) _ _ hk, hmod]
  by_cases htr : 4 * ((total u + 1) % TAM_SIZE_T) > 3 * u.capacidad
  · -- the load test fires: an inner growth pass
    simp only [htr, if_true]
    have hA : total u < TAM_SIZE_T ∧ 4 * total u ≤ 3 * u.capacidad := by
      rcases hload with h | h
      · exact h
      · exfalso
        have : (total u + 1) % TAM_SIZE_T < TAM_SIZE_T := Nat.mod_lt _ (by simp [TAM_SIZE_T])
        omega
    have hne : total u + 1 < TAM_SIZE_T := by
      rcases Nat.lt_or_ge (total u + 1) TAM_SIZE_T with h | h
      · exact h
      · exfalso
        have : total u + 1 = TAM_SIZE_T := by omega
        rw [this, Nat.mod_self] at htr
        omega
    have hsp := siguiente_primo_ge (u.capacidad * RATIO)
    have hcmin := hbu.capacidad_min
    have hpre : 4 * total (agregar u d.clave d.elemento)
        ≤ 3 * siguiente_primo ((agregar u d.clave d.elemento).capacidad * RATIO) := by
      rw [hta, hcapa]
      simp only [ RATIO] at hsp ⊢
      omega
    obtain ⟨u1, h1, ⟨h2, h3⟩, h4, h5, h6, h7, h8⟩ :=
      rehash_interno p (agregar u d.clave d.elemento) hba hpre
    refine ⟨u1, h1, ⟨?_, h3, ?_⟩, ⟨h4, h5, h6, ?_, ?_⟩⟩
    · rw [h2, hcapa]
      simp only [ RATIO] at hsp ⊢
      omega
    · left
      rw [h8, hta, h2, hcapa]
      simp only [ RATIO] at hsp ⊢
      omega
    · intro k
      rw [h7 k]
      exact (Reubica_agregar hbu d hk).busca k
    · rw [h8]
      exact (Reubica_agregar hbu d hk).suma
  · -- the load test does not fire
    simp only [htr, if_false]
    refine ⟨agregar u d.clave d.elemento, rfl, ⟨hc0, ?_, ?_⟩, Reubica_agregar hbu d hk⟩
    · rw [hta]; exact hmod
    · rw [hta, hcapa]
      rcases hload with ⟨h1, h2⟩ | h
      · rcases Nat.lt_or_ge (total u + 1) TAM_SIZE_T with h3 | h3
        · left
          rw [Nat.mod_eq_of_lt h3] at htr
          omega
        · right
          omega
      · right; exact h

/-- Every growth pass on a well-formed table completes within two further levels of
recursion; it relocates every entry, recounts them and ends below the load threshold. -/
theorem rehash_externo (p : Nat) (t : hash_t) (hb : BienFormado t) :
    ∃ u1, rehash (hash_insertar (p + 2)) t = some (OK, u1) ∧
      InvExterno (siguiente_primo (t.capacidad * RATIO)) u1 ∧
      BienFormado u1 ∧ u1.destructor = t.destructor ∧ u1.destruidos = t.destruidos ∧
      (∀ k, buscar u1 k = buscar t k) ∧ total u1 = total t := by
  apply rehash_inv (hash_insertar (p + 2))
    (fun _ u => InvExterno (siguiente_primo (t.capacidad * RATIO)) u) ?_ t hb ?_
  · intro n u d hi hbu hk
    exact hash_insertar_externo p _ u d hi hbu hk
  · refine ⟨Nat.le_refl _, ?_, ?_⟩
    · rw [total_tabla_nueva]; rfl
    · left
      rw [total_tabla_nueva]
      simp [TAM_SIZE_T]

/-- On a well-formed table `hash_insertar` returns `OK` within three levels of recursion. -/
theorem hash_insertar_tres (p : Nat) (t : hash_t) (hb : BienFormado t) (k : Clave) (e : Nat) :
    ∃ t1, hash_insertar (p + 3) t k e = some (OK, t1) ∧ Inserta t k e t1 := by
  cases hk : buscar t k with
  | some d =>
    refine ⟨reemplazado t k e d, hash_insertar_presente (p + 2) k e d hk, ?_⟩
    refine ⟨BienFormado_reemplazado hb k e d, rfl,
      buscar_reemplazado k (hb.indice_lt k) e d hk, ?_, ?_,
      ?_, ?_, ?_⟩
    · rw [hk]; rfl
    · rw [hk]; exact total_reemplazado k (hb.indice_lt k) e d
    · intro _; rw [hk]; rfl
    · intro h; rw [hk] at h; cases h
    · intro h; rw [hk] at h; cases h
  | none =>
    rw [hash_insertar_ausente hb (p + 2) k e hk]
    by_cases htr : 4 * ((t.cantidad + 1) % TAM_SIZE_T) > 3 * t.capacidad
    · simp only [htr, if_true]
      obtain ⟨u1, h1, h2, h3, h4, h5, h6, h7⟩ :=
        rehash_externo p (agregar t k e) (BienFormado_agregar hb k e hk)
      refine ⟨u1, h1, h3, h4, ?_, ?_, ?_, ?_, ?_, ?_⟩
      · intro k1
        rw [h6 k1]
        exact buscar_agregar hb k e hk k1
      · rw [h5, hk]
        show t.destruidos = t.destruidos ++ []
        simp
      · rw [h7, total_agregar hb, hk]
      · intro h; exact absurd hk h
      · intro _ hle; omega
      · intro _ _
        have hc := h2.1
        have hsp := siguiente_primo_ge ((agregar t k e).capacidad * RATIO)
        have hcapa : (agregar t k e).capacidad = t.capacidad := rfl
        rw [hcapa] at hc hsp
        simp only [ RATIO] at hc hsp
        exact ⟨by omega, h2.2.1, h2.carga⟩
    · simp only [htr, if_false]
      refine ⟨agregar t k e, rfl, BienFormado_agregar hb k e hk, rfl,
        buscar_agregar hb k e hk, ?_, ?_, ?_, ?_, ?_⟩
      · rw [hk]
        show t.destruidos = t.destruidos ++ []
        simp
      · rw [hk]; exact total_agregar hb k e
      · intro h; exact absurd hk h
      · intro _ _; rfl
      · intro _ h; omega

/-! ## A larger recursion bound never changes a result -/

theorem rehash_lista_bucle_mono (ins ins1 : hash_t → Clave → Nat → Option (Int × hash_t))
    (hm : ∀ h k e x, ins h k e = some x → ins1 h k e = some x) :
    ∀ (l : List dato_t) (u : hash_t) (x : Int × hash_t),
      rehash_lista_bucle ins u l = some x → rehash_lista_bucle ins1 u l = some x := by
  intro l
  induction l with
  | nil => intro u x h; exact h
  | cons d r ih =>
    intro u x h
    simp only [rehash_lista_bucle] at h ⊢
    cases hi : ins u d.clave d.elemento with
    | none => simp [hi] at h
    | some y =>
      obtain ⟨c, u1⟩ := y
      rw [hm _ _ _ _ hi]
      rw [hi] at h
      simp only at h ⊢
      split
      · rename_i hc; simpa [hc] using h
      · rename_i hc
        simp only [hc, if_false] at h
        exact ih u1 x h

theorem rehash_lista_mono (ins ins1 : hash_t → Clave → Nat → Option (Int × hash_t))
    (hm : ∀ h k e x, ins h k e = some x → ins1 h k e = some x)
    (l : List dato_t) (u : hash_t) (x : Int × hash_t)
    (h : rehash_lista ins u l = some x) : rehash_lista ins1 u l = some x := by
  simp only [rehash_lista] at h ⊢
  split at h
  · exact h
  · exact rehash_lista_bucle_mono ins ins1 hm _ _ _ h

theorem rehash_bucle_mono (ins ins1 : hash_t → Clave → Nat → Option (Int × hash_t))
    (hm : ∀ h k e x, ins h k e = some x → ins1 h k e = some x) :
    ∀ (v : List (Option (lista_t dato_t))) (u : hash_t) (x : Int × hash_t),
      rehash_bucle ins u v = some x → rehash_bucle ins1 u v = some x := by
  intro v
  induction v with
  | nil => intro u x h; exact h
  | cons a r ih =>
    intro u x h
    cases a with
    | none =>
      simp only [rehash_bucle] at h ⊢
      exact ih u x h
    | some l =>
      simp only [rehash_bucle] at h ⊢
      cases hi : rehash_lista ins u l with
      | none => simp [hi] at h
      | some y =>
        obtain ⟨c, u1⟩ := y
        rw [rehash_lista_mono ins ins1 hm _ _ _ hi]
        rw [hi] at h
        simp only at h ⊢
        split
        · rename_i hc; simpa [hc] using h
        · rename_i hc
          simp only [hc, if_false] at h
          exact ih u1 x h

theorem rehash_mono (ins ins1 : hash_t → Clave → Nat → Option (Int × hash_t))
    (hm : ∀ h k e x, ins h k e = some x → ins1 h k e = some x)
    (u : hash_t) (x : Int × hash_t) (h : rehash ins u = some x) :
    rehash ins1 u = some x := by
  simp only [rehash] at h ⊢
  split at h
  · exact h
  · rename_i m1 heq
    cases hi : rehash_bucle ins
        { u with vector := List.replicate (siguiente_primo (u.capacidad * RATIO)) none,
                 capacidad := siguiente_primo (u.capacidad * RATIO), cantidad := 0,
                 memoria := m1 } (ranuras u.vector u.capacidad) with
    | none => simp [hi] at h
    | some y =>
      rw [rehash_bucle_mono ins ins1 hm _ _ _ hi]
      rw [hi] at h
      exact h

theorem hash_insertar_succ (p : Nat) (hash : hash_t) (k : Clave) (e : Nat) :
    hash_insertar (p + 1) hash k e =
      match hash_insertar_inicio hash k e with
      | Sum.inl x => some x
      | Sum.inr hash3 => rehash (hash_insertar p) hash3 := by
  simp only [hash_insertar, hash_insertar_inicio]
  rcases reemplazar hash k e (obtener_hash k % hash.capacidad) with ⟨r, hash1⟩
  by_cases hrok : r = OK
  · simp only [hrok, if_true]
  · simp only [hrok, if_false]
    rcases crear_dato hash.memoria k e with ⟨_ | a, m1⟩
    · rfl
    · simp only
      rcases insertar { hash with memoria := m1 } a (obtener_hash k % hash.capacidad)
        with ⟨r2, hash2⟩
      by_cases h2 : r2 = ERROR
      · simp only [h2, if_true]
      · simp only [h2, if_false]
        split <;> rfl

theorem hash_insertar_mono (p : Nat) :
    ∀ (hash : hash_t) (k : Clave) (e : Nat) (x : Int × hash_t),
      hash_insertar p hash k e = some x → hash_insertar (p + 1) hash k e = some x := by
  induction p with
  | zero => intro hash k e x h; simp [hash_insertar] at h
  | succ p ih =>
    intro hash k e x h
    rw [hash_insertar_succ] at h ⊢
    cases hi : hash_insertar_inicio hash k e with
    | inl y => rw [hi] at h; exact h
    | inr h3 =>
      rw [hi] at h
      exact rehash_mono _ _ ih h3 x h

theorem hash_insertar_mono_le (p q : Nat) (hpq : p ≤ q) (hash : hash_t) (k : Clave) (e : Nat)
    (x : Int × hash_t) (h : hash_insertar p hash k e = some x) :
    hash_insertar q hash k e = some x := by
  induction q with
  | zero =>
    have : p = 0 := by omega
    subst this; exact h
  | succ q ih =>
    rcases Nat.lt_or_ge p (q + 1) with hlt | hge
    · exact hash_insertar_mono q _ _ _ _ (ih (by omega))
    · have : p = q + 1 := by omega
      subst this; exact h

/-- Whatever recursion bound lets `hash_insertar` return on a well-formed table, it
returns `OK` and the table `Inserta` describes. -/
theorem hash_insertar_estable (p : Nat) (t : hash_t) (hb : BienFormado t) (k : Clave) (e : Nat)
    (x : Int × hash_t) (h : hash_insertar p t k e = some x) :
    ∃ t1, x = (OK, t1) ∧ Inserta t k e t1 := by
  obtain ⟨t1, h1, h2⟩ := hash_insertar_tres 0 t hb k e
  refine ⟨t1, ?_, h2⟩
  rcases Nat.le_total p 3 with hle | hle
  · have h3 := hash_insertar_mono_le p 3 hle t k e x h
    rw [h1] at h3
    exact (Option.some.inj h3).symm
  · have h3 := hash_insertar_mono_le 3 p hle t k e _ h1
    rw [h] at h3
    exact Option.some.inj h3

/-- With a recursion bound of at least three `hash_insertar` returns on every well-formed
table. -/
theorem hash_insertar_ok (p : Nat) (hp : 3 ≤ p) (t : hash_t) (hb : BienFormado t) (k : Clave)
    (e : Nat) : ∃ t1, hash_insertar p t k e = some (OK, t1) ∧ Inserta t k e t1 := by
  obtain ⟨q, rfl⟩ := Nat.exists_eq_add_of_le hp
  rw [Nat.add_comm]
  exact hash_insertar_tres q t hb k e

theorem Inserta_contado {t t1 : hash_t} {k : Clave} {e : Nat} (h : Inserta t k e t1)
    (hb : BienFormado t) (hc : Contado t) : Contado t1 := by
  unfold Contado at hc ⊢
  cases hk : buscar t k with
  | some d =>
    have h1 := h.presente (by rw [hk]; simp)
    rw [h1, total_reemplazado k (hb.indice_lt k)]
    exact hc
  | none =>
    rcases Nat.lt_or_ge (3 * t.capacidad) (4 * ((t.cantidad + 1) % TAM_SIZE_T)) with h1 | h1
    · exact (h.crecer hk h1).2.1
    · rw [h.sin_crecer hk h1, total_agregar hb]
      show (t.cantidad + 1) % TAM_SIZE_T = (total t + 1) % TAM_SIZE_T
      rw [hc]
      simp [Nat.add_mod]

theorem lista_borrar_de_posicion_medio {α : Type} (pre : List α) (d : α) (r : List α) :
    (lista_borrar_de_posicion (pre ++ d :: r) pre.length).2 = pre ++ r := by
  have hne : lista_vacia (pre ++ d :: r) = false := by
    simp [lista_vacia, lista_elementos]
  have he : (pre ++ d :: r).eraseIdx pre.length = pre ++ r := by
    rw [List.eraseIdx_append_of_length_le (Nat.le_refl _)]
    simp
  simp only [lista_borrar_de_posicion, hne, lista_borrar, lista_elementos]
  by_cases h : pre.length ≥ (pre ++ d :: r).length - 1
  · simp only [h, if_true, Bool.false_eq_true, if_false]
    have hl : pre.length + 1 = (pre ++ d :: r).length := by
      simp only [List.length_append, List.length_cons] at h ⊢
      omega
    rw [List.dropLast_eq_eraseIdx hl, he]
  · simp only [h, if_false, Bool.false_eq_true]
    exact he

theorem hash_quitar_bucle_eq (dd : Bool) (k : Clave) :
    ∀ (it pre : List dato_t),
      hash_quitar_bucle dd k (pre ++ it) it pre.length =
        (pre ++ borrar_clave k it,
          match lista_buscar comparar_dato it k with
          | some x => if dd then [x.elemento] else []
          | none => []) := by
  intro it
  induction it with
  | nil => intro pre; simp [hash_quitar_bucle, borrar_clave, lista_buscar]
  | cons d r ih =>
    intro pre
    simp only [hash_quitar_bucle, borrar_clave, lista_buscar, comparar_dato_eq_zero]
    by_cases h : d.clave = k
    · simp only [h, if_true, lista_borrar_de_posicion_medio]
    · simp only [h, if_false]
      have h1 := ih (pre ++ [d])
      simp only [List.append_assoc, List.singleton_append, List.length_append,
        List.length_singleton] at h1
      exact h1

theorem borrar_clave_sublist (k : Clave) (l : lista_t dato_t) :
    (borrar_clave k l).Sublist l := by
  induction l with
  | nil => exact List.Sublist.refl _
  | cons d r ih =>
    simp only [borrar_clave]
    split
    · exact List.sublist_cons_self _ _
    · exact ih.cons₂ _

theorem lista_buscar_borrar_clave (k : Clave) (l : lista_t dato_t)
    (hnd : (l.map dato_t.clave).Nodup) (k1 : Clave) :
    lista_buscar comparar_dato (borrar_clave k l) k1 =
      if k1 = k then none else lista_buscar comparar_dato l k1 := by
  induction l with
  | nil => simp [borrar_clave, lista_buscar]
  | cons d r ih =>
    simp only [List.map_cons, List.nodup_cons] at hnd
    simp only [borrar_clave]
    by_cases hd : d.clave = k
    · simp only [hd, if_true, lista_buscar, comparar_dato_eq_zero]
      by_cases h1 : k1 = k
      · simp only [h1, if_true]
        rw [lista_buscar_eq_none]
        rw [← hd]
        exact hnd.1
      · have h2 : ¬ k = k1 := fun e => h1 e.symm
        simp only [h1, h2, if_false]
    · simp only [hd, if_false, lista_buscar, comparar_dato_eq_zero]
      by_cases h1 : k1 = k
      · subst h1
        simp only [hd, if_false, if_true]
        have := ih hnd.2
        simpa using this
      · have := ih hnd.2
        simp only [h1, if_false] at this ⊢
        rw [this]

theorem length_borrar_clave (k : Clave) (l : lista_t dato_t) :
    (borrar_clave k l).length +
      (match lista_buscar comparar_dato l k with
       | some _ => 1
       | none => 0) = l.length := by
  induction l with
  | nil => simp [borrar_clave, lista_buscar]
  | cons d r ih =>
    simp only [borrar_clave, lista_buscar, comparar_dato_eq_zero]
    by_cases hd : d.clave = k
    · simp [hd]
    · simp only [hd, if_false, List.length_cons]
      omega

theorem hash_quitar_eq {t : hash_t} (hb : BienFormado t) (k : Clave) :
    hash_quitar t k =
      if cadena t (obtener_hash k % t.capacidad) = [] then (ERROR, t) else (OK, quitado t k) := by
  have hne := hb.sin_vacias (obtener_hash k % t.capacidad)
  have hbq := buscar_eq t k
  simp only [hash_quitar, quitado, cadena] at hne hbq ⊢
  cases hx : t.vector.getD (obtener_hash k % t.capacidad) none with
  | none => simp
  | some l =>
    rw [hx] at hne hbq
    have hl : l ≠ [] := fun e => hne (by rw [e])
    have h1 := hash_quitar_bucle_eq t.destructor k l []
    simp only [List.nil_append, List.length_nil] at h1
    simp only [Option.getD_some] at hbq
    simp only [lista_iterador_crear, hb.memoria, asignar, h1, Option.getD_some, hl, if_false,
      hbq]

theorem capacidad_quitado (t : hash_t) (k : Clave) :
    (quitado t k).capacidad = t.capacidad := by
  cases t; rfl

theorem destructor_quitado (t : hash_t) (k : Clave) :
    (quitado t k).destructor = t.destructor := by
  cases t; rfl

theorem memoria_quitado (t : hash_t) (k : Clave) : (quitado t k).memoria = [] := by
  cases t; rfl

theorem cantidad_quitado (t : hash_t) (k : Clave) :
    (quitado t k).cantidad = (t.cantidad + TAM_SIZE_T - 1) % TAM_SIZE_T := by
  cases t; rfl

theorem destruidos_quitado (t : hash_t) (k : Clave) :
    (quitado t k).destruidos = t.destruidos ++
      (match buscar t k with
       | some d => if t.destructor then [d.elemento] else []
       | none => []) := by
  cases t; rfl

theorem vector_quitado (t : hash_t) (k : Clave) :
    (quitado t k).vector = t.vector.set (obtener_hash k % t.capacidad)
      (if lista_vacia (borrar_clave k (cadena t (obtener_hash k % t.capacidad))) then none
       else some (borrar_clave k (cadena t (obtener_hash k % t.capacidad)))) := by
  cases t; rfl

theorem cadena_quitado {t : hash_t} (hb : BienFormado t) (k : Clave) (j : Nat) :
    cadena (quitado t k) j =
      if j = obtener_hash k % t.capacidad then borrar_clave k (cadena t j)
      else cadena t j := by
  simp only [cadena, vector_quitado, getD_set_vector _ _ _ _ (hb.indice_lt k)]
  split
  · rename_i h
    subst h
    split
    · rename_i hv
      simp only [lista_vacia, lista_elementos, beq_iff_eq] at hv
      rw [List.eq_nil_of_length_eq_zero hv]
      rfl
    · rfl
  · rfl

theorem buscar_quitado {t : hash_t} (hb : BienFormado t) (k k1 : Clave) :
    buscar (quitado t k) k1 = if k1 = k then none else buscar t k1 := by
  rw [buscar_eq, cadena_quitado hb, capacidad_quitado]
  by_cases h1 : k1 = k
  · subst h1
    simp [lista_buscar_borrar_clave _ _ (hb.distintas _)]
  · simp only [h1, if_false]
    split
    · rw [lista_buscar_borrar_clave _ _ (hb.distintas _)]
      simp only [h1, if_false]
      rw [← buscar_eq]
    · rw [← buscar_eq]

theorem total_quitado {t : hash_t} (hb : BienFormado t) (k : Clave) :
    total (quitado t k) +
      (match buscar t k with
       | some _ => 1
       | none => 0) = total t := by
  have h := total_vector_set t.vector (obtener_hash k % t.capacidad)
    (if lista_vacia (borrar_clave k (cadena t (obtener_hash k % t.capacidad))) then none
     else some (borrar_clave k (cadena t (obtener_hash k % t.capacidad))))
    (hb.indice_lt k)
  have h2 := length_borrar_clave k (cadena t (obtener_hash k % t.capacidad))
  rw [← buscar_eq] at h2
  have h3 : ((if lista_vacia (borrar_clave k (cadena t (obtener_hash k % t.capacidad))) then none
     else some (borrar_clave k (cadena t (obtener_hash k % t.capacidad)))).getD []).length
     = (borrar_clave k (cadena t (obtener_hash k % t.capacidad))).length := by
    split
    · rename_i hv
      simp only [lista_vacia, lista_elementos, beq_iff_eq] at hv
      simp [hv]
    · rfl
  rw [h3] at h
  simp only [total, vector_quitado]
  simp only [cadena] at h h2 ⊢
  omega

theorem BienFormado_quitado {t : hash_t} (hb : BienFormado t) (k : Clave) :
    BienFormado (quitado t k) := by
  refine ⟨?_, ?_, ?_, ?_, ?_, memoria_quitado t k⟩
  · rw [vector_quitado, capacidad_quitado, List.length_set]
    exact hb.largo
  · rw [capacidad_quitado]; exact hb.capacidad_min
  · intro i d hd
    rw [cadena_quitado hb] at hd
    rw [capacidad_quitado]
    split at hd
    · exact hb.posicion i d ((borrar_clave_sublist k _).subset hd)
    · exact hb.posicion i d hd
  · intro i
    rw [cadena_quitado hb]
    split
    · exact ((borrar_clave_sublist k _).map _).nodup (hb.distintas i)
    · exact hb.distintas i
  · intro i
    rw [vector_quitado, getD_set_vector _ _ _ _ (hb.indice_lt k)]
    split
    · split
      · simp
      · rename_i hv
        simp only [lista_vacia, lista_elementos, beq_iff_eq] at hv
        simp only [ne_eq, Option.some.injEq]
        intro h
        exact hv (by rw [h]; rfl)
    · exact hb.sin_vacias i

theorem hash_quitar_spec {t : hash_t} (hb : BienFormado t) (k : Clave) :
    Quita t k (hash_quitar t k).1 (hash_quitar t k).2 := by
  rw [hash_quitar_eq hb]
  by_cases hc : cadena t (obtener_hash k % t.capacidad) = []
  · have hk : buscar t k = none := by
      rw [buscar_eq, hc]; rfl
    simp only [hc, if_true]
    refine ⟨hb, rfl, rfl, ?_, ?_, ?_, fun _ => ⟨rfl, rfl⟩, fun h => absurd hc h⟩
    · intro k1
      by_cases h1 : k1 = k
      · subst h1; simp [hk]
      · simp [h1]
    · rw [hk]; simp
    · rw [hk]; rfl
  · simp only [hc, if_false]
    exact ⟨BienFormado_quitado hb k, destructor_quitado t k, capacidad_quitado t k,
      buscar_quitado hb k, destruidos_quitado t k, total_quitado hb k,
      fun h => absurd h hc, fun _ => ⟨rfl, cantidad_quitado t k⟩⟩

/-! ## Creation and reachable tables -/

theorem hash_crear_eq (d : Bool) (c : Nat) :
    hash_crear [] d c = some
      { capacidad := siguiente_primo (if c < 3 then 3 else c), cantidad := 0,
        vector := List.replicate (siguiente_primo (if c < 3 then 3 else c)) none,
        destructor := d, destruidos := [], memoria := [] } := by
  simp [hash_crear, asignar]

theorem hash_crear_spec (d : Bool) (c : Nat) (t : hash_t) (h : hash_crear [] d c = some t) :
    BienFormado t ∧ t.cantidad = 0 ∧ total t = 0 ∧ (∀ k, buscar t k = none) ∧
      t.destruidos = [] ∧ t.destructor = d ∧
      t.capacidad = siguiente_primo (if c < 3 then 3 else c) := by
  rw [hash_crear_eq] at h
  have h1 := (Option.some.inj h).symm
  have hge := siguiente_primo_ge (if c < 3 then 3 else c)
  have hcad : ∀ i, cadena t i = [] := by
    intro i
    rw [h1]
    simp [cadena, getD_replicate_none]
  refine ⟨⟨?_, ?_, ?_, ?_, ?_, ?_⟩, ?_, ?_, ?_, ?_, ?_, ?_⟩
  · rw [h1]; simp
  · rw [h1]
    show 3 ≤ siguiente_primo (if c < 3 then 3 else c)
    by_cases hc3 : c < 3
    · simp only [hc3, if_true] at hge ⊢; exact hge
    · simp only [hc3, if_false] at hge ⊢; omega
  · intro i x hx
    rw [hcad] at hx
    simp at hx
  · intro i
    rw [hcad]
    simp
  · intro i
    rw [h1]
    simp [getD_replicate_none]
  · rw [h1]
  · rw [h1]
  · rw [h1]
    simp [total, total_vector_replicate]
  · intro k
    rw [buscar_eq, hcad]
    rfl
  · rw [h1]
  · rw [h1]
  · rw [h1]

/-- Every reachable table is well formed. -/
theorem Alcanzable.bien {t : hash_t} (h : Alcanzable t) : BienFormado t := by
  induction h with
  | crear d c t h => exact (hash_crear_spec d c t h).1
  | insertar p t k e r t1 _ hi ih =>
    obtain ⟨t2, h1, h2⟩ := hash_insertar_estable p t ih k e _ hi
    have h3 : t1 = t2 := (Prod.mk.inj h1).2
    rw [h3]
    exact h2.bien
  | quitar t k _ ih => exact (hash_quitar_spec ih k).bien

/-! ## Sequences of calls -/

theorem insertar_todos_spec (p : Nat) (hp : 3 ≤ p) :
    ∀ (pares : List (Clave × Nat)) (t : hash_t), BienFormado t →
      (pares.map Prod.fst).Nodup → (∀ k ∈ pares.map Prod.fst, buscar t k = none) →
      ∃ t1, insertar_todos p t pares = some t1 ∧ BienFormado t1 ∧
        total t1 = total t + pares.length ∧ (Contado t → Contado t1) ∧
        t1.destruidos = t.destruidos ∧ t1.destructor = t.destructor ∧
        (∀ k, k ∉ pares.map Prod.fst → buscar t1 k = buscar t k) ∧
        (∀ k e, (k, e) ∈ pares → buscar t1 k = some { elemento := e, clave := k }) := by
  intro pares
  induction pares with
  | nil =>
    intro t hb _ _
    exact ⟨t, rfl, hb, by simp, fun h => h, rfl, rfl, fun _ _ => rfl, by simp⟩
  | cons a r ih =>
    intro t hb hnd hfr
    obtain ⟨k, e⟩ := a
    simp only [List.map_cons, List.nodup_cons] at hnd
    have hk : buscar t k = none := hfr k (by simp)
    obtain ⟨t1, h1, h2⟩ := hash_insertar_ok p hp t hb k e
    have hfr1 : ∀ k1 ∈ r.map Prod.fst, buscar t1 k1 = none := by
      intro k1 hk1
      rw [h2.busca k1]
      have hne : k1 ≠ k := fun e1 => hnd.1 (e1 ▸ hk1)
      simp only [hne, if_false]
      exact hfr k1 (by simp [hk1])
    obtain ⟨t2, h3, h4, h5, h6, h7, h8, h9, h10⟩ := ih t1 h2.bien hnd.2 hfr1
    refine ⟨t2, ?_, h4, ?_, ?_, ?_, ?_, ?_, ?_⟩
    · simp only [insertar_todos, h1]
      exact h3
    · have hs := h2.suma
      rw [hk] at hs
      rw [h5, hs]
      simp only [List.length_cons]
      omega
    · intro hc
      exact h6 (Inserta_contado h2 hb hc)
    · have hd := h2.destruidos
      rw [hk] at hd
      rw [h7, hd]
      simp
    · rw [h8, h2.destructor]
    · intro k1 hk1
      simp only [List.map_cons, List.mem_cons, not_or] at hk1
      rw [h9 k1 hk1.2, h2.busca k1]
      simp [hk1.1]
    · intro k1 e1 hm
      rcases List.mem_cons.1 hm with h | h
      · have h11 := Prod.mk.inj h
        rw [h11.1, h11.2, h9 k hnd.1, h2.busca k]
        simp
      · exact h10 k1 e1 h

theorem Quita_contado {t t1 : hash_t} {k : Clave} {r : Int} (h : Quita t k r t1)
    (hk : buscar t k ≠ none) (hc : Contado t) : Contado t1 := by
  unfold Contado at hc ⊢
  have hne : cadena t (obtener_hash k % t.capacidad) ≠ [] := by
    intro he
    apply hk
    rw [buscar_eq, he]
    rfl
  have h1 := (h.ranura_ocupada hne).2
  have h2 := h.suma
  cases hb : buscar t k with
  | none => exact absurd hb hk
  | some d =>
    rw [hb] at h2
    simp only at h2
    rw [h1, hc, ← h2]
    simp only [TAM_SIZE_T]
    omega

theorem quitar_todos_spec :
    ∀ (orden : List Clave) (t : hash_t), BienFormado t → orden.Nodup →
      (∀ k ∈ orden, buscar t k ≠ none) →
      BienFormado (quitar_todos t orden) ∧
        total (quitar_todos t orden) + orden.length = total t ∧
        (Contado t → Contado (quitar_todos t orden)) ∧
        (∀ k, buscar (quitar_todos t orden) k = if k ∈ orden then none else buscar t k) ∧
        (quitar_todos t orden).capacidad = t.capacidad := by
  intro orden
  induction orden with
  | nil =>
    intro t hb _ _
    exact ⟨hb, rfl, fun h => h, fun k => by simp [quitar_todos], rfl⟩
  | cons k r ih =>
    intro t hb hnd hpr
    simp only [List.nodup_cons] at hnd
    have hq := hash_quitar_spec hb k
    have hk : buscar t k ≠ none := hpr k (by simp)
    have hpr1 : ∀ k1 ∈ r, buscar (hash_quitar t k).2 k1 ≠ none := by
      intro k1 hk1
      rw [hq.busca k1]
      have hne : k1 ≠ k := fun e1 => hnd.1 (e1 ▸ hk1)
      simp only [hne, if_false]
      exact hpr k1 (by simp [hk1])
    obtain ⟨h1, h2, h3, h4, h5⟩ := ih (hash_quitar t k).2 hq.bien hnd.2 hpr1
    simp only [quitar_todos]
    refine ⟨h1, ?_, ?_, ?_, ?_⟩
    · have hs := hq.suma
      cases hb1 : buscar t k with
      | none => exact absurd hb1 hk
      | some d =>
        rw [hb1] at hs
        simp only at hs
        simp only [List.length_cons]
        omega
    · intro hc
      exact h3 (Quita_contado hq hk hc)
    · intro k1
      rw [h4 k1, hq.busca k1]
      by_cases hk1 : k1 = k
      · subst hk1; simp
      · simp [hk1]
    · rw [h5, hq.capacidad]

/-! ## Tables without entries -/

theorem total_vector_eq_zero (v : List (Option (lista_t dato_t))) (h : total_vector v = 0) :
    ∀ i, (v.getD i none).getD [] = [] := by
  induction v with
  | nil => intro i; simp
  | cons a r ih =>
    simp only [total_vector, List.map_cons, List.sum_cons, Nat.add_eq_zero] at h
    intro i
    cases i with
    | zero =>
      simp only [List.getD_cons_zero]
      exact List.eq_nil_of_length_eq_zero h.1
    | succ j =>
      simp only [List.getD_cons_succ]
      exact ih h.2 j

theorem BienFormado_ranuras_ausentes {t : hash_t} (hb : BienFormado t) (h0 : total t = 0) :
    ∀ i, t.vector.getD i none = none := by
  intro i
  have h1 := total_vector_eq_zero t.vector h0 i
  have h2 := hb.sin_vacias i
  cases hx : t.vector.getD i none with
  | none => rfl
  | some l =>
    rw [hx] at h1 h2
    simp only [Option.getD_some] at h1
    rw [h1] at h2
    exact absurd rfl h2

theorem ranuras_ausentes (v : List (Option (lista_t dato_t))) (n : Nat)
    (h : ∀ i, v.getD i none = none) : ∀ x ∈ ranuras v n, x = none := by
  intro x hx
  simp only [ranuras, List.mem_map] at hx
  obtain ⟨i, _, hi⟩ := hx
  rw [← hi]
  exact h i

theorem con_cada_clave_bucle_ausentes (hash : hash_t) (f : hash_t → Clave → Bool) :
    ∀ (l : List (Option (lista_t dato_t))) (m : Memoria) (n : Nat) (vs : List Clave),
      (∀ x ∈ l, x = none) → con_cada_clave_bucle hash f l m n vs = (n, vs, m) := by
  intro l
  induction l with
  | nil => intro m n vs _; rfl
  | cons a r ih =>
    intro m n vs h
    have ha : a = none := h a (by simp)
    subst ha
    simp only [con_cada_clave_bucle]
    exact ih m n vs (fun x hx => h x (by simp [hx]))

theorem siguiente_bucket_bucle_ausentes (it : hash_iterador_t)
    (h : ∀ i, it.hash.vector.getD i none = none) :
    ∀ (n i : Nat), siguiente_bucket_bucle it n i = (none, it) := by
  intro n
  induction n with
  | zero => intro i; rfl
  | succ n ih =>
    intro i
    simp only [siguiente_bucket_bucle, h i]
    exact ih (i + 1)

theorem obtener_hash_ejemplos :
    obtener_hash [97] = 1730756 ∧ obtener_hash [98] = 1732483 ∧ obtener_hash [99] = 1708622 ∧
      obtener_hash [100] = 1708301 ∧ obtener_hash [120] = 1758785 := by
  decide

theorem rehash_eq_con (c : Nat) (ins : hash_t → Clave → Nat → Option (Int × hash_t))
    (hash : hash_t) (hc : siguiente_primo (hash.capacidad * RATIO) = c)
    (hm : hash.memoria = []) : rehash ins hash = rehash_con c ins hash := by
  subst hc
  unfold rehash rehash_con
  rw [hm]
  rfl

theorem hash_crear_tres (d : Bool) : hash_crear [] d 3 = some (tabla_tres d) := by
  rw [hash_crear_eq]
  simp only [Nat.lt_irrefl, if_false, siguiente_primo_tres]
  rfl

theorem hash_insertar_a (d : Bool) :
    hash_insertar 3 (tabla_tres d) [97] 1 = some (OK, tabla_a d) := by
  cases d <;> rfl

theorem hash_insertar_b (d : Bool) :
    hash_insertar 3 (tabla_a d) [98] 2 = some (OK, tabla_ab d) := by
  cases d <;> rfl

theorem hash_insertar_c (d : Bool) :
    hash_insertar 3 (tabla_ab d) [99] 3 = some (OK, tabla_abc d) := by
  rw [hash_insertar_succ]
  have h1 : hash_insertar_inicio (tabla_ab d) [99] 3 = Sum.inr (tabla_abc_llena d) := by
    cases d <;> rfl
  rw [h1]
  simp only
  rw [rehash_eq_con 7 _ (tabla_abc_llena d) siguiente_primo_seis rfl]
  cases d <;> rfl

theorem hash_insertar_d (d : Bool) :
    hash_insertar 3 (tabla_abc d) [100] 4 = some (OK, tabla_abcd d) := by
  cases d <;> rfl

theorem hash_insertar_x : hash_insertar 3 (tabla_tres true) [120] 10 = some (OK, tabla_x) := by
  rfl

theorem hash_insertar_a_nulo (d : Bool) :
    hash_insertar 3 (tabla_tres d) [97] 0 = some (OK, tabla_a_nulo d) := by
  cases d <;> rfl

theorem hash_quitar_c_ausente (d : Bool) :
    hash_quitar (tabla_a d) [99] = (OK, tabla_a_descontada d) := by
  cases d <;> rfl

theorem Alcanzable_tabla_tres (d : Bool) : Alcanzable (tabla_tres d) :=
  Alcanzable.crear d 3 _ (hash_crear_tres d)

theorem Alcanzable_tabla_a (d : Bool) : Alcanzable (tabla_a d) :=
  Alcanzable.insertar 3 _ [97] 1 OK _ (Alcanzable_tabla_tres d) (hash_insertar_a d)

theorem Alcanzable_tabla_ab (d : Bool) : Alcanzable (tabla_ab d) :=
  Alcanzable.insertar 3 _ [98] 2 OK _ (Alcanzable_tabla_a d) (hash_insertar_b d)

theorem Alcanzable_tabla_a_descontada (d : Bool) : Alcanzable (tabla_a_descontada d) := by
  have h := Alcanzable.quitar _ [99] (Alcanzable_tabla_a d)
  rw [hash_quitar_c_ausente] at h
  exact h

theorem Alcanzable_tabla_x : Alcanzable tabla_x :=
  Alcanzable.insertar 3 _ [120] 10 OK _ (Alcanzable_tabla_tres true) hash_insertar_x

theorem Alcanzable_tabla_a_nulo (d : Bool) : Alcanzable (tabla_a_nulo d) :=
  Alcanzable.insertar 3 _ [97] 0 OK _ (Alcanzable_tabla_tres d) (hash_insertar_a_nulo d)

/-! ## Supporting facts for the interface -/

theorem indice_de_hash_buscar {t : hash_t} {i : Nat} {k : Clave} {d : dato_t}
    (h : hash_buscar t i k = some d) : i < t.vector.length := by
  rcases Nat.lt_or_ge i t.vector.length with hlt | hge
  · exact hlt
  · exfalso
    have hn : t.vector.getD i none = none := by
      rw [List.getD_eq_getElem?_getD, List.getElem?_eq_none hge]
      rfl
    unfold hash_buscar at h
    rw [hn] at h
    cases h

/-- Removal of a stored key from a well-formed table. -/
theorem hash_quitar_presente {t : hash_t} (hb : BienFormado t) (k : Clave) (d : dato_t)
    (hk : buscar t k = some d) :
    (hash_quitar t k).1 = OK ∧ hash_obtener (hash_quitar t k).2 k = 0 ∧
      (hash_quitar t k).2.cantidad = (t.cantidad + TAM_SIZE_T - 1) % TAM_SIZE_T ∧
      (∀ k1, k1 ≠ k → hash_obtener (hash_quitar t k).2 k1 = hash_obtener t k1) ∧
      (hash_quitar t k).2.destruidos =
        t.destruidos ++ (if t.destructor then [d.elemento] else []) := by
  have hq := hash_quitar_spec hb k
  have hne : cadena t (obtener_hash k % t.capacidad) ≠ [] := by
    intro he
    rw [buscar_eq, he] at hk
    simp [lista_buscar] at hk
  refine ⟨(hq.ranura_ocupada hne).1, ?_, (hq.ranura_ocupada hne).2, ?_, ?_⟩
  · rw [hash_obtener_eq, hq.busca k]; simp
  · intro k1 hk1
    rw [hash_obtener_eq, hash_obtener_eq, hq.busca k1]; simp [hk1]
  · rw [hq.destruidos, hk]

/-- Removal of a key whose slot is absent: not found, table unchanged. -/
theorem hash_quitar_ranura_ausente {t : hash_t} (hb : BienFormado t) (k : Clave)
    (hs : t.vector.getD (obtener_hash k % t.capacidad) none = none) :
    hash_quitar t k = (ERROR, t) := by
  have hq := hash_quitar_spec hb k
  have hc : cadena t (obtener_hash k % t.capacidad) = [] := by
    unfold cadena
    rw [hs]
    rfl
  exact Prod.ext (hq.ranura_vacia hc).1 (hq.ranura_vacia hc).2

/-- What `hash_contiene` decides: a stored entry whose value is not `NULL`. -/
theorem hash_contiene_iff (t : hash_t) (k : Clave) :
    hash_contiene t k = true ↔
      ∃ d, hash_buscar t (obtener_hash k % t.capacidad) k = some d ∧ d.elemento ≠ 0 := by
  unfold hash_contiene
  rw [hash_obtener_eq]
  change _ ↔ ∃ d, buscar t k = some d ∧ d.elemento ≠ 0
  generalize buscar t k = x
  cases x with
  | none => simp
  | some d =>
    by_cases h : d.elemento = 0
    · simp [h]
    · simp [h]

theorem insertar_todos_cons (p : Nat) (t : hash_t) (k : Clave) (e : Nat)
    (r : List (Clave × Nat)) (x : Int) (t1 : hash_t)
    (h : hash_insertar p t k e = some (x, t1)) :
    insertar_todos p t ((k, e) :: r) = insertar_todos p t1 r := by
  rw [insertar_todos, h]

theorem insertar_todos_abc (d : Bool) :
    insertar_todos 3 (tabla_tres d) [([97], 1), ([98], 2), ([99], 3)] = some (tabla_abc d) := by
  rw [insertar_todos_cons 3 _ _ _ _ _ _ (hash_insertar_a d),
    insertar_todos_cons 3 _ _ _ _ _ _ (hash_insertar_b d),
    insertar_todos_cons 3 _ _ _ _ _ _ (hash_insertar_c d)]
  rfl

theorem insertar_todos_abcd (d : Bool) :
    insertar_todos 3 (tabla_tres d) [([97], 1), ([98], 2), ([99], 3), ([100], 4)] =
      some (tabla_abcd d) := by
  rw [insertar_todos_cons 3 _ _ _ _ _ _ (hash_insertar_a d),
    insertar_todos_cons 3 _ _ _ _ _ _ (hash_insertar_b d),
    insertar_todos_cons 3 _ _ _ _ _ _ (hash_insertar_c d),
    insertar_todos_cons 3 _ _ _ _ _ _ (hash_insertar_d d)]
  rfl

/-! ## Claims -/

/-- C1: on every table reachable from `hash_crear` by `hash_insertar` and `hash_quitar`
calls, `hash_insertar(table, k, v)` returns `OK` (three levels of recursion are enough);
afterwards `hash_obtener` gives `v` for `k` and, for every other key, what it gave before
the call, whether or not the call grew the table. -/
theorem hash_obtener_tras_insertar (t : hash_t) (ha : Alcanzable t) (k : Clave) (e p : Nat)
    (hp : 3 ≤ p) :
    ∃ t1, hash_insertar p t k e = some (OK, t1) ∧ hash_obtener t1 k = e ∧
      ∀ k1, k1 ≠ k → hash_obtener t1 k1 = hash_obtener t k1 := by
  obtain ⟨t1, h1, h2⟩ := hash_insertar_ok p hp t ha.bien k e
  refine ⟨t1, h1, ?_, ?_⟩
  · rw [hash_obtener_eq, h2.busca k]; simp
  · intro k1 hk1
    rw [hash_obtener_eq, hash_obtener_eq, h2.busca k1]; simp [hk1]

/-- Witness of C1: inserting `"c" ↦ 3` into the reachable table holding `"a"` and `"b"`,
a call that grows the table from 3 to 7 slots. -/
theorem hash_obtener_tras_insertar_testigo :
    Alcanzable (tabla_ab true) ∧ 3 ≤ 3 ∧
      ∃ t1, hash_insertar 3 (tabla_ab true) [99] 3 = some (OK, t1) ∧
        hash_obtener t1 [99] = 3 ∧
        ∀ k1, k1 ≠ [99] → hash_obtener t1 k1 = hash_obtener (tabla_ab true) k1 :=
  ⟨Alcanzable_tabla_ab true, by decide,
    hash_obtener_tras_insertar (tabla_ab true) (Alcanzable_tabla_ab true) [99] 3 3 (by decide)⟩

/-- C2: for every requested capacity and every list of pairs with pairwise distinct keys
(fewer than `2 ^ 64` of them, `hash_cantidad` being a `size_t`), inserting the pairs in order
into the freshly created table succeeds and leaves `hash_cantidad` equal to the number of
keys inserted, growth steps included. -/
theorem hash_cantidad_claves_distintas (d : Bool) (c p : Nat) (hp : 3 ≤ p)
    (pares : List (Clave × Nat)) (hnd : (pares.map Prod.fst).Nodup)
    (hlen : pares.length < TAM_SIZE_T) :
    ∃ t0 t, hash_crear [] d c = some t0 ∧ insertar_todos p t0 pares = some t ∧
      hash_cantidad t = pares.length := by
  obtain ⟨hb, hc0, ht0, hbus, _, _, _⟩ := hash_crear_spec d c _ (hash_crear_eq d c)
  obtain ⟨t, h1, _, h3, h4, _⟩ :=
    insertar_todos_spec p hp pares _ hb hnd (fun k _ => hbus k)
  refine ⟨_, t, hash_crear_eq d c, h1, ?_⟩
  have hcont : Contado t := h4 (by unfold Contado; rw [hc0, ht0]; rfl)
  unfold Contado at hcont
  rw [hash_cantidad, hcont, h3, ht0, Nat.zero_add]
  exact Nat.mod_eq_of_lt hlen

/-- Witness of C2: the four keys `"a"`, `"b"`, `"c"`, `"d"` in a table created with
capacity 3. -/
theorem hash_cantidad_claves_distintas_testigo :
    3 ≤ 3 ∧ ([([97], 1), ([98], 2), ([99], 3), ([100], 4)].map Prod.fst).Nodup ∧
      [([97], 1), ([98], 2), ([99], 3), ([100], 4)].length < TAM_SIZE_T ∧
      ∃ t0 t, hash_crear [] true 3 = some t0 ∧
        insertar_todos 3 t0 [([97], 1), ([98], 2), ([99], 3), ([100], 4)] = some t ∧
        hash_cantidad t = [([97], 1), ([98], 2), ([99], 3), ([100], 4)].length :=
  ⟨by decide, by decide, by decide,
    hash_cantidad_claves_distintas true 3 3 (by decide)
      [([97], 1), ([98], 2), ([99], 3), ([100], 4)] (by decide) (by decide)⟩

/-- C3: when the table stores key `k` in entry `d` (value `d.elemento`),
`hash_insertar(table, k, e)` returns `OK`, leaves `hash_cantidad` and the capacity
unchanged, creates no entry (same number of entries, same keys in every chain), makes
`hash_obtener(table, k)` return `e`, and calls the destructor, when one is registered,
exactly once, on `d.elemento`. -/
theorem hash_insertar_clave_repetida (t : hash_t) (k : Clave) (d : dato_t) (e p : Nat)
    (hk : hash_buscar t (obtener_hash k % t.capacidad) k = some d) :
    ∃ t1, hash_insertar (p + 1) t k e = some (OK, t1) ∧
      hash_cantidad t1 = hash_cantidad t ∧ t1.capacidad = t.capacidad ∧
      total t1 = total t ∧
      (∀ i, (cadena t1 i).map dato_t.clave = (cadena t i).map dato_t.clave) ∧
      hash_obtener t1 k = e ∧
      t1.destruidos = t.destruidos ++ (if t.destructor then [d.elemento] else []) := by
  have hi := indice_de_hash_buscar hk
  have hk1 : buscar t k = some d := hk
  refine ⟨reemplazado t k e d, hash_insertar_presente p k e d hk1, rfl, rfl,
    total_reemplazado k hi e d, ?_, ?_, rfl⟩
  · intro i
    rw [cadena_reemplazado k hi]
    split
    · exact escribir_elemento_claves k e _
    · rfl
  · rw [hash_obtener_eq, buscar_reemplazado k hi e d hk1]
    simp

/-- Witness of C3: insert `"x" ↦ 10`, then `"x" ↦ 20`: `hash_obtener` gives 20, the
count is 1 and the destructor was called once, on 10. -/
theorem hash_insertar_clave_repetida_testigo :
    hash_insertar 3 (tabla_tres true) [120] 10 = some (OK, tabla_x) ∧
      hash_buscar tabla_x (obtener_hash [120] % tabla_x.capacidad) [120] = some ⟨10, [120]⟩ ∧
      ∃ t1, hash_insertar 3 tabla_x [120] 20 = some (OK, t1) ∧ hash_obtener t1 [120] = 20 ∧
        hash_cantidad t1 = 1 ∧ t1.destruidos = [10] := by
  obtain ⟨t1, h1, h2, _, _, _, h6, h7⟩ :=
    hash_insertar_clave_repetida tabla_x [120] ⟨10, [120]⟩ 20 2 (by decide)
  exact ⟨hash_insertar_x, by decide, t1, h1, h6, h2, h7⟩

/-- C4, at the input where it fails: on the reachable table that stores `"a" ↦ 1` and
whose counter the removal of the absent key `"c"` has already brought to 0,
`hash_quitar(table, "a")` returns `OK` and leaves `hash_cantidad` at `2 ^ 64 - 1`. -/
theorem hash_quitar_contador_en_cero :
    Alcanzable (tabla_a_descontada false) ∧
      hash_buscar (tabla_a_descontada false)
        (obtener_hash [97] % (tabla_a_descontada false).capacidad) [97] = some ⟨1, [97]⟩ ∧
      hash_cantidad (tabla_a_descontada false) = 0 ∧
      (hash_quitar (tabla_a_descontada false) [97]).1 = OK ∧
      hash_cantidad (hash_quitar (tabla_a_descontada false) [97]).2 = 18446744073709551615 :=
  ⟨Alcanzable_tabla_a_descontada false, by decide, by decide, by decide, by decide⟩

/-- C5, at the input where it fails: the table stores only `"a"`; the absent key `"c"`
falls in the same slot; `hash_quitar(table, "c")` returns `OK` and takes `hash_cantidad`
from 1 to 0 while `"a"` stays stored. -/
theorem hash_quitar_ausente_en_cadena :
    Alcanzable (tabla_a false) ∧
      hash_buscar (tabla_a false) (obtener_hash [99] % (tabla_a false).capacidad) [99] = none ∧
      hash_cantidad (tabla_a false) = 1 ∧
      (hash_quitar (tabla_a false) [99]).1 = OK ∧
      hash_cantidad (hash_quitar (tabla_a false) [99]).2 = 0 ∧
      hash_obtener (hash_quitar (tabla_a false) [99]).2 [97] = 1 :=
  ⟨Alcanzable_tabla_a false, by decide, by decide, by decide, by decide, by decide⟩

/-- C6, at the input where it fails: after `hash_insertar(table, "a", NULL)` the entry
for `"a"` is stored, and `hash_contiene(table, "a")` is false. -/
theorem hash_contiene_valor_nulo :
    hash_insertar 3 (tabla_tres false) [97] 0 = some (OK, tabla_a_nulo false) ∧
      hash_buscar (tabla_a_nulo false)
        (obtener_hash [97] % (tabla_a_nulo false).capacidad) [97] = some ⟨0, [97]⟩ ∧
      hash_cantidad (tabla_a_nulo false) = 1 ∧
      hash_contiene (tabla_a_nulo false) [97] = false :=
  ⟨hash_insertar_a_nulo false, by decide, by decide, by decide⟩

/-- C7: on every reachable table, a `hash_insertar` call that triggers growth (the key is
not stored and the counter, once incremented, exceeds 0.75 of the capacity) returns `OK`
with a larger capacity and `hash_cantidad <= 0.75 * capacity`. -/
theorem carga_tras_crecer (t : hash_t) (ha : Alcanzable t) (k : Clave) (e p : Nat)
    (hp : 3 ≤ p) (hk : hash_buscar t (obtener_hash k % t.capacidad) k = none)
    (hcarga : 3 * t.capacidad < 4 * ((t.cantidad + 1) % TAM_SIZE_T)) :
    ∃ t1, hash_insertar p t k e = some (OK, t1) ∧ 2 * t.capacidad ≤ t1.capacidad ∧
      4 * hash_cantidad t1 ≤ 3 * t1.capacidad := by
  obtain ⟨t1, h1, h2⟩ := hash_insertar_ok p hp t ha.bien k e
  have h3 := h2.crecer hk hcarga
  exact ⟨t1, h1, h3.1, h3.2.2⟩

/-- Witness of C7: the third insert into a table created with capacity 3. -/
theorem carga_tras_crecer_testigo :
    Alcanzable (tabla_ab false) ∧ 3 ≤ 3 ∧
      hash_buscar (tabla_ab false) (obtener_hash [99] % (tabla_ab false).capacidad) [99] = none ∧
      3 * (tabla_ab false).capacidad < 4 * (((tabla_ab false).cantidad + 1) % TAM_SIZE_T) ∧
      ∃ t1, hash_insertar 3 (tabla_ab false) [99] 3 = some (OK, t1) ∧
        2 * (tabla_ab false).capacidad ≤ t1.capacidad ∧
        4 * hash_cantidad t1 ≤ 3 * t1.capacidad :=
  ⟨Alcanzable_tabla_ab false, by decide, by decide, by decide,
    carga_tras_crecer (tabla_ab false) (Alcanzable_tabla_ab false) [99] 3 3 (by decide)
      (by decide) (by decide)⟩

/-- C8: on the table `hash_crear(destructor, 3)` returns, after inserting `"a"`, `"b"`,
`"c"`, `"d"` with values 1, 2, 3, 4 in that order, the capacity is 7, `hash_cantidad` is 4,
`hash_obtener` gives 1, 2, 3, 4 for the four keys, and the destructor was never called. -/
theorem ejemplo_cuatro_claves (d : Bool) :
    ∃ t0 t, hash_crear [] d 3 = some t0 ∧
      insertar_todos 3 t0 [([97], 1), ([98], 2), ([99], 3), ([100], 4)] = some t ∧
      t.capacidad = 7 ∧ hash_cantidad t = 4 ∧
      hash_obtener t [97] = 1 ∧ hash_obtener t [98] = 2 ∧ hash_obtener t [99] = 3 ∧
      hash_obtener t [100] = 4 ∧ t.destruidos = [] := by
  refine ⟨tabla_tres d, tabla_abcd d, hash_crear_tres d, insertar_todos_abcd d,
    rfl, rfl, ?_, ?_, ?_, ?_, rfl⟩ <;> cases d <;> rfl

/-- C9, refuted as stated: in the table created with capacity 3 the capacity is already 7,
not 3, once `"a"`, `"b"`, `"c"` are inserted. -/
theorem ejemplo_tres_claves_capacidad :
    ∃ t0 t, hash_crear [] false 3 = some t0 ∧
      insertar_todos 3 t0 [([97], 1), ([98], 2), ([99], 3)] = some t ∧
      t.capacidad = 7 ∧ t.capacidad ≠ 3 := by
  exact ⟨tabla_tres false, tabla_abc false, hash_crear_tres false, insertar_todos_abc false,
    rfl, by decide⟩

/-- C9, amended: in the table created with capacity 3, growth fires on the third insert,
at load factor 3/3: the capacity is 3 after `"a"` and after `"b"` (2 entries in 3 slots),
becomes 7 when `"c"` is inserted, and is still 7 once `"d"` is inserted (4 entries in 7
slots). -/
theorem ejemplo_crece_en_el_tercero (d : Bool) :
    ∃ t0 t1 t2 t3 t4, hash_crear [] d 3 = some t0 ∧
      hash_insertar 3 t0 [97] 1 = some (OK, t1) ∧ hash_insertar 3 t1 [98] 2 = some (OK, t2) ∧
      hash_insertar 3 t2 [99] 3 = some (OK, t3) ∧ hash_insertar 3 t3 [100] 4 = some (OK, t4) ∧
      t0.capacidad = 3 ∧ t1.capacidad = 3 ∧ t2.capacidad = 3 ∧ hash_cantidad t2 = 2 ∧
      3 * t2.capacidad < 4 * (hash_cantidad t2 + 1) ∧
      t3.capacidad = 7 ∧ hash_cantidad t3 = 3 ∧ t4.capacidad = 7 ∧ hash_cantidad t4 = 4 := by
  refine ⟨tabla_tres d, tabla_a d, tabla_ab d, tabla_abc d, tabla_abcd d, hash_crear_tres d,
    hash_insertar_a d, hash_insertar_b d, hash_insertar_c d, hash_insertar_d d,
    rfl, rfl, rfl, rfl, by show 3 * 3 < 4 * (2 + 1); decide, rfl, rfl, rfl, rfl⟩

/-- C10: insert pairs with pairwise distinct keys into a freshly created table, then
`hash_quitar` every inserted key, in any order: `hash_cantidad` is 0, `hash_obtener` misses
and `hash_contiene` is false for every key, every bucket slot is absent,
`hash_con_cada_clave` calls its function on no key and returns 0, and a key iterator has no
next key. -/
theorem quitar_todas_deja_vacia (d : Bool) (c p : Nat) (hp : 3 ≤ p)
    (pares : List (Clave × Nat)) (orden : List Clave)
    (hnd : (pares.map Prod.fst).Nodup) (hperm : orden.Perm (pares.map Prod.fst)) :
    ∃ t0 t, hash_crear [] d c = some t0 ∧ insertar_todos p t0 pares = some t ∧
      hash_cantidad (quitar_todos t orden) = 0 ∧
      (∀ k, hash_obtener (quitar_todos t orden) k = 0) ∧
      (∀ k, hash_contiene (quitar_todos t orden) k = false) ∧
      (quitar_todos t orden).vector.length = (quitar_todos t orden).capacidad ∧
      (∀ i, (quitar_todos t orden).vector.getD i none = none) ∧
      (∀ f, (hash_con_cada_clave (quitar_todos t orden) f).1 = 0 ∧
        (hash_con_cada_clave (quitar_todos t orden) f).2.1 = []) ∧
      ∃ it, hash_iterador_crear (quitar_todos t orden) = some it ∧
        hash_iterador_tiene_siguiente it = false ∧ (hash_iterador_siguiente it).1 = none := by
  obtain ⟨hb, hc0, ht0, hbus, _, _, _⟩ := hash_crear_spec d c _ (hash_crear_eq d c)
  obtain ⟨t, h1, h2, h3, h4, _, _, h7, h8⟩ :=
    insertar_todos_spec p hp pares _ hb hnd (fun k _ => hbus k)
  have hcont : Contado t := h4 (by unfold Contado; rw [hc0, ht0]; rfl)
  have hpres : ∀ k ∈ orden, buscar t k ≠ none := by
    intro k hk
    have hk1 : k ∈ pares.map Prod.fst := hperm.subset hk
    obtain ⟨a, ha, hak⟩ := List.mem_map.1 hk1
    obtain ⟨k2, e2⟩ := a
    simp only at hak
    subst hak
    rw [h8 k2 e2 ha]
    simp
  have hndo : orden.Nodup := hperm.symm.nodup hnd
  obtain ⟨q1, q2, q3, q4, _⟩ := quitar_todos_spec orden t h2 hndo hpres
  have hlen : orden.length = pares.length := by
    rw [hperm.length_eq, List.length_map]
  have htot : total (quitar_todos t orden) = 0 := by
    rw [h3, ht0] at q2
    omega
  have hq := q3 hcont
  unfold Contado at hq
  have hbn : ∀ k, buscar (quitar_todos t orden) k = none := by
    intro k
    rw [q4 k]
    split
    · rfl
    · rename_i hk
      have hk1 : k ∉ pares.map Prod.fst := fun hm => hk (hperm.symm.subset hm)
      rw [h7 k hk1]
      exact hbus k
  have haus := BienFormado_ranuras_ausentes q1 htot
  refine ⟨_, t, hash_crear_eq d c, h1, ?_, ?_, ?_, q1.largo, haus, ?_, ?_⟩
  · rw [hash_cantidad, hq, htot]
    rfl
  · intro k
    rw [hash_obtener_eq, hbn k]
  · intro k
    simp only [hash_contiene]
    rw [hash_obtener_eq, hbn k]
    rfl
  · intro f
    have h := con_cada_clave_bucle_ausentes (quitar_todos t orden) f
      (ranuras (quitar_todos t orden).vector (quitar_todos t orden).capacidad)
      (quitar_todos t orden).memoria 0 [] (ranuras_ausentes _ _ haus)
    simp only [hash_con_cada_clave, h, and_self]
  · have hm := q1.memoria
    have hs := siguiente_bucket_bucle_ausentes
      ⟨{ quitar_todos t orden with memoria := [] }, 0, none⟩ haus
    refine ⟨⟨{ quitar_todos t orden with memoria := [] }, 0, none⟩, ?_, rfl, rfl⟩
    simp only [hash_iterador_crear, hm, asignar, siguiente_elemento, siguiente_bucket, hs]

/-- Witness of C10: `"a"`, `"b"`, `"c"`, `"d"` inserted into a table created with capacity
3 and removed in the order `"c"`, `"a"`, `"d"`, `"b"`. -/
theorem quitar_todas_deja_vacia_testigo :
    3 ≤ 3 ∧ ([([97], 1), ([98], 2), ([99], 3), ([100], 4)].map Prod.fst).Nodup ∧
      [[99], [97], [100], [98]].Perm
        ([([97], 1), ([98], 2), ([99], 3), ([100], 4)].map Prod.fst) ∧
      ∃ t0 t, hash_crear [] true 3 = some t0 ∧
        insertar_todos 3 t0 [([97], 1), ([98], 2), ([99], 3), ([100], 4)] = some t ∧
        hash_cantidad (quitar_todos t [[99], [97], [100], [98]]) = 0 ∧
        (∀ i, (quitar_todos t [[99], [97], [100], [98]]).vector.getD i none = none) := by
  have hperm : [[99], [97], [100], [98]].Perm
      ([([97], 1), ([98], 2), ([99], 3), ([100], 4)].map Prod.fst) := by decide
  obtain ⟨t0, t, h1, h2, h3, _, _, _, h7, _⟩ :=
    quitar_todas_deja_vacia true 3 3 (by decide) [([97], 1), ([98], 2), ([99], 3), ([100], 4)]
      [[99], [97], [100], [98]] (by decide) hperm
  exact ⟨by decide, by decide, hperm, t0, t, h1, h2, h3, h7⟩

/-! ## Traversal lemmas -/

theorem entradas_vector_cons (a : Option (lista_t dato_t)) (r : List (Option (lista_t dato_t))) :
    entradas_vector (a :: r) = a.getD [] ++ entradas_vector r := by
  simp [entradas_vector]

theorem con_cada_clave_lista_append (hash : hash_t) (f : hash_t → Clave → Bool) :
    ∀ (l1 l2 : lista_t dato_t) (n : Nat) (vs : List Clave),
      con_cada_clave_lista hash f (l1 ++ l2) n vs =
        match con_cada_clave_lista hash f l1 n vs with
        | (true, n1, vs1) => (true, n1, vs1)
        | (false, n1, vs1) => con_cada_clave_lista hash f l2 n1 vs1 := by
  intro l1
  induction l1 with
  | nil => intro l2 n vs; simp [con_cada_clave_lista]
  | cons d r ih =>
    intro l2 n vs
    simp only [List.cons_append, con_cada_clave_lista]
    split
    · rfl
    · exact ih l2 _ _

/-- The slot loop of `hash_con_cada_clave` is its chain loop run over the concatenation of
the chains, when no chain iterator fails to allocate. -/
theorem con_cada_clave_bucle_eq (hash : hash_t) (f : hash_t → Clave → Bool) :
    ∀ (v : List (Option (lista_t dato_t))) (n : Nat) (vs : List Clave),
      con_cada_clave_bucle hash f v [] n vs =
        ((con_cada_clave_lista hash f (entradas_vector v) n vs).2.1,
         (con_cada_clave_lista hash f (entradas_vector v) n vs).2.2, []) := by
  intro v
  induction v with
  | nil => intro n vs; rfl
  | cons a r ih =>
    intro n vs
    cases a with
    | none =>
      rw [entradas_vector_cons]
      simp only [con_cada_clave_bucle, Option.getD_none, List.nil_append]
      exact ih n vs
    | some l =>
      rw [entradas_vector_cons, Option.getD_some, con_cada_clave_lista_append]
      simp only [con_cada_clave_bucle, lista_iterador_crear, asignar]
      rcases con_cada_clave_lista hash f l n vs with ⟨b, n1, vs1⟩
      cases b with
      | true => rfl
      | false => exact ih n1 vs1

theorem con_cada_clave_lista_nunca (hash : hash_t) (f : hash_t → Clave → Bool) :
    ∀ (l : lista_t dato_t) (n : Nat) (vs : List Clave),
      (∀ d ∈ l, f hash d.clave = false) → n < TAM_SIZE_T →
      con_cada_clave_lista hash f l n vs =
        (false, (n + l.length) % TAM_SIZE_T, vs ++ l.map dato_t.clave) := by
  intro l
  induction l with
  | nil =>
    intro n vs _ hn
    simp [con_cada_clave_lista, Nat.mod_eq_of_lt hn]
  | cons d r ih =>
    intro n vs hf hn
    have hd : f hash d.clave = false := hf d (List.mem_cons_self _ _)
    have hW : 0 < TAM_SIZE_T := by decide
    rw [con_cada_clave_lista, hd]
    simp only [Bool.false_eq_true, if_false]
    rw [ih _ _ (fun x hx => hf x (List.mem_cons_of_mem _ hx)) (Nat.mod_lt _ hW)]
    have h1 : ((n + 1) % TAM_SIZE_T + r.length) % TAM_SIZE_T =
        (n + (d :: r).length) % TAM_SIZE_T := by
      rw [List.length_cons, Nat.add_mod, Nat.mod_mod, ← Nat.add_mod]
      congr 1
      omega
    rw [h1]
    simp

theorem con_cada_clave_lista_primera (hash : hash_t) (f : hash_t → Clave → Bool)
    (pre : List dato_t) (d : dato_t) (post : List dato_t) (n : Nat) (vs : List Clave)
    (hpre : ∀ x ∈ pre, f hash x.clave = false) (hd : f hash d.clave = true)
    (hn : n < TAM_SIZE_T) :
    con_cada_clave_lista hash f (pre ++ d :: post) n vs =
      (true, (n + pre.length + 1) % TAM_SIZE_T, vs ++ pre.map dato_t.clave ++ [d.clave]) := by
  rw [con_cada_clave_lista_append, con_cada_clave_lista_nunca hash f pre n vs hpre hn]
  simp only
  rw [con_cada_clave_lista, hd]
  simp only [if_true]
  rw [Nat.add_mod, Nat.mod_mod, ← Nat.add_mod]

theorem primera_que_cumple {α : Type} (p : α → Bool) :
    ∀ l : List α, (∃ x ∈ l, p x = true) →
      ∃ pre d post, l = pre ++ d :: post ∧ (∀ x ∈ pre, p x = false) ∧ p d = true := by
  intro l
  induction l with
  | nil => rintro ⟨x, hx, _⟩; cases hx
  | cons a r ih =>
    rintro ⟨x, hx, hp⟩
    cases ha : p a with
    | true => exact ⟨[], a, r, rfl, (fun x hx => by cases hx), ha⟩
    | false =>
      have hr : ∃ x ∈ r, p x = true := by
        rcases List.mem_cons.1 hx with h | h
        · subst h; rw [ha] at hp; cases hp
        · exact ⟨x, h, hp⟩
      obtain ⟨pre, d, post, h1, h2, h3⟩ := ih hr
      refine ⟨a :: pre, d, post, by rw [h1]; rfl, ?_, h3⟩
      intro y hy
      rcases List.mem_cons.1 hy with h | h
      · subst h; exact ha
      · exact h2 y h

/-! ## Iterator lemmas -/

theorem ranuras_length (v : List (Option (lista_t dato_t))) (c : Nat) :
    (ranuras v c).length = c := by
  simp [ranuras]

theorem ranuras_drop (v : List (Option (lista_t dato_t))) (c i : Nat) (h : i < c) :
    (ranuras v c).drop i = v.getD i none :: (ranuras v c).drop (i + 1) := by
  have hl : i < (ranuras v c).length := by rw [ranuras_length]; exact h
  rw [List.drop_eq_getElem_cons hl]
  congr 1
  simp [ranuras]

theorem entradas_desde_fin (hash : hash_t) (i : Nat) (h : hash.capacidad ≤ i) :
    entradas_desde hash i = [] := by
  unfold entradas_desde
  rw [List.drop_of_length_le (by rw [ranuras_length]; exact h)]
  rfl

theorem entradas_desde_succ (hash : hash_t) (i : Nat) (h : i < hash.capacidad) :
    entradas_desde hash i = (hash.vector.getD i none).getD [] ++ entradas_desde hash (i + 1) := by
  unfold entradas_desde
  rw [ranuras_drop _ _ _ h, entradas_vector_cons]

theorem siguiente_bucket_bucle_spec (it : hash_iterador_t) (hm : it.hash.memoria = []) :
    ∀ n i, n = it.hash.capacidad - i →
      ∃ l it1, siguiente_bucket_bucle it n i = (l, it1) ∧ it1.hash = it.hash ∧
        l ≠ some [] ∧ (l = none → it1 = it ∧ entradas_desde it.hash i = []) ∧
        (l ≠ none → l.getD [] ++ entradas_desde it.hash it1.posic_actual =
          entradas_desde it.hash i) := by
  intro n
  induction n with
  | zero =>
    intro i hi
    refine ⟨none, it, rfl, rfl, by simp, fun _ => ⟨rfl, ?_⟩, fun h => absurd rfl h⟩
    exact entradas_desde_fin _ _ (by omega)
  | succ n ih =>
    intro i hi
    have hlt : i < it.hash.capacidad := by omega
    obtain ⟨l, it1, h1, h2, h3, h4, h5⟩ := ih (i + 1) (by omega)
    rw [siguiente_bucket_bucle]
    cases hv : it.hash.vector.getD i none with
    | none =>
      refine ⟨l, it1, h1, h2, h3, ?_, ?_⟩
      · intro hl
        refine ⟨(h4 hl).1, ?_⟩
        rw [entradas_desde_succ _ _ hlt, hv, (h4 hl).2]
        rfl
      · intro hl
        rw [h5 hl, entradas_desde_succ _ _ hlt, hv]
        rfl
    | some c =>
      cases c with
      | nil =>
        refine ⟨l, it1, h1, h2, h3, ?_, ?_⟩
        · intro hl
          refine ⟨(h4 hl).1, ?_⟩
          rw [entradas_desde_succ _ _ hlt, hv, (h4 hl).2]
          rfl
        · intro hl
          rw [h5 hl, entradas_desde_succ _ _ hlt, hv]
          rfl
      | cons d r =>
        refine ⟨some (d :: r), { it with posic_actual := i + 1 }, ?_, rfl, by simp,
          (fun h => by cases h), fun _ => ?_⟩
        · simp only [lista_vacia, lista_elementos, lista_iterador_crear, hm, asignar]
          rw [if_neg (by simp)]
          have he := memoria_eta it.hash hm
          congr 2
        · rw [entradas_desde_succ _ _ hlt, hv]

theorem siguiente_bucket_spec (it : hash_iterador_t) (hm : it.hash.memoria = []) :
    ∃ l it1, siguiente_bucket it = (l, it1) ∧ it1.hash = it.hash ∧
      l ≠ some [] ∧ (l = none → it1 = it ∧ entradas_desde it.hash it.posic_actual = []) ∧
      (l ≠ none → l.getD [] ++ entradas_desde it.hash it1.posic_actual =
        entradas_desde it.hash it.posic_actual) :=
  siguiente_bucket_bucle_spec it hm _ _ rfl

theorem siguiente_elemento_spec (it : hash_iterador_t) (hm : it.hash.memoria = []) :
    ∃ l it1, siguiente_elemento it = (l, it1) ∧ it1.hash = it.hash ∧ l ≠ some [] ∧
      (l = none → entradas_desde it.hash it1.posic_actual = []) ∧
      l.getD [] ++ entradas_desde it.hash it1.posic_actual = restantes it := by
  have hb : ∃ l it1, siguiente_bucket it = (l, it1) ∧ it1.hash = it.hash ∧ l ≠ some [] ∧
      (l = none → entradas_desde it.hash it1.posic_actual = []) ∧
      l.getD [] ++ entradas_desde it.hash it1.posic_actual =
        entradas_desde it.hash it.posic_actual := by
    obtain ⟨l, it1, h1, h2, h3, h4, h5⟩ := siguiente_bucket_spec it hm
    refine ⟨l, it1, h1, h2, h3, ?_, ?_⟩
    · intro hl
      rw [(h4 hl).1]
      exact (h4 hl).2
    · by_cases hl : l = none
      · rw [hl, (h4 hl).1, (h4 hl).2]
        rfl
      · exact h5 hl
  unfold siguiente_elemento restantes
  cases hi : it.iter_lista with
  | none =>
    simpa using hb
  | some c =>
    cases c with
    | nil => simpa [lista_iterador_tiene_siguiente] using hb
    | cons d r =>
      refine ⟨some (d :: r), it, by simp [lista_iterador_tiene_siguiente], rfl, by simp,
        (fun h => by cases h), ?_⟩
      rfl

/-- The iterator `hash_iterador_crear` returns stands before the first entry. -/
theorem hash_iterador_crear_spec (t : hash_t) (hm : t.memoria = []) :
    ∃ it, hash_iterador_crear t = some it ∧ IterBien it ∧ it.hash = t ∧
      restantes it = entradas_desde t 0 := by
  obtain ⟨l, it1, h1, h2, h3, h4, h5⟩ :=
    siguiente_elemento_spec { hash := t, posic_actual := 0, iter_lista := none } hm
  refine ⟨{ it1 with iter_lista := l }, ?_, ⟨?_, ?_, h3⟩, h2, ?_⟩
  · unfold hash_iterador_crear
    rw [hm]
    simp only [asignar]
    rw [memoria_eta t hm, h1]
  · show it1.hash.memoria = []
    rw [h2]; exact hm
  · intro hl
    show entradas_desde it1.hash it1.posic_actual = []
    rw [h2]
    exact h4 hl
  · show l.getD [] ++ entradas_desde it1.hash it1.posic_actual = _
    rw [h2]
    exact h5

/-- One call of `hash_iterador_siguiente` returns the key of the first entry left and
leaves the others. -/
theorem hash_iterador_siguiente_spec (it : hash_iterador_t) (hb : IterBien it) :
    ∃ it1, hash_iterador_siguiente it = ((restantes it).head?.map dato_t.clave, it1) ∧
      IterBien it1 ∧ it1.hash = it.hash ∧ restantes it1 = (restantes it).tail := by
  cases hi : it.iter_lista with
  | none =>
    have h0 : restantes it = [] := by
      unfold restantes
      rw [hi, hb.agotado hi]
      rfl
    refine ⟨it, ?_, hb, rfl, by rw [h0]; rfl⟩
    unfold hash_iterador_siguiente
    rw [hi, h0]
    rfl
  | some c =>
    cases c with
    | nil => exact absurd hi hb.no_vacio
    | cons d r =>
      have h0 : restantes it = d :: (r ++ entradas_desde it.hash it.posic_actual) := by
        unfold restantes
        rw [hi]
        rfl
      obtain ⟨l, it1, h1, h2, h3, h4, h5⟩ :=
        siguiente_elemento_spec { it with iter_lista := some r } hb.memoria
      refine ⟨{ it1 with iter_lista := l }, ?_, ⟨?_, ?_, h3⟩, h2, ?_⟩
      · unfold hash_iterador_siguiente
        rw [hi, h0]
        simp only [lista_iterador_siguiente]
        rw [h1]
        rfl
      · show it1.hash.memoria = []
        rw [h2]; exact hb.memoria
      · intro hl
        show entradas_desde it1.hash it1.posic_actual = []
        rw [h2]
        exact h4 hl
      · show l.getD [] ++ entradas_desde it1.hash it1.posic_actual = _
        rw [h2, h0]
        exact h5

theorem hash_iterador_tiene_siguiente_iff (it : hash_iterador_t) (hb : IterBien it) :
    hash_iterador_tiene_siguiente it = true ↔ restantes it ≠ [] := by
  unfold hash_iterador_tiene_siguiente restantes
  cases hi : it.iter_lista with
  | none =>
    rw [hb.agotado hi]
    simp
  | some c =>
    cases c with
    | nil => exact absurd hi hb.no_vacio
    | cons d r => simp

/-- The client loop returns the keys of the entries left, in order, once it is given as
many rounds as there are entries left. -/
theorem claves_iteradas_spec :
    ∀ (n : Nat) (it : hash_iterador_t), IterBien it → (restantes it).length ≤ n →
      claves_iteradas n it = some ((restantes it).map (fun d => some d.clave)) := by
  intro n
  induction n with
  | zero =>
    intro it hb hn
    have h0 : restantes it = [] := List.length_eq_zero.1 (by omega)
    have ht : hash_iterador_tiene_siguiente it = false := by
      cases h : hash_iterador_tiene_siguiente it with
      | false => rfl
      | true => exact absurd h0 ((hash_iterador_tiene_siguiente_iff it hb).1 h)
    simp [claves_iteradas, ht, h0]
  | succ n ih =>
    intro it hb hn
    cases hr : restantes it with
    | nil =>
      have ht : hash_iterador_tiene_siguiente it = false := by
        cases h : hash_iterador_tiene_siguiente it with
        | false => rfl
        | true => exact absurd hr ((hash_iterador_tiene_siguiente_iff it hb).1 h)
      simp [claves_iteradas, ht]
    | cons d r =>
      have ht : hash_iterador_tiene_siguiente it = true :=
        (hash_iterador_tiene_siguiente_iff it hb).2 (by rw [hr]; simp)
      obtain ⟨it1, h1, h2, _, h4⟩ := hash_iterador_siguiente_spec it hb
      rw [hr] at h1 h4 hn
      simp only [List.tail_cons] at h4
      rw [claves_iteradas, ht, h1]
      simp only [if_true]
      rw [ih it1 h2 (by rw [h4]; simpa using hn), h4]
      simp

theorem avanzar_spec :
    ∀ (j : Nat) (it : hash_iterador_t), IterBien it →
      IterBien (avanzar j it) ∧ (avanzar j it).hash = it.hash ∧
        restantes (avanzar j it) = (restantes it).drop j := by
  intro j
  induction j with
  | zero => intro it hb; exact ⟨hb, rfl, rfl⟩
  | succ j ih =>
    intro it hb
    obtain ⟨it1, h1, h2, h3, h4⟩ := hash_iterador_siguiente_spec it hb
    have h5 : avanzar (j + 1) it = avanzar j it1 := by
      rw [avanzar, h1]
    obtain ⟨h6, h7, h8⟩ := ih it1 h2
    rw [h5]
    refine ⟨h6, by rw [h7, h3], ?_⟩
    rw [h8, h4]
    simp

/-- An exhausted iterator stays exhausted. -/
theorem hash_iterador_siguiente_agotado (it : hash_iterador_t)
    (h : hash_iterador_tiene_siguiente it = false) : hash_iterador_siguiente it = (none, it) := by
  unfold hash_iterador_tiene_siguiente at h
  unfold hash_iterador_siguiente
  cases hi : it.iter_lista with
  | none => rfl
  | some c => rw [hi] at h; cases h

theorem avanzar_agotado (it : hash_iterador_t)
    (h : hash_iterador_tiene_siguiente it = false) : ∀ m, avanzar m it = it := by
  intro m
  induction m with
  | zero => rfl
  | succ m ih => rw [avanzar, hash_iterador_siguiente_agotado it h]; exact ih

theorem avanzar_add (j : Nat) : ∀ (m : Nat) (it : hash_iterador_t),
    avanzar (j + m) it = avanzar m (avanzar j it) := by
  induction j with
  | zero => intro m it; rw [Nat.zero_add]; rfl
  | succ j ih =>
    intro m it
    rw [Nat.add_right_comm, avanzar, ih m]
    rfl

/-! ## Lemmas on built tables, destruction and insertion order -/

theorem Construida.alcanzable {t : hash_t} (h : Construida t) : Alcanzable t := by
  induction h with
  | crear d c t h => exact Alcanzable.crear d c t h
  | insertar p t k e r t1 _ hi ih => exact Alcanzable.insertar p t k e r t1 ih hi
  | quitar t k _ _ ih => exact Alcanzable.quitar t k ih

/-- The counter of a table built without removing absent keys is the number of its
entries, as a `size_t`. -/
theorem Construida.contado {t : hash_t} (h : Construida t) : Contado t := by
  induction h with
  | crear d c t h =>
    obtain ⟨_, h2, h3, _⟩ := hash_crear_spec d c t h
    unfold Contado
    rw [h2, h3]
    rfl
  | insertar p t k e r t1 hc hi ih =>
    obtain ⟨t2, h1, h2⟩ := hash_insertar_estable p t hc.alcanzable.bien k e _ hi
    have h3 : t1 = t2 := (Prod.mk.inj h1).2
    rw [h3]
    exact Inserta_contado h2 hc.alcanzable.bien ih
  | quitar t k hc hk ih =>
    exact Quita_contado (hash_quitar_spec hc.alcanzable.bien k) hk ih

theorem vaciar_lista_bucle_eq (dd : Bool) :
    ∀ (n : Nat) (l : lista_t dato_t), l.length ≤ n →
      vaciar_lista_bucle dd n l = some (vaciar_lista dd l) := by
  intro n
  induction n with
  | zero =>
    intro l hl
    have h0 : l = [] := List.length_eq_zero.1 (by omega)
    subst h0
    rfl
  | succ n ih =>
    intro l hl
    cases l with
    | nil => rfl
    | cons d r =>
      have h1 : lista_vacia (d :: r) = false := by
        simp [lista_vacia, lista_elementos]
      have h2 : lista_elemento_en_posicion (d :: r) 0 = some d := by
        simp [lista_elemento_en_posicion, lista_elementos]
      have h3 : (lista_borrar_de_posicion (d :: r) 0).2 = r := by
        cases r with
        | nil => simp [lista_borrar_de_posicion, lista_borrar, lista_vacia, lista_elementos]
        | cons x y =>
          simp [lista_borrar_de_posicion, lista_borrar, lista_vacia, lista_elementos]
      rw [vaciar_lista_bucle, h1, h2, h3]
      simp only [Bool.false_eq_true, if_false]
      rw [ih r (by simpa using hl)]
      rfl

theorem vaciar_lista_true (l : lista_t dato_t) :
    vaciar_lista true l = l.map dato_t.elemento := by
  induction l with
  | nil => rfl
  | cons d r ih => simp [vaciar_lista, ih]

theorem destruir_vector_hash_true (v : List (Option (lista_t dato_t))) (c : Nat) :
    destruir_vector_hash v c true = (entradas_vector (ranuras v c)).map dato_t.elemento := by
  unfold destruir_vector_hash
  generalize ranuras v c = w
  induction w with
  | nil => rfl
  | cons a r ih =>
    rw [entradas_vector_cons, List.map_append, ← ih]
    cases a with
    | none => simp
    | some l => simp [vaciar_lista_true]

theorem entradas_desde_cero {t : hash_t} (hl : t.vector.length = t.capacidad) :
    entradas_desde t 0 = entradas_vector t.vector := by
  unfold entradas_desde
  rw [← hl, ranuras_eq]
  rfl

theorem BienFormado.mem_entradas {t : hash_t} (hb : BienFormado t) (d : dato_t) :
    d ∈ entradas_vector t.vector ↔ buscar t d.clave = some d := by
  rw [mem_entradas_vector]
  constructor
  · rintro ⟨i, hi⟩
    exact buscar_of_mem hb hi
  · intro h
    exact ⟨_, buscar_some_mem h⟩

theorem BienFormado.mem_claves {t : hash_t} (hb : BienFormado t) (k : Clave) :
    k ∈ claves_en_orden t ↔ buscar t k ≠ none := by
  unfold claves_en_orden
  rw [entradas_desde_cero hb.largo, ← hb.buscar_entradas k, ne_eq, lista_buscar_eq_none]
  simp

theorem Inserta.capacidad_le {t t1 : hash_t} {k : Clave} {e : Nat} (h : Inserta t k e t1) :
    t.capacidad ≤ t1.capacidad := by
  cases hk : buscar t k with
  | some d =>
    rw [h.presente (by rw [hk]; simp)]
    exact Nat.le_refl _
  | none =>
    rcases Nat.lt_or_ge (3 * t.capacidad) (4 * ((t.cantidad + 1) % TAM_SIZE_T)) with h1 | h1
    · have := (h.crecer hk h1).1
      omega
    · rw [h.sin_crecer hk h1]
      exact Nat.le_refl _

theorem insertar_todos_capacidad (p : Nat) :
    ∀ (pares : List (Clave × Nat)) (t0 t : hash_t), BienFormado t0 →
      insertar_todos p t0 pares = some t → BienFormado t ∧ t0.capacidad ≤ t.capacidad := by
  intro pares
  induction pares with
  | nil =>
    intro t0 t hb h
    simp only [insertar_todos, Option.some.injEq] at h
    subst h
    exact ⟨hb, Nat.le_refl _⟩
  | cons a r ih =>
    intro t0 t hb h
    obtain ⟨k, e⟩ := a
    rw [insertar_todos] at h
    cases hi : hash_insertar p t0 k e with
    | none => rw [hi] at h; cases h
    | some x =>
      obtain ⟨t1, h1, h2⟩ := hash_insertar_estable p t0 hb k e x hi
      subst h1
      rw [hi] at h
      obtain ⟨h3, h4⟩ := ih t1 t h2.bien h
      exact ⟨h3, Nat.le_trans h2.capacidad_le h4⟩

theorem mem_cadena_claves {t : hash_t} {ks : List Clave}
    (hks : ∀ i, (cadena t i).map dato_t.clave =
      ks.filter (fun k => decide (obtener_hash k % t.capacidad = i))) (k : Clave) :
    k ∈ ks ↔ buscar t k ≠ none := by
  rw [buscar_eq, ne_eq, lista_buscar_eq_none, hks]
  simp

/-- While no call grows the table, every chain lists its keys in the order of their first
insertion. -/
theorem orden_sin_crecer (p : Nat) :
    ∀ (pares : List (Clave × Nat)) (t0 t : hash_t) (ks0 : List Clave), BienFormado t0 →
      (∀ i, (cadena t0 i).map dato_t.clave =
        ks0.filter (fun k => decide (obtener_hash k % t0.capacidad = i))) →
      insertar_todos p t0 pares = some t → t.capacidad = t0.capacidad →
      ∀ i, (cadena t i).map dato_t.clave =
        (claves_insertadas ks0 (pares.map Prod.fst)).filter
          (fun k => decide (obtener_hash k % t.capacidad = i)) := by
  intro pares
  induction pares with
  | nil =>
    intro t0 t ks0 _ hks h _
    simp only [insertar_todos, Option.some.injEq] at h
    subst h
    exact hks
  | cons a r ih =>
    intro t0 t ks0 hb hks h hcap
    obtain ⟨k, e⟩ := a
    rw [insertar_todos] at h
    cases hi : hash_insertar p t0 k e with
    | none => rw [hi] at h; cases h
    | some x =>
      obtain ⟨t1, h1, h2⟩ := hash_insertar_estable p t0 hb k e x hi
      subst h1
      rw [hi] at h
      have h3 := (insertar_todos_capacidad p r t1 t h2.bien h).2
      have h4 := h2.capacidad_le
      have hc1 : t1.capacidad = t0.capacidad := by omega
      have hmin := hb.capacidad_min
      simp only [List.map_cons, claves_insertadas]
      apply ih t1 t _ h2.bien _ h (by omega)
      intro i
      rw [hc1]
      cases hk : buscar t0 k with
      | some d =>
        have hmem : k ∈ ks0 := (mem_cadena_claves hks k).2 (by rw [hk]; simp)
        rw [if_pos hmem, h2.presente (by rw [hk]; simp), cadena_reemplazado k (hb.indice_lt k)]
        split
        · rw [escribir_elemento_claves]; exact hks i
        · exact hks i
      | none =>
        have hmem : k ∉ ks0 := fun hm => (mem_cadena_claves hks k).1 hm hk
        have hno : ¬ 3 * t0.capacidad < 4 * ((t0.cantidad + 1) % TAM_SIZE_T) := by
          intro hlt
          have := (h2.crecer hk hlt).1
          omega
        rw [if_neg hmem, h2.sin_crecer hk (Nat.le_of_not_lt hno), cadena_agregar hb,
          List.filter_append]
        by_cases hik : i = obtener_hash k % t0.capacidad
        · rw [if_pos hik, List.map_append, hks i]
          simp [hik]
        · rw [if_neg hik, hks i]
          have : ¬ obtener_hash k % t0.capacidad = i := fun h => hik h.symm
          simp [this]

/-- The chains of a freshly created table are empty. -/
theorem cadena_hash_crear (d : Bool) (c : Nat) (t : hash_t) (h : hash_crear [] d c = some t)
    (i : Nat) : cadena t i = [] := by
  rw [hash_crear_eq] at h
  rw [← Option.some.inj h]
  simp [cadena, getD_replicate_none]

/-! ## Soundness of the primality test -/

/-- When the trial-division loop entered at `i` accepts `numero`, neither `i + 6 m` nor
`i + 6 m + 2` divides `numero`, for every `m` with `(i + 6 m)² ≤ numero`. -/
theorem es_primo_bucle_divisores (numero : Nat) :
    ∀ (n i : Nat), n = numero + 1 - i → 2 ≤ i → es_primo_bucle numero i = true →
      ∀ m, (i + 6 * m) * (i + 6 * m) ≤ numero →
        numero % (i + 6 * m) ≠ 0 ∧ numero % (i + 6 * m + 2) ≠ 0 := by
  intro n
  induction n using Nat.strong_induction_on with
  | _ n ih =>
    intro i hn hi h m hm
    rw [es_primo_bucle] at h
    have hii : i ≤ i * i := Nat.le_mul_self i
    have hmono : i * i ≤ (i + 6 * m) * (i + 6 * m) :=
      Nat.mul_le_mul (Nat.le_add_right _ _) (Nat.le_add_right _ _)
    have hle : i * i ≤ numero := Nat.le_trans hmono hm
    rw [if_pos hle] at h
    by_cases hd : numero % i = 0 ∨ numero % (i + 2) = 0
    · rw [if_pos hd] at h
      cases h
    · rw [if_neg hd] at h
      cases m with
      | zero =>
        simp only [Nat.mul_zero, Nat.add_zero]
        exact ⟨fun h0 => hd (Or.inl h0), fun h0 => hd (Or.inr h0)⟩
      | succ m =>
        have he : i + 6 * (m + 1) = i + 6 + 6 * m := by omega
        rw [he] at hm ⊢
        exact ih (numero + 1 - (i + 6)) (by omega) (i + 6) rfl (by omega) h m hm

/-- Every number `es_primo` accepts is prime. -/
theorem prime_of_es_primo (n : Nat) (h : es_primo n = true) : n.Prime := by
  unfold es_primo at h
  by_cases h1 : n = 1
  · rw [if_pos h1] at h; cases h
  rw [if_neg h1] at h
  by_cases h23 : n = 2 ∨ n = 3
  · rcases h23 with h2 | h3
    · rw [h2]; exact Nat.prime_two
    · rw [h3]; exact Nat.prime_three
  rw [if_neg h23] at h
  by_cases hm : n % 2 = 0 ∨ n % 3 = 0
  · rw [if_pos hm] at h; cases h
  rw [if_neg hm] at h
  have hdiv := es_primo_bucle_divisores n _ 5 rfl (by omega) h
  by_contra hnp
  have hpos : 0 < n := by
    rcases Nat.eq_zero_or_pos n with h0 | h0
    · exfalso; apply hm; left; rw [h0]
    · exact h0
  have hq : (Nat.minFac n).Prime := Nat.minFac_prime h1
  have hqd : Nat.minFac n ∣ n := Nat.minFac_dvd n
  have hsq : Nat.minFac n ^ 2 ≤ n := Nat.minFac_sq_le_self hpos hnp
  generalize Nat.minFac n = q at hq hqd hsq
  have hqq : q * q ≤ n := by rw [← Nat.pow_two]; exact hsq
  have hn0 : n % q = 0 := Nat.mod_eq_zero_of_dvd hqd
  have hq2 : q ≠ 2 := by
    intro h2; subst h2; exact hm (Or.inl hn0)
  have hq3 : q ≠ 3 := by
    intro h3; subst h3; exact hm (Or.inr hn0)
  have hq2m : q % 2 ≠ 0 := by
    intro h0
    rcases (Nat.dvd_prime hq).1 (Nat.dvd_of_mod_eq_zero h0) with h' | h' <;> omega
  have hq3m : q % 3 ≠ 0 := by
    intro h0
    rcases (Nat.dvd_prime hq).1 (Nat.dvd_of_mod_eq_zero h0) with h' | h' <;> omega
  have hq5 : 5 ≤ q := by
    have := hq.two_le
    rcases Nat.lt_or_ge q 5 with h' | h'
    · exfalso
      have h4 : q = 4 := by omega
      rw [h4] at hq2m
      exact hq2m rfl
    · exact h'
  have h6 : q % 6 = 5 ∨ q % 6 = 1 := by omega
  rcases h6 with h6 | h6
  · have he : q = 5 + 6 * ((q - 5) / 6) := by omega
    have := (hdiv ((q - 5) / 6) (by rw [← he]; exact hqq)).1
    rw [← he] at this
    exact this hn0
  · have he : q = 5 + 6 * ((q - 7) / 6) + 2 := by omega
    have hle : 5 + 6 * ((q - 7) / 6) ≤ q := by omega
    have := (hdiv ((q - 7) / 6) (Nat.le_trans (Nat.mul_le_mul hle hle) hqq)).2
    rw [← he] at this
    exact this hn0

/-- The primality test of `hash.c` decides primality. -/
theorem es_primo_iff (n : Nat) : es_primo n = true ↔ n.Prime :=
  ⟨prime_of_es_primo n, es_primo_of_prime n⟩

/-- No number from `n` up to `siguiente_primo n` passes `es_primo`. -/
theorem siguiente_primo_min (m : Nat) (hm : es_primo m = true) :
    ∀ (k n : Nat), n + k = m → siguiente_primo n ≤ m := by
  intro k
  induction k with
  | zero =>
    intro n hn
    simp only [Nat.add_zero] at hn
    subst hn
    rw [siguiente_primo, if_pos hm]
  | succ k ih =>
    intro n hn
    rw [siguiente_primo]
    split
    · omega
    · exact ih (n + 1) (by omega)

/-- The next prime: `siguiente_primo n` is the smallest prime at or above `n`. -/
theorem siguiente_primo_spec (n : Nat) :
    (siguiente_primo n).Prime ∧ n ≤ siguiente_primo n ∧
      ∀ q, q.Prime → n ≤ q → siguiente_primo n ≤ q := by
  refine ⟨prime_of_es_primo _ (es_primo_siguiente_primo n), siguiente_primo_ge n, ?_⟩
  intro q hq hle
  obtain ⟨k, hk⟩ := Nat.exists_eq_add_of_le hle
  exact siguiente_primo_min q (es_primo_of_prime q hq) k n hk.symm

/-! ## Evaluations on these tables -/

theorem rehash_eq_hasta (c : Nat) (ins : hash_t → Clave → Nat → Option (Int × hash_t))
    (hash : hash_t) (hc : siguiente_primo (hash.capacidad * RATIO) = c) :
    rehash ins hash = rehash_hasta c ins hash := by
  subst hc
  rfl

theorem hash_insertar_g (d : Bool) :
    hash_insertar 3 (tabla_a d) [103] 2 = some (OK, tabla_ag d) := by
  cases d <;> rfl

theorem hash_insertar_b_crece (d : Bool) :
    hash_insertar 3 (tabla_ag d) [98] 3 = some (OK, tabla_agb d) := by
  rw [hash_insertar_succ]
  have h1 : hash_insertar_inicio (tabla_ag d) [98] 3 = Sum.inr (tabla_agb_llena d) := by
    cases d <;> rfl
  rw [h1]
  simp only
  rw [rehash_eq_con 7 _ (tabla_agb_llena d) siguiente_primo_seis rfl]
  cases d <;> rfl

theorem insertar_todos_agb (d : Bool) :
    insertar_todos 3 (tabla_tres d) [([97], 1), ([103], 2), ([98], 3)] = some (tabla_agb d) := by
  rw [insertar_todos_cons _ _ _ _ _ _ _ (hash_insertar_a d),
    insertar_todos_cons _ _ _ _ _ _ _ (hash_insertar_g d),
    insertar_todos_cons _ _ _ _ _ _ _ (hash_insertar_b_crece d)]
  rfl

theorem insertar_todos_ag (d : Bool) :
    insertar_todos 3 (tabla_tres d) [([97], 1), ([103], 2)] = some (tabla_ag d) := by
  rw [insertar_todos_cons _ _ _ _ _ _ _ (hash_insertar_a d),
    insertar_todos_cons _ _ _ _ _ _ _ (hash_insertar_g d)]
  rfl

theorem hash_insertar_c_agotada :
    hash_insertar 3 tabla_ab_agotada [99] 3 = some (ERROR, tabla_abc_deshecha) := by
  rw [hash_insertar_succ]
  have h1 : hash_insertar_inicio tabla_ab_agotada [99] 3 = Sum.inr tabla_abc_agotada := by
    rfl
  rw [h1]
  simp only
  rw [rehash_eq_hasta 7 _ tabla_abc_agotada siguiente_primo_seis]
  rfl

theorem hash_insertar_sin_nodo (d : Bool) :
    hash_insertar 3 (tabla_tres_sin_nodo d) [97] 1 = some (ERROR, tabla_cadena_vacia d) := by
  cases d <;> rfl

/-! ## Supporting facts for the traversal claims -/

theorem insertar_todos_total (p : Nat) (hp : 3 ≤ p) :
    ∀ (pares : List (Clave × Nat)) (t0 : hash_t), BienFormado t0 →
      ∃ t, insertar_todos p t0 pares = some t := by
  intro pares
  induction pares with
  | nil => intro t0 _; exact ⟨t0, rfl⟩
  | cons a r ih =>
    intro t0 hb
    obtain ⟨k, e⟩ := a
    obtain ⟨t1, h1, h2⟩ := hash_insertar_ok p hp t0 hb k e
    obtain ⟨t, h3⟩ := ih t1 h2.bien
    exact ⟨t, by rw [insertar_todos_cons p t0 k e r OK t1 h1]; exact h3⟩

/-- The traversal order spelled out: the chains of the slots `0`, ..., `capacidad - 1`,
one after the other. -/
theorem entradas_desde_cero_eq (t : hash_t) :
    entradas_desde t 0 = (List.range t.capacidad).flatMap (cadena t) := by
  unfold entradas_desde entradas_vector ranuras
  simp only [List.drop_zero]
  generalize List.range t.capacidad = l
  induction l with
  | nil => rfl
  | cons a r ih =>
    simp only [List.map_cons, List.flatMap_cons, ih]
    rfl

theorem hash_con_cada_clave_nunca_eq (t : hash_t) (hm : t.memoria = [])
    (f : hash_t → Clave → Bool) (hf : ∀ k, f t k = false) :
    hash_con_cada_clave t f =
      ((entradas_desde t 0).length % TAM_SIZE_T, claves_en_orden t, []) := by
  unfold hash_con_cada_clave
  rw [hm, con_cada_clave_bucle_eq,
    con_cada_clave_lista_nunca t f _ 0 [] (fun d _ => hf d.clave) (by decide)]
  simp only [Nat.zero_add, List.nil_append]
  rfl

theorem set_getD_mismo (v : List (Option (lista_t dato_t))) (i : Nat) (l : lista_t dato_t)
    (h : v.getD i none = some l) : v.set i (some l) = v := by
  induction v generalizing i with
  | nil => rfl
  | cons a r ih =>
    cases i with
    | zero =>
      simp only [List.getD_cons_zero] at h
      rw [h]
      rfl
    | succ j =>
      simp only [List.getD_cons_succ] at h
      simp only [List.set_cons_succ]
      rw [ih j h]

/-- The allocation failures of `hash_insertar` that leave the table as it was: the entry,
its key copy or the chain of an absent slot is refused, or the node is refused when the
slot already holds a chain. -/
theorem hash_insertar_sin_memoria (p : Nat) (t : hash_t) (k : Clave) (e : Nat)
    (hk : hash_buscar t (obtener_hash k % t.capacidad) k = none) :
    (∀ r, t.memoria = false :: r →
      hash_insertar (p + 1) t k e = some (ERROR, { t with memoria := r })) ∧
    (∀ r, t.memoria = true :: false :: r →
      hash_insertar (p + 1) t k e = some (ERROR, { t with memoria := r })) ∧
    (∀ r, t.vector.getD (obtener_hash k % t.capacidad) none = none →
      t.memoria = true :: true :: false :: r →
      hash_insertar (p + 1) t k e = some (ERROR, { t with memoria := r })) ∧
    (∀ r l, t.vector.getD (obtener_hash k % t.capacidad) none = some l →
      t.memoria = true :: true :: false :: r →
      hash_insertar (p + 1) t k e = some (ERROR, { t with memoria := r })) := by
  have hr : reemplazar t k e (obtener_hash k % t.capacidad) = (ERROR, t) := by
    unfold reemplazar
    rw [hk]
  have hne : ¬ (ERROR = OK) := by decide
  refine ⟨?_, ?_, ?_, ?_⟩
  · intro r hm
    rw [hash_insertar, hr]
    simp only [hne, if_false, hm, crear_dato, asignar]
  · intro r hm
    rw [hash_insertar, hr]
    simp only [hne, if_false, hm, crear_dato, asignar]
  · intro r hv hm
    rw [hash_insertar, hr]
    simp only [hne, if_false, hm, crear_dato, asignar, insertar, hv, lista_crear, if_true]
  · intro r l hv hm
    rw [hash_insertar, hr]
    simp only [hne, if_false, hm, crear_dato, asignar, insertar, hv, lista_insertar]
    rw [set_getD_mismo _ _ _ hv]
    rfl

/-- Whenever the growth pass reports an error, the table has the bucket array, the
capacity and the count it had when the pass began. -/
theorem rehash_error_restaura (ins : hash_t → Clave → Nat → Option (Int × hash_t))
    (hash hash1 : hash_t) (h : rehash ins hash = some (ERROR, hash1)) :
    hash1.vector = hash.vector ∧ hash1.capacidad = hash.capacidad ∧
      hash1.cantidad = hash.cantidad := by
  rw [rehash_eq_hasta _ ins hash rfl] at h
  unfold rehash_hasta at h
  cases ha : asignar hash.memoria with
  | mk b m1 =>
    rw [ha] at h
    cases b with
    | false =>
      simp only [Option.some.injEq, Prod.mk.injEq, true_and] at h
      rw [← h]
      exact ⟨rfl, rfl, rfl⟩
    | true =>
      simp only at h
      generalize rehash_bucle ins _ _ = x at h
      cases x with
      | none => cases h
      | some y =>
        obtain ⟨r, hash2⟩ := y
        simp only at h
        by_cases hr : r = ERROR
        · rw [if_pos hr] at h
          simp only [Option.some.injEq, Prod.mk.injEq, true_and] at h
          rw [← h]
          exact ⟨rfl, rfl, rfl⟩
        · rw [if_neg hr] at h
          simp only [Option.some.injEq, Prod.mk.injEq] at h
          exact absurd h.1 (by decide)

/-! ## Claims on traversal, destruction, creation and failing allocations -/

/-- C11: on a table built from `hash_crear` by `hash_insertar` calls and by `hash_quitar`
calls whose key is stored (no allocation failing), `hash_con_cada_clave` with a function
that never returns true returns `hash_cantidad` and calls the function on the keys
`claves_en_orden`, a list in which every stored key occurs exactly once. -/
theorem hash_con_cada_clave_nunca (t : hash_t) (ht : Construida t)
    (f : hash_t → Clave → Bool) (hf : ∀ k, f t k = false) :
    (hash_con_cada_clave t f).1 = hash_cantidad t ∧
      (hash_con_cada_clave t f).2.1 = claves_en_orden t ∧
      (claves_en_orden t).Nodup ∧
      ∀ k, k ∈ claves_en_orden t ↔
        hash_buscar t (obtener_hash k % t.capacidad) k ≠ none := by
  have hb := ht.alcanzable.bien
  rw [hash_con_cada_clave_nunca_eq t hb.memoria f hf]
  refine ⟨?_, rfl, ?_, fun k => hb.mem_claves k⟩
  · show (entradas_desde t 0).length % TAM_SIZE_T = t.cantidad
    rw [entradas_desde_cero hb.largo, length_entradas_vector]
    exact ht.contado.symm
  · unfold claves_en_orden
    rw [entradas_desde_cero hb.largo]
    exact hb.nodup_entradas

/-- Witness of C11: the table holding `"a"` and `"b"` after `"a"` is removed; the function
is called once, on `"b"`. -/
theorem hash_con_cada_clave_nunca_testigo :
    Construida (hash_quitar (tabla_ab true) [97]).2 ∧
      (hash_con_cada_clave (hash_quitar (tabla_ab true) [97]).2 (fun _ _ => false)).1 =
        hash_cantidad (hash_quitar (tabla_ab true) [97]).2 ∧
      (hash_con_cada_clave (hash_quitar (tabla_ab true) [97]).2 (fun _ _ => false)).2.1 =
        [[98]] := by
  have hc : Construida (hash_quitar (tabla_ab true) [97]).2 :=
    Construida.quitar _ [97]
      (Construida.insertar 3 _ [98] 2 OK _
        (Construida.insertar 3 _ [97] 1 OK _
          (Construida.crear true 3 _ (hash_crear_tres true)) (hash_insertar_a true))
        (hash_insertar_b true))
      (by decide)
  have h := hash_con_cada_clave_nunca _ hc (fun _ _ => false) (fun _ => rfl)
  exact ⟨hc, h.1, h.2.1.trans (by decide)⟩

/-- C12: when no chain iterator fails to allocate and the table holds fewer than `2 ^ 64`
entries, `hash_con_cada_clave` with a function that returns true on some stored key
returns `i + 1`, where `i` is the index in `claves_en_orden` (ascending slot, then chain
order) of the first key on which the function returns true, and the function is called on
the first `i + 1` keys of that order and on no other. -/
theorem hash_con_cada_clave_primera (t : hash_t) (hm : t.memoria = [])
    (hl : (claves_en_orden t).length < TAM_SIZE_T) (f : hash_t → Clave → Bool)
    (hf : ∃ k ∈ claves_en_orden t, f t k = true) :
    ∃ i k, (claves_en_orden t)[i]? = some k ∧ f t k = true ∧
      (∀ j k1, j < i → (claves_en_orden t)[j]? = some k1 → f t k1 = false) ∧
      (hash_con_cada_clave t f).1 = i + 1 ∧
      (hash_con_cada_clave t f).2.1 = (claves_en_orden t).take (i + 1) := by
  have hf1 : ∃ d ∈ entradas_desde t 0, f t d.clave = true := by
    obtain ⟨k, hk, hfk⟩ := hf
    obtain ⟨d, hd, rfl⟩ := List.mem_map.1 hk
    exact ⟨d, hd, hfk⟩
  obtain ⟨pre, d, post, h1, h2, h3⟩ :=
    primera_que_cumple (fun d : dato_t => f t d.clave) (entradas_desde t 0) hf1
  have hc : claves_en_orden t =
      pre.map dato_t.clave ++ d.clave :: post.map dato_t.clave := by
    unfold claves_en_orden
    rw [h1]
    simp
  have hlen : pre.length + 1 < TAM_SIZE_T := by
    rw [hc] at hl
    simp only [List.length_append, List.length_map, List.length_cons] at hl
    omega
  refine ⟨pre.length, d.clave, ?_, h3, ?_, ?_, ?_⟩
  · rw [hc, List.getElem?_append_right (by simp)]
    simp
  · intro j k1 hj hk1
    rw [hc, List.getElem?_append_left (by simpa using hj)] at hk1
    obtain ⟨x, hx, rfl⟩ := List.mem_map.1 (List.getElem?_mem hk1)
    exact h2 x hx
  · unfold hash_con_cada_clave
    rw [hm, con_cada_clave_bucle_eq]
    change (con_cada_clave_lista t f (entradas_desde t 0) 0 []).2.1 = _
    rw [h1, con_cada_clave_lista_primera t f pre d post 0 [] h2 h3 (by decide)]
    simp only [Nat.zero_add]
    exact Nat.mod_eq_of_lt hlen
  · unfold hash_con_cada_clave
    rw [hm, con_cada_clave_bucle_eq]
    change (con_cada_clave_lista t f (entradas_desde t 0) 0 []).2.2 = _
    rw [h1, con_cada_clave_lista_primera t f pre d post 0 [] h2 h3 (by decide), hc]
    simp [List.take_append_eq_append_take]

/-- Witness of C12: on the table holding `"b"` in slot 1 and `"a"` in slot 2, the function
that accepts `"a"` is called on `"b"`, then on `"a"`, and 2 is returned. -/
theorem hash_con_cada_clave_primera_testigo :
    (tabla_ab true).memoria = [] ∧ (claves_en_orden (tabla_ab true)).length < TAM_SIZE_T ∧
      (∃ k ∈ claves_en_orden (tabla_ab true), (fun (_ : hash_t) (k : Clave) => k == [97])
        (tabla_ab true) k = true) ∧
      ∃ i k, (claves_en_orden (tabla_ab true))[i]? = some k ∧
        (fun (_ : hash_t) (k : Clave) => k == [97]) (tabla_ab true) k = true ∧
        (∀ j k1, j < i → (claves_en_orden (tabla_ab true))[j]? = some k1 →
          (fun (_ : hash_t) (k : Clave) => k == [97]) (tabla_ab true) k1 = false) ∧
        (hash_con_cada_clave (tabla_ab true) (fun _ k => k == [97])).1 = i + 1 ∧
        (hash_con_cada_clave (tabla_ab true) (fun _ k => k == [97])).2.1 =
          (claves_en_orden (tabla_ab true)).take (i + 1) :=
  ⟨rfl, by decide, ⟨[97], by decide, rfl⟩,
    hash_con_cada_clave_primera (tabla_ab true) rfl (by decide) (fun _ k => k == [97])
      ⟨[97], by decide, rfl⟩⟩

/-- C13: when no allocation fails, the values `hash_iterador_siguiente` returns while
`hash_iterador_tiene_siguiente` holds are the keys of the chains of the slots `0`, ...,
`capacidad - 1` one after the other (given at least as many rounds as there are entries);
`hash_con_cada_clave` passes the same sequence to a function that never returns true; and
on a well-formed table every stored key occurs in it exactly once. -/
theorem hash_iterador_orden (t : hash_t) (hm : t.memoria = []) :
    ∃ it, hash_iterador_crear t = some it ∧
      (∀ n, (claves_en_orden t).length ≤ n →
        claves_iteradas n it = some ((claves_en_orden t).map some)) ∧
      claves_en_orden t = ((List.range t.capacidad).flatMap (cadena t)).map dato_t.clave ∧
      (∀ f : hash_t → Clave → Bool, (∀ k, f t k = false) →
        (hash_con_cada_clave t f).2.1 = claves_en_orden t) ∧
      (BienFormado t → (claves_en_orden t).Nodup ∧
        ∀ k, k ∈ claves_en_orden t ↔
          hash_buscar t (obtener_hash k % t.capacidad) k ≠ none) := by
  obtain ⟨it, h1, h2, _, h4⟩ := hash_iterador_crear_spec t hm
  refine ⟨it, h1, ?_, ?_, ?_, ?_⟩
  · intro n hn
    have h5 := claves_iteradas_spec n it h2
      (by rw [h4]; simpa [claves_en_orden] using hn)
    rw [h5, h4]
    simp [claves_en_orden]
  · unfold claves_en_orden
    rw [entradas_desde_cero_eq]
  · intro f hf
    rw [hash_con_cada_clave_nunca_eq t hm f hf]
  · intro hb
    refine ⟨?_, fun k => hb.mem_claves k⟩
    unfold claves_en_orden
    rw [entradas_desde_cero hb.largo]
    exact hb.nodup_entradas

/-- Witness of C13: the table holding `"b"` in slot 4 and `"a"`, `"c"` in slot 6 of seven
slots. -/
theorem hash_iterador_orden_testigo :
    (tabla_abc true).memoria = [] ∧
      ∃ it, hash_iterador_crear (tabla_abc true) = some it ∧
        claves_iteradas 3 it = some [some [98], some [97], some [99]] ∧
        (hash_con_cada_clave (tabla_abc true) (fun _ _ => false)).2.1 =
          [[98], [97], [99]] := by
  obtain ⟨it, h1, h2, _, h4, _⟩ := hash_iterador_orden (tabla_abc true) rfl
  exact ⟨rfl, it, h1, h2 3 (by decide), h4 (fun _ _ => false) (fun _ => rfl)⟩

/-- C14, at the input where it fails: `"a"`, `"g"` and `"b"` are inserted in this order
into a table created with capacity 3; the third insert grows the table to 7 slots, where
`"g"` and `"a"` share slot 6, and the iterator returns `"b"`, `"g"`, `"a"`: `"g"` before
`"a"`, which was inserted first. -/
theorem orden_de_insercion_tras_crecer :
    hash_crear [] false 3 = some (tabla_tres false) ∧
      ∃ t it, insertar_todos 3 (tabla_tres false) [([97], 1), ([103], 2), ([98], 3)] = some t ∧
        hash_iterador_crear t = some it ∧
        claves_iteradas 3 it = some [some [98], some [103], some [97]] ∧
        obtener_hash [103] % t.capacidad = obtener_hash [97] % t.capacidad :=
  ⟨hash_crear_tres false, tabla_agb false, _, insertar_todos_agb false, rfl, by decide,
    by decide⟩

/-- C15: when no allocation fails, after `j` calls of `hash_iterador_siguiente` on the
iterator `hash_iterador_crear` returns, `hash_iterador_tiene_siguiente` holds exactly when
`j` is less than the number of stored entries; and once it is false, every later call of
`hash_iterador_siguiente` returns `NULL` and `hash_iterador_tiene_siguiente` stays
false. -/
theorem hash_iterador_agotamiento (t : hash_t) (hm : t.memoria = [])
    (hl : t.vector.length = t.capacidad) :
    ∃ it, hash_iterador_crear t = some it ∧
      (∀ j, hash_iterador_tiene_siguiente (avanzar j it) = true ↔ j < total t) ∧
      (∀ j, hash_iterador_tiene_siguiente (avanzar j it) = false →
        ∀ m, (hash_iterador_siguiente (avanzar (j + m) it)).1 = none ∧
          hash_iterador_tiene_siguiente (avanzar (j + m) it) = false) := by
  obtain ⟨it, h1, h2, _, h4⟩ := hash_iterador_crear_spec t hm
  refine ⟨it, h1, ?_, ?_⟩
  · intro j
    obtain ⟨h5, _, h7⟩ := avanzar_spec j it h2
    rw [hash_iterador_tiene_siguiente_iff _ h5, h7, h4, entradas_desde_cero hl, ne_eq,
      List.drop_eq_nil_iff, length_entradas_vector]
    unfold total
    omega
  · intro j hj m
    rw [avanzar_add, avanzar_agotado _ hj m, hash_iterador_siguiente_agotado _ hj]
    exact ⟨rfl, hj⟩

/-- Witness of C15: the table holding `"a"` and `"b"`. -/
theorem hash_iterador_agotamiento_testigo :
    (tabla_ab true).memoria = [] ∧ (tabla_ab true).vector.length = (tabla_ab true).capacidad ∧
      ∃ it, hash_iterador_crear (tabla_ab true) = some it ∧
        (∀ j, hash_iterador_tiene_siguiente (avanzar j it) = true ↔ j < total (tabla_ab true)) ∧
        (∀ j, hash_iterador_tiene_siguiente (avanzar j it) = false →
          ∀ m, (hash_iterador_siguiente (avanzar (j + m) it)).1 = none ∧
            hash_iterador_tiene_siguiente (avanzar (j + m) it) = false) :=
  ⟨rfl, rfl, hash_iterador_agotamiento (tabla_ab true) rfl rfl⟩

/-- C16: on a reachable table with a registered destructor, `hash_destruir` calls the
destructor on the values of the entries of the bucket array, slot by slot and chain by
chain: a list in which every stored entry occurs exactly once and nothing else occurs. -/
theorem hash_destruir_almacenados (t : hash_t) (ht : Alcanzable t)
    (hd : t.destructor = true) :
    hash_destruir t = (entradas_vector t.vector).map dato_t.elemento ∧
      ((entradas_vector t.vector).map dato_t.clave).Nodup ∧
      ∀ x, x ∈ entradas_vector t.vector ↔
        hash_buscar t (obtener_hash x.clave % t.capacidad) x.clave = some x := by
  have hb := ht.bien
  refine ⟨?_, hb.nodup_entradas, fun x => hb.mem_entradas x⟩
  unfold hash_destruir
  rw [hd, destruir_vector_hash_true, ← hb.largo, ranuras_eq]

/-- Witness of C16: the table holding `"a" ↦ 1` and `"b" ↦ 2`; the destructor is called
on 2, then on 1. -/
theorem hash_destruir_almacenados_testigo :
    Alcanzable (tabla_ab true) ∧ (tabla_ab true).destructor = true ∧
      hash_destruir (tabla_ab true) = [2, 1] :=
  ⟨Alcanzable_tabla_ab true, rfl,
    (hash_destruir_almacenados (tabla_ab true) (Alcanzable_tabla_ab true) rfl).1⟩

/-- In exact arithmetic: for every requested capacity `c`, `hash_crear` (no allocation
failing) returns a table whose capacity is the smallest prime at or above `max c 3`, hence
3 when `c < 3`, whose count is 0 and whose slots are all absent; on it `hash_obtener`
returns `NULL` and `hash_contiene` false for every key. In `size_t` arithmetic this is
what `hash.c` does while some prime at or above `max c 3` lies below `COTA_ES_PRIMO`
(`hash_crear_size_t_en_rango`). -/
theorem hash_crear_capacidad (d : Bool) (c : Nat) :
    ∃ t, hash_crear [] d c = some t ∧ t.capacidad.Prime ∧ max c 3 ≤ t.capacidad ∧
      (∀ q, q.Prime → max c 3 ≤ q → t.capacidad ≤ q) ∧ (c < 3 → t.capacidad = 3) ∧
      hash_cantidad t = 0 ∧ t.vector = List.replicate t.capacidad none ∧
      ∀ k, hash_obtener t k = 0 ∧ hash_contiene t k = false := by
  have he : (if c < 3 then 3 else c) = max c 3 := by
    by_cases h : c < 3
    · rw [if_pos h]; omega
    · rw [if_neg h]; omega
  obtain ⟨hp, hge, hmin⟩ := siguiente_primo_spec (max c 3)
  have h0 := hash_crear_eq d c
  rw [he] at h0
  cases hcr : hash_crear [] d c with
  | none => rw [h0] at hcr; cases hcr
  | some t =>
    have ht := hcr
    rw [h0] at ht
    replace ht := (Option.some.inj ht).symm
    obtain ⟨_, h2, _, h4, _⟩ := hash_crear_spec d c t hcr
    have hcap : t.capacidad = siguiente_primo (max c 3) := by rw [ht]
    have hvec : t.vector = List.replicate t.capacidad none := by rw [ht]
    refine ⟨t, rfl, by rw [hcap]; exact hp, by rw [hcap]; exact hge,
      by rw [hcap]; exact hmin, ?_, h2, hvec, ?_⟩
    · intro h3
      have hm : max c 3 = 3 := by omega
      rw [hcap, hm]
      exact siguiente_primo_tres
    · intro k
      have h5 : hash_obtener t k = 0 := by
        rw [hash_obtener_eq, h4 k]
      exact ⟨h5, by unfold hash_contiene; rw [h5]; rfl⟩

/-- C18, at the input where it fails: the table holds `"a" ↦ 1` and `"b" ↦ 2` in three
slots and has a destructor; `hash_insertar(table, "c", 3)` starts a growth pass in which
the new array is allocated and `"b"` is re-inserted, and the allocation for `"a"` fails.
The call returns `ERROR` and restores the old array, capacity 3 and count 3, but the
destructor has been called on 2, the value still stored under `"b"`. -/
theorem deshacer_rehash_destruye_almacenados :
    hash_insertar 3 tabla_ab_agotada [99] 3 = some (ERROR, tabla_abc_deshecha) ∧
      tabla_abc_deshecha.destruidos = [2] ∧ hash_obtener tabla_abc_deshecha [98] = 2 ∧
      tabla_abc_deshecha.capacidad = 3 ∧ hash_cantidad tabla_abc_deshecha = 3 :=
  ⟨hash_insertar_c_agotada, rfl, by decide, rfl, rfl⟩

/-- C19, at the input where it fails: on the empty table of three slots, when the entry,
its key copy and the chain are allocated and the chain node is refused,
`hash_insertar(table, "a", 1)` returns `ERROR` and leaves slot 2 holding an empty chain;
a later `hash_quitar(table, "a")` then returns `OK` and takes the count from 0 to
`2 ^ 64 - 1`. -/
theorem hash_insertar_deja_cadena_vacia :
    hash_insertar 3 (tabla_tres_sin_nodo false) [97] 1 =
        some (ERROR, tabla_cadena_vacia false) ∧
      (tabla_tres_sin_nodo false).vector.getD 2 none = none ∧
      (tabla_cadena_vacia false).vector.getD 2 none = some [] ∧
      (hash_quitar (tabla_cadena_vacia false) [97]).1 = OK ∧
      hash_cantidad (hash_quitar (tabla_cadena_vacia false) [97]).2 = TAM_SIZE_T - 1 :=
  ⟨hash_insertar_sin_nodo false, rfl, rfl, by decide, by decide⟩

/-! ## The capacity stays prime -/

theorem capacidad_hash_insertar_inicio (hash : hash_t) (k : Clave) (e : Nat) :
    match hash_insertar_inicio hash k e with
    | Sum.inl x => x.2.capacidad = hash.capacidad
    | Sum.inr hash3 => hash3.capacidad = hash.capacidad := by
  have hr : (reemplazar hash k e (obtener_hash k % hash.capacidad)).2.capacidad =
      hash.capacidad := by
    unfold reemplazar
    cases hash_buscar hash (obtener_hash k % hash.capacidad) k <;> rfl
  have hi : ∀ (a : dato_t) (m1 : Memoria), (insertar { hash with memoria := m1 } a
      (obtener_hash k % hash.capacidad)).2.capacidad = hash.capacidad := by
    intro a m1
    unfold insertar
    simp only
    cases hash.vector.getD (obtener_hash k % hash.capacidad) none with
    | none =>
      simp only
      rcases lista_crear (α := dato_t) m1 with ⟨o2, m2⟩
      cases o2 with
      | none => rfl
      | some l => rfl
    | some l => rfl
  simp only [hash_insertar_inicio]
  generalize reemplazar hash k e (obtener_hash k % hash.capacidad) = x at hr
  obtain ⟨r, hash1⟩ := x
  simp only at hr ⊢
  by_cases hrok : r = OK
  · simp only [hrok, if_true]
    exact hr
  · simp only [hrok, if_false]
    rcases crear_dato hash.memoria k e with ⟨_ | a, m1⟩
    · rfl
    · simp only
      have hi2 := hi a m1
      generalize insertar { hash with memoria := m1 } a
        (obtener_hash k % hash.capacidad) = y at hi2
      obtain ⟨r2, hash2⟩ := y
      simp only at hi2 ⊢
      by_cases h2 : r2 = ERROR
      · simp only [h2, if_true]
        exact hi2
      · simp only [h2, if_false]
        by_cases hc : 4 * ((hash2.cantidad + 1) % TAM_SIZE_T) > 3 * hash2.capacidad
        · rw [if_pos hc]
          exact hi2
        · rw [if_neg hc]
          exact hi2

theorem rehash_lista_bucle_primo (ins : hash_t → Clave → Nat → Option (Int × hash_t))
    (hins : ∀ h k e r h1, ins h k e = some (r, h1) → h.capacidad.Prime → h1.capacidad.Prime) :
    ∀ (l : lista_iterador_t dato_t) (h : hash_t) (r : Int) (h1 : hash_t),
      rehash_lista_bucle ins h l = some (r, h1) → h.capacidad.Prime → h1.capacidad.Prime := by
  intro l
  induction l with
  | nil =>
    intro h r h1 heq hp
    simp only [rehash_lista_bucle, Option.some.injEq, Prod.mk.injEq] at heq
    rw [← heq.2]
    exact hp
  | cons d resto ih =>
    intro h r h1 heq hp
    rw [rehash_lista_bucle] at heq
    cases hi : ins h d.clave d.elemento with
    | none => rw [hi] at heq; cases heq
    | some x =>
      obtain ⟨r2, h2⟩ := x
      rw [hi] at heq
      simp only at heq
      have hp2 := hins h d.clave d.elemento r2 h2 hi hp
      by_cases hr : r2 = ERROR
      · rw [if_pos hr] at heq
        simp only [Option.some.injEq, Prod.mk.injEq] at heq
        rw [← heq.2]
        exact hp2
      · rw [if_neg hr] at heq
        exact ih h2 r h1 heq hp2

theorem rehash_bucle_primo (ins : hash_t → Clave → Nat → Option (Int × hash_t))
    (hins : ∀ h k e r h1, ins h k e = some (r, h1) → h.capacidad.Prime → h1.capacidad.Prime) :
    ∀ (v : List (Option (lista_t dato_t))) (h : hash_t) (r : Int) (h1 : hash_t),
      rehash_bucle ins h v = some (r, h1) → h.capacidad.Prime → h1.capacidad.Prime := by
  intro v
  induction v with
  | nil =>
    intro h r h1 heq hp
    simp only [rehash_bucle, Option.some.injEq, Prod.mk.injEq] at heq
    rw [← heq.2]
    exact hp
  | cons a resto ih =>
    intro h r h1 heq hp
    cases a with
    | none =>
      rw [rehash_bucle] at heq
      exact ih h r h1 heq hp
    | some l =>
      rw [rehash_bucle] at heq
      cases hl : rehash_lista ins h l with
      | none => rw [hl] at heq; cases heq
      | some x =>
        obtain ⟨r2, h2⟩ := x
        rw [hl] at heq
        simp only at heq
        have hp2 : h2.capacidad.Prime := by
          unfold rehash_lista at hl
          rcases hc : lista_iterador_crear h.memoria l with ⟨o, m1⟩
          rw [hc] at hl
          cases o with
          | none =>
            simp only [Option.some.injEq, Prod.mk.injEq] at hl
            rw [← hl.2]
            exact hp
          | some it =>
            simp only at hl
            exact rehash_lista_bucle_primo ins hins it _ r2 h2 hl hp
        by_cases hr : r2 = ERROR
        · rw [if_pos hr] at heq
          simp only [Option.some.injEq, Prod.mk.injEq] at heq
          rw [← heq.2]
          exact hp2
        · rw [if_neg hr] at heq
          exact ih h2 r h1 heq hp2

theorem rehash_primo (ins : hash_t → Clave → Nat → Option (Int × hash_t))
    (hins : ∀ h k e r h1, ins h k e = some (r, h1) → h.capacidad.Prime → h1.capacidad.Prime)
    (hash : hash_t) (r : Int) (hash1 : hash_t) (heq : rehash ins hash = some (r, hash1))
    (hp : hash.capacidad.Prime) : hash1.capacidad.Prime := by
  rw [rehash_eq_hasta _ ins hash rfl] at heq
  unfold rehash_hasta at heq
  cases ha : asignar hash.memoria with
  | mk b m1 =>
    rw [ha] at heq
    cases b with
    | false =>
      simp only [Option.some.injEq, Prod.mk.injEq] at heq
      rw [← heq.2]
      exact hp
    | true =>
      simp only at heq
      cases hb : rehash_bucle ins
          { hash with
            vector := List.replicate (siguiente_primo (hash.capacidad * RATIO)) none
            capacidad := siguiente_primo (hash.capacidad * RATIO)
            cantidad := 0
            memoria := m1 }
          (ranuras hash.vector hash.capacidad) with
      | none => rw [hb] at heq; cases heq
      | some y =>
        obtain ⟨r2, hash2⟩ := y
        rw [hb] at heq
        simp only at heq
        have hp2 : hash2.capacidad.Prime :=
          rehash_bucle_primo ins hins _ _ r2 hash2 hb
            (siguiente_primo_spec (hash.capacidad * RATIO)).1
        by_cases hr : r2 = ERROR
        · rw [if_pos hr] at heq
          simp only [Option.some.injEq, Prod.mk.injEq] at heq
          rw [← heq.2]
          exact hp
        · rw [if_neg hr] at heq
          simp only [Option.some.injEq, Prod.mk.injEq] at heq
          rw [← heq.2]
          exact hp2

/-- Whatever the heap answers, `hash_insertar` leaves a prime capacity prime. -/
theorem hash_insertar_primo (p : Nat) :
    ∀ (h : hash_t) (k : Clave) (e : Nat) (r : Int) (h1 : hash_t),
      hash_insertar p h k e = some (r, h1) → h.capacidad.Prime → h1.capacidad.Prime := by
  induction p with
  | zero =>
    intro h k e r h1 heq _
    simp [hash_insertar] at heq
  | succ p ih =>
    intro h k e r h1 heq hp
    rw [hash_insertar_succ] at heq
    have hc := capacidad_hash_insertar_inicio h k e
    cases hi : hash_insertar_inicio h k e with
    | inl x =>
      rw [hi] at heq hc
      simp only [Option.some.injEq] at heq
      simp only at hc
      rw [heq] at hc
      simp only at hc
      rw [hc]
      exact hp
    | inr h3 =>
      rw [hi] at heq hc
      simp only at heq hc
      exact rehash_primo _ ih h3 r h1 heq (by rw [hc]; exact hp)

/-- The capacity of every reachable table is a prime number. -/
theorem Alcanzable.primo {t : hash_t} (h : Alcanzable t) : t.capacidad.Prime := by
  induction h with
  | crear d c t h =>
    rw [(hash_crear_spec d c t h).2.2.2.2.2.2]
    exact (siguiente_primo_spec _).1
  | insertar p t k e r t1 _ hi ih => exact hash_insertar_primo p t k e r t1 hi ih
  | quitar t k ha ih =>
    rw [(hash_quitar_spec ha.bien k).capacidad]
    exact ih

/-! ## Claims on the invariants of the table and on sizing -/

/-- C26, at the input where it fails: the table reached from `hash_crear(NULL, 3)` by
`hash_insertar(table, "a", 1)` and `hash_quitar(table, "c")`, where `"c"` is not stored and
shares slot 2 with `"a"`, has count 0 while its chains hold one entry. -/
theorem contador_distinto_de_entradas :
    hash_crear [] false 3 = some (tabla_tres false) ∧
      hash_insertar 3 (tabla_tres false) [97] 1 = some (OK, tabla_a false) ∧
      hash_quitar (tabla_a false) [99] = (OK, tabla_a_descontada false) ∧
      Alcanzable (tabla_a_descontada false) ∧
      hash_cantidad (tabla_a_descontada false) = 0 ∧
      total (tabla_a_descontada false) = 1 ∧
      ((List.range (tabla_a_descontada false).capacidad).map
        (fun i => (cadena (tabla_a_descontada false) i).length)).sum = 1 :=
  ⟨hash_crear_tres false, hash_insertar_a false, hash_quitar_c_ausente false,
    Alcanzable_tabla_a_descontada false, rfl, by decide, by decide⟩

/-- C27: in every table reachable from `hash_crear` by `hash_insertar` and `hash_quitar`
calls (no allocation failing), every entry of the chain of slot `i` has
`obtener_hash key % capacidad = i`, the keys of the entries of the whole array are pairwise
distinct, and two entries with the same key, in whichever slots, are the same entry of the
same slot. -/
theorem claves_unicas_y_en_su_ranura (t : hash_t) (ht : Alcanzable t) :
    (∀ i, ∀ d ∈ cadena t i, obtener_hash d.clave % t.capacidad = i ∧ i < t.capacidad) ∧
      ((entradas_vector t.vector).map dato_t.clave).Nodup ∧
      (∀ d, d ∈ entradas_vector t.vector ↔ ∃ i, d ∈ cadena t i) ∧
      (∀ i j d1 d2, d1 ∈ cadena t i → d2 ∈ cadena t j → d1.clave = d2.clave →
        i = j ∧ d1 = d2) := by
  have hb := ht.bien
  refine ⟨?_, hb.nodup_entradas, fun d => mem_entradas_vector _ d, ?_⟩
  · intro i d hd
    have h1 := hb.posicion i d hd
    refine ⟨h1, ?_⟩
    rw [← h1]
    exact Nat.mod_lt _ (by have := hb.capacidad_min; omega)
  · intro i j d1 d2 h1 h2 hk
    have h3 := hb.posicion i d1 h1
    have h4 := hb.posicion j d2 h2
    have h5 := buscar_of_mem hb h1
    have h6 := buscar_of_mem hb h2
    rw [hk] at h3 h5
    rw [h5] at h6
    exact ⟨by rw [← h3, h4], Option.some.inj h6⟩

/-- Witness of C27: the table holding `"a"`, `"b"` and `"c"` after its growth to seven
slots. -/
theorem claves_unicas_y_en_su_ranura_testigo :
    Alcanzable (tabla_abc false) ∧
      ((entradas_vector (tabla_abc false).vector).map dato_t.clave).Nodup ∧
      (entradas_vector (tabla_abc false).vector).map dato_t.clave = [[98], [97], [99]] :=
  ⟨Alcanzable.insertar 3 _ [99] 3 OK _ (Alcanzable_tabla_ab false) (hash_insertar_c false),
    (claves_unicas_y_en_su_ranura (tabla_abc false)
      (Alcanzable.insertar 3 _ [99] 3 OK _ (Alcanzable_tabla_ab false)
        (hash_insertar_c false))).2.1,
    by decide⟩

/-- C28: in every table reachable from `hash_crear` by `hash_insertar` and `hash_quitar`
calls (no allocation failing, so that every insert succeeds), no slot holds an empty chain;
and when `hash_quitar` removes the only entry of a chain, the slot is absent afterwards. -/
theorem ranuras_sin_cadena_vacia (t : hash_t) (ht : Alcanzable t) :
    (∀ i, t.vector.getD i none = none ∨ ∃ l, t.vector.getD i none = some l ∧ l ≠ []) ∧
      (∀ k d, cadena t (obtener_hash k % t.capacidad) = [d] → d.clave = k →
        (hash_quitar t k).1 = OK ∧
          (hash_quitar t k).2.vector.getD (obtener_hash k % t.capacidad) none = none) := by
  have hb := ht.bien
  constructor
  · intro i
    cases hv : t.vector.getD i none with
    | none => exact Or.inl rfl
    | some l =>
      refine Or.inr ⟨l, rfl, ?_⟩
      intro hl
      exact hb.sin_vacias i (by rw [hv, hl])
  · intro k d hc hd
    have hne : cadena t (obtener_hash k % t.capacidad) ≠ [] := by rw [hc]; simp
    rw [hash_quitar_eq hb, if_neg hne]
    refine ⟨rfl, ?_⟩
    show (quitado t k).vector.getD (obtener_hash k % t.capacidad) none = none
    rw [vector_quitado, getD_set_vector _ _ _ _ (hb.indice_lt k), if_pos rfl, hc]
    simp [borrar_clave, hd, lista_vacia, lista_elementos]

/-- Witness of C28: the table holding `"a"` and `"b"`, from which `"a"`, alone in slot 2,
is removed. -/
theorem ranuras_sin_cadena_vacia_testigo :
    Alcanzable (tabla_ab false) ∧
      cadena (tabla_ab false) (obtener_hash [97] % (tabla_ab false).capacidad) = [⟨1, [97]⟩] ∧
      (hash_quitar (tabla_ab false) [97]).1 = OK ∧
      (hash_quitar (tabla_ab false) [97]).2.vector.getD
        (obtener_hash [97] % (tabla_ab false).capacidad) none = none :=
  ⟨Alcanzable_tabla_ab false, by decide,
    (ranuras_sin_cadena_vacia (tabla_ab false) (Alcanzable_tabla_ab false)).2 [97] ⟨1, [97]⟩
      (by decide) rfl⟩

/-- In exact arithmetic: in every table reachable from `hash_crear` by `hash_insertar` and
`hash_quitar` calls, the capacity is a prime number, at least 3, the bucket array has that
many slots, and `obtener_hash key % capacidad` is below the capacity for every key. -/
theorem capacidad_prima (t : hash_t) (ht : Alcanzable t) :
    t.capacidad.Prime ∧ 3 ≤ t.capacidad ∧ t.vector.length = t.capacidad ∧
      ∀ k, obtener_hash k % t.capacidad < t.capacidad := by
  have hb := ht.bien
  refine ⟨ht.primo, hb.capacidad_min, hb.largo, fun k => ?_⟩
  exact Nat.mod_lt _ (by have := hb.capacidad_min; omega)

/-- In exact arithmetic: `siguiente_primo n` is prime, at least `n`, and no prime lies from
`n` up to it; `es_primo m` holds exactly when `m` is prime; `es_primo 0` and `es_primo 1`
are false, and `siguiente_primo 0 = siguiente_primo 1 = 2`. -/
theorem siguiente_primo_es_el_menor :
    (∀ n, (siguiente_primo n).Prime ∧ n ≤ siguiente_primo n ∧
      ∀ q, n ≤ q → q < siguiente_primo n → ¬ q.Prime) ∧
      (∀ m, es_primo m = true ↔ m.Prime) ∧
      es_primo 0 = false ∧ es_primo 1 = false ∧
      siguiente_primo 0 = 2 ∧ siguiente_primo 1 = 2 := by
  have h2 : es_primo 2 = true := by simp [es_primo]
  have hs2 : siguiente_primo 2 = 2 := by
    rw [siguiente_primo, if_pos h2]
  have hs1 : siguiente_primo 1 = 2 := by
    rw [siguiente_primo, if_neg (by rw [es_primo_uno]; simp)]
    exact hs2
  have hs0 : siguiente_primo 0 = 2 := by
    rw [siguiente_primo, if_neg (by rw [es_primo_cero]; simp)]
    exact hs1
  refine ⟨fun n => ?_, es_primo_iff, es_primo_cero, es_primo_uno, hs0, hs1⟩
  obtain ⟨hp, hge, hmin⟩ := siguiente_primo_spec n
  refine ⟨hp, hge, ?_⟩
  intro q hq hlt hqp
  have := hmin q hqp hq
  omega

/-! ## Lemmas on the nested growth pass -/

theorem siguiente_primo_catorce : siguiente_primo 14 = 17 := by
  rw [siguiente_primo, siguiente_primo, siguiente_primo, siguiente_primo]
  simp [es_primo, es_primo_bucle]

theorem siguiente_primo_treinta_y_cuatro : siguiente_primo 34 = 37 := by
  rw [siguiente_primo, siguiente_primo, siguiente_primo, siguiente_primo]
  simp [es_primo, es_primo_bucle]

/-- Whatever `hash_insertar_con` returns for capacities `siguiente_primo` confirms,
`hash_insertar` returns with a recursion bound one above their number. -/
theorem hash_insertar_con_correcta :
    ∀ (l : List (Nat × Nat)), (∀ par ∈ l, siguiente_primo (par.1 * RATIO) = par.2) →
      ∀ (hash : hash_t) (k : Clave) (e : Nat) (x : Int × hash_t),
        hash_insertar_con l hash k e = some x → hash_insertar (l.length + 1) hash k e = some x := by
  intro l
  induction l with
  | nil =>
    intro _ hash k e x h
    rw [hash_insertar_succ]
    simp only [hash_insertar_con] at h
    cases hi : hash_insertar_inicio hash k e with
    | inl y => rw [hi] at h; exact h
    | inr h3 => rw [hi] at h; cases h
  | cons par resto ih =>
    intro hl hash k e x h
    obtain ⟨vieja, nueva⟩ := par
    rw [List.length_cons, hash_insertar_succ]
    simp only [hash_insertar_con] at h
    cases hi : hash_insertar_inicio hash k e with
    | inl y => rw [hi] at h; exact h
    | inr h3 =>
      rw [hi] at h
      simp only at h ⊢
      by_cases hg : h3.capacidad = vieja ∧ h3.memoria = []
      · rw [if_pos hg] at h
        have hsp : siguiente_primo (h3.capacidad * RATIO) = nueva := by
          rw [hg.1]
          exact hl (vieja, nueva) (List.mem_cons_self _ _)
        rw [← rehash_eq_con nueva _ h3 hsp hg.2] at h
        exact rehash_mono _ _
          (ih (fun par hp => hl par (List.mem_cons_of_mem _ hp))) h3 x h
      · rw [if_neg hg] at h
        cases h

theorem Alcanzable_tabla_nido (d : Bool) : Alcanzable (tabla_nido d) := by
  have h1 := Alcanzable_tabla_a_descontada d
  have h2 : Alcanzable (tabla_descontada d 1 [none, some [⟨2, [98]⟩], some [⟨1, [97]⟩]]) :=
    Alcanzable.insertar 3 _ [98] 2 OK _ h1 (by cases d <;> rfl)
  have h3 : Alcanzable (tabla_descontada d 0 [none, some [⟨2, [98]⟩], some [⟨1, [97]⟩]]) := by
    have h := Alcanzable.quitar _ [99] h2
    have he : hash_quitar (tabla_descontada d 1 [none, some [⟨2, [98]⟩], some [⟨1, [97]⟩]])
        [99] = (OK, tabla_descontada d 0 [none, some [⟨2, [98]⟩], some [⟨1, [97]⟩]]) := by
      cases d <;> rfl
    rw [he] at h
    exact h
  have h4 : Alcanzable
      (tabla_descontada d 1 [none, some [⟨2, [98]⟩], some [⟨1, [97]⟩, ⟨4, [100]⟩]]) :=
    Alcanzable.insertar 3 _ [100] 4 OK _ h3 (by cases d <;> rfl)
  have h5 : Alcanzable
      (tabla_descontada d 0 [none, some [⟨2, [98]⟩], some [⟨1, [97]⟩, ⟨4, [100]⟩]]) := by
    have h := Alcanzable.quitar _ [99] h4
    have he : hash_quitar
        (tabla_descontada d 1 [none, some [⟨2, [98]⟩], some [⟨1, [97]⟩, ⟨4, [100]⟩]]) [99] =
        (OK, tabla_descontada d 0 [none, some [⟨2, [98]⟩], some [⟨1, [97]⟩, ⟨4, [100]⟩]]) := by
      cases d <;> rfl
    rw [he] at h
    exact h
  have h6 : Alcanzable
      (tabla_descontada d 1
        [none, some [⟨2, [98]⟩, ⟨5, [101]⟩], some [⟨1, [97]⟩, ⟨4, [100]⟩]]) :=
    Alcanzable.insertar 3 _ [101] 5 OK _ h5 (by cases d <;> rfl)
  exact Alcanzable.insertar 3 _ [102] 6 OK _ h6 (by cases d <;> rfl)

theorem hash_insertar_inicio_nido (d : Bool) :
    hash_insertar_inicio (tabla_nido d) [103] 7 = Sum.inr (tabla_nido_llena d) := by
  cases d <;> rfl

theorem hash_insertar_inicio_siete (d : Bool) :
    hash_insertar_inicio (tabla_siete_cinco d) [100] 4 = Sum.inr (tabla_siete_llena d) := by
  cases d <;> rfl

/-- With the capacities 7 and 17 given, the insert of `"g"` into `tabla_nido` evaluates. -/
theorem hash_insertar_con_nido (d : Bool) :
    hash_insertar_con [(3, 7), (7, 17)] (tabla_nido d) [103] 7 =
      some (OK, tabla_diecisiete d) := by
  cases d <;> rfl

/-- The insert of `"g"` into `tabla_nido` returns `OK` within three levels of recursion
and leaves 17 slots. -/
theorem hash_insertar_g_anidado (d : Bool) :
    hash_insertar 3 (tabla_nido d) [103] 7 = some (OK, tabla_diecisiete d) := by
  apply hash_insertar_con_correcta [(3, 7), (7, 17)] _ _ _ _ _ (hash_insertar_con_nido d)
  intro par hp
  simp only [List.mem_cons, List.mem_singleton, List.not_mem_nil, or_false] at hp
  rcases hp with rfl | rfl
  · exact siguiente_primo_seis
  · exact siguiente_primo_catorce

/-- Two levels of recursion are not enough for the insert of `"g"` into `tabla_nido`: the
re-insertion of `"d"` starts a growth pass of its own. -/
theorem hash_insertar_g_dos_niveles (d : Bool) :
    hash_insertar 2 (tabla_nido d) [103] 7 = none := by
  rw [hash_insertar_succ, hash_insertar_inicio_nido]
  simp only
  rw [rehash_eq_con 7 _ (tabla_nido_llena d) siguiente_primo_seis rfl]
  cases d <;> rfl

/-- The growth pass on `tabla_nido_llena`: a table of 3 slots comes out with 17. -/
theorem rehash_nido (d : Bool) :
    rehash (hash_insertar 2) (tabla_nido_llena d) = some (OK, tabla_diecisiete d) := by
  have h := hash_insertar_g_anidado d
  rw [hash_insertar_succ, hash_insertar_inicio_nido] at h
  exact h

/-- The first five re-insertions of the growth pass on `tabla_nido_llena`. -/
theorem insertar_todos_siete (d : Bool) :
    insertar_todos 2 (tabla_siete_vacia d)
      [([102], 6), ([98], 2), ([101], 5), ([103], 7), ([97], 1)] =
      some (tabla_siete_cinco d) := by
  cases d <;> rfl

/-- The growth pass the re-insertion of `"d"` starts. -/
theorem rehash_siete (d : Bool) :
    rehash (hash_insertar 1) (tabla_siete_llena d) = some (OK, tabla_diecisiete d) := by
  rw [rehash_eq_con 17 _ (tabla_siete_llena d) siguiente_primo_catorce rfl]
  cases d <;> rfl

/-! ## Growth of tables whose counter is exact -/

/-- Two recursion bounds that both let `hash_insertar` return give the same result. -/
theorem hash_insertar_unico (p q : Nat) (hash : hash_t) (k : Clave) (e : Nat)
    (x y : Int × hash_t) (hx : hash_insertar p hash k e = some x)
    (hy : hash_insertar q hash k e = some y) : x = y := by
  rcases Nat.le_total p q with hle | hle
  · have h := hash_insertar_mono_le p q hle hash k e x hx
    rw [hy] at h
    exact (Option.some.inj h).symm
  · have h := hash_insertar_mono_le q p hle hash k e y hy
    rw [hx] at h
    exact Option.some.inj h

/-- In a table built without removing absent keys the counter is exact and the load is
below the threshold (or the capacity is so large that no counter value exceeds it). -/
theorem Construida.externo {t : hash_t} (h : Construida t) : InvExterno 0 t := by
  induction h with
  | crear d c t h =>
    obtain ⟨_, h2, h3, _⟩ := hash_crear_spec d c t h
    refine ⟨Nat.zero_le _, ?_, Or.inl ⟨?_, ?_⟩⟩
    · rw [h2, h3]; rfl
    · rw [h3]; simp [TAM_SIZE_T]
    · rw [h3]; omega
  | insertar p t k e r t1 hc hi ih =>
    have hb := hc.alcanzable.bien
    cases hk : buscar t k with
    | some d =>
      obtain ⟨t2, h1, h2⟩ := hash_insertar_estable p t hb k e _ hi
      have h3 : t1 = t2 := (Prod.mk.inj h1).2
      have h4 := h2.presente (by rw [hk]; simp)
      rw [hk] at h4
      rw [h3, h4]
      obtain ⟨_, i2, i3⟩ := ih
      have ht := @total_reemplazado t k (hb.indice_lt k) e d
      have hcap : (reemplazado t k e (some d |>.getD ⟨0, []⟩)).capacidad = t.capacidad := rfl
      have hcnt : (reemplazado t k e (some d |>.getD ⟨0, []⟩)).cantidad = t.cantidad := rfl
      refine ⟨Nat.zero_le _, ?_, ?_⟩
      · rw [hcnt, i2]
        exact congrArg (· % TAM_SIZE_T) ht.symm
      · rw [hcap]
        rcases i3 with i3 | i3
        · left
          exact ⟨by rw [show total (reemplazado t k e (some d |>.getD ⟨0, []⟩)) = total t from ht]
                    exact i3.1,
                 by rw [show total (reemplazado t k e (some d |>.getD ⟨0, []⟩)) = total t from ht]
                    exact i3.2⟩
        · right; exact i3
    | none =>
      obtain ⟨u1, h1, h2, _⟩ := hash_insertar_externo 0 0 t ⟨e, k⟩ ih hb hk
      have h3 := hash_insertar_unico _ _ t k e _ _ hi h1
      have h4 : t1 = u1 := (Prod.mk.inj h3).2
      rw [h4]
      exact h2
  | quitar t k hc hk ih =>
    have hb := hc.alcanzable.bien
    have hq := hash_quitar_spec hb k
    have hcnt := Quita_contado hq hk hc.contado
    have hs := hq.suma
    obtain ⟨_, _, i3⟩ := ih
    refine ⟨Nat.zero_le _, hcnt, ?_⟩
    rw [hq.capacidad]
    rcases i3 with i3 | i3
    · left
      omega
    · right; exact i3

/-- When the counter is exact, the growth pass of an insert completes with the re-insertions
bounded to one level of recursion, so none of them starts a pass of its own; the capacity
becomes `siguiente_primo` of twice the old one and the counter the number of entries. -/
theorem hash_insertar_crece_exacto (p : Nat) (t : hash_t) (hb : BienFormado t)
    (hi : InvExterno 0 t) (k : Clave) (e : Nat) (hk : buscar t k = none)
    (hc : 3 * t.capacidad < 4 * ((t.cantidad + 1) % TAM_SIZE_T)) :
    ∃ t1, hash_insertar (p + 2) t k e = some (OK, t1) ∧
      rehash (hash_insertar (p + 1)) (agregar t k e) = some (OK, t1) ∧
      t1.capacidad = siguiente_primo (t.capacidad * RATIO) ∧
      t1.cantidad = total t + 1 ∧ total t1 = total t + 1 := by
  obtain ⟨_, hcnt, hload⟩ := hi
  have hW : TAM_SIZE_T = 18446744073709551616 := by simp [TAM_SIZE_T]
  have hmod : (t.cantidad + 1) % TAM_SIZE_T = (total t + 1) % TAM_SIZE_T := by
    rw [hcnt]; simp [Nat.add_mod]
  rw [hmod] at hc
  have hta := total_agregar hb k e
  have hba := BienFormado_agregar hb k e hk
  have hcapa : (agregar t k e).capacidad = t.capacidad := rfl
  have hA : total t < TAM_SIZE_T ∧ 4 * total t ≤ 3 * t.capacidad := by
    rcases hload with h | h
    · exact h
    · exfalso
      have : (total t + 1) % TAM_SIZE_T < TAM_SIZE_T := Nat.mod_lt _ (by simp [TAM_SIZE_T])
      omega
  have hne : total t + 1 < TAM_SIZE_T := by
    rcases Nat.lt_or_ge (total t + 1) TAM_SIZE_T with h | h
    · exact h
    · exfalso
      have : total t + 1 = TAM_SIZE_T := by omega
      rw [this, Nat.mod_self] at hc
      omega
  have hsp := siguiente_primo_ge (t.capacidad * RATIO)
  have hcmin := hb.capacidad_min
  have hpre : 4 * total (agregar t k e)
      ≤ 3 * siguiente_primo ((agregar t k e).capacidad * RATIO) := by
    rw [hta, hcapa]
    simp only [ RATIO] at hsp ⊢
    omega
  obtain ⟨u1, h1, ⟨h2, h3⟩, _, _, _, _, h8⟩ := rehash_interno p (agregar t k e) hba hpre
  refine ⟨u1, ?_, h1, ?_, ?_, ?_⟩
  · rw [hash_insertar_ausente hb (p + 1) k e hk, hmod, if_pos hc]
    exact h1
  · rw [h2, hcapa]
  · rw [h3, h8, hta]
    exact Nat.mod_eq_of_lt hne
  · rw [h8, hta]

/-! ## Claims on the growth pass -/

/-- C31, as the code runs on a reachable table: the insert of `"g"` into `tabla_nido` (3
slots, five entries, counter 2 after three removals of the absent key `"c"`) starts a
growth pass on a table of capacity 3; the pass returns `OK` and leaves capacity 17, whereas
the smallest prime at or above `2 * 3` is 7. The counter it leaves is 6, the number of
entries relocated. -/
theorem crecimiento_anidado_capacidad (d : Bool) :
    Alcanzable (tabla_nido d) ∧
      hash_insertar_inicio (tabla_nido d) [103] 7 = Sum.inr (tabla_nido_llena d) ∧
      (tabla_nido_llena d).capacidad = 3 ∧
      rehash (hash_insertar 2) (tabla_nido_llena d) = some (OK, tabla_diecisiete d) ∧
      (tabla_diecisiete d).capacidad = 17 ∧ siguiente_primo (2 * 3) = 7 ∧
      (tabla_diecisiete d).cantidad = 6 ∧ total (tabla_nido_llena d) = 6 ∧
      total (tabla_diecisiete d) = 6 :=
  ⟨Alcanzable_tabla_nido d, hash_insertar_inicio_nido d, rfl, rehash_nido d, rfl,
    siguiente_primo_seis, rfl, by cases d <;> rfl, by cases d <;> rfl⟩

/-- C32: on every reachable table, registered destructor or not, an insert of a new key
that triggers growth runs a growth pass that returns `OK` and leaves the log of destructor
calls as it was: the re-insertions call the destructor for no value, and freeing the old
array and its chains (done with a `NULL` destructor) calls it for none either. -/
theorem crecimiento_sin_destructor (t : hash_t) (ha : Alcanzable t) (k : Clave) (e p : Nat)
    (hk : buscar t k = none)
    (hcarga : 3 * t.capacidad < 4 * ((t.cantidad + 1) % TAM_SIZE_T)) :
    ∃ t1, hash_insertar (p + 3) t k e = some (OK, t1) ∧
      rehash (hash_insertar (p + 2)) (agregar t k e) = some (OK, t1) ∧
      t1.destruidos = t.destruidos ∧ 2 * t.capacidad ≤ t1.capacidad ∧
      destruir_vector_hash (agregar t k e).vector (agregar t k e).capacidad false = [] := by
  have hb := ha.bien
  obtain ⟨u1, h1, h2, _, _, h5, _, _⟩ :=
    rehash_externo p (agregar t k e) (BienFormado_agregar hb k e hk)
  refine ⟨u1, ?_, h1, h5, ?_, destruir_vector_hash_false _ _⟩
  · rw [hash_insertar_ausente hb (p + 2) k e hk, if_pos hcarga]
    exact h1
  · have hc := h2.1
    have hsp := siguiente_primo_ge ((agregar t k e).capacidad * RATIO)
    have hcapa : (agregar t k e).capacidad = t.capacidad := rfl
    rw [hcapa] at hc hsp
    simp only [ RATIO] at hc hsp
    omega

/-- Witness of C32: the third insert into a table created with capacity 3 and a
destructor. -/
theorem crecimiento_sin_destructor_testigo :
    Alcanzable (tabla_ab true) ∧ (tabla_ab true).destructor = true ∧
      buscar (tabla_ab true) [99] = none ∧
      3 * (tabla_ab true).capacidad < 4 * (((tabla_ab true).cantidad + 1) % TAM_SIZE_T) ∧
      ∃ t1, hash_insertar (0 + 3) (tabla_ab true) [99] 3 = some (OK, t1) ∧
        rehash (hash_insertar (0 + 2)) (agregar (tabla_ab true) [99] 3) = some (OK, t1) ∧
        t1.destruidos = (tabla_ab true).destruidos ∧
        2 * (tabla_ab true).capacidad ≤ t1.capacidad ∧
        destruir_vector_hash (agregar (tabla_ab true) [99] 3).vector
          (agregar (tabla_ab true) [99] 3).capacidad false = [] :=
  ⟨Alcanzable_tabla_ab true, rfl, by decide, by decide,
    crecimiento_sin_destructor (tabla_ab true) (Alcanzable_tabla_ab true) [99] 3 0
      (by decide) (by decide)⟩

/-- C33, as the code runs on a reachable table: the insert of `"g"` into `tabla_nido` (3
slots, five entries, counter 2 after three removals of the absent key `"c"`) starts a
growth pass into 7 slots; once `"f"`, `"b"`, `"e"`, `"g"`, `"a"` are back in, the
re-insertion of `"d"` finds 6 entries counted in 7 slots, a load above 0.75, and starts a
growth pass of its own, which leaves 17 slots. Two levels of recursion are therefore not
enough for the insert; with three it returns `OK`. -/
theorem reinsercion_inicia_crecimiento (d : Bool) :
    Alcanzable (tabla_nido d) ∧
      hash_insertar 2 (tabla_nido d) [103] 7 = none ∧
      hash_insertar 3 (tabla_nido d) [103] 7 = some (OK, tabla_diecisiete d) ∧
      insertar_todos 2 (tabla_siete_vacia d)
        [([102], 6), ([98], 2), ([101], 5), ([103], 7), ([97], 1)] =
        some (tabla_siete_cinco d) ∧
      hash_insertar_inicio (tabla_siete_cinco d) [100] 4 = Sum.inr (tabla_siete_llena d) ∧
      3 * (tabla_siete_llena d).capacidad < 4 * (tabla_siete_llena d).cantidad ∧
      rehash (hash_insertar 1) (tabla_siete_llena d) = some (OK, tabla_diecisiete d) :=
  ⟨Alcanzable_tabla_nido d, hash_insertar_g_dos_niveles d, hash_insertar_g_anidado d,
    insertar_todos_siete d, hash_insertar_inicio_siete d, by cases d <;> decide,
    rehash_siete d⟩

/-! ## Termination of the sizing functions in `size_t` arithmetic -/

theorem siguiente_primo_paso (numero : Nat) (h : ¬ es_primo numero = true) :
    siguiente_primo numero = siguiente_primo (numero + 1) := by
  rw [siguiente_primo, if_neg h]

/-- The loop of `es_primo` ends in the round in which its variable is 1, if not before. -/
theorem es_primo_bucle_vueltas_termina (numero : Nat) :
    ∀ (j i : Nat), i < TAM_SIZE_T → (i + 6 * j) % TAM_SIZE_T = 1 →
      ∃ b v, v ≤ j + 1 ∧ ∀ n, es_primo_bucle_vueltas numero (v + n) i = some (b, v) := by
  have hW : TAM_SIZE_T = 18446744073709551616 := by simp [TAM_SIZE_T]
  intro j
  induction j with
  | zero =>
    intro i hi h1
    have hi1 : i = 1 := by
      rw [hW] at hi h1
      omega
    subst hi1
    by_cases hle : 1 * 1 % TAM_SIZE_T ≤ numero
    · refine ⟨false, 1, by omega, ?_⟩
      intro n
      rw [Nat.add_comm]
      simp only [es_primo_bucle_vueltas, if_pos hle, Nat.mod_one, true_or, if_true]
    · refine ⟨true, 0, by omega, ?_⟩
      intro n
      cases n with
      | zero => simp only [Nat.add_zero, es_primo_bucle_vueltas, if_neg hle]
      | succ n => simp only [Nat.zero_add, es_primo_bucle_vueltas, if_neg hle]
  | succ j ih =>
    intro i hi h1
    by_cases hle : i * i % TAM_SIZE_T ≤ numero
    · by_cases hd : numero % i = 0 ∨ numero % ((i + 2) % TAM_SIZE_T) = 0
      · refine ⟨false, 1, by omega, ?_⟩
        intro n
        rw [Nat.add_comm]
        simp only [es_primo_bucle_vueltas, if_pos hle, if_pos hd]
      · have hi6 : (i + 6) % TAM_SIZE_T < TAM_SIZE_T := Nat.mod_lt _ (by rw [hW]; omega)
        have h16 : ((i + 6) % TAM_SIZE_T + 6 * j) % TAM_SIZE_T = 1 := by
          rw [hW] at h1 ⊢
          omega
        obtain ⟨b, v, hv, h4⟩ := ih ((i + 6) % TAM_SIZE_T) hi6 h16
        refine ⟨b, v + 1, by omega, ?_⟩
        intro n
        have he : v + 1 + n = (v + n) + 1 := by omega
        rw [he]
        simp only [es_primo_bucle_vueltas, if_pos hle, if_neg hd]
        rw [h4 n]
        rfl
    · refine ⟨true, 0, by omega, ?_⟩
      intro n
      cases n with
      | zero => simp only [Nat.add_zero, es_primo_bucle_vueltas, if_neg hle]
      | succ n => simp only [Nat.zero_add, es_primo_bucle_vueltas, if_neg hle]

/-- In `size_t` arithmetic `es_primo` returns for every input, its loop running at most
`VUELTAS_MAX` rounds. -/
theorem es_primo_vueltas_termina (numero : Nat) :
    ∃ b v, v ≤ VUELTAS_MAX ∧ ∀ n, es_primo_vueltas (v + n) numero = some (b, v) := by
  unfold es_primo_vueltas
  by_cases h1 : numero = 1
  · exact ⟨false, 0, Nat.zero_le _, fun n => by rw [if_pos h1]⟩
  by_cases h23 : numero = 2 ∨ numero = 3
  · exact ⟨true, 0, Nat.zero_le _, fun n => by rw [if_neg h1, if_pos h23]⟩
  by_cases hm : numero % 2 = 0 ∨ numero % 3 = 0
  · exact ⟨false, 0, Nat.zero_le _, fun n => by rw [if_neg h1, if_neg h23, if_pos hm]⟩
  have h5 : (5 : Nat) < TAM_SIZE_T := by simp [TAM_SIZE_T]
  have hk : (5 + 6 * 3074457345618258602) % TAM_SIZE_T = 1 := by simp [TAM_SIZE_T]
  obtain ⟨b, v, hv, h4⟩ := es_primo_bucle_vueltas_termina numero 3074457345618258602 5 h5 hk
  refine ⟨b, v, ?_, fun n => by rw [if_neg h1, if_neg h23, if_neg hm]; exact h4 n⟩
  simp only [VUELTAS_MAX]
  omega

/-- With `VUELTAS_MAX` rounds or more, `es_primo` returns, whatever the input. -/
theorem es_primo_vueltas_max (numero m : Nat) :
    ∃ b v, v ≤ VUELTAS_MAX ∧ es_primo_vueltas (VUELTAS_MAX + m) numero = some (b, v) := by
  obtain ⟨b, v, hv, h⟩ := es_primo_vueltas_termina numero
  refine ⟨b, v, hv, ?_⟩
  have he : VUELTAS_MAX + m = v + (VUELTAS_MAX - v + m) := by omega
  rw [he]
  exact h _

theorem es_primo_vueltas_dos (n : Nat) : es_primo_vueltas n 2 = some (true, 0) := by
  simp [es_primo_vueltas]

/-- In `size_t` arithmetic `siguiente_primo` returns for every input: at the latest the
recursion wraps to 0 and stops at 2, after `2 ^ 64 + 2 - numero` recursive calls (`2 -
numero` for an input below 3). -/
theorem siguiente_primo_llamadas_termina :
    ∀ (d numero : Nat), numero < TAM_SIZE_T → (numero + d) % TAM_SIZE_T = 2 →
      ∃ p c, c ≤ d ∧ ∀ m n,
        siguiente_primo_llamadas (VUELTAS_MAX + m) (c + n) numero = some (p, c) := by
  have hW : TAM_SIZE_T = 18446744073709551616 := by simp [TAM_SIZE_T]
  intro d
  induction d with
  | zero =>
    intro numero hn h2
    have : numero = 2 := by
      rw [hW] at hn h2
      omega
    subst this
    refine ⟨2, 0, Nat.le_refl _, ?_⟩
    intro m n
    cases n with
    | zero => simp only [Nat.add_zero, siguiente_primo_llamadas, es_primo_vueltas_dos]
    | succ n => simp only [Nat.zero_add, siguiente_primo_llamadas, es_primo_vueltas_dos]
  | succ d ih =>
    intro numero hn h2
    have hn1 : (numero + 1) % TAM_SIZE_T < TAM_SIZE_T := Nat.mod_lt _ (by rw [hW]; omega)
    have h21 : ((numero + 1) % TAM_SIZE_T + d) % TAM_SIZE_T = 2 := by
      rw [hW] at h2 ⊢
      omega
    obtain ⟨p, c, hc, h4⟩ := ih ((numero + 1) % TAM_SIZE_T) hn1 h21
    by_cases hacc : ∀ m, ∃ v, es_primo_vueltas (VUELTAS_MAX + m) numero = some (true, v)
    · refine ⟨numero, 0, Nat.zero_le _, ?_⟩
      intro m n
      obtain ⟨v, hv⟩ := hacc m
      cases n with
      | zero => simp only [Nat.add_zero, siguiente_primo_llamadas, hv]
      | succ n => simp only [Nat.zero_add, siguiente_primo_llamadas, hv]
    · have hrej : ∀ m, ∃ v, es_primo_vueltas (VUELTAS_MAX + m) numero = some (false, v) := by
        obtain ⟨b, v, hv, h⟩ := es_primo_vueltas_termina numero
        have hall : ∀ m, es_primo_vueltas (VUELTAS_MAX + m) numero = some (b, v) := by
          intro m
          have he : VUELTAS_MAX + m = v + (VUELTAS_MAX - v + m) := by omega
          rw [he]
          exact h _
        cases b with
        | true => exact absurd (fun m => ⟨v, hall m⟩) hacc
        | false => exact fun m => ⟨v, hall m⟩
      refine ⟨p, c + 1, by omega, ?_⟩
      intro m n
      obtain ⟨v, hv⟩ := hrej m
      have he : c + 1 + n = (c + n) + 1 := by omega
      rw [he]
      simp only [siguiente_primo_llamadas, hv]
      rw [h4 m n]
      rfl

/-! ## The sizing functions where nothing wraps -/

/-- For a number below `COTA_ES_PRIMO` the loop of `es_primo` runs in `size_t` arithmetic
as in exact arithmetic: the loop variable takes the values `i`, `i + 6`, ... while its
square is at most `numero`, and the loop leaves with a divisor found or with a square above
`numero`. -/
theorem es_primo_bucle_vueltas_en_rango (numero : Nat) (hn : numero < COTA_ES_PRIMO) :
    ∀ (k i : Nat), numero + 1 - i = k → i < 4294967296 →
      ∃ v, (∀ j, j < v → (i + 6 * j) * (i + 6 * j) ≤ numero) ∧
        (numero < (i + 6 * v) * (i + 6 * v) ∨ es_primo_bucle numero i = false) ∧
        ∀ n, es_primo_bucle_vueltas numero (v + n) i = some (es_primo_bucle numero i, v) := by
  have hW : TAM_SIZE_T = 18446744073709551616 := by simp [TAM_SIZE_T]
  have hC : COTA_ES_PRIMO = 18446744022169944100 := by simp [COTA_ES_PRIMO]
  intro k
  induction k using Nat.strong_induction_on with
  | _ k ih =>
    intro i hk hi
    have hii : i ≤ i * i := Nat.le_mul_self i
    have hsq : i * i < TAM_SIZE_T := by
      have h1 : i * i ≤ 4294967295 * 4294967295 := Nat.mul_le_mul (by omega) (by omega)
      rw [hW]
      omega
    have hm1 : i * i % TAM_SIZE_T = i * i := Nat.mod_eq_of_lt hsq
    have hm2 : (i + 2) % TAM_SIZE_T = i + 2 := Nat.mod_eq_of_lt (by rw [hW]; omega)
    have hm6 : (i + 6) % TAM_SIZE_T = i + 6 := Nat.mod_eq_of_lt (by rw [hW]; omega)
    rw [es_primo_bucle]
    by_cases hle : i * i ≤ numero
    · have hle1 : i * i % TAM_SIZE_T ≤ numero := by rw [hm1]; exact hle
      rw [if_pos hle]
      by_cases hd : numero % i = 0 ∨ numero % (i + 2) = 0
      · have hd1 : numero % i = 0 ∨ numero % ((i + 2) % TAM_SIZE_T) = 0 := by
          rw [hm2]; exact hd
        rw [if_pos hd]
        refine ⟨1, ?_, Or.inr rfl, ?_⟩
        · intro j hj
          have : j = 0 := by omega
          subst this
          exact hle
        · intro n
          rw [Nat.add_comm]
          simp only [es_primo_bucle_vueltas, if_pos hle1, if_pos hd1]
      · have hd1 : ¬ (numero % i = 0 ∨ numero % ((i + 2) % TAM_SIZE_T) = 0) := by
          rw [hm2]; exact hd
        rw [if_neg hd]
        have hi6 : i + 6 < 4294967296 := by
          rcases Nat.lt_or_ge i 4294967290 with h | h
          · omega
          · exfalso
            have h1 : 4294967290 * 4294967290 ≤ i * i := Nat.mul_le_mul h h
            rw [hC] at hn
            omega
        obtain ⟨v, h2, h3, h4⟩ := ih (numero + 1 - (i + 6)) (by omega) (i + 6) rfl hi6
        refine ⟨v + 1, ?_, ?_, ?_⟩
        · intro j hj
          cases j with
          | zero => exact hle
          | succ j =>
            have he : i + 6 * (j + 1) = i + 6 + 6 * j := by omega
            rw [he]
            exact h2 j (by omega)
        · have he : i + 6 * (v + 1) = i + 6 + 6 * v := by omega
          rw [he]
          exact h3
        · intro n
          have he : v + 1 + n = (v + n) + 1 := by omega
          rw [he]
          simp only [es_primo_bucle_vueltas, if_pos hle1, if_neg hd1]
          rw [hm6, h4 n]
          rfl
    · have hle1 : ¬ i * i % TAM_SIZE_T ≤ numero := by rw [hm1]; exact hle
      rw [if_neg hle]
      have h0 : numero < (i + 6 * 0) * (i + 6 * 0) := by
        simp only [Nat.mul_zero, Nat.add_zero]; omega
      refine ⟨0, ?_, Or.inl h0, ?_⟩
      · intro j hj
        omega
      · intro n
        cases n with
        | zero => simp only [Nat.add_zero, es_primo_bucle_vueltas, if_neg hle1]
        | succ n => simp only [Nat.zero_add, es_primo_bucle_vueltas, if_neg hle1]

/-- For a number below `COTA_ES_PRIMO`, `es_primo` returns in `size_t` arithmetic what it
returns in exact arithmetic. -/
theorem es_primo_vueltas_en_rango (numero : Nat) (hn : numero < COTA_ES_PRIMO) :
    ∃ v, ∀ n, es_primo_vueltas (v + n) numero = some (es_primo numero, v) := by
  unfold es_primo_vueltas es_primo
  by_cases h1 : numero = 1
  · exact ⟨0, fun n => by rw [if_pos h1, if_pos h1]⟩
  by_cases h23 : numero = 2 ∨ numero = 3
  · exact ⟨0, fun n => by rw [if_neg h1, if_pos h23, if_neg h1, if_pos h23]⟩
  by_cases hm : numero % 2 = 0 ∨ numero % 3 = 0
  · exact ⟨0, fun n => by
      rw [if_neg h1, if_neg h23, if_pos hm, if_neg h1, if_neg h23, if_pos hm]⟩
  obtain ⟨v, _, _, h4⟩ := es_primo_bucle_vueltas_en_rango numero hn _ 5 rfl (by omega)
  exact ⟨v, fun n => by
    rw [if_neg h1, if_neg h23, if_neg hm, if_neg h1, if_neg h23, if_neg hm]; exact h4 n⟩

/-- The same with the bound `VUELTAS_MAX` or more. -/
theorem es_primo_vueltas_max_en_rango (numero : Nat) (hn : numero < COTA_ES_PRIMO) (m : Nat) :
    ∃ v, es_primo_vueltas (VUELTAS_MAX + m) numero = some (es_primo numero, v) := by
  obtain ⟨v, h⟩ := es_primo_vueltas_en_rango numero hn
  obtain ⟨b, v1, hv1, h1⟩ := es_primo_vueltas_termina numero
  have e1 := h v1
  have e2 := h1 v
  rw [Nat.add_comm v1 v, e1] at e2
  have e3 := Prod.mk.inj (Option.some.inj e2)
  refine ⟨v, ?_⟩
  have he : VUELTAS_MAX + m = v + (VUELTAS_MAX - v + m) := by
    have : v = v1 := e3.2
    omega
  rw [he]
  exact h _

/-- When the prime `siguiente_primo numero` of exact arithmetic lies below `COTA_ES_PRIMO`,
the recursion of `siguiente_primo` in `size_t` arithmetic returns it, after exactly as many
recursive calls as the distance `c` from `numero` to it. -/
theorem siguiente_primo_llamadas_en_rango :
    ∀ (c numero : Nat), numero + c = siguiente_primo numero →
      siguiente_primo numero < COTA_ES_PRIMO →
      ∀ m n, siguiente_primo_llamadas (VUELTAS_MAX + m) (c + n) numero =
        some (siguiente_primo numero, c) := by
  have hW : TAM_SIZE_T = 18446744073709551616 := by simp [TAM_SIZE_T]
  have hC : COTA_ES_PRIMO = 18446744022169944100 := by simp [COTA_ES_PRIMO]
  intro c
  induction c with
  | zero =>
    intro numero h hlt m n
    have hp : es_primo numero = true := by
      have := es_primo_siguiente_primo numero
      rw [← h] at this
      exact this
    rw [← h] at hlt ⊢
    obtain ⟨v, hv⟩ := es_primo_vueltas_max_en_rango numero hlt m
    rw [hp] at hv
    cases n with
    | zero => simp only [Nat.add_zero, siguiente_primo_llamadas, hv]
    | succ n => simp only [Nat.zero_add, Nat.add_zero, siguiente_primo_llamadas, hv]
  | succ c ih =>
    intro numero h hlt m n
    have hp : ¬ es_primo numero = true := by
      intro hp
      rw [siguiente_primo, if_pos hp] at h
      omega
    have hpf : es_primo numero = false := by
      cases hb : es_primo numero with
      | true => exact absurd hb hp
      | false => rfl
    have hs := siguiente_primo_paso numero hp
    have h1 : numero + 1 + c = siguiente_primo (numero + 1) := by
      rw [← hs, ← h]; omega
    have hnlt : numero < COTA_ES_PRIMO := by omega
    obtain ⟨v, hv⟩ := es_primo_vueltas_max_en_rango numero hnlt m
    rw [hpf] at hv
    have hmod : (numero + 1) % TAM_SIZE_T = numero + 1 :=
      Nat.mod_eq_of_lt (by rw [hW]; rw [hC] at hnlt; omega)
    have he : c + 1 + n = (c + n) + 1 := by omega
    rw [he]
    simp only [siguiente_primo_llamadas, hv]
    rw [hmod, ih (numero + 1) h1 (by rw [← hs]; exact hlt) m n, hs]
    rfl

/-- When the prime `siguiente_primo numero` of exact arithmetic lies below `COTA_ES_PRIMO`,
`siguiente_primo` returns it in `size_t` arithmetic too. -/
theorem siguiente_primo_size_t_en_rango (numero : Nat)
    (h : siguiente_primo numero < COTA_ES_PRIMO) :
    siguiente_primo_size_t numero = siguiente_primo numero := by
  have hW : TAM_SIZE_T = 18446744073709551616 := by simp [TAM_SIZE_T]
  have hC : COTA_ES_PRIMO = 18446744022169944100 := by simp [COTA_ES_PRIMO]
  obtain ⟨c, hc⟩ := Nat.exists_eq_add_of_le (siguiente_primo_ge numero)
  have h1 := siguiente_primo_llamadas_en_rango c numero hc.symm h 0 (TAM_SIZE_T - c)
  have he : c + (TAM_SIZE_T - c) = TAM_SIZE_T := by
    rw [hW]; rw [hC] at h; omega
  rw [he, Nat.add_zero] at h1
  unfold siguiente_primo_size_t
  rw [h1]

/-- When some prime at or above the requested capacity (3 for a smaller request) lies
below `COTA_ES_PRIMO`, `hash_crear` sizes the table in `size_t` arithmetic as in exact
arithmetic. -/
theorem hash_crear_size_t_en_rango (m : Memoria) (d : Bool) (c q : Nat) (hq : q.Prime)
    (hle : (if c < 3 then 3 else c) ≤ q) (hlt : q < COTA_ES_PRIMO) :
    hash_crear_size_t m d c = hash_crear m d c := by
  have h := (siguiente_primo_spec (if c < 3 then 3 else c)).2.2 q hq hle
  have h1 := siguiente_primo_size_t_en_rango (if c < 3 then 3 else c) (by omega)
  unfold hash_crear_size_t hash_crear
  rcases asignar m with ⟨_ | _, m1⟩
  · rfl
  · dsimp only
    rcases asignar m1 with ⟨_ | _, m2⟩
    · rfl
    · dsimp only
      rw [h1]

/-! ## The sizing functions at `SIZE_MAX` -/

theorem es_primo_vueltas_max_size_t (n : Nat) :
    es_primo_vueltas n 18446744073709551615 = some (false, 0) := by
  simp [es_primo_vueltas]

theorem es_primo_vueltas_penultimo (n : Nat) :
    es_primo_vueltas n 18446744073709551614 = some (false, 0) := by
  simp [es_primo_vueltas]

theorem es_primo_vueltas_cero (n : Nat) : es_primo_vueltas n 0 = some (false, 0) := by
  simp [es_primo_vueltas]

theorem es_primo_vueltas_uno (n : Nat) : es_primo_vueltas n 1 = some (false, 0) := by
  simp [es_primo_vueltas]

/-- From 2 the recursion of `siguiente_primo` returns at once. -/
theorem siguiente_primo_llamadas_dos (v n : Nat) :
    siguiente_primo_llamadas v n 2 = some (2, 0) := by
  cases n <;> simp only [siguiente_primo_llamadas, es_primo_vueltas_dos]

/-- From `SIZE_MAX` the recursion of `siguiente_primo` wraps: it tests `SIZE_MAX`, 0, 1 and
2, and returns 2 after three recursive calls. -/
theorem siguiente_primo_llamadas_max (v n : Nat) :
    siguiente_primo_llamadas v (3 + n) 18446744073709551615 = some (2, 3) := by
  have h0 : (18446744073709551615 + 1) % TAM_SIZE_T = 0 := by simp [TAM_SIZE_T]
  have h1 : (0 + 1) % TAM_SIZE_T = 1 := by simp [TAM_SIZE_T]
  have h2 : (1 + 1) % TAM_SIZE_T = 2 := by simp [TAM_SIZE_T]
  have he : 3 + n = ((n + 1) + 1) + 1 := by omega
  rw [he]
  simp only [siguiente_primo_llamadas, es_primo_vueltas_max_size_t, h0, es_primo_vueltas_cero,
    h1, es_primo_vueltas_uno, h2, siguiente_primo_llamadas_dos]
  rfl

/-- Fewer than three recursive calls do not let `siguiente_primo` return from
`SIZE_MAX`. -/
theorem siguiente_primo_llamadas_max_falta (v n : Nat) (hn : n < 3) :
    siguiente_primo_llamadas v n 18446744073709551615 = none := by
  have h0 : (18446744073709551615 + 1) % TAM_SIZE_T = 0 := by simp [TAM_SIZE_T]
  have h1 : (0 + 1) % TAM_SIZE_T = 1 := by simp [TAM_SIZE_T]
  have h3 : n = 0 ∨ n = 1 ∨ n = 2 := by omega
  rcases h3 with rfl | rfl | rfl
  · simp only [siguiente_primo_llamadas, es_primo_vueltas_max_size_t]
  · simp only [siguiente_primo_llamadas, es_primo_vueltas_max_size_t, h0,
      es_primo_vueltas_cero]
    rfl
  · simp only [siguiente_primo_llamadas, es_primo_vueltas_max_size_t, h0,
      es_primo_vueltas_cero, h1, es_primo_vueltas_uno]
    rfl

theorem siguiente_primo_size_t_max : siguiente_primo_size_t 18446744073709551615 = 2 := by
  have he : TAM_SIZE_T = 3 + 18446744073709551613 := by simp [TAM_SIZE_T]
  unfold siguiente_primo_size_t
  rw [he, siguiente_primo_llamadas_max]

theorem siguiente_primo_llamadas_penultimo (v n : Nat) :
    siguiente_primo_llamadas v (4 + n) 18446744073709551614 = some (2, 4) := by
  have h0 : (18446744073709551614 + 1) % TAM_SIZE_T = 18446744073709551615 := by
    simp [TAM_SIZE_T]
  have he : 4 + n = (3 + n) + 1 := by omega
  rw [he, siguiente_primo_llamadas]
  simp only [es_primo_vueltas_penultimo, h0, siguiente_primo_llamadas_max]
  rfl

theorem siguiente_primo_size_t_penultimo :
    siguiente_primo_size_t 18446744073709551614 = 2 := by
  have he : TAM_SIZE_T = 4 + 18446744073709551612 := by simp [TAM_SIZE_T]
  unfold siguiente_primo_size_t
  rw [he, siguiente_primo_llamadas_penultimo]

theorem hash_crear_size_t_max (d : Bool) :
    hash_crear_size_t [] d 18446744073709551615 = some (tabla_dos d) := by
  have hc : (if 18446744073709551615 < 3 then 3 else 18446744073709551615) =
      18446744073709551615 := if_neg (by omega)
  unfold hash_crear_size_t
  rw [hc, siguiente_primo_size_t_max]
  rfl

theorem hash_insertar_dos_a (d : Bool) :
    hash_insertar 3 (tabla_dos d) [97] 1 = some (OK, tabla_dos_a d) := by
  cases d <;> rfl

/-! ## Supporting facts on sizing and growth -/

/-- The capacities the growth passes go through from 3 slots on. -/
theorem siguiente_primo_ejemplos :
    siguiente_primo (3 * RATIO) = 7 ∧ siguiente_primo (7 * RATIO) = 17 ∧
      siguiente_primo (17 * RATIO) = 37 :=
  ⟨siguiente_primo_seis, siguiente_primo_catorce, siguiente_primo_treinta_y_cuatro⟩

/-- On a table built without removing absent keys, an insert of a new key that triggers
growth returns within two levels of recursion (no re-insertion starts a growth pass);
the capacity becomes the smallest prime at or above twice the old one, and the counter
the number of entries relocated. -/
theorem Construida.crece {t : hash_t} (h : Construida t) (k : Clave) (e : Nat)
    (hk : buscar t k = none)
    (hc : 3 * t.capacidad < 4 * ((t.cantidad + 1) % TAM_SIZE_T)) :
    ∃ t1, hash_insertar 2 t k e = some (OK, t1) ∧
      rehash (hash_insertar 1) (agregar t k e) = some (OK, t1) ∧
      t1.capacidad.Prime ∧ 2 * t.capacidad ≤ t1.capacidad ∧
      (∀ q, q.Prime → 2 * t.capacidad ≤ q → t1.capacidad ≤ q) ∧
      t1.cantidad = total (agregar t k e) ∧ total t1 = total (agregar t k e) := by
  have hb := h.alcanzable.bien
  obtain ⟨t1, h1, h2, h3, h4, h5⟩ := hash_insertar_crece_exacto 0 t hb h.externo k e hk hc
  obtain ⟨s1, s2, s3⟩ := siguiente_primo_spec (t.capacidad * RATIO)
  have hr : t.capacidad * RATIO = 2 * t.capacidad := by simp only [ RATIO]; omega
  rw [hr] at s1 s2 s3 h3
  have hta := total_agregar hb k e
  refine ⟨t1, h1, h2, ?_, ?_, ?_, ?_, ?_⟩
  · rw [h3]; exact s1
  · rw [h3]; exact s2
  · rw [h3]; exact s3
  · rw [h4, hta]
  · rw [h5, hta]

/-- Where nothing wraps, `siguiente_primo` returns in `size_t` arithmetic the smallest
prime at or above its argument: this holds whenever some prime at or above the argument
lies below `COTA_ES_PRIMO`. -/
theorem siguiente_primo_size_t_spec (n q : Nat) (hq : q.Prime) (hle : n ≤ q)
    (hlt : q < COTA_ES_PRIMO) :
    (siguiente_primo_size_t n).Prime ∧ n ≤ siguiente_primo_size_t n ∧
      ∀ r, r.Prime → n ≤ r → siguiente_primo_size_t n ≤ r := by
  obtain ⟨h1, h2, h3⟩ := siguiente_primo_spec n
  have h4 := h3 q hq hle
  rw [siguiente_primo_size_t_en_rango n (by omega)]
  exact ⟨h1, h2, h3⟩

/-- Where nothing wraps, `es_primo` decides primality in `size_t` arithmetic. -/
theorem es_primo_vueltas_iff (m : Nat) (hm : m < COTA_ES_PRIMO) (n : Nat) :
    (∃ v, es_primo_vueltas (VUELTAS_MAX + n) m = some (true, v)) ↔ m.Prime := by
  obtain ⟨v, hv⟩ := es_primo_vueltas_max_en_rango m hm n
  rw [← es_primo_iff]
  constructor
  · rintro ⟨w, hw⟩
    rw [hv] at hw
    exact (Prod.mk.inj (Option.some.inj hw)).1
  · intro h
    rw [h] at hv
    exact ⟨v, hv⟩

/-- Where nothing wraps, `es_primo` returns in `size_t` arithmetic what it returns in
exact arithmetic. -/
theorem es_primo_size_t_en_rango (m : Nat) (hm : m < COTA_ES_PRIMO) :
    es_primo_size_t m = es_primo m := by
  obtain ⟨v, hv⟩ := es_primo_vueltas_max_en_rango m hm 0
  unfold es_primo_size_t
  rw [Nat.add_zero] at hv
  rw [hv]

/-- Bertrand: every number whose double is below `COTA_ES_PRIMO` has a prime at or above
it below that bound. -/
theorem primo_bajo_cota (n : Nat) (h : 2 * n < COTA_ES_PRIMO) :
    ∃ q, q.Prime ∧ n ≤ q ∧ q < COTA_ES_PRIMO := by
  have hC : COTA_ES_PRIMO = 18446744022169944100 := by simp [COTA_ES_PRIMO]
  rcases Nat.eq_zero_or_pos n with h0 | h0
  · exact ⟨2, Nat.prime_two, by omega, by rw [hC]; omega⟩
  · obtain ⟨q, hq, h1, h2⟩ := Nat.exists_prime_lt_and_le_two_mul n (by omega)
    exact ⟨q, hq, by omega, by omega⟩

theorem siguiente_primo_cero : siguiente_primo 0 = 2 :=
  siguiente_primo_es_el_menor.2.2.2.2.1

theorem siguiente_primo_uno : siguiente_primo 1 = 2 :=
  siguiente_primo_es_el_menor.2.2.2.2.2

/-! ## Claims on sizing in `size_t` arithmetic -/

/-- C17, refuted as stated: at the requested capacity `SIZE_MAX` the recursion of
`siguiente_primo` wraps and returns 2, so `hash_crear(NULL, SIZE_MAX)` returns a table of 2
slots: its capacity is below 3 and is not a prime at or above the request. -/
theorem hash_crear_dos_ranuras :
    hash_crear_size_t [] false 18446744073709551615 = some (tabla_dos false) ∧
      18446744073709551615 + 1 = TAM_SIZE_T ∧
      (tabla_dos false).capacidad = 2 ∧ (tabla_dos false).capacidad < 3 ∧
      (tabla_dos false).capacidad < max 18446744073709551615 3 ∧
      hash_cantidad (tabla_dos false) = 0 ∧ (tabla_dos false).vector = [none, none] :=
  ⟨hash_crear_size_t_max false, by simp [TAM_SIZE_T], rfl, by decide, by decide, rfl, rfl⟩

/-- C17, amended: for every requested capacity `c` such that some prime at or above
`max c 3` lies below `COTA_ES_PRIMO` (so that nothing wraps in `siguiente_primo`),
`hash_crear`, run in `size_t` arithmetic with no allocation failing, returns a table whose
capacity is the smallest prime at or above `max c 3`, hence 3 when `c < 3`, whose count is
0 and whose slots are all absent; on it `hash_obtener` returns `NULL` and `hash_contiene`
false for every key. -/
theorem hash_crear_capacidad_acotada (d : Bool) (c q : Nat) (hq : q.Prime)
    (hle : max c 3 ≤ q) (hlt : q < COTA_ES_PRIMO) :
    ∃ t, hash_crear_size_t [] d c = some t ∧ t.capacidad.Prime ∧ max c 3 ≤ t.capacidad ∧
      (∀ r, r.Prime → max c 3 ≤ r → t.capacidad ≤ r) ∧ (c < 3 → t.capacidad = 3) ∧
      hash_cantidad t = 0 ∧ t.vector = List.replicate t.capacidad none ∧
      ∀ k, hash_obtener t k = 0 ∧ hash_contiene t k = false := by
  have he : (if c < 3 then 3 else c) = max c 3 := by
    by_cases h : c < 3
    · rw [if_pos h]; omega
    · rw [if_neg h]; omega
  rw [hash_crear_size_t_en_rango [] d c q hq (by rw [he]; exact hle) hlt]
  exact hash_crear_capacidad d c

/-- Witness of C17 amended: the requested capacities 0 and 14. -/
theorem hash_crear_capacidad_acotada_testigo :
    Nat.Prime 3 ∧ max 0 3 ≤ 3 ∧ 3 < COTA_ES_PRIMO ∧
      Nat.Prime 17 ∧ max 14 3 ≤ 17 ∧ 17 < COTA_ES_PRIMO ∧
      (∃ t, hash_crear_size_t [] true 0 = some t ∧ t.capacidad = 3) ∧
      ∃ t, hash_crear_size_t [] true 14 = some t ∧ t.capacidad.Prime ∧ 14 ≤ t.capacidad ∧
        t.capacidad ≤ 17 := by
  have h3 : (3 : Nat) < COTA_ES_PRIMO := by simp [COTA_ES_PRIMO]
  have h17 : (17 : Nat) < COTA_ES_PRIMO := by simp [COTA_ES_PRIMO]
  have p17 : Nat.Prime 17 := by norm_num
  obtain ⟨t, a1, _, _, _, a5, _⟩ :=
    hash_crear_capacidad_acotada true 0 3 Nat.prime_three (by decide) h3
  obtain ⟨u, b1, b2, b3, b4, _⟩ :=
    hash_crear_capacidad_acotada true 14 17 p17 (by decide) h17
  exact ⟨Nat.prime_three, by decide, h3, p17, by decide, h17, ⟨t, a1, a5 (by decide)⟩,
    u, b1, b2, by have : max 14 3 = 14 := by decide
                  omega, b4 17 p17 (by decide)⟩

/-- C30, refuted as stated: at `SIZE_MAX` and `SIZE_MAX - 1`, `es_primo` rejects
`SIZE_MAX - 1` (even) and `SIZE_MAX` (a multiple of 3), `++numero` wraps to 0, `es_primo`
rejects 0 and 1 and accepts 2, each time before its loop is entered (no `i * i` is
computed); `siguiente_primo` returns 2, which is below its argument. -/
theorem siguiente_primo_desborda :
    siguiente_primo_size_t 18446744073709551615 = 2 ∧
      siguiente_primo_size_t 18446744073709551614 = 2 ∧
      18446744073709551615 + 1 = TAM_SIZE_T ∧
      (∀ n, es_primo_vueltas n 18446744073709551614 = some (false, 0)) ∧
      (∀ n, es_primo_vueltas n 18446744073709551615 = some (false, 0)) ∧
      (∀ n, es_primo_vueltas n 0 = some (false, 0)) ∧
      (∀ n, es_primo_vueltas n 1 = some (false, 0)) ∧
      (∀ n, es_primo_vueltas n 2 = some (true, 0)) ∧
      ¬ 18446744073709551615 ≤ siguiente_primo_size_t 18446744073709551615 := by
  refine ⟨siguiente_primo_size_t_max, siguiente_primo_size_t_penultimo, by simp [TAM_SIZE_T],
    es_primo_vueltas_penultimo, es_primo_vueltas_max_size_t, es_primo_vueltas_cero,
    es_primo_vueltas_uno, es_primo_vueltas_dos, ?_⟩
  rw [siguiente_primo_size_t_max]
  omega

/-- C30, amended: in `size_t` arithmetic, for every `n` such that some prime at or above
`n` lies below `COTA_ES_PRIMO` (in particular for every `n` whose double is below it),
`siguiente_primo n` is prime, at least `n`, and no prime lies from `n` up to it; `es_primo
m` holds exactly when `m` is prime, for every `m` below `COTA_ES_PRIMO`; `es_primo 0` and
`es_primo 1` are false, and `siguiente_primo 0 = siguiente_primo 1 = 2`. -/
theorem siguiente_primo_size_t_es_el_menor :
    (∀ n q, q.Prime → n ≤ q → q < COTA_ES_PRIMO →
      (siguiente_primo_size_t n).Prime ∧ n ≤ siguiente_primo_size_t n ∧
        ∀ r, n ≤ r → r < siguiente_primo_size_t n → ¬ r.Prime) ∧
      (∀ n, 2 * n < COTA_ES_PRIMO →
        (siguiente_primo_size_t n).Prime ∧ n ≤ siguiente_primo_size_t n ∧
          ∀ r, n ≤ r → r < siguiente_primo_size_t n → ¬ r.Prime) ∧
      (∀ m, m < COTA_ES_PRIMO → (es_primo_size_t m = true ↔ m.Prime)) ∧
      es_primo_size_t 0 = false ∧ es_primo_size_t 1 = false ∧
      siguiente_primo_size_t 0 = 2 ∧ siguiente_primo_size_t 1 = 2 := by
  have hC : COTA_ES_PRIMO = 18446744022169944100 := by simp [COTA_ES_PRIMO]
  have main : ∀ n q, q.Prime → n ≤ q → q < COTA_ES_PRIMO →
      (siguiente_primo_size_t n).Prime ∧ n ≤ siguiente_primo_size_t n ∧
        ∀ r, n ≤ r → r < siguiente_primo_size_t n → ¬ r.Prime := by
    intro n q hq hle hlt
    obtain ⟨h1, h2, h3⟩ := siguiente_primo_size_t_spec n q hq hle hlt
    refine ⟨h1, h2, ?_⟩
    intro r hr hlt2 hrp
    have := h3 r hrp hr
    omega
  refine ⟨main, ?_, ?_, ?_, ?_, ?_, ?_⟩
  · intro n hn
    obtain ⟨q, hq, h1, h2⟩ := primo_bajo_cota n hn
    exact main n q hq h1 h2
  · intro m hm
    rw [es_primo_size_t_en_rango m hm]
    exact es_primo_iff m
  · rw [es_primo_size_t_en_rango 0 (by rw [hC]; omega)]
    exact es_primo_cero
  · rw [es_primo_size_t_en_rango 1 (by rw [hC]; omega)]
    exact es_primo_uno
  · rw [siguiente_primo_size_t_en_rango 0 (by rw [siguiente_primo_cero, hC]; omega)]
    exact siguiente_primo_cero
  · rw [siguiente_primo_size_t_en_rango 1 (by rw [siguiente_primo_uno, hC]; omega)]
    exact siguiente_primo_uno

/-- Witness of C30 amended: the input 14, below the prime 17: `siguiente_primo 14 = 17`,
and `es_primo` accepts 17 and rejects 15. -/
theorem siguiente_primo_size_t_es_el_menor_testigo :
    Nat.Prime 17 ∧ 14 ≤ 17 ∧ 17 < COTA_ES_PRIMO ∧ 15 < COTA_ES_PRIMO ∧
      siguiente_primo_size_t 14 = 17 ∧ es_primo_size_t 17 = true ∧
      es_primo_size_t 15 = false := by
  have h17 : (17 : Nat) < COTA_ES_PRIMO := by simp [COTA_ES_PRIMO]
  have h15 : (15 : Nat) < COTA_ES_PRIMO := by simp [COTA_ES_PRIMO]
  have p17 : Nat.Prime 17 := by norm_num
  obtain ⟨a, _, b, _⟩ := siguiente_primo_size_t_es_el_menor
  obtain ⟨a1, a2, a3⟩ := a 14 17 p17 (by decide) h17
  have hp : siguiente_primo_size_t 14 = 17 := by
    have h6 : ∀ x, 14 ≤ x → x < 17 → ¬ Nat.Prime x := by
      intro x hx1 hx2 hx
      have : x = 14 ∨ x = 15 ∨ x = 16 := by omega
      rcases this with rfl | rfl | rfl <;> revert hx <;> norm_num
    rcases Nat.lt_trichotomy (siguiente_primo_size_t 14) 17 with hlt | heq | hgt
    · exact absurd a1 (h6 _ a2 hlt)
    · exact heq
    · exact absurd p17 (a3 17 (by decide) hgt)
  have n15 : ¬ Nat.Prime 15 := by norm_num
  have e15 : es_primo_size_t 15 = false := by
    cases h : es_primo_size_t 15 with
    | false => rfl
    | true => exact absurd ((b 15 h15).mp h) n15
  exact ⟨p17, by decide, h17, h15, hp, (b 17 h17).mpr p17, e15⟩

/-- C34, refuted as stated: at `SIZE_MAX` the recursion of `siguiente_primo` returns after
exactly three recursive calls (on 0, 1 and 2, `++numero` having wrapped), with the value 2;
it does not reach a prime at or above its argument. -/
theorem siguiente_primo_tres_llamadas :
    (∀ v n, siguiente_primo_llamadas v (3 + n) 18446744073709551615 = some (2, 3)) ∧
      (∀ v n, n < 3 → siguiente_primo_llamadas v n 18446744073709551615 = none) ∧
      (18446744073709551615 + 1) % TAM_SIZE_T = 0 ∧
      ¬ 18446744073709551615 ≤ 2 :=
  ⟨siguiente_primo_llamadas_max, siguiente_primo_llamadas_max_falta, by simp [TAM_SIZE_T],
    by omega⟩

/-- C34, amended: in `size_t` arithmetic `siguiente_primo` returns for every input
`numero`, after a number `c` of recursive calls that is at most `2 ^ 64 + 2 - numero`
(`++numero` wraps to 0 and 2 is accepted); when some prime at or above `numero` lies below
`COTA_ES_PRIMO`, the value is the smallest such prime and `c` is exactly its distance from
`numero`. The loop of `es_primo` ends for every input within `VUELTAS_MAX` rounds; for an
input below `COTA_ES_PRIMO` it ends because the loop variable takes the increasing values
5, 11, ... while its square is at most `numero`, leaving with a divisor found or with a
square above `numero`. -/
theorem siguiente_primo_termina (numero : Nat) (h : numero < TAM_SIZE_T) :
    (∃ p c, c + numero ≤ TAM_SIZE_T + 2 ∧
        (∀ m n, siguiente_primo_llamadas (VUELTAS_MAX + m) (c + n) numero = some (p, c)) ∧
        ∀ q, q.Prime → numero ≤ q → q < COTA_ES_PRIMO →
          p.Prime ∧ numero + c = p ∧ ∀ r, r.Prime → numero ≤ r → p ≤ r) ∧
      (∃ b v, v ≤ VUELTAS_MAX ∧ ∀ n, es_primo_vueltas (v + n) numero = some (b, v)) ∧
      (numero < COTA_ES_PRIMO →
        ∃ v, (∀ j, j < v → (5 + 6 * j) * (5 + 6 * j) ≤ numero) ∧
          (numero < (5 + 6 * v) * (5 + 6 * v) ∨ es_primo_bucle numero 5 = false) ∧
          ∀ n, es_primo_bucle_vueltas numero (v + n) 5 = some (es_primo_bucle numero 5, v)) := by
  have hW : TAM_SIZE_T = 18446744073709551616 := by simp [TAM_SIZE_T]
  refine ⟨?_, es_primo_vueltas_termina numero, ?_⟩
  · have hd : (numero + (TAM_SIZE_T + 2 - numero) % TAM_SIZE_T) % TAM_SIZE_T = 2 := by
      rw [hW] at h ⊢
      omega
    obtain ⟨p, c, hc, h4⟩ := siguiente_primo_llamadas_termina _ numero h hd
    refine ⟨p, c, ?_, h4, ?_⟩
    · have := Nat.mod_le (TAM_SIZE_T + 2 - numero) TAM_SIZE_T
      omega
    · intro q hq hle hlt
      obtain ⟨s1, s2, s3⟩ := siguiente_primo_spec numero
      have hs : siguiente_primo numero < COTA_ES_PRIMO := by
        have := s3 q hq hle
        omega
      obtain ⟨c1, hc1⟩ := Nat.exists_eq_add_of_le s2
      have e1 := siguiente_primo_llamadas_en_rango c1 numero hc1.symm hs 0 c
      have e2 := h4 0 c1
      rw [Nat.add_comm c c1, e1] at e2
      have e3 := Prod.mk.inj (Option.some.inj e2)
      rw [← e3.1, ← e3.2]
      exact ⟨s1, hc1.symm, s3⟩
  · intro hlt
    exact es_primo_bucle_vueltas_en_rango numero hlt _ 5 rfl (by omega)

/-- Witness of C34 amended: the input 14, three recursive calls away from 17. -/
theorem siguiente_primo_termina_testigo :
    14 < TAM_SIZE_T ∧
      ∃ p c, c + 14 ≤ TAM_SIZE_T + 2 ∧
        (∀ m n, siguiente_primo_llamadas (VUELTAS_MAX + m) (c + n) 14 = some (p, c)) ∧
        p = 17 ∧ c = 3 := by
  have h14 : 14 < TAM_SIZE_T := by simp [TAM_SIZE_T]
  have h17 : (17 : Nat) < COTA_ES_PRIMO := by simp [COTA_ES_PRIMO]
  have p17 : Nat.Prime 17 := by norm_num
  obtain ⟨⟨p, c, h1, h2, h3⟩, _, _⟩ := siguiente_primo_termina 14 h14
  obtain ⟨a1, a2, a3⟩ := h3 17 p17 (by decide) h17
  have hp : p = 17 := by
    have hle := a3 17 p17 (by decide)
    have h6 : ∀ x, 14 ≤ x → x < 17 → ¬ Nat.Prime x := by
      intro x hx1 hx2 hx
      have : x = 14 ∨ x = 15 ∨ x = 16 := by omega
      rcases this with rfl | rfl | rfl <;> revert hx <;> norm_num
    rcases Nat.lt_or_ge p 17 with hlt | hge
    · exact absurd a1 (h6 p (by omega) hlt)
    · omega
  exact ⟨h14, p, c, h1, h2, hp, by omega⟩

/-! ## Lemmas on the chain order after a growth pass -/

theorem dato_eta (d : dato_t) : ({ elemento := d.elemento, clave := d.clave } : dato_t) = d := by
  cases d
  rfl

/-- Appending new entries one after the other keeps the table well formed and extends each
chain by the entries of its slot, in their order. -/
theorem agregar_todos_spec :
    ∀ (l : List dato_t) (u : hash_t), BienFormado u → (l.map dato_t.clave).Nodup →
      (∀ d ∈ l, buscar u d.clave = none) →
      BienFormado (agregar_todos u l) ∧ (agregar_todos u l).capacidad = u.capacidad ∧
        total (agregar_todos u l) = total u + l.length ∧
        (u.cantidad = total u % TAM_SIZE_T →
          (agregar_todos u l).cantidad = total (agregar_todos u l) % TAM_SIZE_T) ∧
        (∀ k, k ∉ l.map dato_t.clave → buscar (agregar_todos u l) k = buscar u k) ∧
        ∀ j, cadena (agregar_todos u l) j =
          cadena u j ++ l.filter (fun x => decide (obtener_hash x.clave % u.capacidad = j)) := by
  intro l
  induction l with
  | nil =>
    intro u hb _ _
    exact ⟨hb, rfl, rfl, fun h => h, fun _ _ => rfl, fun j => by simp [agregar_todos]⟩
  | cons d r ih =>
    intro u hb hnd habs
    have hk : buscar u d.clave = none := habs d (List.mem_cons_self _ _)
    have hb1 := BienFormado_agregar hb d.clave d.elemento hk
    have hcap : (agregar u d.clave d.elemento).capacidad = u.capacidad := rfl
    have hcnt : (agregar u d.clave d.elemento).cantidad = (u.cantidad + 1) % TAM_SIZE_T := rfl
    have ht1 := total_agregar hb d.clave d.elemento
    rw [List.map_cons, List.nodup_cons] at hnd
    have habs1 : ∀ x ∈ r, buscar (agregar u d.clave d.elemento) x.clave = none := by
      intro x hx
      rw [buscar_agregar hb _ _ hk]
      have hne : x.clave ≠ d.clave := by
        intro he
        apply hnd.1
        rw [← he]
        exact List.mem_map_of_mem _ hx
      rw [if_neg hne]
      exact habs x (List.mem_cons_of_mem _ hx)
    obtain ⟨i1, i2, i3, i4, i5, i6⟩ := ih (agregar u d.clave d.elemento) hb1 hnd.2 habs1
    have he : agregar_todos u (d :: r) = agregar_todos (agregar u d.clave d.elemento) r := rfl
    rw [he]
    refine ⟨i1, by rw [i2, hcap], ?_, ?_, ?_, ?_⟩
    · rw [i3, ht1, List.length_cons]
      omega
    · intro hc
      apply i4
      rw [hcnt, ht1, hc]
      simp [Nat.add_mod]
    · intro k hkn
      rw [List.map_cons, List.mem_cons, not_or] at hkn
      rw [i5 k hkn.2, buscar_agregar hb _ _ hk, if_neg hkn.1]
    · intro j
      rw [i6 j, cadena_agregar hb, hcap, dato_eta, List.filter_cons]
      by_cases hj : j = obtener_hash d.clave % u.capacidad
      · have hd : decide (obtener_hash d.clave % u.capacidad = j) = true := by
          simp [hj]
        rw [if_pos hj, hd, if_pos rfl, List.append_assoc]
        rfl
      · have hd : ¬ decide (obtener_hash d.clave % u.capacidad = j) = true := by
          simp only [decide_eq_true_eq]
          exact fun h => hj h.symm
        rw [if_neg hj, if_neg hd]

/-- The chain loop of a growth pass into an array with room for every entry: each
re-insertion appends. -/
theorem rehash_lista_bucle_agrega (p : Nat) :
    ∀ (l : List dato_t) (u : hash_t), BienFormado u → u.cantidad = total u % TAM_SIZE_T →
      4 * (total u + l.length) ≤ 3 * u.capacidad → (l.map dato_t.clave).Nodup →
      (∀ d ∈ l, buscar u d.clave = none) →
      rehash_lista_bucle (hash_insertar (p + 1)) u l = some (OK, agregar_todos u l) := by
  intro l
  induction l with
  | nil => intro u _ _ _ _ _; rfl
  | cons d r ih =>
    intro u hb hc hload hnd habs
    have hk : buscar u d.clave = none := habs d (List.mem_cons_self _ _)
    have hb1 := BienFormado_agregar hb d.clave d.elemento hk
    have hcnt : (agregar u d.clave d.elemento).cantidad = (u.cantidad + 1) % TAM_SIZE_T := rfl
    have hcap : (agregar u d.clave d.elemento).capacidad = u.capacidad := rfl
    have ht1 := total_agregar hb d.clave d.elemento
    have hmod : (u.cantidad + 1) % TAM_SIZE_T = (total u + 1) % TAM_SIZE_T := by
      rw [hc]; simp [Nat.add_mod]
    have hsmall : (total u + 1) % TAM_SIZE_T ≤ total u + 1 := Nat.mod_le _ _
    rw [List.length_cons] at hload
    have hins : hash_insertar (p + 1) u d.clave d.elemento =
        some (OK, agregar u d.clave d.elemento) := by
      rw [hash_insertar_ausente hb p _ _ hk, hmod]
      have : ¬ 4 * ((total u + 1) % TAM_SIZE_T) > 3 * u.capacidad := by omega
      rw [if_neg this]
    rw [List.map_cons, List.nodup_cons] at hnd
    have habs1 : ∀ x ∈ r, buscar (agregar u d.clave d.elemento) x.clave = none := by
      intro x hx
      rw [buscar_agregar hb _ _ hk]
      have hne : x.clave ≠ d.clave := by
        intro he
        apply hnd.1
        rw [← he]
        exact List.mem_map_of_mem _ hx
      rw [if_neg hne]
      exact habs x (List.mem_cons_of_mem _ hx)
    have h1 := ih (agregar u d.clave d.elemento) hb1 (by rw [hcnt, ht1]; exact hmod)
      (by rw [ht1, hcap]; omega) hnd.2 habs1
    have hE : (OK = ERROR) = False := by simp [ERROR, OK]
    simp only [rehash_lista_bucle, hins, hE, if_false]
    exact h1

/-- The slot loop of a growth pass into an array with room for every entry: the entries
are appended by ascending old slot and then chain order. -/
theorem rehash_bucle_agrega (p : Nat) :
    ∀ (v : List (Option (lista_t dato_t))) (u : hash_t), BienFormado u →
      u.cantidad = total u % TAM_SIZE_T →
      4 * (total u + (entradas_vector v).length) ≤ 3 * u.capacidad →
      ((entradas_vector v).map dato_t.clave).Nodup →
      (∀ d ∈ entradas_vector v, buscar u d.clave = none) →
      rehash_bucle (hash_insertar (p + 1)) u v =
        some (OK, agregar_todos u (entradas_vector v)) := by
  intro v
  induction v with
  | nil => intro u _ _ _ _ _; rfl
  | cons a r ih =>
    intro u hb hc hload hnd habs
    cases a with
    | none =>
      have he : entradas_vector (none :: r) = entradas_vector r := by
        simp [entradas_vector]
      rw [he] at hload hnd habs ⊢
      simp only [rehash_bucle]
      exact ih u hb hc hload hnd habs
    | some l =>
      have he : entradas_vector (some l :: r) = l ++ entradas_vector r := by
        simp [entradas_vector]
      rw [he] at hload hnd habs ⊢
      rw [List.map_append, List.nodup_append] at hnd
      rw [List.length_append] at hload
      have habsl : ∀ d ∈ l, buscar u d.clave = none :=
        fun d hd => habs d (List.mem_append_left _ hd)
      have h1 := rehash_lista_bucle_agrega p l u hb hc (by omega) hnd.1 habsl
      obtain ⟨s1, s2, s3, s4, s5, _⟩ := agregar_todos_spec l u hb hnd.1 habsl
      have habs1 : ∀ d ∈ entradas_vector r, buscar (agregar_todos u l) d.clave = none := by
        intro d hd
        rw [s5 d.clave (fun hm => hnd.2.2 hm (List.mem_map_of_mem _ hd))]
        exact habs d (List.mem_append_right _ hd)
      have h2 := ih (agregar_todos u l) s1 (s4 hc) (by rw [s3, s2]; omega) hnd.2.1 habs1
      have hE : (OK = ERROR) = False := by simp [ERROR, OK]
      simp only [rehash_bucle, rehash_lista_eq _ u hb.memoria, h1, hE, if_false]
      rw [h2]
      unfold agregar_todos
      rw [List.foldl_append]

/-- A growth pass into an array with room for every entry returns `OK`; each chain of the
new array lists the entries of its slot in the order of the old array: by ascending old
slot, then chain order. -/
theorem rehash_orden (p : Nat) (t : hash_t) (hb : BienFormado t)
    (hc : 4 * total t ≤ 3 * siguiente_primo (t.capacidad * RATIO)) :
    ∃ u1, rehash (hash_insertar (p + 1)) t = some (OK, u1) ∧
      u1.capacidad = siguiente_primo (t.capacidad * RATIO) ∧
      ∀ i, cadena u1 i = (entradas_vector t.vector).filter
        (fun x => decide (obtener_hash x.clave % u1.capacidad = i)) := by
  have hbn := BienFormado_tabla_nueva hb
  have hlen : (entradas_vector t.vector).length = total t := length_entradas_vector _
  have hcapn : (tabla_nueva t).capacidad = siguiente_primo (t.capacidad * RATIO) := rfl
  have habs : ∀ d ∈ entradas_vector t.vector, buscar (tabla_nueva t) d.clave = none :=
    fun d _ => buscar_tabla_nueva t d.clave
  have h1 := rehash_bucle_agrega p t.vector (tabla_nueva t) hbn
    (by rw [total_tabla_nueva]; rfl)
    (by rw [total_tabla_nueva, hlen, hcapn]; omega) hb.nodup_entradas habs
  obtain ⟨_, s2, _, _, _, s6⟩ :=
    agregar_todos_spec (entradas_vector t.vector) (tabla_nueva t) hbn hb.nodup_entradas habs
  refine ⟨agregar_todos (tabla_nueva t) (entradas_vector t.vector), ?_, by rw [s2, hcapn], ?_⟩
  · have hr : ranuras t.vector t.capacidad = t.vector := by
      rw [← hb.largo]; exact ranuras_eq _
    have hE : (OK = ERROR) = False := by simp [ERROR, OK]
    simp only [rehash, hb.memoria, asignar, hr]
    simp only [tabla_nueva, hb.memoria] at h1
    simp only [h1, hE, if_false, destruir_vector_hash_false, List.append_nil]
    rfl
  · intro i
    rw [s6 i, cadena_tabla_nueva, List.nil_append, s2]

/-- Every table `insertar_todos` builds from a table built without removing absent keys is
such a table. -/
theorem Construida_insertar_todos (p : Nat) :
    ∀ (pares : List (Clave × Nat)) (t0 t : hash_t), Construida t0 →
      insertar_todos p t0 pares = some t → Construida t := by
  intro pares
  induction pares with
  | nil =>
    intro t0 t h0 h
    simp only [insertar_todos, Option.some.injEq] at h
    rw [← h]
    exact h0
  | cons a r ih =>
    intro t0 t h0 h
    obtain ⟨k, e⟩ := a
    rw [insertar_todos] at h
    cases hi : hash_insertar p t0 k e with
    | none => rw [hi] at h; cases h
    | some x =>
      obtain ⟨r1, t1⟩ := x
      rw [hi] at h
      exact ih t1 t (Construida.insertar p t0 k e r1 t1 h0 hi) h

/-- The load of a table whose counter is exact, once a new entry is appended and the load
test of the insert has fired, fits the array the growth pass installs. -/
theorem carga_tras_agregar (t : hash_t) (hb : BienFormado t) (hi : InvExterno 0 t)
    (k : Clave) (e : Nat)
    (hc : 3 * t.capacidad < 4 * ((t.cantidad + 1) % TAM_SIZE_T)) :
    4 * total (agregar t k e) ≤ 3 * siguiente_primo ((agregar t k e).capacidad * RATIO) := by
  obtain ⟨_, hcnt, hload⟩ := hi
  have hW : TAM_SIZE_T = 18446744073709551616 := by simp [TAM_SIZE_T]
  have hmod : (t.cantidad + 1) % TAM_SIZE_T = (total t + 1) % TAM_SIZE_T := by
    rw [hcnt]; simp [Nat.add_mod]
  rw [hmod] at hc
  have hta := total_agregar hb k e
  have hcapa : (agregar t k e).capacidad = t.capacidad := rfl
  have hA : total t < TAM_SIZE_T ∧ 4 * total t ≤ 3 * t.capacidad := by
    rcases hload with h | h
    · exact h
    · exfalso
      have : (total t + 1) % TAM_SIZE_T < TAM_SIZE_T := Nat.mod_lt _ (by simp [TAM_SIZE_T])
      omega
  have hsp := siguiente_primo_ge (t.capacidad * RATIO)
  have hcmin := hb.capacidad_min
  rw [hta, hcapa]
  simp only [ RATIO] at hsp ⊢
  omega

/-! ## Claim on the order within a bucket -/

/-- C14, amended: for every table built from `hash_crear` by a sequence of `hash_insertar`
calls, the key iterator returns the keys by ascending slot index and, within a slot, in
chain order; when no call has grown the table (the capacity is still the initial one),
the chain of every slot lists its keys in the order of their first insertion; and when a
further insert grows the table, the growth pass returns `OK` and each chain of the new
array lists the entries of its slot in the order of the old array (the new entry appended
to its chain there): by ascending old slot index, then chain order. -/
theorem hash_iterador_orden_de_cadena (d : Bool) (c p : Nat) (hp : 3 ≤ p)
    (pares : List (Clave × Nat)) (t0 : hash_t) (h0 : hash_crear [] d c = some t0) :
    ∃ t it, insertar_todos p t0 pares = some t ∧ hash_iterador_crear t = some it ∧
      (∀ n, total t ≤ n → claves_iteradas n it =
        some (((List.range t.capacidad).flatMap (cadena t)).map (fun x => some x.clave))) ∧
      (t.capacidad = t0.capacidad → ∀ i, (cadena t i).map dato_t.clave =
        (claves_insertadas [] (pares.map Prod.fst)).filter
          (fun k => decide (obtener_hash k % t.capacidad = i))) ∧
      (∀ k e, buscar t k = none → 3 * t.capacidad < 4 * ((t.cantidad + 1) % TAM_SIZE_T) →
        ∃ t1, hash_insertar p t k e = some (OK, t1) ∧ t.capacidad < t1.capacidad ∧
          ∀ i, cadena t1 i = (entradas_vector (agregar t k e).vector).filter
            (fun x => decide (obtener_hash x.clave % t1.capacidad = i))) := by
  have hb0 := (hash_crear_spec d c t0 h0).1
  obtain ⟨t, ht⟩ := insertar_todos_total p hp pares t0 hb0
  have hb := (insertar_todos_capacidad p pares t0 t hb0 ht).1
  obtain ⟨it, h1, h2, _, h4⟩ := hash_iterador_crear_spec t hb.memoria
  refine ⟨t, it, ht, h1, ?_, ?_, ?_⟩
  · intro n hn
    have hlen : (restantes it).length = total t := by
      rw [h4, entradas_desde_cero hb.largo, length_entradas_vector]
      rfl
    rw [claves_iteradas_spec n it h2 (by rw [hlen]; exact hn), h4, entradas_desde_cero_eq]
  · intro hcap
    apply orden_sin_crecer p pares t0 t [] hb0 _ ht hcap
    intro i
    rw [cadena_hash_crear d c t0 h0 i]
    rfl
  · intro k e hk hcarga
    have hct : Construida t :=
      Construida_insertar_todos p pares t0 t (Construida.crear d c t0 h0) ht
    obtain ⟨q, rfl⟩ : ∃ q, p = q + 3 := ⟨p - 3, by omega⟩
    have hba := BienFormado_agregar hb k e hk
    obtain ⟨u1, r1, r2, r3⟩ :=
      rehash_orden (q + 1) (agregar t k e) hba (carga_tras_agregar t hb hct.externo k e hcarga)
    refine ⟨u1, ?_, ?_, r3⟩
    · rw [hash_insertar_ausente hb (q + 2) k e hk, if_pos hcarga]
      exact r1
    · have hsp := siguiente_primo_ge (t.capacidad * 2)
      have r4 : u1.capacidad = siguiente_primo (t.capacidad * 2) := r2
      have hmin := hb.capacidad_min
      omega

/-- Witness of C14 amended: `"c"` and `"a"`, inserted in this order into a table created
with capacity 3, share slot 2; the table does not grow and the chain of slot 2 is `"c"`,
`"a"`. -/
theorem hash_iterador_orden_de_cadena_testigo :
    3 ≤ 3 ∧ hash_crear [] false 3 = some (tabla_tres false) ∧
      obtener_hash [99] % 3 = 2 ∧ obtener_hash [97] % 3 = 2 ∧
      ∃ t it, insertar_todos 3 (tabla_tres false) [([99], 3), ([97], 1)] = some t ∧
        t.capacidad = 3 ∧ t.vector = [none, none, some [⟨3, [99]⟩, ⟨1, [97]⟩]] ∧
        hash_iterador_crear t = some it ∧
        (∀ n, total t ≤ n → claves_iteradas n it =
          some (((List.range t.capacidad).flatMap (cadena t)).map (fun x => some x.clave))) ∧
        (t.capacidad = (tabla_tres false).capacidad → ∀ i, (cadena t i).map dato_t.clave =
          (claves_insertadas [] ([([99], 3), ([97], 1)].map Prod.fst)).filter
            (fun k => decide (obtener_hash k % t.capacidad = i))) ∧
        (∀ k e, buscar t k = none →
          3 * t.capacidad < 4 * ((t.cantidad + 1) % TAM_SIZE_T) →
          ∃ t1, hash_insertar 3 t k e = some (OK, t1) ∧ t.capacidad < t1.capacidad ∧
            ∀ i, cadena t1 i = (entradas_vector (agregar t k e).vector).filter
              (fun x => decide (obtener_hash x.clave % t1.capacidad = i))) := by
  obtain ⟨t, it, h1, h2⟩ :=
    hash_iterador_orden_de_cadena false 3 3 (by decide) [([99], 3), ([97], 1)]
      (tabla_tres false) (hash_crear_tres false)
  have hev : insertar_todos 3 (tabla_tres false) [([99], 3), ([97], 1)] =
      some { capacidad := 3, cantidad := 2,
             vector := [none, none, some [⟨3, [99]⟩, ⟨1, [97]⟩]], destructor := false,
             destruidos := [], memoria := [] } := by decide
  have ht := Option.some.inj (h1.symm.trans hev)
  exact ⟨by decide, hash_crear_tres false, by decide, by decide, t, it, h1,
    by rw [ht], by rw [ht], h2⟩

/-! ## The capacity never decreases -/

theorem rehash_lista_bucle_capacidad (ins : hash_t → Clave → Nat → Option (Int × hash_t))
    (hins : ∀ h k e r h1, ins h k e = some (r, h1) → h.capacidad ≤ h1.capacidad) :
    ∀ (l : lista_iterador_t dato_t) (h : hash_t) (r : Int) (h1 : hash_t),
      rehash_lista_bucle ins h l = some (r, h1) → h.capacidad ≤ h1.capacidad := by
  intro l
  induction l with
  | nil =>
    intro h r h1 heq
    simp only [rehash_lista_bucle, Option.some.injEq, Prod.mk.injEq] at heq
    rw [← heq.2]
  | cons d resto ih =>
    intro h r h1 heq
    rw [rehash_lista_bucle] at heq
    cases hi : ins h d.clave d.elemento with
    | none => rw [hi] at heq; cases heq
    | some x =>
      obtain ⟨r2, h2⟩ := x
      rw [hi] at heq
      simp only at heq
      have hp2 := hins h d.clave d.elemento r2 h2 hi
      by_cases hr : r2 = ERROR
      · rw [if_pos hr] at heq
        simp only [Option.some.injEq, Prod.mk.injEq] at heq
        rw [← heq.2]
        exact hp2
      · rw [if_neg hr] at heq
        exact Nat.le_trans hp2 (ih h2 r h1 heq)

theorem rehash_bucle_capacidad (ins : hash_t → Clave → Nat → Option (Int × hash_t))
    (hins : ∀ h k e r h1, ins h k e = some (r, h1) → h.capacidad ≤ h1.capacidad) :
    ∀ (v : List (Option (lista_t dato_t))) (h : hash_t) (r : Int) (h1 : hash_t),
      rehash_bucle ins h v = some (r, h1) → h.capacidad ≤ h1.capacidad := by
  intro v
  induction v with
  | nil =>
    intro h r h1 heq
    simp only [rehash_bucle, Option.some.injEq, Prod.mk.injEq] at heq
    rw [← heq.2]
  | cons a resto ih =>
    intro h r h1 heq
    cases a with
    | none =>
      rw [rehash_bucle] at heq
      exact ih h r h1 heq
    | some l =>
      rw [rehash_bucle] at heq
      cases hl : rehash_lista ins h l with
      | none => rw [hl] at heq; cases heq
      | some x =>
        obtain ⟨r2, h2⟩ := x
        rw [hl] at heq
        simp only at heq
        have hp2 : h.capacidad ≤ h2.capacidad := by
          unfold rehash_lista at hl
          rcases hc : lista_iterador_crear h.memoria l with ⟨o, m1⟩
          rw [hc] at hl
          cases o with
          | none =>
            simp only [Option.some.injEq, Prod.mk.injEq] at hl
            rw [← hl.2]
          | some it =>
            simp only at hl
            have hcap := rehash_lista_bucle_capacidad ins hins it _ r2 h2 hl
            exact hcap
        by_cases hr : r2 = ERROR
        · rw [if_pos hr] at heq
          simp only [Option.some.injEq, Prod.mk.injEq] at heq
          rw [← heq.2]
          exact hp2
        · rw [if_neg hr] at heq
          exact Nat.le_trans hp2 (ih h2 r h1 heq)

theorem rehash_capacidad (ins : hash_t → Clave → Nat → Option (Int × hash_t))
    (hins : ∀ h k e r h1, ins h k e = some (r, h1) → h.capacidad ≤ h1.capacidad)
    (hash : hash_t) (r : Int) (hash1 : hash_t) (heq : rehash ins hash = some (r, hash1)) :
    hash.capacidad ≤ hash1.capacidad := by
  rw [rehash_eq_hasta _ ins hash rfl] at heq
  unfold rehash_hasta at heq
  cases ha : asignar hash.memoria with
  | mk b m1 =>
    rw [ha] at heq
    cases b with
    | false =>
      simp only [Option.some.injEq, Prod.mk.injEq] at heq
      rw [← heq.2]
    | true =>
      simp only at heq
      cases hb : rehash_bucle ins
          { hash with
            vector := List.replicate (siguiente_primo (hash.capacidad * RATIO)) none
            capacidad := siguiente_primo (hash.capacidad * RATIO)
            cantidad := 0
            memoria := m1 }
          (ranuras hash.vector hash.capacidad) with
      | none => rw [hb] at heq; cases heq
      | some y =>
        obtain ⟨r2, hash2⟩ := y
        rw [hb] at heq
        simp only at heq
        have hp2 := rehash_bucle_capacidad ins hins _ _ r2 hash2 hb
        have hsp := siguiente_primo_ge (hash.capacidad * RATIO)
        simp only [ RATIO] at hsp hp2
        by_cases hr : r2 = ERROR
        · rw [if_pos hr] at heq
          simp only [Option.some.injEq, Prod.mk.injEq] at heq
          rw [← heq.2]
          exact Nat.le_refl _
        · rw [if_neg hr] at heq
          simp only [Option.some.injEq, Prod.mk.injEq] at heq
          rw [← heq.2]
          show hash.capacidad ≤ hash2.capacidad
          omega

/-- Whatever the heap answers, `hash_insertar` never lowers the capacity. -/
theorem hash_insertar_capacidad (p : Nat) :
    ∀ (h : hash_t) (k : Clave) (e : Nat) (r : Int) (h1 : hash_t),
      hash_insertar p h k e = some (r, h1) → h.capacidad ≤ h1.capacidad := by
  induction p with
  | zero =>
    intro h k e r h1 heq
    simp [hash_insertar] at heq
  | succ p ih =>
    intro h k e r h1 heq
    rw [hash_insertar_succ] at heq
    have hc := capacidad_hash_insertar_inicio h k e
    cases hi : hash_insertar_inicio h k e with
    | inl x =>
      rw [hi] at heq hc
      simp only [Option.some.injEq] at heq
      simp only at hc
      rw [heq] at hc
      simp only at hc
      rw [hc]
    | inr h3 =>
      rw [hi] at heq hc
      simp only at heq hc
      have := rehash_capacidad _ ih h3 r h1 heq
      omega

/-- Whatever the heap answers, `hash_quitar` keeps the capacity. -/
theorem capacidad_hash_quitar (hash : hash_t) (k : Clave) :
    (hash_quitar hash k).2.capacidad = hash.capacidad := by
  obtain ⟨cap, cnt, v, d, ds, m⟩ := hash
  simp only [hash_quitar]
  cases hx : v.getD (obtener_hash k % cap) none with
  | none => simp only
  | some l =>
    simp only
    rcases hc : lista_iterador_crear m l with ⟨o, m1⟩
    cases o with
    | none => simp only
    | some it => simp only

theorem capacidad_hash_crear (m : Memoria) (d : Bool) (c : Nat) (t : hash_t)
    (h : hash_crear m d c = some t) :
    t.capacidad = siguiente_primo (if c < 3 then 3 else c) := by
  unfold hash_crear at h
  rcases ha : asignar m with ⟨b1, m1⟩
  rw [ha] at h
  cases b1 with
  | false => cases h
  | true =>
    dsimp only at h
    rcases hb : asignar m1 with ⟨b2, m2⟩
    rw [hb] at h
    cases b2 with
    | false => cases h
    | true =>
      dsimp only at h
      rw [← Option.some.inj h]

/-- The capacity of every table of `AlcanzableAcotada` is prime and at least 3. -/
theorem AlcanzableAcotada.primo_y_minimo {t : hash_t} (h : AlcanzableAcotada t) :
    t.capacidad.Prime ∧ 3 ≤ t.capacidad := by
  induction h with
  | crear m d c q t hq hle hlt h =>
    rw [hash_crear_size_t_en_rango m d c q hq hle hlt] at h
    rw [capacidad_hash_crear m d c t h]
    obtain ⟨h1, h2, _⟩ := siguiente_primo_spec (if c < 3 then 3 else c)
    refine ⟨h1, ?_⟩
    by_cases hc : c < 3
    · rw [if_pos hc] at h2 ⊢; exact h2
    · rw [if_neg hc] at h2 ⊢; omega
  | heap t m _ ih => exact ih
  | insertar p t k e r t1 _ hi ih =>
    exact ⟨hash_insertar_primo p t k e r t1 hi ih.1,
      Nat.le_trans ih.2 (hash_insertar_capacidad p t k e r t1 hi)⟩
  | quitar t k _ ih =>
    rw [capacidad_hash_quitar]
    exact ih

/-! ## Claim on the capacity of reachable tables -/

/-- C29, refuted as stated: `hash_crear(NULL, SIZE_MAX)` returns a table of capacity 2, and
the table still has capacity 2 after `hash_insertar` of `"a"`; 2 is prime but below 3. No
capacity is doubled on the way. -/
theorem capacidad_menor_que_tres :
    hash_crear_size_t [] false 18446744073709551615 = some (tabla_dos false) ∧
      hash_insertar 3 (tabla_dos false) [97] 1 = some (OK, tabla_dos_a false) ∧
      (tabla_dos false).capacidad = 2 ∧ (tabla_dos_a false).capacidad = 2 ∧
      ¬ 3 ≤ (tabla_dos_a false).capacidad :=
  ⟨hash_crear_size_t_max false, hash_insertar_dos_a false, rfl, rfl, by decide⟩

/-- C29, amended: in every table reachable by `hash_insertar` and `hash_quitar` calls,
allocations failing or not, from a `hash_crear` whose request has a prime at or above it
below `COTA_ES_PRIMO` (so that nothing wraps in `siguiente_primo`), growth passes sizing in
exact arithmetic (capacities small enough that neither doubling nor sizing overflows), the
capacity is a prime number, at least 3, and `obtener_hash key % capacidad` is below the
capacity for every key. -/
theorem capacidad_prima_acotada (t : hash_t) (ht : AlcanzableAcotada t) :
    t.capacidad.Prime ∧ 3 ≤ t.capacidad ∧
      ∀ k, obtener_hash k % t.capacidad < t.capacidad := by
  obtain ⟨h1, h2⟩ := ht.primo_y_minimo
  exact ⟨h1, h2, fun k => Nat.mod_lt _ (by omega)⟩

/-- Witness of C29 amended: `hash_crear(NULL, 3)`, a `hash_insertar` of `"a"` whose first
allocation fails (result `ERROR`, table unchanged), then the same call with the heap
answering: the table holds `"a"` in slot 2 of 3. -/
theorem capacidad_prima_acotada_testigo :
    hash_crear_size_t [] false 3 = some (tabla_tres false) ∧
      hash_insertar 3 { tabla_tres false with memoria := [false] } [97] 1 =
        some (ERROR, tabla_tres false) ∧
      hash_insertar 3 (tabla_tres false) [97] 1 = some (OK, tabla_a false) ∧
      AlcanzableAcotada (tabla_a false) ∧ (tabla_a false).capacidad = 3 ∧
      (tabla_a false).capacidad.Prime ∧ 3 ≤ (tabla_a false).capacidad ∧
      ∀ k, obtener_hash k % (tabla_a false).capacidad < (tabla_a false).capacidad := by
  have hc : (3 : Nat) < COTA_ES_PRIMO := by simp [COTA_ES_PRIMO]
  have e0 : hash_crear_size_t [] false 3 = some (tabla_tres false) :=
    (hash_crear_size_t_en_rango [] false 3 3 Nat.prime_three (by decide) hc).trans
      (hash_crear_tres false)
  have e1 : hash_insertar 3 { tabla_tres false with memoria := [false] } [97] 1 =
      some (ERROR, tabla_tres false) := by decide
  have e2 : hash_insertar 3 (tabla_tres false) [97] 1 = some (OK, tabla_a false) := by decide
  have a0 : AlcanzableAcotada (tabla_tres false) :=
    AlcanzableAcotada.crear [] false 3 3 _ Nat.prime_three (by decide) hc e0
  have a1 : AlcanzableAcotada (tabla_tres false) :=
    AlcanzableAcotada.insertar 3 _ [97] 1 ERROR _ (AlcanzableAcotada.heap _ [false] a0) e1
  have a2 : AlcanzableAcotada (tabla_a false) :=
    AlcanzableAcotada.insertar 3 _ [97] 1 OK _ a1 e2
  exact ⟨e0, e1, e2, a2, rfl, capacidad_prima_acotada (tabla_a false) a2⟩

end HashMap

namespace ABB

/-! ## Lemmas on insertion and removal in a tree -/

theorem OrdenTotal.de_igual {c : abb_comparador} (ho : OrdenTotal c) {a b : Nat}
    (h : c a b = 0) : c a b ≠ 1 ∧ c b a ≠ 1 := by
  refine ⟨by rw [h]; decide, ?_⟩
  intro h1
  have := (ho.opuesto a b).2 h1
  rw [h] at this
  exact absurd this (by decide)

theorem OrdenTotal.de_menor {c : abb_comparador} (ho : OrdenTotal c) {a b : Nat}
    (h : c a b ≠ -1) : c b a ≠ 1 :=
  fun h1 => h ((ho.opuesto a b).2 h1)

theorem insertar_elementos (c : abb_comparador) (e : Nat) :
    ∀ (t : nodo_abb_t) (m : HashMap.Memoria) (t1 : nodo_abb_t) (m1 : HashMap.Memoria),
      insertar (some c) e t m = (some t1, m1) → (elementos t1).Perm (e :: elementos t) := by
  intro t
  induction t with
  | nil =>
    intro m t1 m1 h
    simp only [insertar, nuevo_nodo] at h
    cases ha : HashMap.asignar m with
    | mk b m2 =>
      rw [ha] at h
      cases b with
      | false => simp at h
      | true =>
        simp only [Prod.mk.injEq, Option.some.injEq] at h
        rw [← h.1]
        exact List.Perm.refl _
  | nodo l a r ihl ihr =>
    intro m t1 m1 h
    simp only [insertar] at h
    by_cases hc : c e a = -1
    · rw [if_pos hc] at h
      cases hi : insertar (some c) e l m with
      | mk o m2 =>
        rw [hi] at h
        cases o with
        | none => simp at h
        | some aux =>
          simp only [Prod.mk.injEq, Option.some.injEq] at h
          rw [← h.1]
          have := ihl m aux m2 hi
          simp only [elementos]
          exact (this.append_right _).trans (List.Perm.refl _)
    · rw [if_neg hc] at h
      cases hi : insertar (some c) e r m with
      | mk o m2 =>
        rw [hi] at h
        cases o with
        | none => simp at h
        | some aux =>
          simp only [Prod.mk.injEq, Option.some.injEq] at h
          rw [← h.1]
          have := ihr m aux m2 hi
          simp only [elementos]
          have h2 : (elementos l ++ a :: elementos aux).Perm
              (elementos l ++ a :: e :: elementos r) :=
            List.Perm.append_left _ (List.Perm.cons _ this)
          refine h2.trans ?_
          have h3 : (elementos l ++ a :: e :: elementos r) =
              (elementos l ++ [a]) ++ e :: elementos r := by simp
          rw [h3]
          refine List.perm_middle.trans ?_
          simp

theorem insertar_ordenado {c : abb_comparador} (ho : OrdenTotal c) (e : Nat) :
    ∀ (t : nodo_abb_t) (m : HashMap.Memoria) (t1 : nodo_abb_t) (m1 : HashMap.Memoria),
      Ordenado c t → insertar (some c) e t m = (some t1, m1) → Ordenado c t1 := by
  intro t
  induction t with
  | nil =>
    intro m t1 m1 _ h
    simp only [insertar, nuevo_nodo] at h
    cases ha : HashMap.asignar m with
    | mk b m2 =>
      rw [ha] at h
      cases b with
      | false => simp at h
      | true =>
        simp only [Prod.mk.injEq, Option.some.injEq] at h
        rw [← h.1]
        simp [Ordenado, elementos]
  | nodo l a r ihl ihr =>
    intro m t1 m1 hord h
    obtain ⟨hl, hr, hla, har⟩ := hord
    simp only [insertar] at h
    by_cases hc : c e a = -1
    · rw [if_pos hc] at h
      cases hi : insertar (some c) e l m with
      | mk o m2 =>
        rw [hi] at h
        cases o with
        | none => simp at h
        | some aux =>
          simp only [Prod.mk.injEq, Option.some.injEq] at h
          rw [← h.1]
          refine ⟨ihl m aux m2 hl hi, hr, ?_, har⟩
          intro x hx
          rcases List.mem_cons.1 ((insertar_elementos c e l m aux m2 hi).mem_iff.1 hx) with h1 | h1
          · rw [h1, hc]; decide
          · exact hla x h1
    · rw [if_neg hc] at h
      cases hi : insertar (some c) e r m with
      | mk o m2 =>
        rw [hi] at h
        cases o with
        | none => simp at h
        | some aux =>
          simp only [Prod.mk.injEq, Option.some.injEq] at h
          rw [← h.1]
          refine ⟨hl, ihr m aux m2 hr hi, hla, ?_⟩
          intro x hx
          rcases List.mem_cons.1 ((insertar_elementos c e r m aux m2 hi).mem_iff.1 hx) with h1 | h1
          · rw [h1]; exact ho.de_menor hc
          · exact har x h1

theorem predecesor_inorden_elementos :
    ∀ (r l : nodo_abb_t) (x : Nat),
      elementos (nodo_abb_t.nodo l x r) =
        elementos (predecesor_inorden l x r).1 ++ [(predecesor_inorden l x r).2] := by
  intro r
  induction r with
  | nil => intro l x; simp [predecesor_inorden, elementos]
  | nodo l2 x2 r2 _ ih2 =>
    intro l x
    have h := ih2 l2 x2
    simp only [predecesor_inorden, elementos] at h ⊢
    rw [h]
    simp

theorem predecesor_inorden_ordenado {c : abb_comparador} (ho : OrdenTotal c) :
    ∀ (r l : nodo_abb_t) (x : Nat), Ordenado c (nodo_abb_t.nodo l x r) →
      Ordenado c (predecesor_inorden l x r).1 ∧
        ∀ y ∈ elementos (predecesor_inorden l x r).1, c y (predecesor_inorden l x r).2 ≠ 1 := by
  intro r
  induction r with
  | nil =>
    intro l x h
    exact ⟨h.1, h.2.2.1⟩
  | nodo l2 x2 r2 _ ih2 =>
    intro l x h
    obtain ⟨hl, hr, hla, har⟩ := h
    obtain ⟨h1, h2⟩ := ih2 l2 x2 hr
    have he := predecesor_inorden_elementos r2 l2 x2
    have hxp : c x (predecesor_inorden l2 x2 r2).2 ≠ 1 :=
      har _ (by rw [he]; simp)
    simp only [predecesor_inorden]
    refine ⟨⟨hl, h1, hla, ?_⟩, ?_⟩
    · intro y hy
      exact har y (by rw [he]; exact List.mem_append_left _ hy)
    · intro y hy
      simp only [elementos, List.mem_append, List.mem_cons] at hy
      rcases hy with hy | hy | hy
      · exact ho.transitivo _ _ _ (hla y hy) hxp
      · rw [hy]; exact hxp
      · exact h2 y hy

/-- When no element of the tree compares equal to `e`, `borrar` sets `*no_encontre`,
returns `NULL` and calls no destructor. -/
theorem borrar_ausente {c : abb_comparador} (ho : OrdenTotal c) (d : Bool) (e : Nat) :
    ∀ t : nodo_abb_t, (∀ x ∈ elementos t, c e x ≠ 0) →
      borrar d (some c) e t = (nodo_abb_t.nil, true, []) := by
  intro t
  induction t with
  | nil => intro _; rfl
  | nodo l a r ihl ihr =>
    intro h
    have ha : c e a ≠ 0 := h a (by simp [elementos])
    simp only [borrar]
    by_cases h1 : c e a = -1
    · rw [if_pos h1, ihl (fun x hx => h x (by simp [elementos, hx]))]
      rfl
    · rw [if_neg h1]
      by_cases h2 : c e a = 1
      · rw [if_pos h2, ihr (fun x hx => h x (by simp [elementos, hx]))]
        rfl
      · rcases ho.valores e a with h3 | h3 | h3
        · exact absurd h3 h1
        · exact absurd h3 ha
        · exact absurd h3 h2

/-- When some element of an ordered tree compares equal to `e`, `borrar` unlinks one such
element, calls the destructor on it alone and leaves an ordered tree. -/
theorem borrar_encontrado {c : abb_comparador} (ho : OrdenTotal c) (d : Bool) (e : Nat) :
    ∀ t : nodo_abb_t, Ordenado c t → (∃ x ∈ elementos t, c e x = 0) →
      ∃ x t1, borrar d (some c) e t = (t1, false, destruir_elemento x d) ∧
        x ∈ elementos t ∧ c e x = 0 ∧ (elementos t).Perm (x :: elementos t1) ∧
        Ordenado c t1 := by
  intro t
  induction t with
  | nil => rintro _ ⟨x, hx, _⟩; cases hx
  | nodo l a r ihl ihr =>
    rintro ⟨hl, hr, hla, har⟩ ⟨x, hx, hex⟩
    simp only [elementos, List.mem_append, List.mem_cons] at hx
    simp only [borrar]
    by_cases h1 : c e a = -1
    · rw [if_pos h1]
      have hxl : x ∈ elementos l := by
        rcases hx with hx | hx | hx
        · exact hx
        · rw [hx, h1] at hex; exact absurd hex (by decide)
        · exfalso
          have h3 := ho.transitivo a x e (har x hx) (ho.de_igual hex).2
          exact h3 ((ho.opuesto e a).1 h1)
      obtain ⟨y, l1, h4, h5, h6, h7, h8⟩ := ihl hl ⟨x, hxl, hex⟩
      refine ⟨y, nodo_abb_t.nodo l1 a r, by rw [h4]; rfl, ?_, h6, ?_, ?_⟩
      · simp [elementos, h5]
      · simp only [elementos]
        exact (h7.append_right _).trans (List.Perm.refl _)
      · exact ⟨h8, hr, fun z hz => hla z (h7.mem_iff.2 (List.mem_cons_of_mem _ hz)), har⟩
    · rw [if_neg h1]
      by_cases h2 : c e a = 1
      · rw [if_pos h2]
        have hxr : x ∈ elementos r := by
          rcases hx with hx | hx | hx
          · exfalso
            have h3 := ho.transitivo e x a (ho.de_igual hex).1 (hla x hx)
            exact h3 h2
          · rw [hx, h2] at hex; exact absurd hex (by decide)
          · exact hx
        obtain ⟨y, r1, h4, h5, h6, h7, h8⟩ := ihr hr ⟨x, hxr, hex⟩
        refine ⟨y, nodo_abb_t.nodo l a r1, by rw [h4]; rfl, ?_, h6, ?_, ?_⟩
        · simp [elementos, h5]
        · simp only [elementos]
          have h9 : (elementos l ++ a :: elementos r).Perm
              (elementos l ++ a :: y :: elementos r1) :=
            List.Perm.append_left _ (List.Perm.cons _ h7)
          refine h9.trans ?_
          have h3 : (elementos l ++ a :: y :: elementos r1) =
              (elementos l ++ [a]) ++ y :: elementos r1 := by simp
          rw [h3]
          refine List.perm_middle.trans ?_
          simp
        · exact ⟨hl, h8, hla, fun z hz => har z (h7.mem_iff.2 (List.mem_cons_of_mem _ hz))⟩
      · rw [if_neg h2]
        have h0 : c e a = 0 := by
          rcases ho.valores e a with h3 | h3 | h3
          · exact absurd h3 h1
          · exact h3
          · exact absurd h3 h2
        cases l with
        | nil =>
          exact ⟨a, r, rfl, by simp [elementos], h0, by simp [elementos], hr⟩
        | nodo l2 x2 r2 =>
          cases r with
          | nil =>
            refine ⟨a, nodo_abb_t.nodo l2 x2 r2, rfl, by simp [elementos], h0, ?_, hl⟩
            simp only [elementos, List.append_nil]
            exact List.perm_append_singleton _ _
          | nodo l3 x3 r3 =>
            have he := predecesor_inorden_elementos r2 l2 x2
            obtain ⟨h4, h5⟩ := predecesor_inorden_ordenado ho r2 l2 x2 hl
            refine ⟨a, nodo_abb_t.nodo (predecesor_inorden l2 x2 r2).1
              (predecesor_inorden l2 x2 r2).2 (nodo_abb_t.nodo l3 x3 r3), rfl,
              by simp [elementos], h0, ?_, ⟨h4, hr, h5, ?_⟩⟩
            · have h6 : elementos (nodo_abb_t.nodo (nodo_abb_t.nodo l2 x2 r2) a
                  (nodo_abb_t.nodo l3 x3 r3)) =
                  elementos (nodo_abb_t.nodo l2 x2 r2) ++
                    a :: elementos (nodo_abb_t.nodo l3 x3 r3) := rfl
              have h7 : elementos (nodo_abb_t.nodo (predecesor_inorden l2 x2 r2).1
                  (predecesor_inorden l2 x2 r2).2 (nodo_abb_t.nodo l3 x3 r3)) =
                  elementos (predecesor_inorden l2 x2 r2).1 ++
                    (predecesor_inorden l2 x2 r2).2 ::
                      elementos (nodo_abb_t.nodo l3 x3 r3) := rfl
              rw [h6, h7, he]
              generalize elementos (predecesor_inorden l2 x2 r2).1 = A
              generalize (predecesor_inorden l2 x2 r2).2 = p
              generalize elementos (nodo_abb_t.nodo l3 x3 r3) = R
              refine List.perm_middle.trans ?_
              simp
            · intro z hz
              have hp : c (predecesor_inorden l2 x2 r2).2 a ≠ 1 :=
                hla _ (by rw [he]; simp)
              exact ho.transitivo _ _ _ hp (har z hz)

/-! ## Reachable trees -/

theorem comparador_arbol_insertar (arbol : abb_t) (e : Nat) :
    (arbol_insertar arbol e).2.comparador = arbol.comparador := by
  unfold arbol_insertar
  rcases insertar arbol.comparador e arbol.nodo_raiz arbol.memoria with ⟨o, m1⟩
  cases o <;> rfl

theorem comparador_arbol_borrar (arbol : abb_t) (e : Nat) :
    (arbol_borrar arbol e).2.comparador = arbol.comparador := by
  unfold arbol_borrar
  rcases borrar arbol.destructor arbol.comparador e arbol.nodo_raiz with ⟨aux, flag, ll⟩
  simp only
  split <;> rfl

/-- What `arbol_borrar` does when some element of an ordered tree compares equal to `e`. -/
theorem arbol_borrar_encontrado {c : abb_comparador} (ho : OrdenTotal c) (arbol : abb_t)
    (hc : arbol.comparador = some c) (hord : Ordenado c arbol.nodo_raiz) (e : Nat)
    (hx : ∃ x ∈ elementos arbol.nodo_raiz, c e x = 0) :
    ∃ x t1, arbol_borrar arbol e =
        (0, { arbol with
              nodo_raiz := t1
              destruidos := arbol.destruidos ++ destruir_elemento x arbol.destructor }) ∧
      x ∈ elementos arbol.nodo_raiz ∧ c e x = 0 ∧
      (elementos arbol.nodo_raiz).Perm (x :: elementos t1) ∧ Ordenado c t1 := by
  obtain ⟨x, t1, h1, h2, h3, h4, h5⟩ :=
    borrar_encontrado ho arbol.destructor e arbol.nodo_raiz hord hx
  refine ⟨x, t1, ?_, h2, h3, h4, h5⟩
  unfold arbol_borrar
  rw [hc, h1]
  simp

/-- What `arbol_borrar` does when no element of the tree compares equal to `e`. -/
theorem arbol_borrar_ausente {c : abb_comparador} (ho : OrdenTotal c) (arbol : abb_t)
    (hc : arbol.comparador = some c) (e : Nat)
    (hx : ∀ x ∈ elementos arbol.nodo_raiz, c e x ≠ 0) :
    arbol_borrar arbol e = (-1, arbol) := by
  have hb := borrar_ausente ho arbol.destructor e arbol.nodo_raiz hx
  rw [← hc] at hb
  unfold arbol_borrar
  rw [hb]
  simp

/-- Every reachable tree whose comparator is a total order is ordered. -/
theorem Construido.ordenado {arbol : abb_t} (h : Construido arbol) :
    ∀ c, arbol.comparador = some c → OrdenTotal c → Ordenado c arbol.nodo_raiz := by
  induction h with
  | crear m cmp d arbol h =>
    intro c _ _
    unfold arbol_crear at h
    cases cmp with
    | none => cases h
    | some c1 =>
      simp only at h
      cases ha : HashMap.asignar m with
      | mk b m1 =>
        rw [ha] at h
        cases b with
        | false => cases h
        | true =>
          simp only [Option.some.injEq] at h
          rw [← h]
          trivial
  | insertar arbol e _ ih =>
    intro c hc ho
    rw [comparador_arbol_insertar] at hc
    have h1 := ih c hc ho
    unfold arbol_insertar
    rw [hc]
    cases hi : ABB.insertar (some c) e arbol.nodo_raiz arbol.memoria with
    | mk o m1 =>
      cases o with
      | none => exact h1
      | some aux => exact insertar_ordenado ho e _ _ _ _ h1 hi
  | borrar arbol e _ ih =>
    intro c hc ho
    rw [comparador_arbol_borrar] at hc
    have h1 := ih c hc ho
    by_cases hx : ∃ x ∈ elementos arbol.nodo_raiz, c e x = 0
    · obtain ⟨x, t1, h2, _, _, _, h6⟩ := arbol_borrar_encontrado ho arbol hc h1 e hx
      rw [h2]
      exact h6
    · rw [arbol_borrar_ausente ho arbol hc e (fun x hx1 h0 => hx ⟨x, hx1, h0⟩)]
      exact h1

theorem OrdenTotal_comparar_direcciones : OrdenTotal comparar_direcciones := by
  refine ⟨?_, ?_, ?_, ?_⟩
  · intro a b
    unfold comparar_direcciones
    by_cases h1 : a < b
    · simp [h1]
    · by_cases h2 : b < a
      · simp [h1, h2]
      · simp [h1, h2]
  · intro a
    simp [comparar_direcciones]
  · intro a b
    unfold comparar_direcciones
    by_cases h1 : a < b
    · have h2 : ¬ b < a := by omega
      simp [h1, h2]
    · by_cases h2 : b < a
      · simp [h1, h2]
      · simp [h1, h2]
  · intro a b d
    unfold comparar_direcciones
    intro hab hbd
    have h1 : ¬ b < a := by
      intro h
      apply hab
      have h2 : ¬ a < b := by omega
      simp [h, h2]
    have h2 : ¬ d < b := by
      intro h
      apply hbd
      have h3 : ¬ b < d := by omega
      simp [h, h3]
    have h3 : ¬ d < a := by omega
    by_cases h4 : a < d
    · simp [h4]
    · simp [h3, h4]

theorem Construido_arbol_ejemplo : Construido arbol_ejemplo :=
  Construido.insertar _ 7
    (Construido.insertar _ 3
      (Construido.insertar _ 5
        (Construido.crear [] (some comparar_direcciones) true arbol_vacio rfl)))

/-! ## Claims on the binary search tree -/

/-- C20: on a tree built by `arbol_insertar` and `arbol_borrar` calls whose comparator `c`
is a total order with values -1, 0 and 1, and for every element `e`: when some stored
element compares equal to `e`, `arbol_borrar` returns 0, the stored elements lose one
element `x` that compares equal to `e` and are otherwise the same, with multiplicities,
the destructor, when there is one, is called on `x` and on nothing else, and the other
fields of the tree are as they were; when no stored element compares equal to `e`,
`arbol_borrar` returns -1 and leaves the tree as it was. -/
theorem arbol_borrar_quita_uno (arbol : abb_t) (h : Construido arbol) (c : abb_comparador)
    (hc : arbol.comparador = some c) (ho : OrdenTotal c) (e : Nat) :
    ((∃ x ∈ elementos arbol.nodo_raiz, c e x = 0) →
      ∃ x, x ∈ elementos arbol.nodo_raiz ∧ c e x = 0 ∧ (arbol_borrar arbol e).1 = 0 ∧
        (elementos arbol.nodo_raiz).Perm (x :: elementos (arbol_borrar arbol e).2.nodo_raiz) ∧
        (arbol_borrar arbol e).2.destruidos =
          arbol.destruidos ++ (if arbol.destructor then [x] else []) ∧
        (arbol_borrar arbol e).2.comparador = arbol.comparador ∧
        (arbol_borrar arbol e).2.destructor = arbol.destructor ∧
        (arbol_borrar arbol e).2.memoria = arbol.memoria) ∧
      ((∀ x ∈ elementos arbol.nodo_raiz, c e x ≠ 0) → arbol_borrar arbol e = (-1, arbol)) := by
  constructor
  · intro hx
    obtain ⟨x, t1, h1, h2, h3, h4, _⟩ :=
      arbol_borrar_encontrado ho arbol hc (h.ordenado c hc ho) e hx
    refine ⟨x, h2, h3, ?_⟩
    rw [h1]
    exact ⟨rfl, h4, rfl, rfl, rfl, rfl⟩
  · intro hx
    exact arbol_borrar_ausente ho arbol hc e hx

/-- Witness of C20: in the tree holding 5, 3 and 7, removing 5 (a node with two
children) calls the destructor on 5 and leaves 3 and 7; removing 9 returns -1. -/
theorem arbol_borrar_quita_uno_testigo :
    Construido arbol_ejemplo ∧ arbol_ejemplo.comparador = some comparar_direcciones ∧
      OrdenTotal comparar_direcciones ∧
      (∃ x, x ∈ elementos arbol_ejemplo.nodo_raiz ∧ comparar_direcciones 5 x = 0 ∧
        (arbol_borrar arbol_ejemplo 5).1 = 0 ∧
        (elementos arbol_ejemplo.nodo_raiz).Perm
          (x :: elementos (arbol_borrar arbol_ejemplo 5).2.nodo_raiz) ∧
        (arbol_borrar arbol_ejemplo 5).2.destruidos =
          arbol_ejemplo.destruidos ++ (if arbol_ejemplo.destructor then [x] else []) ∧
        (arbol_borrar arbol_ejemplo 5).2.comparador = arbol_ejemplo.comparador ∧
        (arbol_borrar arbol_ejemplo 5).2.destructor = arbol_ejemplo.destructor ∧
        (arbol_borrar arbol_ejemplo 5).2.memoria = arbol_ejemplo.memoria) ∧
      arbol_borrar arbol_ejemplo 9 = (-1, arbol_ejemplo) :=
  ⟨Construido_arbol_ejemplo, rfl, OrdenTotal_comparar_direcciones,
    (arbol_borrar_quita_uno arbol_ejemplo Construido_arbol_ejemplo comparar_direcciones rfl
      OrdenTotal_comparar_direcciones 5).1 ⟨5, by decide, rfl⟩,
    (arbol_borrar_quita_uno arbol_ejemplo Construido_arbol_ejemplo comparar_direcciones rfl
      OrdenTotal_comparar_direcciones 9).2 (by decide)⟩

/-! ## Lemmas on search -/

/-- When no element of the tree compares equal to `e`, `buscar` returns `NULL`. -/
theorem buscar_sin_igual (c : abb_comparador) (e : Nat) :
    ∀ t : nodo_abb_t, (∀ x ∈ elementos t, c e x ≠ 0) → buscar c e t = 0 := by
  intro t
  induction t with
  | nil => intro _; rfl
  | nodo l a r ihl ihr =>
    intro h
    have ha : c e a ≠ 0 := h a (by simp [elementos])
    rw [buscar, if_neg ha]
    split
    · exact ihl (fun x hx => h x (by simp [elementos, hx]))
    · exact ihr (fun x hx => h x (by simp [elementos, hx]))

/-- When some element of an ordered tree compares equal to `e`, `buscar` returns such an
element of the tree. -/
theorem buscar_con_igual {c : abb_comparador} (ho : OrdenTotal c) (e : Nat) :
    ∀ t : nodo_abb_t, Ordenado c t → (∃ x ∈ elementos t, c e x = 0) →
      buscar c e t ∈ elementos t ∧ c e (buscar c e t) = 0 := by
  intro t
  induction t with
  | nil => rintro _ ⟨x, hx, _⟩; cases hx
  | nodo l a r ihl ihr =>
    rintro ⟨hl, hr, hla, har⟩ ⟨x, hx, hex⟩
    simp only [elementos, List.mem_append, List.mem_cons] at hx
    rw [buscar]
    by_cases h0 : c e a = 0
    · rw [if_pos h0]
      exact ⟨by simp [elementos], h0⟩
    · rw [if_neg h0]
      by_cases h1 : c e a = -1
      · rw [if_pos h1]
        have hxl : x ∈ elementos l := by
          rcases hx with hx | hx | hx
          · exact hx
          · rw [hx] at hex; exact absurd hex h0
          · exfalso
            have h3 := ho.transitivo a x e (har x hx) (ho.de_igual hex).2
            exact h3 ((ho.opuesto e a).1 h1)
        obtain ⟨h4, h5⟩ := ihl hl ⟨x, hxl, hex⟩
        exact ⟨by simp [elementos, h4], h5⟩
      · rw [if_neg h1]
        have h2 : c e a = 1 := by
          rcases ho.valores e a with h3 | h3 | h3
          · exact absurd h3 h1
          · exact absurd h3 h0
          · exact h3
        have hxr : x ∈ elementos r := by
          rcases hx with hx | hx | hx
          · exfalso
            have h3 := ho.transitivo e x a (ho.de_igual hex).1 (hla x hx)
            exact h3 h2
          · rw [hx] at hex; exact absurd hex h0
          · exact hx
        obtain ⟨h4, h5⟩ := ihr hr ⟨x, hxr, hex⟩
        exact ⟨by simp [elementos, h4], h5⟩

/-! ## Lemmas on traversals -/

theorem llenar_lleno (tam : Int) :
    ∀ (xs : List Nat) (estado : List Nat × Nat), (estado.2 : Int) ≥ tam →
      llenar tam xs estado = estado := by
  intro xs
  induction xs with
  | nil => intro _ _; rfl
  | cons e r ih =>
    intro estado h
    have hg : guardar tam e estado = estado := by
      unfold guardar
      rw [if_pos h]
    rw [llenar, hg]
    exact ih estado h

theorem llenar_append (tam : Int) :
    ∀ (xs ys : List Nat) (estado : List Nat × Nat),
      llenar tam (xs ++ ys) estado = llenar tam ys (llenar tam xs estado) := by
  intro xs
  induction xs with
  | nil => intro _ _; rfl
  | cons e r ih =>
    intro ys estado
    simp only [List.cons_append, llenar]
    exact ih ys _

/-- The inorder traversal stores the elements of the tree from left to right. -/
theorem recorrido_inorden_eq (tam : Int) :
    ∀ (t : nodo_abb_t) (estado : List Nat × Nat),
      recorrido_inorden tam t estado = llenar tam (elementos t) estado := by
  intro t
  induction t with
  | nil => intro _; rfl
  | nodo l e r ihl ihr =>
    intro estado
    rw [recorrido_inorden, ihl estado, elementos, llenar_append]
    cases hs : llenar tam (elementos l) estado with
    | mk array contador =>
      simp only
      by_cases hf : (contador : Int) ≥ tam
      · rw [if_pos hf, llenar_lleno tam _ (array, contador) hf]
      · rw [if_neg hf, ihr, llenar]
        unfold guardar
        rw [if_neg hf]

/-- The preorder traversal stores the preorder sequence of the tree. -/
theorem recorrido_preorden_eq (tam : Int) :
    ∀ (t : nodo_abb_t) (estado : List Nat × Nat),
      recorrido_preorden tam t estado = llenar tam (preorden t) estado := by
  intro t
  induction t with
  | nil => intro _; rfl
  | nodo l e r ihl ihr =>
    intro estado
    obtain ⟨array, contador⟩ := estado
    rw [recorrido_preorden, preorden]
    by_cases hf : (contador : Int) ≥ tam
    · rw [if_pos hf, llenar_lleno tam _ (array, contador) hf]
    · rw [if_neg hf, ihl, ihr, llenar, llenar_append]
      unfold guardar
      rw [if_neg hf]

/-- The postorder traversal stores the postorder sequence of the tree. -/
theorem recorrido_postorden_eq (tam : Int) :
    ∀ (t : nodo_abb_t) (estado : List Nat × Nat),
      recorrido_postorden tam t estado = llenar tam (postorden t) estado := by
  intro t
  induction t with
  | nil => intro _; rfl
  | nodo l e r ihl ihr =>
    intro estado
    rw [recorrido_postorden, ihl, ihr, postorden, llenar_append, llenar_append]
    cases hs : llenar tam (postorden r) (llenar tam (postorden l) estado) with
    | mk array contador =>
      simp only [llenar, guardar]

/-- Storing a sequence into an array with room for `s` cells, `pre` being the cells
already filled: the first `s - pre.length` elements are stored after `pre`. -/
theorem llenar_spec (s : Nat) :
    ∀ (xs pre resto : List Nat), s ≤ pre.length + resto.length →
      llenar (s : Int) xs (pre ++ resto, pre.length) =
        (pre ++ xs.take (s - pre.length) ++ resto.drop (min xs.length (s - pre.length)),
          pre.length + min xs.length (s - pre.length)) := by
  intro xs
  induction xs with
  | nil => intro pre resto _; simp [llenar]
  | cons e r ih =>
    intro pre resto hs
    rw [llenar]
    unfold guardar
    by_cases hf : ((pre.length : Nat) : Int) ≥ (s : Int)
    · have hle : s ≤ pre.length := by exact_mod_cast hf
      rw [if_pos hf, ih pre resto hs]
      have h0 : s - pre.length = 0 := by omega
      simp [h0]
    · have hlt : pre.length < s := by
        have : ¬ s ≤ pre.length := fun h => hf (by exact_mod_cast h)
        omega
      rw [if_neg hf]
      cases resto with
      | nil => simp at hs; omega
      | cons x resto1 =>
        have hset : (pre ++ x :: resto1).set pre.length e = (pre ++ [e]) ++ resto1 := by
          simp
        simp only
        rw [hset]
        have hlen : pre.length + 1 = (pre ++ [e]).length := by simp
        rw [hlen, ih (pre ++ [e]) resto1 (by simp at hs ⊢; omega)]
        have h1 : s - pre.length = (s - (pre ++ [e]).length) + 1 := by
          simp; omega
        rw [h1]
        generalize s - (pre ++ [e]).length = k
        have h2 : min (e :: r).length (k + 1) = min r.length k + 1 := by
          rw [List.length_cons]
          omega
        rw [h2, List.take_succ_cons, List.drop_succ_cons, List.length_append,
          List.length_singleton]
        refine Prod.ext ?_ ?_
        · simp
        · simp only
          omega

theorem length_preorden (t : nodo_abb_t) : (preorden t).length = (elementos t).length := by
  induction t with
  | nil => rfl
  | nodo l e r ihl ihr =>
    simp only [preorden, elementos, List.length_cons, List.length_append, ihl, ihr]
    omega

theorem length_postorden (t : nodo_abb_t) : (postorden t).length = (elementos t).length := by
  induction t with
  | nil => rfl
  | nodo l e r ihl ihr =>
    simp only [postorden, elementos, List.length_cons, List.length_append, ihl, ihr,
      List.length_singleton, List.length_nil]
    omega

/-- The elements of an ordered tree, from left to right, never decrease. -/
theorem Ordenado.creciente {c : abb_comparador} (ho : OrdenTotal c) :
    ∀ t : nodo_abb_t, Ordenado c t → (elementos t).Pairwise (fun a b => c a b ≠ 1) := by
  intro t
  induction t with
  | nil => intro _; exact List.Pairwise.nil
  | nodo l e r ihl ihr =>
    rintro ⟨hl, hr, hle, her⟩
    rw [elementos, List.pairwise_append]
    refine ⟨ihl hl, List.pairwise_cons.2 ⟨her, ihr hr⟩, ?_⟩
    intro a ha b hb
    rcases List.mem_cons.1 hb with h | h
    · rw [h]; exact hle a ha
    · exact ho.transitivo a e b (hle a ha) (her b h)

/-! ## Supporting facts for the claims on search and traversals -/

theorem arbol_recorrido_inorden_eq (arbol : abb_t) (array : List Nat) (s : Nat)
    (hs : s ≤ array.length) :
    arbol_recorrido_inorden arbol array (s : Int) =
      (min (elementos arbol.nodo_raiz).length s,
        (elementos arbol.nodo_raiz).take s ++
          array.drop (min (elementos arbol.nodo_raiz).length s)) := by
  unfold arbol_recorrido_inorden
  rw [recorrido_inorden_eq]
  have h := llenar_spec s (elementos arbol.nodo_raiz) [] array (by simpa using hs)
  simp only [List.nil_append, List.length_nil, Nat.sub_zero, Nat.zero_add] at h
  rw [h]

theorem arbol_recorrido_preorden_eq (arbol : abb_t) (array : List Nat) (s : Nat)
    (hs : s ≤ array.length) :
    arbol_recorrido_preorden arbol array (s : Int) =
      (min (elementos arbol.nodo_raiz).length s,
        (preorden arbol.nodo_raiz).take s ++
          array.drop (min (elementos arbol.nodo_raiz).length s)) := by
  unfold arbol_recorrido_preorden
  rw [recorrido_preorden_eq]
  have h := llenar_spec s (preorden arbol.nodo_raiz) [] array (by simpa using hs)
  simp only [List.nil_append, List.length_nil, Nat.sub_zero, Nat.zero_add,
    length_preorden] at h
  rw [h]

theorem arbol_recorrido_postorden_eq (arbol : abb_t) (array : List Nat) (s : Nat)
    (hs : s ≤ array.length) :
    arbol_recorrido_postorden arbol array (s : Int) =
      (min (elementos arbol.nodo_raiz).length s,
        (postorden arbol.nodo_raiz).take s ++
          array.drop (min (elementos arbol.nodo_raiz).length s)) := by
  unfold arbol_recorrido_postorden
  rw [recorrido_postorden_eq]
  have h := llenar_spec s (postorden arbol.nodo_raiz) [] array (by simpa using hs)
  simp only [List.nil_append, List.length_nil, Nat.sub_zero, Nat.zero_add,
    length_postorden] at h
  rw [h]

/-! ## Claims on search and traversals -/

/-- C21: on a tree built by `arbol_insertar` and `arbol_borrar` calls whose comparator `c`
is a total order with values -1, 0 and 1, and for every non-null `e`: when some stored
element compares equal to `e`, `arbol_buscar` returns a stored element that compares equal
to `e`; when none does, it returns `NULL`; and it returns `NULL` only if none does, as long
as no stored element that compares equal to `e` is itself the null pointer, which is so
whenever only identical elements compare equal. -/
theorem arbol_buscar_encuentra (arbol : abb_t) (h : Construido arbol) (c : abb_comparador)
    (hc : arbol.comparador = some c) (ho : OrdenTotal c) (e : Nat) (he : e ≠ 0) :
    ((∃ x ∈ elementos arbol.nodo_raiz, c e x = 0) →
      arbol_buscar arbol e ∈ elementos arbol.nodo_raiz ∧ c e (arbol_buscar arbol e) = 0) ∧
    ((∀ x ∈ elementos arbol.nodo_raiz, c e x ≠ 0) → arbol_buscar arbol e = 0) ∧
    ((∀ x ∈ elementos arbol.nodo_raiz, c e x = 0 → x ≠ 0) →
      (arbol_buscar arbol e = 0 ↔ ∀ x ∈ elementos arbol.nodo_raiz, c e x ≠ 0)) ∧
    ((∀ a b, c a b = 0 → a = b) →
      (arbol_buscar arbol e = 0 ↔ ∀ x ∈ elementos arbol.nodo_raiz, c e x ≠ 0)) := by
  have hb : arbol_buscar arbol e = buscar c e arbol.nodo_raiz := by
    unfold arbol_buscar
    rw [if_neg he, hc]
  have hord := h.ordenado c hc ho
  have h1 : (∃ x ∈ elementos arbol.nodo_raiz, c e x = 0) →
      arbol_buscar arbol e ∈ elementos arbol.nodo_raiz ∧ c e (arbol_buscar arbol e) = 0 := by
    intro hx
    rw [hb]
    exact buscar_con_igual ho e _ hord hx
  have h2 : (∀ x ∈ elementos arbol.nodo_raiz, c e x ≠ 0) → arbol_buscar arbol e = 0 := by
    intro hx
    rw [hb]
    exact buscar_sin_igual c e _ hx
  have h3 : (∀ x ∈ elementos arbol.nodo_raiz, c e x = 0 → x ≠ 0) →
      (arbol_buscar arbol e = 0 ↔ ∀ x ∈ elementos arbol.nodo_raiz, c e x ≠ 0) := by
    intro hn
    refine ⟨?_, h2⟩
    intro h0 x hx hex
    obtain ⟨h4, h5⟩ := h1 ⟨x, hx, hex⟩
    exact hn _ h4 h5 h0
  refine ⟨h1, h2, h3, ?_⟩
  intro hanti
  apply h3
  intro x _ hex h0
  have := hanti e x hex
  rw [h0] at this
  exact he this

/-- Witness of C21: in the tree holding 5, 3 and 7, the search for 7 returns 7 and the
search for 9 returns `NULL`. -/
theorem arbol_buscar_encuentra_testigo :
    Construido arbol_ejemplo ∧ arbol_ejemplo.comparador = some comparar_direcciones ∧
      OrdenTotal comparar_direcciones ∧ 7 ≠ 0 ∧
      (arbol_buscar arbol_ejemplo 7 ∈ elementos arbol_ejemplo.nodo_raiz ∧
        comparar_direcciones 7 (arbol_buscar arbol_ejemplo 7) = 0) ∧
      arbol_buscar arbol_ejemplo 9 = 0 :=
  ⟨Construido_arbol_ejemplo, rfl, OrdenTotal_comparar_direcciones, by decide,
    (arbol_buscar_encuentra arbol_ejemplo Construido_arbol_ejemplo comparar_direcciones rfl
      OrdenTotal_comparar_direcciones 7 (by decide)).1 ⟨7, by decide, rfl⟩,
    (arbol_buscar_encuentra arbol_ejemplo Construido_arbol_ejemplo comparar_direcciones rfl
      OrdenTotal_comparar_direcciones 9 (by decide)).2.1 (by decide)⟩

/-- C22: for every tree with `n` elements and every array with room for at least `s`
cells, each of `arbol_recorrido_inorden`, `arbol_recorrido_preorden` and
`arbol_recorrido_postorden` called with size `s` returns `min n s`, stores the first
`min n s` elements of the inorder, preorder, respectively postorder sequence of the tree
in the first cells of the array and leaves the other cells as they were. -/
theorem arbol_recorridos_llenan (arbol : abb_t) (array : List Nat) (s : Nat)
    (hs : s ≤ array.length) :
    arbol_recorrido_inorden arbol array (s : Int) =
        (min (elementos arbol.nodo_raiz).length s,
          (elementos arbol.nodo_raiz).take s ++
            array.drop (min (elementos arbol.nodo_raiz).length s)) ∧
      arbol_recorrido_preorden arbol array (s : Int) =
        (min (elementos arbol.nodo_raiz).length s,
          (preorden arbol.nodo_raiz).take s ++
            array.drop (min (elementos arbol.nodo_raiz).length s)) ∧
      arbol_recorrido_postorden arbol array (s : Int) =
        (min (elementos arbol.nodo_raiz).length s,
          (postorden arbol.nodo_raiz).take s ++
            array.drop (min (elementos arbol.nodo_raiz).length s)) :=
  ⟨arbol_recorrido_inorden_eq arbol array s hs, arbol_recorrido_preorden_eq arbol array s hs,
    arbol_recorrido_postorden_eq arbol array s hs⟩

/-- Witness of C22: the tree holding 5, 3 and 7 and an array of four cells, of which two
may be filled. -/
theorem arbol_recorridos_llenan_testigo :
    2 ≤ [0, 0, 0, 0].length ∧
      arbol_recorrido_inorden arbol_ejemplo [0, 0, 0, 0] 2 = (2, [3, 5, 0, 0]) ∧
      arbol_recorrido_preorden arbol_ejemplo [0, 0, 0, 0] 2 = (2, [5, 3, 0, 0]) ∧
      arbol_recorrido_postorden arbol_ejemplo [0, 0, 0, 0] 2 = (2, [3, 7, 0, 0]) :=
  ⟨by decide, arbol_recorridos_llenan arbol_ejemplo [0, 0, 0, 0] 2 (by decide)⟩

/-- C23: on a tree built from `arbol_crear` by `arbol_insertar` and `arbol_borrar` calls
whose comparator `c` is a total order with values -1, 0 and 1, the inorder sequence never
decreases with respect to `c`, and neither do the cells `arbol_recorrido_inorden` fills,
which are the whole sequence when the array has room for it. -/
theorem arbol_recorrido_inorden_creciente (arbol : abb_t) (h : Construido arbol)
    (c : abb_comparador) (hc : arbol.comparador = some c) (ho : OrdenTotal c)
    (array : List Nat) (s : Nat) (hs : s ≤ array.length) :
    (elementos arbol.nodo_raiz).Pairwise (fun a b => c a b ≠ 1) ∧
      ((arbol_recorrido_inorden arbol array (s : Int)).2.take
        (arbol_recorrido_inorden arbol array (s : Int)).1).Pairwise (fun a b => c a b ≠ 1) ∧
      ((elementos arbol.nodo_raiz).length ≤ s →
        (arbol_recorrido_inorden arbol array (s : Int)).2.take
          (arbol_recorrido_inorden arbol array (s : Int)).1 = elementos arbol.nodo_raiz) := by
  have hp := Ordenado.creciente ho _ (h.ordenado c hc ho)
  have ht : (arbol_recorrido_inorden arbol array (s : Int)).2.take
      (arbol_recorrido_inorden arbol array (s : Int)).1 =
      (elementos arbol.nodo_raiz).take s := by
    rw [arbol_recorrido_inorden_eq arbol array s hs]
    simp only
    rw [List.take_append_of_le_length (by rw [List.length_take]; omega)]
    exact List.take_of_length_le (by rw [List.length_take]; omega)
  refine ⟨hp, ?_, ?_⟩
  · rw [ht]
    exact hp.sublist (List.take_sublist _ _)
  · intro hle
    rw [ht]
    exact List.take_of_length_le hle

/-- Witness of C23: the tree holding 5, 3 and 7 and an array of three cells. -/
theorem arbol_recorrido_inorden_creciente_testigo :
    Construido arbol_ejemplo ∧ arbol_ejemplo.comparador = some comparar_direcciones ∧
      OrdenTotal comparar_direcciones ∧ 3 ≤ [0, 0, 0].length ∧
      (elementos arbol_ejemplo.nodo_raiz).Pairwise (fun a b => comparar_direcciones a b ≠ 1) ∧
      (arbol_recorrido_inorden arbol_ejemplo [0, 0, 0] 3).2.take
        (arbol_recorrido_inorden arbol_ejemplo [0, 0, 0] 3).1 = [3, 5, 7] :=
  ⟨Construido_arbol_ejemplo, rfl, OrdenTotal_comparar_direcciones, by decide,
    (arbol_recorrido_inorden_creciente arbol_ejemplo Construido_arbol_ejemplo
      comparar_direcciones rfl OrdenTotal_comparar_direcciones [0, 0, 0] 3 (by decide)).1,
    (arbol_recorrido_inorden_creciente arbol_ejemplo Construido_arbol_ejemplo
      comparar_direcciones rfl OrdenTotal_comparar_direcciones [0, 0, 0] 3 (by decide)).2.2
      (by decide)⟩

/-! ## Lemmas on strict placement -/

theorem OrdenTotal_comparar_decenas : OrdenTotal comparar_decenas := by
  refine ⟨?_, ?_, ?_, ?_⟩
  · intro a b
    unfold comparar_decenas
    by_cases h1 : a / 10 < b / 10
    · simp [h1]
    · by_cases h2 : b / 10 < a / 10
      · simp [h1, h2]
      · simp [h1, h2]
  · intro a
    simp [comparar_decenas]
  · intro a b
    unfold comparar_decenas
    by_cases h1 : a / 10 < b / 10
    · have h2 : ¬ b / 10 < a / 10 := by omega
      simp [h1, h2]
    · by_cases h2 : b / 10 < a / 10
      · simp [h1, h2]
      · simp [h1, h2]
  · intro a b d
    unfold comparar_decenas
    intro hab hbd
    have h1 : ¬ b / 10 < a / 10 := by
      intro h
      apply hab
      have h2 : ¬ a / 10 < b / 10 := by omega
      simp [h, h2]
    have h2 : ¬ d / 10 < b / 10 := by
      intro h
      apply hbd
      have h3 : ¬ b / 10 < d / 10 := by omega
      simp [h, h3]
    have h3 : ¬ d / 10 < a / 10 := by omega
    by_cases h4 : a / 10 < d / 10
    · simp [h4]
    · simp [h3, h4]

/-- Strict placement implies the weak one. -/
theorem Estricto.debil {c : abb_comparador} :
    ∀ t : nodo_abb_t, Estricto c t → Ordenado c t := by
  intro t
  induction t with
  | nil => intro _; trivial
  | nodo l a r ihl ihr =>
    intro h
    obtain ⟨hl, hr, hla, har⟩ := h
    refine ⟨ihl hl, ihr hr, ?_, har⟩
    intro x hx
    rw [hla x hx]
    decide

/-- Insertion keeps strict placement: an element equal to a node's element goes to the
right of it. -/
theorem insertar_estricto {c : abb_comparador} (ho : OrdenTotal c) (e : Nat) :
    ∀ (t : nodo_abb_t) (m : HashMap.Memoria) (t1 : nodo_abb_t) (m1 : HashMap.Memoria),
      Estricto c t → insertar (some c) e t m = (some t1, m1) → Estricto c t1 := by
  intro t
  induction t with
  | nil =>
    intro m t1 m1 _ h
    simp only [insertar, nuevo_nodo] at h
    cases ha : HashMap.asignar m with
    | mk b m2 =>
      rw [ha] at h
      cases b with
      | false => simp at h
      | true =>
        simp only [Prod.mk.injEq, Option.some.injEq] at h
        rw [← h.1]
        simp [Estricto, elementos]
  | nodo l a r ihl ihr =>
    intro m t1 m1 hord h
    obtain ⟨hl, hr, hla, har⟩ := hord
    simp only [insertar] at h
    by_cases hc : c e a = -1
    · rw [if_pos hc] at h
      cases hi : insertar (some c) e l m with
      | mk o m2 =>
        rw [hi] at h
        cases o with
        | none => simp at h
        | some aux =>
          simp only [Prod.mk.injEq, Option.some.injEq] at h
          rw [← h.1]
          refine ⟨ihl m aux m2 hl hi, hr, ?_, har⟩
          intro x hx
          rcases List.mem_cons.1 ((insertar_elementos c e l m aux m2 hi).mem_iff.1 hx) with h1 | h1
          · rw [h1, hc]
          · exact hla x h1
    · rw [if_neg hc] at h
      cases hi : insertar (some c) e r m with
      | mk o m2 =>
        rw [hi] at h
        cases o with
        | none => simp at h
        | some aux =>
          simp only [Prod.mk.injEq, Option.some.injEq] at h
          rw [← h.1]
          refine ⟨hl, ihr m aux m2 hr hi, hla, ?_⟩
          intro x hx
          rcases List.mem_cons.1 ((insertar_elementos c e r m aux m2 hi).mem_iff.1 hx) with h1 | h1
          · rw [h1]; exact ho.de_menor hc
          · exact har x h1

/-- Every tree built by insertions alone has strict placement. -/
theorem Insertado.estricto {arbol : abb_t} (h : Insertado arbol) :
    ∀ c, arbol.comparador = some c → OrdenTotal c → Estricto c arbol.nodo_raiz := by
  induction h with
  | crear m cmp d arbol h =>
    intro c _ _
    unfold arbol_crear at h
    cases cmp with
    | none => cases h
    | some c1 =>
      simp only at h
      cases ha : HashMap.asignar m with
      | mk b m1 =>
        rw [ha] at h
        cases b with
        | false => cases h
        | true =>
          simp only [Option.some.injEq] at h
          rw [← h]
          trivial
  | insertar arbol e _ ih =>
    intro c hc ho
    rw [comparador_arbol_insertar] at hc
    have h1 := ih c hc ho
    unfold arbol_insertar
    rw [hc]
    cases hi : ABB.insertar (some c) e arbol.nodo_raiz arbol.memoria with
    | mk o m1 =>
      cases o with
      | none => exact h1
      | some aux => exact insertar_estricto ho e _ _ _ _ h1 hi

/-- Weak placement is strict in a tree that holds no two equal elements. -/
theorem Ordenado.sin_iguales {c : abb_comparador} (ho : OrdenTotal c) :
    ∀ t : nodo_abb_t, Ordenado c t →
      (elementos t).Pairwise (fun x y => c x y ≠ 0) → Estricto c t := by
  intro t
  induction t with
  | nil => intro _ _; trivial
  | nodo l a r ihl ihr =>
    intro h hp
    obtain ⟨hl, hr, hla, har⟩ := h
    simp only [elementos] at hp
    obtain ⟨p1, p2, p3⟩ := List.pairwise_append.1 hp
    refine ⟨ihl hl p1, ihr hr (List.pairwise_cons.1 p2).2, ?_, har⟩
    intro x hx
    have h0 := p3 x hx a (List.mem_cons_self _ _)
    have h1 := hla x hx
    rcases ho.valores x a with h | h | h
    · exact h
    · exact absurd h h0
    · exact absurd h h1

theorem Construido_arbol_repetido : Construido arbol_repetido :=
  Construido.insertar _ 70
    (Construido.insertar _ 31
      (Construido.insertar _ 30
        (Construido.insertar _ 50
          (Construido.crear [] (some comparar_decenas) true
            { nodo_raiz := nodo_abb_t.nil, comparador := some comparar_decenas,
              destructor := true, destruidos := [], memoria := [] } rfl))))

theorem arbol_borrar_repetido : arbol_borrar arbol_repetido 50 = (0, arbol_repetido_borrado) :=
  rfl

theorem Construido_arbol_repetido_borrado : Construido arbol_repetido_borrado :=
  Construido.borrar arbol_repetido 50 Construido_arbol_repetido

/-! ## Claim on the placement invariant -/

/-- C35, refuted as stated: with the comparator `comparar_decenas`, a total order under
which 30 and 31 are equal, the tree holding 50, 30, 31, 70 (inserted in this order) has
strict placement; `arbol_borrar` of 50, a node with two children, puts the inorder
predecessor 31 in its place and leaves the equal element 30 in the left subtree of 31, so
strict placement no longer holds. -/
theorem arbol_borrar_rompe_estricto :
    Construido arbol_repetido ∧ arbol_repetido.comparador = some comparar_decenas ∧
      OrdenTotal comparar_decenas ∧ Estricto comparar_decenas arbol_repetido.nodo_raiz ∧
      arbol_borrar arbol_repetido 50 = (0, arbol_repetido_borrado) ∧
      arbol_repetido_borrado.nodo_raiz =
        nodo_abb_t.nodo (nodo_abb_t.nodo nodo_abb_t.nil 30 nodo_abb_t.nil) 31
          (nodo_abb_t.nodo nodo_abb_t.nil 70 nodo_abb_t.nil) ∧
      comparar_decenas 30 31 = 0 ∧
      ¬ Estricto comparar_decenas arbol_repetido_borrado.nodo_raiz := by
  refine ⟨Construido_arbol_repetido, rfl, OrdenTotal_comparar_decenas, ?_, rfl, rfl,
    by decide, ?_⟩
  · simp [Estricto, arbol_repetido, elementos, comparar_decenas]
  · intro h
    have h1 := h.2.2.1 30 (by simp [elementos])
    revert h1
    decide

/-- C35, amended: in every tree reachable by `arbol_insertar` and `arbol_borrar` with a
total-order comparator returning exactly -1, 0 or 1, every element in a node's left
subtree is smaller than or equal to the node's element and every element in its right
subtree is greater than or equal to it, also after deleting a node with two children,
which is replaced by its inorder predecessor. The elements of the left subtree are
strictly smaller when the tree was built by insertions alone (duplicates go right), and
when it holds no two equal elements. -/
theorem arbol_borrar_conserva_orden (arbol : abb_t) (h : Construido arbol)
    (c : abb_comparador) (hc : arbol.comparador = some c) (ho : OrdenTotal c) :
    Ordenado c arbol.nodo_raiz ∧ (Insertado arbol → Estricto c arbol.nodo_raiz) ∧
      ((elementos arbol.nodo_raiz).Pairwise (fun x y => c x y ≠ 0) →
        Estricto c arbol.nodo_raiz) :=
  ⟨h.ordenado c hc ho, fun hi => hi.estricto c hc ho,
    fun hp => Ordenado.sin_iguales ho _ (h.ordenado c hc ho) hp⟩

/-- Witness of C35, amended: the tree left by the deletion of 50. -/
theorem arbol_borrar_conserva_orden_testigo :
    Construido arbol_repetido_borrado ∧
      arbol_repetido_borrado.comparador = some comparar_decenas ∧
      OrdenTotal comparar_decenas ∧
      Ordenado comparar_decenas arbol_repetido_borrado.nodo_raiz ∧
      (Insertado arbol_repetido_borrado →
        Estricto comparar_decenas arbol_repetido_borrado.nodo_raiz) ∧
      ((elementos arbol_repetido_borrado.nodo_raiz).Pairwise
          (fun x y => comparar_decenas x y ≠ 0) →
        Estricto comparar_decenas arbol_repetido_borrado.nodo_raiz) :=
  ⟨Construido_arbol_repetido_borrado, rfl, OrdenTotal_comparar_decenas,
    arbol_borrar_conserva_orden arbol_repetido_borrado Construido_arbol_repetido_borrado
      comparar_decenas rfl OrdenTotal_comparar_decenas⟩

end ABB

namespace Lista

/-! ## Heap lemmas -/

theorem leer_valido {h : Monticulo} {a : Nat} {n : nodo_t} (hl : leer h a = some n) :
    1 ≤ a ∧ a ≤ h.length := by
  cases a with
  | zero => simp [leer] at hl
  | succ b =>
    simp only [leer, Option.join_eq_some] at hl
    have := (List.getElem?_eq_some_iff.1 hl).1
    omega

theorem leer_append (h x : Monticulo) (a : Nat) (ha : a ≤ h.length) :
    leer (h ++ x) a = leer h a := by
  cases a with
  | zero => rfl
  | succ b =>
    simp only [leer]
    rw [List.getElem?_append_left (by omega)]

theorem leer_nuevo (h : Monticulo) (n : nodo_t) :
    leer (h ++ [some n]) (h.length + 1) = some n := by
  simp [leer]

theorem leer_escribir_otro (h : Monticulo) (a b : Nat) (n : nodo_t) (hab : a ≠ b) :
    leer (escribir h b n) a = leer h a := by
  cases a with
  | zero => rfl
  | succ a1 =>
    cases b with
    | zero => rfl
    | succ b1 =>
      simp only [leer, escribir]
      rw [List.getElem?_set_ne (by omega)]

theorem leer_escribir_mismo (h : Monticulo) (b : Nat) (n m : nodo_t)
    (hl : leer h b = some m) : leer (escribir h b n) b = some n := by
  have hv := leer_valido hl
  cases b with
  | zero => omega
  | succ b1 =>
    simp only [leer, escribir]
    rw [List.getElem?_set_self (by omega)]
    rfl

theorem leer_liberar_otro (h : Monticulo) (a b : Nat) (hab : a ≠ b) :
    leer (liberar h b) a = leer h a := by
  cases a with
  | zero => rfl
  | succ a1 =>
    cases b with
    | zero => rfl
    | succ b1 =>
      simp only [leer, liberar]
      rw [List.getElem?_set_ne (by omega)]

/-! ## Segment lemmas -/

theorem Segmento.validos {h : Monticulo} :
    ∀ {nodos : List (Nat × Nat)} {a z : Nat}, Segmento h a nodos z →
      ∀ b ∈ nodos.map Prod.fst, 1 ≤ b ∧ b ≤ h.length := by
  intro nodos
  induction nodos with
  | nil => intro a z _ b hb; simp at hb
  | cons x r ih =>
    intro a z hs b hb
    obtain ⟨x1, x2⟩ := x
    obtain ⟨h1, s, h2, h3⟩ := hs
    simp only [List.map_cons, List.mem_cons] at hb
    rcases hb with hb | hb
    · rw [hb, ← h1]
      exact leer_valido h2
    · exact ih h3 b hb

theorem Segmento.inicio {h : Monticulo} {nodos : List (Nat × Nat)} {a z : Nat}
    (hs : Segmento h a nodos z) (hne : nodos ≠ []) :
    a ≠ 0 ∧ (nodos.map Prod.fst).head? = some a := by
  cases nodos with
  | nil => exact absurd rfl hne
  | cons x r =>
    obtain ⟨x1, x2⟩ := x
    obtain ⟨h1, s, h2, _⟩ := hs
    have := leer_valido h2
    refine ⟨by omega, ?_⟩
    simp [h1]

theorem Segmento.congr {h h1 : Monticulo} :
    ∀ {nodos : List (Nat × Nat)} {a z : Nat}, Segmento h a nodos z →
      (∀ b ∈ nodos.map Prod.fst, leer h1 b = leer h b) → Segmento h1 a nodos z := by
  intro nodos
  induction nodos with
  | nil => intro a z hs _; exact hs
  | cons x r ih =>
    intro a z hs hc
    obtain ⟨x1, x2⟩ := x
    obtain ⟨h2, s, h3, h4⟩ := hs
    refine ⟨h2, s, ?_, ih h4 (fun b hb => hc b (by simp [hb]))⟩
    rw [hc a (by simp [h2])]
    exact h3

theorem Segmento_append {h : Monticulo} :
    ∀ (n1 n2 : List (Nat × Nat)) (a z : Nat),
      Segmento h a (n1 ++ n2) z ↔ ∃ m, Segmento h a n1 m ∧ Segmento h m n2 z := by
  intro n1
  induction n1 with
  | nil =>
    intro n2 a z
    constructor
    · intro hs; exact ⟨a, rfl, hs⟩
    · rintro ⟨m, h1, h2⟩
      have : a = m := h1
      rw [this]
      exact h2
  | cons x r ih =>
    intro n2 a z
    obtain ⟨x1, x2⟩ := x
    constructor
    · rintro ⟨h1, s, h2, h3⟩
      obtain ⟨m, h4, h5⟩ := (ih n2 s z).1 h3
      exact ⟨m, ⟨h1, s, h2, h4⟩, h5⟩
    · rintro ⟨m, ⟨h1, s, h2, h4⟩, h5⟩
      exact ⟨h1, s, h2, (ih n2 s z).2 ⟨m, h4, h5⟩⟩

theorem Segmento_uno {h : Monticulo} (a b d z : Nat) :
    Segmento h a [(b, d)] z ↔ a = b ∧ leer h a = some { dato := d, siguiente := z } := by
  constructor
  · rintro ⟨h1, s, h2, h3⟩
    have : s = z := h3
    rw [this] at h2
    exact ⟨h1, h2⟩
  · rintro ⟨h1, h2⟩
    exact ⟨h1, z, h2, rfl⟩

/-! ## What the list operations do to the sequence -/

theorem snoc_o_vacia {α : Type} (l : List α) : l = [] ∨ ∃ L b, l = L ++ [b] := by
  rcases List.eq_nil_or_concat l with h | ⟨L, b, h⟩
  · exact Or.inl h
  · exact Or.inr ⟨L, b, by rw [h, List.concat_eq_append]⟩

/-- The list `lista_crear` returns holds no payload. -/
theorem lista_crear_spec (m : HashMap.Memoria) (dd : Bool) (lista : lista_t)
    (h : lista_crear m dd = some lista) : Representa lista [] ∧ lista.destructor = dd := by
  unfold lista_crear at h
  cases ha : HashMap.asignar m with
  | mk b m1 =>
    rw [ha] at h
    cases b with
    | false => cases h
    | true =>
      simp only [Option.some.injEq] at h
      rw [← h]
      exact ⟨⟨rfl, by simp, by simp, rfl⟩, rfl⟩

/-- When the node is not allocated, `lista_insertar` returns -1 and leaves the list as it
was. -/
theorem lista_insertar_sin_memoria (lista : lista_t) (e : Nat) (m1 : HashMap.Memoria)
    (hm : HashMap.asignar lista.memoria = (false, m1)) :
    lista_insertar lista e = some (-1, { lista with memoria := m1 }) := by
  unfold lista_insertar nuevo_nodo
  rw [hm]
  rfl

/-- When the node is allocated, `lista_insertar` returns 0 and links the new node after the
last one. -/
theorem lista_insertar_spec (lista : lista_t) (nodos : List (Nat × Nat)) (e : Nat)
    (m1 : HashMap.Memoria) (hr : Representa lista nodos)
    (hm : HashMap.asignar lista.memoria = (true, m1)) :
    ∃ l1, lista_insertar lista e = some (0, l1) ∧
      Representa l1 (nodos ++ [(lista.monticulo.length + 1, e)]) ∧
      l1.destruidos = lista.destruidos ∧ l1.destructor = lista.destructor ∧
      l1.memoria = m1 := by
  have hval := hr.enlace.validos
  have hnuevo : lista.monticulo.length + 1 ∉ nodos.map Prod.fst := by
    intro hmem
    have := (hval _ hmem).2
    omega
  have hdist : ((nodos ++ [(lista.monticulo.length + 1, e)]).map Prod.fst).Nodup := by
    rw [List.map_append, List.nodup_append]
    refine ⟨hr.distintos, by simp, ?_⟩
    intro a ha hb
    simp only [List.map_cons, List.map_nil, List.mem_singleton] at hb
    rw [hb] at ha
    exact hnuevo ha
  have hcola : ∀ a, ((nodos ++ [(lista.monticulo.length + 1, e)]).map Prod.fst).getLast?
      = some a → lista.monticulo.length + 1 = a := by
    intro a ha
    rw [List.map_append, List.map_cons, List.map_nil, List.getLast?_concat] at ha
    exact Option.some.inj ha
  have hcuenta : lista.largo + 1 = (nodos ++ [(lista.monticulo.length + 1, e)]).length := by
    rw [List.length_append, hr.cuenta]
    rfl
  unfold lista_insertar nuevo_nodo
  rw [hm]
  simp only
  rw [if_neg (by omega)]
  rcases snoc_o_vacia nodos with hn | ⟨L, x, hn⟩
  · subst hn
    have hh : lista.head = 0 := hr.enlace
    rw [if_pos hh]
    refine ⟨_, rfl, ⟨?_, hdist, hcola, hcuenta⟩, rfl, rfl, rfl⟩
    exact ⟨rfl, 0, leer_nuevo _ _, rfl⟩
  · obtain ⟨t, d⟩ := x
    subst hn
    have hh : lista.head ≠ 0 := (hr.enlace.inicio (by simp)).1
    rw [if_neg hh]
    obtain ⟨m, hs1, hs2⟩ := (Segmento_append L [(t, d)] _ _).1 hr.enlace
    obtain ⟨hmt, hlt⟩ := (Segmento_uno m t d 0).1 hs2
    subst hmt
    have htail : lista.tail = m := hr.cola m (by simp)
    have hvt := leer_valido hlt
    have hl1 : leer (lista.monticulo ++ [some { dato := e, siguiente := 0 }]) lista.tail =
        some { dato := d, siguiente := 0 } := by
      rw [htail, leer_append _ _ _ hvt.2]
      exact hlt
    simp only [hl1]
    refine ⟨_, rfl, ⟨?_, hdist, hcola, hcuenta⟩, rfl, rfl, rfl⟩
    have hLd : m ∉ L.map Prod.fst := by
      have := hr.distintos
      rw [List.map_append, List.nodup_append] at this
      intro hmem
      exact this.2.2 hmem (by simp)
    show Segmento _ lista.head ((L ++ [(m, d)]) ++ [(lista.monticulo.length + 1, e)]) 0
    rw [List.append_assoc]
    refine (Segmento_append _ _ _ _).2 ⟨m, ?_, ?_⟩
    · apply hs1.congr
      intro b hb
      have hbv := hs1.validos b hb
      have hbm : b ≠ m := fun h => hLd (by rw [← h]; exact hb)
      rw [htail, leer_escribir_otro _ _ _ _ hbm, leer_append _ _ _ hbv.2]
    · refine (Segmento_append [(m, d)] _ _ _).2 ⟨lista.monticulo.length + 1, ?_, ?_⟩
      · refine (Segmento_uno _ _ _ _).2 ⟨rfl, ?_⟩
        rw [htail]
        rw [htail] at hl1
        exact leer_escribir_mismo _ _ _ _ hl1
      · refine (Segmento_uno _ _ _ _).2 ⟨rfl, ?_⟩
        rw [htail, leer_escribir_otro _ _ _ _ (by omega)]
        exact leer_nuevo _ _

/-- The loop of `lista_borrar` stops at the last node, `anterior` being the node before
it, if there is one. -/
theorem hasta_el_ultimo_spec (h : Monticulo) :
    ∀ (L : List (Nat × Nat)) (t d a0 tr n : Nat),
      Segmento h tr (L ++ [(t, d)]) 0 → L.length + 1 ≤ n →
      hasta_el_ultimo h n a0 tr = some ((L.map Prod.fst).getLast?.getD a0, t) := by
  intro L
  induction L with
  | nil =>
    intro t d a0 tr n hs hn
    obtain ⟨h1, h2⟩ := (Segmento_uno tr t d 0).1 hs
    cases n with
    | zero => simp at hn
    | succ n1 =>
      rw [hasta_el_ultimo, h2]
      simp [h1]
  | cons x r ih =>
    intro t d a0 tr n hs hn
    obtain ⟨b, db⟩ := x
    obtain ⟨h1, s, h2, h3⟩ := hs
    have hs0 : s ≠ 0 := (Segmento.inicio h3 (by simp)).1
    cases n with
    | zero => simp at hn
    | succ n1 =>
      rw [hasta_el_ultimo, h2]
      simp only [ne_eq, hs0, not_false_eq_true, if_true]
      rw [ih t d tr s n1 h3 (by simpa using hn)]
      simp [List.getLast?_cons, h1]

/-- The loop of `lista_borrar_de_posicion` stops at the node of the position asked for,
`anterior` being the node before it, if there is one. -/
theorem hasta_la_posicion_spec (h : Monticulo) :
    ∀ (pre post : List (Nat × Nat)) (a0 tr z : Nat), Segmento h tr (pre ++ post) z →
      ∃ m, hasta_la_posicion h pre.length a0 tr =
          some ((pre.map Prod.fst).getLast?.getD a0, m) ∧
        Segmento h tr pre m ∧ Segmento h m post z := by
  intro pre
  induction pre with
  | nil =>
    intro post a0 tr z hs
    exact ⟨tr, rfl, rfl, hs⟩
  | cons x r ih =>
    intro post a0 tr z hs
    obtain ⟨b, db⟩ := x
    obtain ⟨h1, s, h2, h3⟩ := hs
    obtain ⟨m, h4, h5, h6⟩ := ih post tr s z h3
    refine ⟨m, ?_, ⟨h1, s, h2, h5⟩, h6⟩
    simp only [List.length_cons, hasta_la_posicion, h2, h4, List.map_cons, List.getLast?_cons]
    simp [h1]

/-- On a list of the nodes `L` followed by a last node with payload `d`, `lista_borrar`
returns 0, unlinks and frees that node, calls the destructor on `d` and leaves the nodes
`L`, `tail` pointing to the last of them. -/
theorem lista_borrar_spec (n : Nat) (lista : lista_t) (L : List (Nat × Nat)) (t d : Nat)
    (hr : Representa lista (L ++ [(t, d)])) (hn : L.length + 1 ≤ n) :
    ∃ l1, lista_borrar n lista = some (0, l1) ∧ Representa l1 L ∧
      l1.destruidos = lista.destruidos ++ (if lista.destructor then [d] else []) ∧
      l1.destructor = lista.destructor ∧ l1.memoria = lista.memoria := by
  have hlargo : lista.largo = L.length + 1 := by
    rw [hr.cuenta, List.length_append]
    rfl
  have hvac : lista_vacia lista = false := by
    simp [lista_vacia, lista_elementos, hlargo]
  have hult := hasta_el_ultimo_spec lista.monticulo L t d 0 lista.head n hr.enlace hn
  obtain ⟨m, hs1, hs2⟩ := (Segmento_append L [(t, d)] _ _).1 hr.enlace
  obtain ⟨hmt, hlt⟩ := (Segmento_uno m t d 0).1 hs2
  subst hmt
  have hdis := hr.distintos
  rw [List.map_append, List.nodup_append] at hdis
  have hmL : m ∉ L.map Prod.fst := fun hmem => hdis.2.2 hmem (by simp)
  unfold lista_borrar
  rw [hvac, hult]
  simp only [Bool.false_eq_true, if_false]
  rcases snoc_o_vacia L with hL | ⟨L1, x, hL⟩
  · subst hL
    simp only [List.map_nil, List.getLast?_nil, Option.getD_none, ne_eq, not_true_eq_false,
      if_false]
    have hlib : liberar_nodo { lista with head := 0, tail := 0 } m =
        some { lista with
          head := 0
          tail := 0
          destruidos := lista.destruidos ++ (if lista.destructor then [d] else [])
          monticulo := liberar lista.monticulo m } := by
      unfold liberar_nodo
      simp only [hlt]
    rw [hlib]
    refine ⟨_, rfl, ⟨rfl, by simp, by simp, ?_⟩, rfl, rfl, rfl⟩
    show lista.largo - 1 = 0
    rw [hlargo]
    rfl
  · obtain ⟨a, da⟩ := x
    subst hL
    obtain ⟨m1, hs3, hs4⟩ := (Segmento_append L1 [(a, da)] _ _).1 hs1
    obtain ⟨hma, hla⟩ := (Segmento_uno m1 a da m).1 hs4
    subst hma
    have hva := leer_valido hla
    have hant : ((L1 ++ [(m1, da)]).map Prod.fst).getLast?.getD 0 = m1 := by
      simp
    rw [hant]
    have hne : m1 ≠ 0 := by omega
    simp only [ne_eq, hne, not_false_eq_true, if_true, hla]
    have hdisL := hdis.1
    rw [List.map_append, List.nodup_append] at hdisL
    have hm1L : m1 ∉ L1.map Prod.fst := fun hmem => hdisL.2.2 hmem (by simp)
    have hmm1 : m ≠ m1 := fun h => hmL (by rw [h]; simp)
    have hlt1 : leer (escribir lista.monticulo m1 { dato := da, siguiente := 0 }) m =
        some { dato := d, siguiente := 0 } := by
      rw [leer_escribir_otro _ _ _ _ hmm1]
      exact hlt
    have hlib : liberar_nodo
        { lista with
          monticulo := escribir lista.monticulo m1 { dato := da, siguiente := 0 }
          tail := m1 } m =
        some { lista with
          tail := m1
          destruidos := lista.destruidos ++ (if lista.destructor then [d] else [])
          monticulo :=
            liberar (escribir lista.monticulo m1 { dato := da, siguiente := 0 }) m } := by
      unfold liberar_nodo
      simp only [hlt1]
    rw [hlib]
    refine ⟨_, rfl, ⟨?_, hdis.1, ?_, ?_⟩, rfl, rfl, rfl⟩
    · show Segmento (liberar (escribir lista.monticulo m1 { dato := da, siguiente := 0 }) m)
        lista.head (L1 ++ [(m1, da)]) 0
      refine (Segmento_append _ _ _ _).2 ⟨m1, ?_, ?_⟩
      · apply hs3.congr
        intro b hb
        have hb1 : b ≠ m1 := fun h => hm1L (by rw [← h]; exact hb)
        have hb2 : b ≠ m := fun h => hmL (by rw [← h]; simp [hb])
        rw [leer_liberar_otro _ _ _ hb2, leer_escribir_otro _ _ _ _ hb1]
      · refine (Segmento_uno _ _ _ _).2 ⟨rfl, ?_⟩
        rw [leer_liberar_otro _ _ _ (Ne.symm hmm1)]
        exact leer_escribir_mismo _ _ _ _ hla
    · intro b hb
      rw [List.map_append, List.map_cons, List.map_nil, List.getLast?_concat] at hb
      exact Option.some.inj hb
    · show lista.largo - 1 = (L1 ++ [(m1, da)]).length
      rw [hlargo]
      rfl

/-- On a list of the nodes `pre`, a node with payload `d` and the nodes `post`, of which
there is at least one, `lista_borrar_de_posicion` at position `pre.length` returns 0,
unlinks and frees the node in between, calls the destructor on `d` and leaves `tail` as it
was. -/
theorem lista_borrar_de_posicion_interior (n : Nat) (lista : lista_t)
    (pre post : List (Nat × Nat)) (t d : Nat)
    (hr : Representa lista (pre ++ (t, d) :: post)) (hpost : post ≠ []) :
    ∃ l1, lista_borrar_de_posicion n lista pre.length = some (0, l1) ∧
      Representa l1 (pre ++ post) ∧
      l1.destruidos = lista.destruidos ++ (if lista.destructor then [d] else []) ∧
      l1.destructor = lista.destructor ∧ l1.memoria = lista.memoria := by
  have hpl : 0 < post.length := List.length_pos.2 hpost
  have hlargo : lista.largo = pre.length + post.length + 1 := by
    rw [hr.cuenta, List.length_append, List.length_cons]
    omega
  have hvac : lista_vacia lista = false := by
    simp [lista_vacia, lista_elementos, hlargo]
  have hpos : ¬ pre.length ≥ lista.largo - 1 := by
    rw [hlargo]
    omega
  obtain ⟨m, hrec, hs1, hs2⟩ :=
    hasta_la_posicion_spec lista.monticulo pre ((t, d) :: post) 0 lista.head 0 hr.enlace
  obtain ⟨hmt, s, hlt, hs3⟩ := hs2
  subst hmt
  have hdis := hr.distintos
  rw [List.map_append, List.nodup_append, List.map_cons, List.nodup_cons] at hdis
  have hmpre : m ∉ pre.map Prod.fst := fun hmem => hdis.2.2 hmem (by simp)
  have hmpost : m ∉ post.map Prod.fst := hdis.2.1.1
  have hdist : ((pre ++ post).map Prod.fst).Nodup := by
    rw [List.map_append, List.nodup_append]
    refine ⟨hdis.1, hdis.2.1.2, ?_⟩
    intro a ha hb
    exact hdis.2.2 ha (by simp [hb])
  have hcola : ∀ a, ((pre ++ post).map Prod.fst).getLast? = some a → lista.tail = a := by
    intro a ha
    apply hr.cola a
    rw [List.map_append, List.getLast?_append] at ha ⊢
    rw [List.map_cons, List.getLast?_cons]
    cases hp : (post.map Prod.fst).getLast? with
    | none =>
      exfalso
      rw [List.getLast?_eq_none_iff] at hp
      exact hpost (List.map_eq_nil_iff.1 hp)
    | some b =>
      rw [hp] at ha
      simpa using ha
  have hcuenta : lista.largo - 1 = (pre ++ post).length := by
    rw [hlargo, List.length_append]
    omega
  unfold lista_borrar_de_posicion
  rw [hvac, if_neg hpos, hrec]
  simp only [Bool.false_eq_true, if_false, hlt]
  rcases snoc_o_vacia pre with hP | ⟨P1, x, hP⟩
  · subst hP
    simp only [List.map_nil, List.getLast?_nil, Option.getD_none, ne_eq, not_true_eq_false,
      if_false]
    have hlib : liberar_nodo { lista with head := s } m =
        some { lista with
          head := s
          destruidos := lista.destruidos ++ (if lista.destructor then [d] else [])
          monticulo := liberar lista.monticulo m } := by
      unfold liberar_nodo
      simp only [hlt]
    rw [hlib]
    refine ⟨_, rfl, ⟨?_, hdist, hcola, hcuenta⟩, rfl, rfl, rfl⟩
    show Segmento (liberar lista.monticulo m) s ([] ++ post) 0
    rw [List.nil_append]
    apply hs3.congr
    intro b hb
    have hb2 : b ≠ m := fun h => hmpost (by rw [← h]; exact hb)
    rw [leer_liberar_otro _ _ _ hb2]
  · obtain ⟨a, da⟩ := x
    subst hP
    obtain ⟨m1, hs4, hs5⟩ := (Segmento_append P1 [(a, da)] _ _).1 hs1
    obtain ⟨hma, hla⟩ := (Segmento_uno m1 a da m).1 hs5
    subst hma
    have hva := leer_valido hla
    have hant : ((P1 ++ [(m1, da)]).map Prod.fst).getLast?.getD 0 = m1 := by
      simp
    rw [hant]
    have hne : m1 ≠ 0 := by omega
    simp only [ne_eq, hne, not_false_eq_true, if_true, hla]
    have hdisP := hdis.1
    rw [List.map_append, List.nodup_append] at hdisP
    have hm1P : m1 ∉ P1.map Prod.fst := fun hmem => hdisP.2.2 hmem (by simp)
    have hm1post : m1 ∉ post.map Prod.fst := by
      intro hmem
      have hin : m1 ∈ (P1 ++ [(m1, da)]).map Prod.fst := by simp
      exact hdis.2.2 hin (List.mem_cons_of_mem _ hmem)
    have hmm1 : m ≠ m1 := fun h => hmpre (by rw [h]; simp)
    have hlt1 : leer (escribir lista.monticulo m1 { dato := da, siguiente := s }) m =
        some { dato := d, siguiente := s } := by
      rw [leer_escribir_otro _ _ _ _ hmm1]
      exact hlt
    have hlib : liberar_nodo
        { lista with
          monticulo := escribir lista.monticulo m1 { dato := da, siguiente := s } } m =
        some { lista with
          destruidos := lista.destruidos ++ (if lista.destructor then [d] else [])
          monticulo :=
            liberar (escribir lista.monticulo m1 { dato := da, siguiente := s }) m } := by
      unfold liberar_nodo
      simp only [hlt1]
    rw [hlib]
    refine ⟨_, rfl, ⟨?_, hdist, hcola, hcuenta⟩, rfl, rfl, rfl⟩
    show Segmento (liberar (escribir lista.monticulo m1 { dato := da, siguiente := s }) m)
      lista.head ((P1 ++ [(m1, da)]) ++ post) 0
    rw [List.append_assoc]
    refine (Segmento_append _ _ _ _).2 ⟨m1, ?_, ?_⟩
    · apply hs4.congr
      intro b hb
      have hb1 : b ≠ m1 := fun h => hm1P (by rw [← h]; exact hb)
      have hb2 : b ≠ m := fun h => hmpre (by rw [← h]; simp [hb])
      rw [leer_liberar_otro _ _ _ hb2, leer_escribir_otro _ _ _ _ hb1]
    · refine (Segmento_append [(m1, da)] _ _ _).2 ⟨s, ?_, ?_⟩
      · refine (Segmento_uno _ _ _ _).2 ⟨rfl, ?_⟩
        rw [leer_liberar_otro _ _ _ (Ne.symm hmm1)]
        exact leer_escribir_mismo _ _ _ _ hla
      · apply hs3.congr
        intro b hb
        have hb1 : b ≠ m1 := fun h => hm1post (by rw [← h]; exact hb)
        have hb2 : b ≠ m := fun h => hmpost (by rw [← h]; exact hb)
        rw [leer_liberar_otro _ _ _ hb2, leer_escribir_otro _ _ _ _ hb1]

/-- The value of `lista_ultimo` on a list that is not empty: the payload of the node
`head` points to, the first of the list. -/
theorem lista_ultimo_primero (lista : lista_t) (x : Nat) (xs : List Nat)
    (hc : Contiene lista (x :: xs)) : lista_ultimo lista = some x := by
  obtain ⟨nodos, hr, hx⟩ := hc
  cases nodos with
  | nil => simp at hx
  | cons y r =>
    obtain ⟨a, d⟩ := y
    simp only [List.map_cons, List.cons.injEq] at hx
    obtain ⟨h1, s, h2, _⟩ := hr.enlace
    have hvac : lista_vacia lista = false := by
      simp [lista_vacia, lista_elementos, hr.cuenta]
    unfold lista_ultimo
    rw [hvac, h2]
    simp [hx.1]

/-- The value of `lista_ultimo` on an empty list is `NULL`. -/
theorem lista_ultimo_vacia (lista : lista_t) (hc : Contiene lista []) :
    lista_ultimo lista = some 0 := by
  obtain ⟨nodos, hr, hx⟩ := hc
  have hn : nodos = [] := List.map_eq_nil_iff.1 hx
  subst hn
  have hvac : lista_vacia lista = true := by
    simp [lista_vacia, lista_elementos, hr.cuenta]
  unfold lista_ultimo
  rw [hvac]
  rfl

/-! ## The operations on the payloads -/

theorem lista_insertar_contiene (lista : lista_t) (xs : List Nat) (e : Nat)
    (m1 : HashMap.Memoria) (hc : Contiene lista xs)
    (hm : HashMap.asignar lista.memoria = (true, m1)) :
    ∃ l1, lista_insertar lista e = some (0, l1) ∧ Contiene l1 (xs ++ [e]) ∧
      lista_elementos l1 = lista_elementos lista + 1 := by
  obtain ⟨nodos, hr, hx⟩ := hc
  obtain ⟨l1, h1, h2, _⟩ := lista_insertar_spec lista nodos e m1 hr hm
  refine ⟨l1, h1, ⟨_, h2, by rw [List.map_append, hx]; rfl⟩, ?_⟩
  show l1.largo = lista.largo + 1
  rw [h2.cuenta, hr.cuenta, List.length_append]
  rfl

theorem Contiene.largo {lista : lista_t} {xs : List Nat} (hc : Contiene lista xs) :
    lista_elementos lista = xs.length := by
  obtain ⟨nodos, hr, hx⟩ := hc
  show lista.largo = xs.length
  rw [hr.cuenta, ← hx, List.length_map]

/-- On a list that is not empty `lista_borrar_de_posicion` returns 0 and removes the
payload at position `p`, the last one when there is no such position. -/
theorem lista_borrar_de_posicion_contiene (lista : lista_t) (xs : List Nat)
    (hc : Contiene lista xs) (hne : xs ≠ []) (p n : Nat) (hn : xs.length ≤ n) :
    ∃ l1, lista_borrar_de_posicion n lista p = some (0, l1) ∧
      Contiene l1 (if p < xs.length then xs.eraseIdx p else xs.dropLast) ∧
      l1.memoria = lista.memoria ∧ l1.destructor = lista.destructor := by
  obtain ⟨nodos, hr, hx⟩ := hc
  have hlen : nodos.length = xs.length := by rw [← hx, List.length_map]
  have hxl : 0 < xs.length := List.length_pos.2 hne
  by_cases hp : p + 1 < xs.length
  · -- a position before the last one
    have hsplit : nodos = nodos.take p ++ nodos.drop p := (List.take_append_drop p nodos).symm
    have hdl : (nodos.drop p).length = xs.length - p := by rw [List.length_drop, hlen]
    cases hd : nodos.drop p with
    | nil => rw [hd] at hdl; simp at hdl; omega
    | cons y post =>
      obtain ⟨t, d⟩ := y
      rw [hd] at hsplit hdl
      have hpost : post ≠ [] := by
        intro h0
        rw [h0] at hdl
        simp at hdl
        omega
      have hpl : (nodos.take p).length = p := by
        rw [List.length_take, hlen]
        omega
      rw [hsplit] at hr
      obtain ⟨l1, h1, h2, _, h4, h5⟩ :=
        lista_borrar_de_posicion_interior n lista (nodos.take p) post t d hr hpost
      rw [hpl] at h1
      refine ⟨l1, h1, ⟨_, h2, ?_⟩, h5, h4⟩
      have hdp : nodos.drop (p + 1) = post := by
        have h6 : nodos.drop (p + 1) = (nodos.drop p).drop 1 := by
          rw [List.drop_drop]
        rw [h6, hd]
        rfl
      rw [if_pos (by omega), ← hx, List.eraseIdx_eq_take_drop_succ, List.map_append, ← hdp]
      simp only [List.map_take, List.map_drop]
  · -- the last position, or none
    rcases snoc_o_vacia nodos with h0 | ⟨L, y, hL⟩
    · rw [h0] at hlen
      simp at hlen
      omega
    · obtain ⟨t, d⟩ := y
      subst hL
      have hLl : L.length + 1 = xs.length := by
        rw [← hlen, List.length_append]
        rfl
      obtain ⟨l1, h1, h2, _, h4, h5⟩ := lista_borrar_spec n lista L t d hr (by omega)
      have hvac : lista_vacia lista = false := by
        simp [lista_vacia, lista_elementos, hr.cuenta]
      have hpos : p ≥ lista.largo - 1 := by
        rw [hr.cuenta, List.length_append]
        simp only [List.length_cons, List.length_nil]
        omega
      refine ⟨l1, ?_, ⟨_, h2, ?_⟩, h5, h4⟩
      · unfold lista_borrar_de_posicion
        rw [hvac, if_pos hpos]
        simpa using h1
      · have hdl : xs.dropLast = L.map Prod.snd := by
          rw [← hx, List.map_append, List.map_cons, List.map_nil, List.dropLast_concat]
        by_cases hlt : p < xs.length
        · rw [if_pos hlt, ← List.dropLast_eq_eraseIdx (by omega), hdl]
        · rw [if_neg hlt, hdl]

/-- On an empty list `lista_borrar_de_posicion` returns -1 and changes nothing. -/
theorem lista_borrar_de_posicion_vacia (lista : lista_t) (hc : Contiene lista [])
    (p n : Nat) : lista_borrar_de_posicion n lista p = some (-1, lista) := by
  have hvac : lista_vacia lista = true := by
    have := hc.largo
    simp only [List.length_nil] at this
    simp [lista_vacia, this]
  unfold lista_borrar_de_posicion
  rw [hvac]
  rfl

/-- The sequence the table takes a chain to be after `lista_borrar_de_posicion`. -/
theorem lista_borrar_de_posicion_abstracta (xs : List Nat) (hne : xs ≠ []) (p : Nat) :
    HashMap.lista_borrar_de_posicion xs p =
      (0, if p < xs.length then xs.eraseIdx p else xs.dropLast) := by
  have hxl : 0 < xs.length := List.length_pos.2 hne
  have hvac : HashMap.lista_vacia xs = false := by
    simp [HashMap.lista_vacia, HashMap.lista_elementos]
    exact hne
  unfold HashMap.lista_borrar_de_posicion HashMap.lista_borrar
  rw [hvac]
  simp only [Bool.false_eq_true, if_false, HashMap.lista_elementos]
  by_cases h1 : p ≥ xs.length - 1
  · rw [if_pos h1]
    by_cases h2 : p < xs.length
    · rw [if_pos h2, ← List.dropLast_eq_eraseIdx (by omega)]
    · rw [if_neg h2]
  · rw [if_neg h1, if_pos (by omega)]

theorem Contiene_lista_uno_dos : Contiene lista_uno_dos [1, 2] :=
  ⟨[(1, 1), (2, 2)],
    ⟨⟨rfl, 2, rfl, rfl, 0, rfl, rfl⟩, by decide, fun a h => by simpa using h, rfl⟩, rfl⟩

/-! ## Claims on the chain list -/

/-- C24, at the input where it fails: on the list obtained from `lista_crear` by
`lista_insertar` of 1 and then of 2, which holds 1 and 2 in this order, `lista_ultimo`
returns 1, the payload of the node `head` points to, and not 2, the last one. -/
theorem lista_ultimo_devuelve_el_primero :
    ∃ l0 l1, lista_crear [] false = some l0 ∧ lista_insertar l0 1 = some (0, l1) ∧
      lista_insertar l1 2 = some (0, lista_uno_dos) ∧ Contiene lista_uno_dos [1, 2] ∧
      lista_ultimo lista_uno_dos = some 1 :=
  ⟨_, _, rfl, rfl, rfl, Contiene_lista_uno_dos, rfl⟩

/-- C25: on a list that holds the payloads `xs`, at least one, `lista_borrar_de_posicion`
at position `p` (its loop being given `xs.length` rounds or more) returns 0 and leaves a
list that holds `xs` without its entry `p` when `p < xs.length` and without its last entry
otherwise, the sequence the table's view of a chain computes; the length goes down by one,
and a later `lista_insertar` that gets its node returns 0 and leaves the new payload after
the payloads left. On an empty list it returns -1 and changes nothing. -/
theorem lista_borrar_de_posicion_quita (lista : lista_t) (xs : List Nat)
    (hc : Contiene lista xs) (p n : Nat) (hn : xs.length ≤ n) :
    (xs ≠ [] →
      ∃ l1, lista_borrar_de_posicion n lista p = some (0, l1) ∧
        Contiene l1 (if p < xs.length then xs.eraseIdx p else xs.dropLast) ∧
        (HashMap.lista_borrar_de_posicion xs p).2 =
          (if p < xs.length then xs.eraseIdx p else xs.dropLast) ∧
        lista_elementos lista = xs.length ∧ lista_elementos l1 = xs.length - 1 ∧
        ∀ e m1, HashMap.asignar l1.memoria = (true, m1) →
          ∃ l2, lista_insertar l1 e = some (0, l2) ∧
            Contiene l2 ((if p < xs.length then xs.eraseIdx p else xs.dropLast) ++ [e])) ∧
      (xs = [] → lista_borrar_de_posicion n lista p = some (-1, lista)) := by
  constructor
  · intro hne
    obtain ⟨l1, h1, h2, _, _⟩ := lista_borrar_de_posicion_contiene lista xs hc hne p n hn
    refine ⟨l1, h1, h2, ?_, hc.largo, ?_, ?_⟩
    · rw [lista_borrar_de_posicion_abstracta xs hne p]
    · rw [h2.largo]
      have hxl : 0 < xs.length := List.length_pos.2 hne
      by_cases hlt : p < xs.length
      · rw [if_pos hlt, List.length_eraseIdx_of_lt hlt]
      · rw [if_neg hlt, List.length_dropLast]
    · intro e m1 hm
      obtain ⟨l2, h3, h4, _⟩ := lista_insertar_contiene l1 _ e m1 h2 hm
      exact ⟨l2, h3, h4⟩
  · intro h0
    subst h0
    exact lista_borrar_de_posicion_vacia lista hc p n

/-- Witness of C25: from the list holding 1 and 2 the payload at position 0 is removed;
3 is then inserted after 2. -/
theorem lista_borrar_de_posicion_quita_testigo :
    Contiene lista_uno_dos [1, 2] ∧ [1, 2].length ≤ 2 ∧
      ∃ l1, lista_borrar_de_posicion 2 lista_uno_dos 0 = some (0, l1) ∧
        Contiene l1 [2] ∧ lista_elementos l1 = 1 ∧
        ∃ l2, lista_insertar l1 3 = some (0, l2) ∧ Contiene l2 [2, 3] := by
  obtain ⟨l1, h1, h2, _, _, h5, h6⟩ :=
    (lista_borrar_de_posicion_quita lista_uno_dos [1, 2] Contiene_lista_uno_dos 0 2
      (by decide)).1 (by decide)
  have hl : lista_borrar_de_posicion 2 lista_uno_dos 0 =
      some (0, { head := 2, tail := 2, largo := 1, destructor := false,
                 monticulo := [none, some { dato := 2, siguiente := 0 }],
                 destruidos := [], memoria := [] }) := by decide
  have hm : l1.memoria = [] := by
    rw [hl] at h1
    simp only [Option.some.injEq, Prod.mk.injEq, true_and] at h1
    rw [← h1]
  exact ⟨Contiene_lista_uno_dos, by decide, l1, h1, h2, h5, h6 3 [] (by rw [hm]; rfl)⟩

end Lista
